import Mathlib

/-! # Logical stream allocation (`src/ge/graph/build/logical_stream_allocator.cc`)

A shallow embedding of the five stream passes and of `LogicalStreamAllocator`, followed
by one of the kernel store (`src/ge/common/tbe_kernel_store.cc`), whose buffer is a list
of bytes and whose `size_t` and `uint32_t` values are natural numbers reduced modulo
`2 ^ 64` and `2 ^ 32`.

* Pointers are natural numbers: a `SubgraphPtr` is an index into a heap
  `Nat → Subgraph`, a `NodePtr` an index into `Nat → Node`, an `OpDescPtr` an index
  into `Nat → OpDesc`.  A null pointer is `none`.
* `int64_t` is `Int`; the counters only grow by one per allocated stream, so no
  wrap-around is modelled.
* `std::map<std::string, _>` whose iteration order is observed is a key-sorted
  association list; maps that are only searched are association lists in which
  `emplace` keeps the first binding of a key.
* `std::set<pointer>` is a strictly increasing list of indices.
-/

namespace ge

/-! ## Data model -/

/-- Modelled from the spec: the status codes of `framework/common/fmk_error_codes.h`
(header not among the sources).  `PARAM_INVALID` is what `GE_CHECK_NOTNULL` returns. -/
inductive Status where
  | SUCCESS
  | NOT_CHANGED
  | INTERNAL_ERROR
  | PARAM_INVALID
  deriving DecidableEq, Repr

/-- Modelled from the spec: the sentinel "unassigned" stream id, `-1`
(`kInvalidStream` of `logical_stream_allocator.h`, header not among the sources). -/
def kInvalidStream : Int := -1

/-- Modelled from the spec: the default `max_parallel_num` of a subgraph, `1`
(`kDefaultMaxParalleNum` of `logical_stream_allocator.h`). -/
def kDefaultMaxParalleNum : Int := 1

/-- Modelled from the spec: node type string of the collective-reduce operator
(`HCOMALLREDUCE` of `framework/common/types.h`). -/
def HCOMALLREDUCE : String := "HcomAllReduce"

/-- Modelled from the spec: engine configuration
(id, scheduler id, flags skip-assignment, attach, independent). -/
structure EngineConf where
  id : String
  scheduler_id : String
  skip_assign_stream : Bool
  attach : Bool
  independent : Bool
  deriving DecidableEq, Repr

/-- Modelled from the spec: a scheduler configuration; `cal_engines` maps an engine
name to an `EngineConfPtr` (possibly null), in iteration order of the map. -/
structure SchedulerConf where
  cal_engines : List (String × Option EngineConf)
  deriving Repr

/-- Modelled from the spec: an op descriptor, carrying the settable stream id and the
optional `_stream_label` attribute. -/
structure OpDesc where
  stream_id : Int
  stream_label : Option String
  deriving DecidableEq, Repr

/-- Modelled from the spec: a graph node.  `op_desc` is `GetOpDesc()`; the lists are the
results of the accessors `GetInNodes`, `GetInAllNodes`, `GetOutAllNodes`,
`GetInDataNodes`, `GetOutDataNodes`. -/
structure Node where
  op_desc : Option Nat
  type : String
  in_nodes : List Nat
  in_all_nodes : List Nat
  out_all_nodes : List Nat
  in_data_nodes : List Nat
  out_data_nodes : List Nat
  deriving DecidableEq, Repr

/-- Modelled from the spec: a compute graph, its name and `GetDirectNode()`. -/
structure ComputeGraph where
  name : String
  direct_node : List Nat
  deriving DecidableEq, Repr

/-- Modelled from the spec: a partition descriptor: engine name, stream label, the
boundary maps `End → Placeholder` and `Placeholder → End` in their iteration order, and
the graph slice (`GetSubGraph()`, possibly null). -/
structure SubGraphInfo where
  engine_name : String
  stream_label : String
  end2pld : List (Nat × Nat)
  pld2end : List (Nat × Nat)
  sub_graph : Option ComputeGraph
  deriving DecidableEq, Repr

/-- Modelled from the spec: `LogicalStreamPass::Subgraph`. -/
structure Subgraph where
  name : String
  stream_id : Int
  subgraph_info : SubGraphInfo
  engine_conf : EngineConf
  max_parallel_num : Int
  reused_subgraph : Option Nat
  deriving DecidableEq, Repr

/-- Modelled from the spec: `LogicalStreamPass::Context`: the next free stream and the
flag of the collective-overlap optimisation. -/
structure Context where
  next_stream : Int
  hcom_parallel : Bool
  deriving DecidableEq, Repr

/-- Heap of `Subgraph` objects, addressed by `SubgraphPtr`. -/
abbrev SubgraphHeap := Nat → Subgraph

/-- Heap of `Node` objects, addressed by `NodePtr`. -/
abbrev NodeHeap := Nat → Node

/-- Heap of `OpDesc` objects, addressed by `OpDescPtr`. -/
abbrev OpHeap := Nat → OpDesc

/-- The write `subgraph->stream_id = v`. -/
def setStreamId (σ : SubgraphHeap) (s : Nat) (v : Int) : SubgraphHeap :=
  fun i => if i = s then { σ s with stream_id := v } else σ i

/-- The write `subgraph->reused_subgraph = r`. -/
def setReused (σ : SubgraphHeap) (s : Nat) (r : Option Nat) : SubgraphHeap :=
  fun i => if i = s then { σ s with reused_subgraph := r } else σ i

/-- The write `op_desc->SetStreamId(v)`. -/
def SetStreamId (ops : OpHeap) (d : Nat) (v : Int) : OpHeap :=
  fun i => if i = d then { ops d with stream_id := v } else ops i

/-! ## Containers -/

/-- The order of `std::string` keys: lexicographic on characters. -/
def keyLt (a b : String) : Prop := a.data < b.data

instance keyLtDecidable (a b : String) : Decidable (keyLt a b) := by
  unfold keyLt; infer_instance

/-- Lookup `find` in a map; `none` is `end()`. -/
def mapFind {κ β : Type} [DecidableEq κ] : List (κ × β) → κ → Option β
  | [], _ => none
  | (k, v) :: rest, a => if a = k then some v else mapFind rest a

/-- Insertion `emplace` in a map that is only searched: an existing key keeps its value. -/
def mapEmplace {κ β : Type} [DecidableEq κ] (m : List (κ × β)) (k : κ) (v : β) : List (κ × β) :=
  match mapFind m k with
  | some _ => m
  | none => m ++ [(k, v)]

/-- Assignment `m[k] = v` in a `std::map<std::string, int64_t>` kept sorted by key. -/
def mapSet : List (String × Int) → String → Int → List (String × Int)
  | [], k, v => [(k, v)]
  | (k', v') :: rest, k, v =>
    if k = k' then (k, v) :: rest
    else if keyLt k k' then (k, v) :: (k', v') :: rest
    else (k', v') :: mapSet rest k v

/-- Read `m[k]` of a `std::map<std::string, int64_t>`: a missing key reads as `0`. -/
def mapGet (m : List (String × Int)) (k : String) : Int :=
  (mapFind m k).getD 0

/-- Assignment `m[k] = v` in a map that is only searched. -/
def mapAssign {κ β : Type} [DecidableEq κ] : List (κ × β) → κ → β → List (κ × β)
  | [], k, v => [(k, v)]
  | (k', v') :: rest, k, v =>
    if k = k' then (k, v) :: rest else (k', v') :: mapAssign rest k v

/-- The access `m[k]` used as a read: a missing key is inserted with value `0`. -/
def mapTouch (m : List (String × Int)) (k : String) : List (String × Int) :=
  match mapFind m k with
  | some _ => m
  | none => mapSet m k 0

/-- Insertion into a `std::set`, kept strictly increasing. -/
def setInsert {α : Type} [DecidableEq α] [LT α] [DecidableRel (fun a b : α => a < b)]
    (x : α) : List α → List α
  | [] => [x]
  | y :: ys =>
    if x = y then y :: ys
    else if x < y then x :: y :: ys
    else y :: setInsert x ys

/-! ## Predicates of `LogicalStreamPass` -/

def IsEngineSkip (subgraph : Subgraph) : Bool := subgraph.engine_conf.skip_assign_stream

def IsEngineAttach (subgraph : Subgraph) : Bool := subgraph.engine_conf.attach

def IsEngineIndependent (subgraph : Subgraph) : Bool := subgraph.engine_conf.independent

def HasStreamLabel (subgraph : Subgraph) : Bool :=
  !(subgraph.subgraph_info.stream_label == "")

def HasAssignedStream (subgraph : Subgraph) : Bool :=
  subgraph.stream_id != kInvalidStream

/-! ## `AssignByLabelPass` -/

/-- Loop state of `AssignByLabelPass::Run`. -/
structure LabelState where
  σ : SubgraphHeap
  next_stream : Int
  label_streams : List (String × Int)
  changed : Bool

/-- One iteration of the loop of `AssignByLabelPass::Run`. -/
def AssignByLabelPass.step (st : LabelState) (subgraph : Nat) : LabelState :=
  let stream_label := (st.σ subgraph).subgraph_info.stream_label
  if stream_label ≠ "" then
    match mapFind st.label_streams stream_label with
    | some id =>
      { st with σ := setStreamId st.σ subgraph id, changed := true }
    | none =>
      { σ := setStreamId st.σ subgraph st.next_stream
        next_stream := st.next_stream + 1
        label_streams := mapEmplace st.label_streams stream_label st.next_stream
        changed := true }
  else st

/-- Model of `AssignByLabelPass::Run`. -/
def AssignByLabelPass.Run (subgraphs : List Nat) (σ : SubgraphHeap) (context : Context) :
    Status × SubgraphHeap × Context :=
  let st := subgraphs.foldl AssignByLabelPass.step
    { σ := σ, next_stream := context.next_stream, label_streams := [], changed := false }
  (if st.changed then Status.SUCCESS else Status.NOT_CHANGED, st.σ,
    { context with next_stream := st.next_stream })

/-! ## `IndependentStreamPass` -/

/-- Loop state of `IndependentStreamPass::Run`.  The two-level map
`engine_streams[engine][label]` is flattened into one map keyed by the pair
`(engine, label)`: the inner maps are only searched and extended. -/
structure IndependentState where
  σ : SubgraphHeap
  next_stream : Int
  engine_streams : List ((String × String) × Int)
  changed : Bool

/-- One iteration of the loop of `IndependentStreamPass::Run`. -/
def IndependentStreamPass.step (st : IndependentState) (subgraph : Nat) : IndependentState :=
  if !IsEngineIndependent (st.σ subgraph) then st
  else
    let engine := (st.σ subgraph).engine_conf.id
    let stream_label := (st.σ subgraph).subgraph_info.stream_label
    match mapFind st.engine_streams (engine, stream_label) with
    | some id =>
      { st with σ := setStreamId st.σ subgraph id, changed := true }
    | none =>
      { σ := setStreamId st.σ subgraph st.next_stream
        next_stream := st.next_stream + 1
        engine_streams := mapEmplace st.engine_streams (engine, stream_label) st.next_stream
        changed := true }

/-- Model of `IndependentStreamPass::Run`. -/
def IndependentStreamPass.Run (subgraphs : List Nat) (σ : SubgraphHeap) (context : Context) :
    Status × SubgraphHeap × Context :=
  let st := subgraphs.foldl IndependentStreamPass.step
    { σ := σ, next_stream := context.next_stream, engine_streams := [], changed := false }
  (if st.changed then Status.SUCCESS else Status.NOT_CHANGED, st.σ,
    { context with next_stream := st.next_stream })

/-! ## `AssignByDependencyPass` -/

/-- Model of `AssignByDependencyPass::InitEndSubgraphMap`. -/
def InitEndSubgraphMap (subgraphs : List Nat) (σ : SubgraphHeap) : List (Nat × Nat) :=
  subgraphs.foldl (fun m subgraph =>
    (σ subgraph).subgraph_info.end2pld.foldl (fun m item => mapEmplace m item.1 subgraph) m) []

/-- Model of `AssignByDependencyPass::InitPldSubgraphMap`. -/
def InitPldSubgraphMap (subgraphs : List Nat) (σ : SubgraphHeap) : List (Nat × Nat) :=
  subgraphs.foldl (fun m subgraph =>
    (σ subgraph).subgraph_info.pld2end.foldl (fun m item => mapEmplace m item.1 subgraph) m) []

/-- The scan of `CouldReuse` over the End→Placeholder map of the predecessor: `true` when
some successor other than `subgraph` has the engine id of the predecessor. -/
def otherSuccOnSameEngine (σ : SubgraphHeap) (subgraph pred_subgraph : Nat)
    (pld_subgraph_map : List (Nat × Nat)) : Bool :=
  (σ pred_subgraph).subgraph_info.end2pld.any (fun end_pld_pair =>
    match mapFind pld_subgraph_map end_pld_pair.2 with
    | some pred_subgraph_succ =>
      pred_subgraph_succ != subgraph &&
        (σ pred_subgraph_succ).engine_conf.id == (σ pred_subgraph).engine_conf.id
    | none => false)

/-- Model of `AssignByDependencyPass::CouldReuse`; the two pointers may be null. -/
def CouldReuse (σ : SubgraphHeap) (subgraph pred_subgraph : Option Nat)
    (pld_subgraph_map : List (Nat × Nat)) : Bool :=
  match subgraph, pred_subgraph with
  | some s, some p =>
    if (σ s).engine_conf.scheduler_id ≠ (σ p).engine_conf.scheduler_id then false
    else if IsEngineIndependent (σ p) || HasStreamLabel (σ p) then false
    else if otherSuccOnSameEngine σ s p pld_subgraph_map then false
    else if (σ s).engine_conf.id == (σ p).engine_conf.id || IsEngineAttach (σ s) then true
    else
      match (σ p).reused_subgraph with
      | some r => (σ r).engine_conf.id == (σ s).engine_conf.id
      | none => false
  | _, _ => false

/-- Model of `AssignByDependencyPass::GetReusableSubgraph`; `none` is `nullptr`. -/
def GetReusableSubgraph (σ : SubgraphHeap) (subgraph : Nat)
    (end_subgraph_map pld_subgraph_map : List (Nat × Nat)) : Option Nat :=
  (σ subgraph).subgraph_info.pld2end.findSome? (fun pld_2_end =>
    match mapFind end_subgraph_map pld_2_end.2 with
    | some pred_subgraph =>
      if CouldReuse σ (some subgraph) (some pred_subgraph) pld_subgraph_map
      then some pred_subgraph else none
    | none => none)

/-- The members of the pass object `AssignByDependencyPass`. -/
structure AssignByDependencyPass where
  engine_next_streams_ : List (String × Int)
  engine_stream_num_ : List (String × Int)
  assigned_subgraphs_ : List Nat
  reused_subgraphs_ : List (Nat × Nat)
  deriving DecidableEq, Repr

/-- A freshly constructed pass object. -/
def AssignByDependencyPass.new : AssignByDependencyPass :=
  { engine_next_streams_ := [], engine_stream_num_ := [],
    assigned_subgraphs_ := [], reused_subgraphs_ := [] }

/-- The slot computed by `AssignByDependencyPass::AssignNewStream` (its return value). -/
def newStreamId (pass : AssignByDependencyPass) (σ : SubgraphHeap) (subgraph : Nat) : Int :=
  let stream_id :=
    match mapFind pass.engine_next_streams_ (σ subgraph).engine_conf.id with
    | some v => v
    | none => 0
  if stream_id ≥ (σ subgraph).max_parallel_num then 0 else stream_id

/-- The effect of `AssignByDependencyPass::AssignNewStream` on the pass members. -/
def AssignNewStream.pass (pass : AssignByDependencyPass) (σ : SubgraphHeap) (subgraph : Nat) :
    AssignByDependencyPass :=
  let engine_name := (σ subgraph).engine_conf.id
  let stream_id := newStreamId pass σ subgraph
  let num := mapTouch pass.engine_stream_num_ engine_name
  { pass with
    engine_next_streams_ := mapSet pass.engine_next_streams_ engine_name (stream_id + 1)
    assigned_subgraphs_ := setInsert subgraph pass.assigned_subgraphs_
    engine_stream_num_ :=
      if stream_id + 1 > mapGet num engine_name then mapSet num engine_name (stream_id + 1)
      else num }

/-- The effect of `AssignByDependencyPass::AssignNewStream` on the subgraphs. -/
def AssignNewStream.heap (pass : AssignByDependencyPass) (σ : SubgraphHeap) (subgraph : Nat) :
    SubgraphHeap :=
  setStreamId σ subgraph (newStreamId pass σ subgraph)

/-- Loop state of `AssignByDependencyPass::Run`. -/
structure DepState where
  σ : SubgraphHeap
  pass : AssignByDependencyPass
  changed : Bool

/-- The branch of the loop of `AssignByDependencyPass::Run` taken when a reusable
predecessor was found. -/
def AssignByDependencyPass.reuse (st : DepState) (subgraph reusable_subgraph : Nat) : DepState :=
  let st1 : DepState :=
    if HasAssignedStream (st.σ reusable_subgraph) then
      { st with σ := setStreamId st.σ subgraph (st.σ reusable_subgraph).stream_id }
    else
      { st with
        σ := setStreamId (AssignNewStream.heap st.pass st.σ reusable_subgraph) subgraph
          (newStreamId st.pass st.σ reusable_subgraph)
        pass := AssignNewStream.pass st.pass st.σ reusable_subgraph }
  let reusable_subgraph1 :=
    match (st1.σ reusable_subgraph).reused_subgraph with
    | some r => r
    | none => reusable_subgraph
  { σ := setReused st1.σ subgraph (some reusable_subgraph1)
    pass := { st1.pass with
      reused_subgraphs_ := st1.pass.reused_subgraphs_ ++ [(subgraph, reusable_subgraph1)] }
    changed := true }

/-- One iteration of the loop of `AssignByDependencyPass::Run`. -/
def AssignByDependencyPass.step (end_subgraph_map pld_subgraph_map : List (Nat × Nat))
    (st : DepState) (subgraph : Nat) : DepState :=
  if HasAssignedStream (st.σ subgraph) then st
  else
    match GetReusableSubgraph st.σ subgraph end_subgraph_map pld_subgraph_map with
    | some reusable_subgraph => AssignByDependencyPass.reuse st subgraph reusable_subgraph
    | none =>
      { σ := AssignNewStream.heap st.pass st.σ subgraph
        pass := AssignNewStream.pass st.pass st.σ subgraph
        changed := true }

/-- First loop of `UpdateAssignedSubgraphs`: the start stream of every engine, in key
order of `engine_stream_num_`, and the advanced counter. -/
def engineStartStreams (engine_stream_num : List (String × Int)) (next_stream : Int) :
    List (String × Int) × Int :=
  engine_stream_num.foldl
    (fun acc item => (mapSet acc.1 item.1 acc.2, acc.2 + item.2)) ([], next_stream)

/-- Model of `AssignByDependencyPass::UpdateAssignedSubgraphs`. -/
def UpdateAssignedSubgraphs (pass : AssignByDependencyPass) (σ : SubgraphHeap)
    (context : Context) : SubgraphHeap × Context :=
  let r := engineStartStreams pass.engine_stream_num_ context.next_stream
  (pass.assigned_subgraphs_.foldl (fun σ subgraph =>
      setStreamId σ subgraph ((σ subgraph).stream_id + mapGet r.1 (σ subgraph).engine_conf.id)) σ,
    { context with next_stream := r.2 })

/-- Model of `AssignByDependencyPass::UpdateReusedSubgraphs`. -/
def UpdateReusedSubgraphs (pass : AssignByDependencyPass) (σ : SubgraphHeap) : SubgraphHeap :=
  pass.reused_subgraphs_.foldl (fun σ item => setStreamId σ item.1 (σ item.2).stream_id) σ

/-- The loop of `AssignByDependencyPass::Run`, on a freshly constructed pass object. -/
def AssignByDependencyPass.loop (subgraphs : List Nat) (σ : SubgraphHeap) : DepState :=
  subgraphs.foldl
    (AssignByDependencyPass.step (InitEndSubgraphMap subgraphs σ) (InitPldSubgraphMap subgraphs σ))
    { σ := σ, pass := AssignByDependencyPass.new, changed := false }

/-- Model of `AssignByDependencyPass::Run`, on a freshly constructed pass object. -/
def AssignByDependencyPass.Run (subgraphs : List Nat) (σ : SubgraphHeap) (context : Context) :
    Status × SubgraphHeap × Context :=
  let st := AssignByDependencyPass.loop subgraphs σ
  let r := UpdateAssignedSubgraphs st.pass st.σ context
  (if st.changed then Status.SUCCESS else Status.NOT_CHANGED,
    UpdateReusedSubgraphs st.pass r.1, r.2)

/-! ## `NodeStreamUpdatePass` -/

/-- Model of `op_desc->GetStreamId()`. -/
def GetStreamId (ops : OpHeap) (d : Nat) : Int := (ops d).stream_id

/-- Model of `AttrUtils::GetStr(op_desc, ATTR_NAME_STREAM_LABEL, label)` on an empty `label`: the
attribute is optional, the string stays empty when it is absent. -/
def GetStreamLabel (ops : OpHeap) (d : Nat) : String := ((ops d).stream_label).getD ""

/-- Model of `NodeStreamUpdatePass::AreAllPredStreamsInvalid`. -/
def AreAllPredStreamsInvalid (nodes : NodeHeap) (ops : OpHeap) (node : Nat) : Bool :=
  (nodes node).in_all_nodes.all (fun pre_node =>
    match (nodes pre_node).op_desc with
    | some pre_node_desc => !(GetStreamId ops pre_node_desc != kInvalidStream)
    | none => true)

/-- One loop of `GetSingleInoutStream`: the valid stream ids of the given nodes are
inserted into `stream_ids`; `none` when an op descriptor is null (the function then
returns `kInvalidStream`). -/
def collectStreamIds (nodes : NodeHeap) (ops : OpHeap) : List Nat → List Int → Option (List Int)
  | [], stream_ids => some stream_ids
  | n :: rest, stream_ids =>
    match (nodes n).op_desc with
    | none => none
    | some d =>
      if GetStreamId ops d != kInvalidStream then
        collectStreamIds nodes ops rest (setInsert (GetStreamId ops d) stream_ids)
      else collectStreamIds nodes ops rest stream_ids

/-- Model of `NodeStreamUpdatePass::GetSingleInoutStream`. -/
def GetSingleInoutStream (nodes : NodeHeap) (ops : OpHeap) (node : Nat) : Int :=
  match collectStreamIds nodes ops (nodes node).in_all_nodes [] with
  | none => kInvalidStream
  | some ids1 =>
    match collectStreamIds nodes ops (nodes node).out_all_nodes ids1 with
    | none => kInvalidStream
    | some [stream_id] => stream_id
    | some _ => kInvalidStream

/-- Inner loop of the first part of `UpdateForSkippedEngine`: the op descriptors with a
valid stream id among the nodes of one subgraph are inserted into `nodes_to_be_updated`. -/
def collectToUpdate (nodes : NodeHeap) (ops : OpHeap) : List Nat → List Nat → Status × List Nat
  | [], acc => (Status.SUCCESS, acc)
  | node :: rest, acc =>
    match (nodes node).op_desc with
    | none => (Status.PARAM_INVALID, acc)
    | some op_desc =>
      if GetStreamId ops op_desc != kInvalidStream then
        collectToUpdate nodes ops rest (setInsert op_desc acc)
      else collectToUpdate nodes ops rest acc

/-- First part of `UpdateForSkippedEngine`: the loop over the subgraphs.  `none`: a null
graph slice is dereferenced. -/
def nodesToBeUpdated (nodes : NodeHeap) (ops : OpHeap) (σ : SubgraphHeap) :
    List Nat → List Nat → Option (Status × List Nat)
  | [], acc => some (Status.SUCCESS, acc)
  | subgraph :: rest, acc =>
    if IsEngineSkip (σ subgraph) && !HasStreamLabel (σ subgraph) then
      match (σ subgraph).subgraph_info.sub_graph with
      | none => none
      | some compute_graph =>
        let r := collectToUpdate nodes ops compute_graph.direct_node acc
        if r.1 = Status.SUCCESS then nodesToBeUpdated nodes ops σ rest r.2
        else some r
    else nodesToBeUpdated nodes ops σ rest acc

/-- Second part of `UpdateForSkippedEngine`: the loop over the nodes of the whole graph. -/
def reassignSkipped (nodes : NodeHeap) (nodes_to_be_updated : List Nat) :
    List Nat → OpHeap → Status × OpHeap
  | [], ops => (Status.SUCCESS, ops)
  | node :: rest, ops =>
    match (nodes node).op_desc with
    | none => (Status.PARAM_INVALID, ops)
    | some op_desc =>
      if op_desc ∈ nodes_to_be_updated then
        if AreAllPredStreamsInvalid nodes ops node then
          reassignSkipped nodes nodes_to_be_updated rest (SetStreamId ops op_desc kInvalidStream)
        else
          let inout_stream := GetSingleInoutStream nodes ops node
          if inout_stream != kInvalidStream then
            reassignSkipped nodes nodes_to_be_updated rest (SetStreamId ops op_desc inout_stream)
          else reassignSkipped nodes nodes_to_be_updated rest ops
      else reassignSkipped nodes nodes_to_be_updated rest ops

/-- Model of `NodeStreamUpdatePass::UpdateForSkippedEngine`. -/
def UpdateForSkippedEngine (nodes : NodeHeap) (whole_graph : ComputeGraph)
    (subgraphs : List Nat) (σ : SubgraphHeap) (ops : OpHeap) : Option (Status × OpHeap) :=
  match nodesToBeUpdated nodes ops σ subgraphs [] with
  | none => none
  | some r =>
    if r.1 = Status.SUCCESS then some (reassignSkipped nodes r.2 whole_graph.direct_node ops)
    else some (r.1, ops)

/-- Second loop of `NodeStreamUpdatePass::Run`: the stream id of every node of the whole
graph is reset to the sentinel. -/
def initNodeStreams (nodes : NodeHeap) : List Nat → OpHeap → Status × OpHeap
  | [], ops => (Status.SUCCESS, ops)
  | node :: rest, ops =>
    match (nodes node).op_desc with
    | none => (Status.PARAM_INVALID, ops)
    | some d => initNodeStreams nodes rest (SetStreamId ops d kInvalidStream)

/-- Inner loop of the third loop of `NodeStreamUpdatePass::Run`: the nodes of one
subgraph. -/
def setNodeStreams (nodes : NodeHeap) (subgraph : Subgraph) : List Nat → OpHeap → Status × OpHeap
  | [], ops => (Status.SUCCESS, ops)
  | node :: rest, ops =>
    match (nodes node).op_desc with
    | none => (Status.PARAM_INVALID, ops)
    | some d =>
      if IsEngineSkip subgraph && (nodes node).in_nodes.isEmpty then
        setNodeStreams nodes subgraph rest ops
      else setNodeStreams nodes subgraph rest (SetStreamId ops d subgraph.stream_id)

/-- Third loop of `NodeStreamUpdatePass::Run`: the loop over the subgraphs.  `none`: a
null graph slice is dereferenced. -/
def setSubgraphStreams (nodes : NodeHeap) (σ : SubgraphHeap) :
    List Nat → OpHeap → Option (Status × OpHeap)
  | [], ops => some (Status.SUCCESS, ops)
  | subgraph :: rest, ops =>
    match (σ subgraph).subgraph_info.sub_graph with
    | none => none
    | some compute_graph =>
      let r := setNodeStreams nodes (σ subgraph) compute_graph.direct_node ops
      if r.1 = Status.SUCCESS then setSubgraphStreams nodes σ rest r.2
      else some r

/-- Model of `NodeStreamUpdatePass::Run`.  `none`: the call does not return (a null graph slice is
dereferenced). -/
def NodeStreamUpdatePass.Run (nodes : NodeHeap) (whole_graph : ComputeGraph)
    (subgraphs : List Nat) (σ : SubgraphHeap) (ops : OpHeap) : Option (Status × OpHeap) :=
  if subgraphs.any (fun subgraph =>
      !IsEngineSkip (σ subgraph) && !HasAssignedStream (σ subgraph)) then
    some (Status.INTERNAL_ERROR, ops)
  else
    let r1 := initNodeStreams nodes whole_graph.direct_node ops
    if r1.1 ≠ Status.SUCCESS then some r1
    else
      match setSubgraphStreams nodes σ subgraphs r1.2 with
      | none => none
      | some r2 =>
        if r2.1 ≠ Status.SUCCESS then some r2
        else UpdateForSkippedEngine nodes whole_graph subgraphs σ r2.2

/-! ## `AllReduceParallelPass` -/

/-- The loop over `GetOutDataNodes()` of one node of the frontier; the state is the pair
`(all_reduce_succs, all_out_data_nodes)`. -/
def visitOutDataNodes (nodes : NodeHeap) (ops : OpHeap) (reduce_stream_label : String) :
    List Nat → List Nat × List Nat → Status × (List Nat × List Nat)
  | [], acc => (Status.SUCCESS, acc)
  | out_node :: rest, acc =>
    match (nodes out_node).op_desc with
    | none => (Status.PARAM_INVALID, acc)
    | some d =>
      if GetStreamLabel ops d = reduce_stream_label then
        visitOutDataNodes nodes ops reduce_stream_label rest
          (setInsert out_node acc.1, setInsert out_node acc.2)
      else visitOutDataNodes nodes ops reduce_stream_label rest acc

/-- The loop over the frontier `cur_nodes`. -/
def visitCurNodes (nodes : NodeHeap) (ops : OpHeap) (reduce_stream_label : String) :
    List Nat → List Nat × List Nat → Status × (List Nat × List Nat)
  | [], acc => (Status.SUCCESS, acc)
  | curr_node :: rest, acc =>
    let r := visitOutDataNodes nodes ops reduce_stream_label (nodes curr_node).out_data_nodes acc
    if r.1 = Status.SUCCESS then visitCurNodes nodes ops reduce_stream_label rest r.2
    else r

/-- The loop `while (!cur_nodes.empty())`, run for at most `fuel` rounds; `none` when the
frontier is still non-empty after `fuel` rounds. -/
def walkSuccessors (nodes : NodeHeap) (ops : OpHeap) (reduce_stream_label : String) :
    Nat → List Nat → List Nat → Option (Status × List Nat)
  | _, [], all_reduce_succs => some (Status.SUCCESS, all_reduce_succs)
  | 0, _ :: _, _ => none
  | fuel + 1, c :: cs, all_reduce_succs =>
    let r := visitCurNodes nodes ops reduce_stream_label (c :: cs) (all_reduce_succs, [])
    if r.1 = Status.SUCCESS then walkSuccessors nodes ops reduce_stream_label fuel r.2.2 r.2.1
    else some (r.1, r.2.1)

/-- The first loop of `AllReduceParallelPass::Run`, over the nodes of the whole graph. -/
def collectAllReduceSuccs (fuel : Nat) (nodes : NodeHeap) (ops : OpHeap) :
    List Nat → List Nat → Option (Status × List Nat)
  | [], all_reduce_succs => some (Status.SUCCESS, all_reduce_succs)
  | node :: rest, all_reduce_succs =>
    if (nodes node).type ≠ HCOMALLREDUCE ∨ (nodes node).in_data_nodes.length ≤ 1 then
      collectAllReduceSuccs fuel nodes ops rest all_reduce_succs
    else
      match (nodes node).op_desc with
      | none => some (Status.PARAM_INVALID, all_reduce_succs)
      | some d =>
        match walkSuccessors nodes ops (GetStreamLabel ops d) fuel [node] all_reduce_succs with
        | none => none
        | some r =>
          if r.1 = Status.SUCCESS then collectAllReduceSuccs fuel nodes ops rest r.2
          else some r

/-- Loop state of the second loop of `AllReduceParallelPass::Run`. -/
structure RemapState where
  ops : OpHeap
  next_stream : Int
  old_stream_to_new : List (Int × Int)

/-- The second loop of `AllReduceParallelPass::Run`, over `all_reduce_succs`. -/
def remapStreams (nodes : NodeHeap) : List Nat → RemapState → Status × RemapState
  | [], st => (Status.SUCCESS, st)
  | node :: rest, st =>
    match (nodes node).op_desc with
    | none => (Status.PARAM_INVALID, st)
    | some d =>
      let old_stream := GetStreamId st.ops d
      if old_stream != kInvalidStream then
        match mapFind st.old_stream_to_new old_stream with
        | some new_stream =>
          remapStreams nodes rest { st with ops := SetStreamId st.ops d new_stream }
        | none =>
          remapStreams nodes rest
            { ops := SetStreamId st.ops d st.next_stream
              next_stream := st.next_stream + 1
              old_stream_to_new := mapEmplace st.old_stream_to_new old_stream st.next_stream }
      else remapStreams nodes rest st

/-- Model of `AllReduceParallelPass::Run`.  `none`: a frontier loop did not end within `fuel`
rounds. -/
def AllReduceParallelPass.Run (fuel : Nat) (nodes : NodeHeap) (whole_graph : ComputeGraph)
    (ops : OpHeap) (context : Context) : Option (Status × OpHeap × Context) :=
  if !context.hcom_parallel then some (Status.NOT_CHANGED, ops, context)
  else
    match collectAllReduceSuccs fuel nodes ops whole_graph.direct_node [] with
    | none => none
    | some r =>
      if r.1 ≠ Status.SUCCESS then some (r.1, ops, context)
      else
        let m := remapStreams nodes r.2
          { ops := ops, next_stream := context.next_stream, old_stream_to_new := [] }
        if m.1 ≠ Status.SUCCESS then
          some (m.1, m.2.ops, { context with next_stream := m.2.next_stream })
        else
          some (if r.2 ≠ [] then Status.SUCCESS else Status.NOT_CHANGED, m.2.ops,
            { context with next_stream := m.2.next_stream })

/-! ## `LogicalStreamAllocator` -/

/-- What a call of `RunPasses` or `Assign` leaves behind: the returned status, the
subgraph objects, the op descriptors, the member `context_` and the out-parameter
`stream_num`. -/
structure Outcome where
  status : Status
  σ : SubgraphHeap
  ops : OpHeap
  context_ : Context
  stream_num : Int

/-- The test of the loop of `RunPasses`: the pipeline goes on after `SUCCESS` and after
`NOT_CHANGED`. -/
def passContinues (status : Status) : Bool :=
  status == Status.SUCCESS || status == Status.NOT_CHANGED

/-- Model of `LogicalStreamAllocator::RunPasses`: the passes `AssignByLabelPass`,
`IndependentStreamPass`, `AssignByDependencyPass`, `NodeStreamUpdatePass`,
`AllReduceParallelPass`, in this order.  `stream_num` is the value of the out-parameter
at entry. -/
def RunPasses (fuel : Nat) (nodes : NodeHeap) (whole_graph : ComputeGraph)
    (subgraphs : List Nat) (σ : SubgraphHeap) (ops : OpHeap) (context_ : Context)
    (stream_num : Int) : Option Outcome :=
  let r1 := AssignByLabelPass.Run subgraphs σ context_
  if !passContinues r1.1 then
    some { status := r1.1, σ := r1.2.1, ops := ops, context_ := r1.2.2, stream_num := stream_num }
  else
    let r2 := IndependentStreamPass.Run subgraphs r1.2.1 r1.2.2
    if !passContinues r2.1 then
      some { status := r2.1, σ := r2.2.1, ops := ops, context_ := r2.2.2,
             stream_num := stream_num }
    else
      let r3 := AssignByDependencyPass.Run subgraphs r2.2.1 r2.2.2
      if !passContinues r3.1 then
        some { status := r3.1, σ := r3.2.1, ops := ops, context_ := r3.2.2,
               stream_num := stream_num }
      else
        match NodeStreamUpdatePass.Run nodes whole_graph subgraphs r3.2.1 ops with
        | none => none
        | some r4 =>
          if !passContinues r4.1 then
            some { status := r4.1, σ := r3.2.1, ops := r4.2, context_ := r3.2.2,
                   stream_num := stream_num }
          else
            match AllReduceParallelPass.Run fuel nodes whole_graph r4.2 r3.2.2 with
            | none => none
            | some r5 =>
              if !passContinues r5.1 then
                some { status := r5.1, σ := r3.2.1, ops := r5.2.1, context_ := r5.2.2,
                       stream_num := stream_num }
              else
                some { status := Status.SUCCESS, σ := r3.2.1, ops := r5.2.1,
                       context_ := r5.2.2, stream_num := r5.2.2.next_stream }

/-- The members of `LogicalStreamAllocator`; the maps are in key order. -/
structure LogicalStreamAllocator where
  scheduler_confs_ : List (String × SchedulerConf)
  max_parallel_num_ : List (String × Int)
  context_ : Context

/-- The constructor of `LogicalStreamAllocator`; the counter of a fresh context is `0`. -/
def LogicalStreamAllocator.new (scheduler_confs : List (String × SchedulerConf))
    (max_parallel_num : List (String × Int)) (hcom_parallel : Bool) : LogicalStreamAllocator :=
  { scheduler_confs_ := scheduler_confs, max_parallel_num_ := max_parallel_num,
    context_ := { next_stream := 0, hcom_parallel := hcom_parallel } }

/-- The first loop of `LogicalStreamAllocator::Assign`: the map from engine name to engine
configuration, null configurations left out. -/
def collectEngineConfs (scheduler_confs : List (String × SchedulerConf)) :
    List (String × Option EngineConf) :=
  scheduler_confs.foldl (fun engine_confs item =>
    item.2.cal_engines.foldl (fun engine_confs engine_pair =>
      match engine_pair.2 with
      | some engine_conf => mapAssign engine_confs engine_pair.1 (some engine_conf)
      | none => engine_confs) engine_confs) []

/-- Model of `LogicalStreamAllocator::ConvertSubgraphs`: the status and the vector `subgraphs`
as filled at return.  A partition descriptor may be a null pointer. -/
def ConvertSubgraphs (max_parallel_num_ : List (String × Int))
    (engine_confs : List (String × Option EngineConf)) :
    List (Option SubGraphInfo) → List Subgraph → Status × List Subgraph
  | [], subgraphs => (Status.SUCCESS, subgraphs)
  | none :: _, subgraphs => (Status.PARAM_INVALID, subgraphs)
  | some subgraph_info :: rest, subgraphs =>
    let subgraph_name :=
      match subgraph_info.sub_graph with
      | some computer_graph => computer_graph.name
      | none => ""
    match mapFind engine_confs subgraph_info.engine_name with
    | some (some engine_conf) =>
      let subgraph : Subgraph :=
        { name := subgraph_name
          stream_id := kInvalidStream
          subgraph_info := subgraph_info
          engine_conf := engine_conf
          max_parallel_num :=
            match mapFind max_parallel_num_ subgraph_info.engine_name with
            | some n => n
            | none => kDefaultMaxParalleNum
          reused_subgraph := none }
      ConvertSubgraphs max_parallel_num_ engine_confs rest (subgraphs ++ [subgraph])
    | _ => (Status.INTERNAL_ERROR, subgraphs)

/-- An object never addressed: the content of the subgraph heap outside the vector. -/
def Subgraph.unused : Subgraph :=
  { name := "", stream_id := kInvalidStream,
    subgraph_info := { engine_name := "", stream_label := "", end2pld := [], pld2end := [],
                       sub_graph := none },
    engine_conf := { id := "", scheduler_id := "", skip_assign_stream := false,
                     attach := false, independent := false },
    max_parallel_num := kDefaultMaxParalleNum, reused_subgraph := none }

/-- The heap holding the objects of a vector of subgraphs, object `i` at address `i`. -/
def heapOf (subgraphs : List Subgraph) : SubgraphHeap :=
  fun i => subgraphs.getD i Subgraph.unused

/-- Model of `LogicalStreamAllocator::Assign`.  `whole_graph` may be a null pointer; the subgraph
objects are created by the call, `stream_num` is the value of the out-parameter at entry. -/
def Assign (self : LogicalStreamAllocator) (fuel : Nat) (nodes : NodeHeap)
    (whole_graph : Option ComputeGraph) (subgraph_infos : List (Option SubGraphInfo))
    (ops : OpHeap) (stream_num : Int) : Option Outcome :=
  match whole_graph with
  | none =>
    some { status := Status.PARAM_INVALID, σ := heapOf [], ops := ops,
           context_ := self.context_, stream_num := stream_num }
  | some graph =>
    let engine_confs := collectEngineConfs self.scheduler_confs_
    let r := ConvertSubgraphs self.max_parallel_num_ engine_confs subgraph_infos []
    if r.1 ≠ Status.SUCCESS then
      some { status := r.1, σ := heapOf r.2, ops := ops,
             context_ := self.context_, stream_num := stream_num }
    else
      RunPasses fuel nodes graph (List.range r.2.length) (heapOf r.2) ops self.context_
        stream_num

/-! ## The loop of `RunPasses` over the pass objects -/

/-- What the passes of `RunPasses` work on: the subgraph objects, the op descriptors of the
nodes and the member `context_`. -/
structure PassState where
  σ : SubgraphHeap
  ops : OpHeap
  context : Context

/-- A pass object as the loop of `RunPasses` sees it, `pass->Run(whole_graph, subgraphs,
context_)`: the returned status and the state the call leaves; `none` when the call does
not return. -/
abbrev Pass := PassState → Option (Status × PassState)

/-- The pass object `AssignByLabelPass`. -/
def AssignByLabelPass.pass (subgraphs : List Nat) : Pass := fun st =>
  let r := AssignByLabelPass.Run subgraphs st.σ st.context
  some (r.1, { st with σ := r.2.1, context := r.2.2 })

/-- The pass object `IndependentStreamPass`. -/
def IndependentStreamPass.pass (subgraphs : List Nat) : Pass := fun st =>
  let r := IndependentStreamPass.Run subgraphs st.σ st.context
  some (r.1, { st with σ := r.2.1, context := r.2.2 })

/-- The pass object `AssignByDependencyPass`, freshly constructed. -/
def AssignByDependencyPass.pass (subgraphs : List Nat) : Pass := fun st =>
  let r := AssignByDependencyPass.Run subgraphs st.σ st.context
  some (r.1, { st with σ := r.2.1, context := r.2.2 })

/-- The pass object `NodeStreamUpdatePass`. -/
def NodeStreamUpdatePass.pass (nodes : NodeHeap) (whole_graph : ComputeGraph)
    (subgraphs : List Nat) : Pass := fun st =>
  match NodeStreamUpdatePass.Run nodes whole_graph subgraphs st.σ st.ops with
  | none => none
  | some r => some (r.1, { st with ops := r.2 })

/-- The pass object `AllReduceParallelPass`. -/
def AllReduceParallelPass.pass (fuel : Nat) (nodes : NodeHeap) (whole_graph : ComputeGraph) :
    Pass := fun st =>
  match AllReduceParallelPass.Run fuel nodes whole_graph st.ops st.context with
  | none => none
  | some r => some (r.1, { st with ops := r.2.1, context := r.2.2 })

/-- The vector `passes` that `RunPasses` fills. -/
def RunPasses.passes (fuel : Nat) (nodes : NodeHeap) (whole_graph : ComputeGraph)
    (subgraphs : List Nat) : List Pass :=
  [AssignByLabelPass.pass subgraphs, IndependentStreamPass.pass subgraphs,
    AssignByDependencyPass.pass subgraphs, NodeStreamUpdatePass.pass nodes whole_graph subgraphs,
    AllReduceParallelPass.pass fuel nodes whole_graph]

/-- The loop `for (auto &pass : passes)` of `RunPasses` and the statements after it, for an
arbitrary vector of passes; `stream_num` is the value of the out-parameter at entry. -/
def RunPasses.loop : List Pass → PassState → Int → Option Outcome
  | [], st, _ =>
    some { status := Status.SUCCESS, σ := st.σ, ops := st.ops, context_ := st.context,
           stream_num := st.context.next_stream }
  | pass :: rest, st, stream_num =>
    match pass st with
    | none => none
    | some (status, st1) =>
      if status = Status.SUCCESS then RunPasses.loop rest st1 stream_num
      else if status = Status.NOT_CHANGED then RunPasses.loop rest st1 stream_num
      else
        some { status := status, σ := st1.σ, ops := st1.ops, context_ := st1.context,
               stream_num := stream_num }

/-! ## `TBEKernelStore` -/

/-- A sequence of bytes in memory. -/
abbrev Bytes := List Nat

/-- The constant `kKernelItemMagic`. -/
def kKernelItemMagic : Nat := 0x5d776efd

/-- A value converted to `size_t` (64 bits). -/
def size_t (n : Nat) : Nat := n % 2 ^ 64

/-- A value converted to `uint32_t`, as by `static_cast<uint32_t>`. -/
def uint32_t (n : Nat) : Nat := n % 2 ^ 32

/-- The difference `a - b` of two `size_t` values, which wraps around. -/
def subSize (a b : Nat) : Nat := (a % 2 ^ 64 + 2 ^ 64 - b % 2 ^ 64) % 2 ^ 64

/-- The four bytes of a `uint32_t` member in memory, least significant byte first. -/
def bytesOfU32 (v : Nat) : Bytes :=
  [v % 256, v / 256 % 256, v / 65536 % 256, v / 16777216 % 256]

/-- The `uint32_t` member stored in the first four bytes of `b`. -/
def u32OfBytes (b : Bytes) : Nat :=
  b.getD 0 0 + 256 * b.getD 1 0 + 65536 * b.getD 2 0 + 16777216 * b.getD 3 0

/-- The struct `KernelStoreItemHead`: three `uint32_t` members. -/
structure KernelStoreItemHead where
  magic : Nat
  name_len : Nat
  bin_len : Nat
  deriving DecidableEq, Repr

/-- The size `sizeof(KernelStoreItemHead)`. -/
def KernelStoreItemHead.sizeof : Nat := 12

/-- The object representation of a `KernelStoreItemHead`, the source of the first copy. -/
def KernelStoreItemHead.bytes (kernel_head : KernelStoreItemHead) : Bytes :=
  bytesOfU32 kernel_head.magic ++ bytesOfU32 kernel_head.name_len ++
    bytesOfU32 kernel_head.bin_len

/-- The `KernelStoreItemHead` read through `reinterpret_cast` at the start of `b`. -/
def KernelStoreItemHead.read (b : Bytes) : KernelStoreItemHead :=
  { magic := u32OfBytes b, name_len := u32OfBytes (b.drop 4), bin_len := u32OfBytes (b.drop 8) }

/-- Modelled from the spec: the class `TBEKernel`, declared in a header outside the
sources: a kernel has a name (`GetName()`) and binary data (`GetBinData()`,
`GetBinDataSize()`). -/
structure TBEKernel where
  name : Bytes
  bin_data : Bytes
  deriving DecidableEq, Repr

/-- Modelled from the spec: the outcomes of the library calls that the kernel store tests.
`memcpy_s_ok dest destMax count` tells whether `memcpy_s` (of `securec.h`) returns `EOK`
for a copy of `count` bytes to the offset `dest` of the buffer with the bound `destMax`;
`resize_ok n` whether `buffer_.resize(n)` returns without `std::bad_alloc`;
`make_shared_ok kernel` whether `ge::MakeShared<TBEKernel>` returns a non-null pointer. -/
structure Library where
  memcpy_s_ok : Nat → Nat → Nat → Bool
  resize_ok : Nat → Bool
  make_shared_ok : TBEKernel → Bool

/-- Modelled from the spec: the members of `TBEKernelStore` (the class is declared in a
header outside the sources): the map `kernels_` from kernel name to kernel, listed in its
iteration order, and the byte vector `buffer_`. -/
structure TBEKernelStore where
  kernels_ : List (Bytes × TBEKernel)
  buffer_ : Bytes
  deriving DecidableEq, Repr

/-- Model of the constructor `TBEKernelStore::TBEKernelStore`. -/
def TBEKernelStore.new : TBEKernelStore := { kernels_ := [], buffer_ := [] }

/-- Model of `TBEKernelStore::AddTBEKernel`; the kernel pointer may be null. -/
def TBEKernelStore.AddTBEKernel (self : TBEKernelStore) (kernel : Option TBEKernel) :
    TBEKernelStore :=
  match kernel with
  | some k => { self with kernels_ := mapAssign self.kernels_ k.name k }
  | none => self

/-- The first loop of `TBEKernelStore::Build`: the value of `total_len`. -/
def Build.totalLen (kernels_ : List (Bytes × TBEKernel)) : Nat :=
  kernels_.foldl (fun total_len item =>
    size_t (size_t (size_t (total_len + KernelStoreItemHead.sizeof) + item.2.name.length) +
      item.2.bin_data.length)) 0

/-- The write of a successful copy: `count` bytes of `src` to the offset `dest` of the
buffer; `none` when the write leaves the buffer. -/
def copyBytes (buffer : Bytes) (dest : Nat) (src : Bytes) (count : Nat) : Option Bytes :=
  if dest + count ≤ buffer.length then
    some (buffer.take dest ++ src.take count ++ buffer.drop (dest + count))
  else none

/-- The second loop of `TBEKernelStore::Build`: the three copies per kernel.  The state is
the buffer, the offset `next_buffer` and `remain_len`; the result is the returned flag and
the buffer, `none` when a copy writes outside the buffer. -/
def Build.copy (lib : Library) : List (Bytes × TBEKernel) → Bytes → Nat → Nat →
    Option (Bool × Bytes)
  | [], buffer, _, _ => some (true, buffer)
  | item :: rest, buffer, next_buffer, remain_len =>
    let kernel := item.2
    let kernel_head : KernelStoreItemHead :=
      { magic := kKernelItemMagic, name_len := uint32_t kernel.name.length,
        bin_len := uint32_t kernel.bin_data.length }
    if !lib.memcpy_s_ok next_buffer remain_len KernelStoreItemHead.sizeof then
      some (false, buffer)
    else
      match copyBytes buffer next_buffer kernel_head.bytes KernelStoreItemHead.sizeof with
      | none => none
      | some buffer1 =>
        let next_buffer1 := next_buffer + KernelStoreItemHead.sizeof
        let remain1 := subSize remain_len KernelStoreItemHead.sizeof
        if !lib.memcpy_s_ok next_buffer1 remain1 kernel_head.name_len then some (false, buffer1)
        else
          match copyBytes buffer1 next_buffer1 kernel.name kernel_head.name_len with
          | none => none
          | some buffer2 =>
            let next_buffer2 := next_buffer1 + kernel_head.name_len
            let remain2 := subSize remain1 kernel_head.name_len
            if !lib.memcpy_s_ok next_buffer2 remain2 kernel_head.bin_len then
              some (false, buffer2)
            else
              match copyBytes buffer2 next_buffer2 kernel.bin_data kernel_head.bin_len with
              | none => none
              | some buffer3 =>
                Build.copy lib rest buffer3 (next_buffer2 + kernel_head.bin_len)
                  (subSize remain2 kernel_head.bin_len)

/-- Model of `TBEKernelStore::Build`: the returned flag and the store afterwards; `none`
when a copy writes outside the buffer. -/
def TBEKernelStore.Build (lib : Library) (self : TBEKernelStore) :
    Option (Bool × TBEKernelStore) :=
  let total_len := Build.totalLen self.kernels_
  if !lib.resize_ok total_len then some (false, { self with buffer_ := [] })
  else
    match Build.copy lib self.kernels_ (List.replicate total_len 0) 0 total_len with
    | none => none
    | some r =>
      if r.1 then some (true, { kernels_ := [], buffer_ := r.2 })
      else some (false, { self with buffer_ := r.2 })

/-- Model of `TBEKernelStore::DataSize`. -/
def TBEKernelStore.DataSize (self : TBEKernelStore) : Nat := self.buffer_.length

/-- The loop of `TBEKernelStore::Load`, run for at most `fuel` rounds: the map `kernels_`
afterwards; `none` when a read leaves the data or the loop is not done after `fuel`
rounds. -/
def Load.loop (lib : Library) (data : Bytes) (len : Nat) :
    Nat → Nat → List (Bytes × TBEKernel) → Option (List (Bytes × TBEKernel))
  | 0, buffer_len, kernels_ =>
    if buffer_len > KernelStoreItemHead.sizeof then none else some kernels_
  | fuel + 1, buffer_len, kernels_ =>
    if buffer_len > KernelStoreItemHead.sizeof then
      let next_buffer := subSize len buffer_len
      if next_buffer + KernelStoreItemHead.sizeof > data.length then none
      else
        let kernel_head := KernelStoreItemHead.read (data.drop next_buffer)
        if buffer_len <
            size_t (uint32_t (kernel_head.name_len + kernel_head.bin_len) +
              KernelStoreItemHead.sizeof) then
          some kernels_
        else if next_buffer + KernelStoreItemHead.sizeof + kernel_head.name_len +
            kernel_head.bin_len > data.length then none
        else
          let name := (data.drop (next_buffer + KernelStoreItemHead.sizeof)).take
            kernel_head.name_len
          let kernel_bin :=
            (data.drop (next_buffer + KernelStoreItemHead.sizeof + kernel_head.name_len)).take
              kernel_head.bin_len
          let teb_kernel : TBEKernel := { name := name, bin_data := kernel_bin }
          Load.loop lib data len fuel
            (subSize buffer_len
              (size_t (size_t (KernelStoreItemHead.sizeof + kernel_head.name_len) +
                kernel_head.bin_len)))
            (if lib.make_shared_ok teb_kernel then mapEmplace kernels_ name teb_kernel
              else kernels_)
    else some kernels_

/-- Model of `TBEKernelStore::Load`; `data` may be a null pointer.  Every round of the loop
consumes at least `sizeof(KernelStoreItemHead)` bytes, so `len` rounds are enough. -/
def TBEKernelStore.Load (lib : Library) (self : TBEKernelStore) (data : Option Bytes)
    (len : Nat) : Option (Bool × TBEKernelStore) :=
  match data with
  | none => some (false, self)
  | some bytes =>
    if len = 0 then some (false, self)
    else
      match Load.loop lib bytes len len len self.kernels_ with
      | none => none
      | some kernels => some (true, { self with kernels_ := kernels })

/-- Model of `TBEKernelStore::FindTBEKernel`; `none` is `nullptr`. -/
def TBEKernelStore.FindTBEKernel (self : TBEKernelStore) (name : Bytes) : Option TBEKernel :=
  mapFind self.kernels_ name

/-! ## Concrete inputs -/

namespace Example

/-- An engine that is neither independent nor attach nor skip-assignment. -/
def aicore : EngineConf :=
  { id := "aicore", scheduler_id := "sched", skip_assign_stream := false, attach := false,
    independent := false }

/-- An independent engine. -/
def dma : EngineConf :=
  { id := "dma", scheduler_id := "sched", skip_assign_stream := false, attach := false,
    independent := true }

/-- A second independent engine. -/
def hccl : EngineConf :=
  { id := "hccl", scheduler_id := "sched", skip_assign_stream := false, attach := false,
    independent := true }

/-- A skip-assignment engine. -/
def host : EngineConf :=
  { id := "host", scheduler_id := "sched", skip_assign_stream := true, attach := false,
    independent := false }

/-- A fresh subgraph (no stream, no reuse link) without boundary nodes, whose graph slice
holds the nodes `direct_node`. -/
def plain (name : String) (engine_conf : EngineConf) (stream_label : String)
    (max_parallel_num : Int) (direct_node : List Nat) : Subgraph :=
  { name := name, stream_id := kInvalidStream,
    subgraph_info := { engine_name := engine_conf.id, stream_label := stream_label,
                       end2pld := [], pld2end := [],
                       sub_graph := some { name := name, direct_node := direct_node } },
    engine_conf := engine_conf, max_parallel_num := max_parallel_num, reused_subgraph := none }

/-- A node without neighbours whose op descriptor is `d`. -/
def isolated (d : Nat) : Node :=
  { op_desc := some d, type := "Add", in_nodes := [], in_all_nodes := [], out_all_nodes := [],
    in_data_nodes := [], out_data_nodes := [] }

/-- Node heap in which node `n` has the op descriptor `n` and no neighbours. -/
def isolatedNodes : NodeHeap := fun n => isolated n

/-- Op descriptors without stream and without stream label. -/
def freshOps : OpHeap := fun _ => { stream_id := kInvalidStream, stream_label := none }

/-- The empty whole graph. -/
def emptyGraph : ComputeGraph := { name := "whole", direct_node := [] }

/-- A fresh context with the collective-overlap optimisation switched off. -/
def freshContext : Context := { next_stream := 0, hcom_parallel := false }

/-- Two subgraphs with the label `L`, the first on the independent engine `dma`, the
second on `aicore`. -/
def labelMixed : SubgraphHeap :=
  heapOf [plain "s0" dma "L" 1 [], plain "s1" aicore "L" 1 []]

/-- Two subgraphs with the label `L`, both on `aicore`. -/
def labelShared : SubgraphHeap :=
  heapOf [plain "s0" aicore "L" 1 [], plain "s1" aicore "L" 1 []]

/-- Two subgraphs without label on two independent engines. -/
def twoIndependent : SubgraphHeap :=
  heapOf [plain "s0" dma "" 1 [], plain "s1" hccl "" 1 []]

end Example

/-! ## Specification vocabulary -/

/-- Two subgraph objects agree on every member but `stream_id`. -/
def SameButStream (a b : Subgraph) : Prop :=
  a.name = b.name ∧ a.subgraph_info = b.subgraph_info ∧ a.engine_conf = b.engine_conf ∧
    a.max_parallel_num = b.max_parallel_num ∧ a.reused_subgraph = b.reused_subgraph

/-- Two subgraph objects agree on the members no pass writes: every member but
`stream_id` and `reused_subgraph`. -/
def SameStatic (a b : Subgraph) : Prop :=
  a.name = b.name ∧ a.subgraph_info = b.subgraph_info ∧ a.engine_conf = b.engine_conf ∧
    a.max_parallel_num = b.max_parallel_num

/-- The stream label of a subgraph, `subgraph_info.GetStreamLabel()`. -/
def labelOf (σ : SubgraphHeap) (i : Nat) : String := (σ i).subgraph_info.stream_label

/-- The engine id of a subgraph, `engine_conf.id`. -/
def engineOf (σ : SubgraphHeap) (i : Nat) : String := (σ i).engine_conf.id

/-- Invariant of the loop of `AssignByLabelPass::Run`, entered with heap `σ0` and counter
`c0`, after the subgraphs `done`. -/
structure LabelInv (σ0 : SubgraphHeap) (c0 : Int) (done : List Nat) (st : LabelState) : Prop where
  frame : ∀ i, SameButStream (st.σ i) (σ0 i)
  untouched : ∀ i, (i ∉ done ∨ labelOf σ0 i = "") → st.σ i = σ0 i
  le : c0 ≤ st.next_stream
  range : ∀ l v, mapFind st.label_streams l = some v → c0 ≤ v ∧ v < st.next_stream
  inj : ∀ l l' v, mapFind st.label_streams l = some v → mapFind st.label_streams l' = some v →
    l = l'
  consistent : ∀ i, i ∈ done → labelOf σ0 i ≠ "" →
    mapFind st.label_streams (labelOf σ0 i) = some (st.σ i).stream_id
  changed : st.changed = true ↔ ∃ i, i ∈ done ∧ labelOf σ0 i ≠ ""

/-- Invariant of the loop of `IndependentStreamPass::Run`, entered with heap `σ0` and
counter `c0`, after the subgraphs `done`. -/
structure IndependentInv (σ0 : SubgraphHeap) (c0 : Int) (done : List Nat)
    (st : IndependentState) : Prop where
  frame : ∀ i, SameButStream (st.σ i) (σ0 i)
  untouched : ∀ i, (i ∉ done ∨ IsEngineIndependent (σ0 i) = false) → st.σ i = σ0 i
  le : c0 ≤ st.next_stream
  range : ∀ k v, mapFind st.engine_streams k = some v → c0 ≤ v ∧ v < st.next_stream
  inj : ∀ k k' v, mapFind st.engine_streams k = some v → mapFind st.engine_streams k' = some v →
    k = k'
  consistent : ∀ i, i ∈ done → IsEngineIndependent (σ0 i) = true →
    mapFind st.engine_streams (engineOf σ0 i, labelOf σ0 i) = some (st.σ i).stream_id
  changed : st.changed = true ↔ ∃ i, i ∈ done ∧ IsEngineIndependent (σ0 i) = true

/-- A `std::map<std::string, int64_t>` is strictly increasing in its keys. -/
def KeySorted (m : List (String × Int)) : Prop :=
  m.Pairwise (fun a b => keyLt a.1 b.1)

/-- Sum of the values bound to the keys smaller than `e`: for the map of high-water
marks, the streams used by the engines that precede `e`. -/
def sumBelow (m : List (String × Int)) (e : String) : Int :=
  ((m.filter (fun item => decide (keyLt item.1 e))).map Prod.snd).sum

/-- Sum of all the values of a map. -/
def sumAll (m : List (String × Int)) : Int := (m.map Prod.snd).sum

/-- The state after a call `AssignNewStream(x)`. -/
def DepState.assignNew (st : DepState) (x : Nat) : DepState :=
  { σ := AssignNewStream.heap st.pass st.σ x
    pass := AssignNewStream.pass st.pass st.σ x
    changed := true }

/-- The state after `s` took the stream id `v` and was linked to the subgraph `r`:
`s->stream_id = v`, `s->reused_subgraph = r`, `reused_subgraphs_.emplace_back(s, r)`. -/
def DepState.link (st : DepState) (s : Nat) (v : Int) (r : Nat) : DepState :=
  { σ := setReused (setStreamId st.σ s v) s (some r)
    pass := { st.pass with reused_subgraphs_ := st.pass.reused_subgraphs_ ++ [(s, r)] }
    changed := true }

/-- The subgraph whose stream is reused through `q`: the `reused_subgraph` of `q` when it
has one, `q` itself otherwise. -/
def rootOf (σ : SubgraphHeap) (q : Nat) : Nat :=
  match (σ q).reused_subgraph with
  | some r => r
  | none => q

/-- Invariant of the loop of `AssignByDependencyPass::Run` entered with heap `σ0`: what
holds of the state whatever the boundary maps are. -/
structure DepCore (σ0 : SubgraphHeap) (st : DepState) : Prop where
  static : ∀ i, SameStatic (st.σ i) (σ0 i)
  entry : ∀ i, (σ0 i).stream_id ≠ kInvalidStream → st.σ i = σ0 i
  untouched : ∀ i, (st.σ i).stream_id = kInvalidStream → st.σ i = σ0 i
  assignedFresh : ∀ i, i ∈ st.pass.assigned_subgraphs_ → (σ0 i).stream_id = kInvalidStream
  slot : ∀ i, i ∈ st.pass.assigned_subgraphs_ →
    0 ≤ (st.σ i).stream_id ∧
      (st.σ i).stream_id < mapGet st.pass.engine_stream_num_ (engineOf σ0 i)
  curFresh : ∀ c r, (c, r) ∈ st.pass.reused_subgraphs_ → (σ0 c).stream_id = kInvalidStream
  link : ∀ c r, (c, r) ∈ st.pass.reused_subgraphs_ →
    (st.σ c).reused_subgraph = some r ∧ (st.σ c).stream_id ≠ kInvalidStream
  linkOnly : ∀ i r, (st.σ i).reused_subgraph = some r →
    (i, r) ∈ st.pass.reused_subgraphs_ ∨ (σ0 i).reused_subgraph = some r
  nextPos : ∀ k v, mapFind st.pass.engine_next_streams_ k = some v → 0 ≤ v
  numSorted : KeySorted st.pass.engine_stream_num_
  numPos : ∀ x, x ∈ st.pass.engine_stream_num_ → 0 ≤ x.2
  assignedSorted : st.pass.assigned_subgraphs_.Pairwise (fun a b => a < b)
  unchanged : st.changed = false → st.σ = σ0 ∧ st.pass = AssignByDependencyPass.new
  origin : ∀ i, (st.σ i).stream_id ≠ kInvalidStream →
    (σ0 i).stream_id ≠ kInvalidStream ∨ i ∈ st.pass.assigned_subgraphs_ ∨
      ∃ r, (i, r) ∈ st.pass.reused_subgraphs_

/-- Invariant of the loop of `AssignByDependencyPass::Run` entered with heap `σ0`, after
the subgraphs `done`. -/
structure DepInv (σ0 : SubgraphHeap) (done : List Nat) (st : DepState) : Prop where
  core : DepCore σ0 st
  doneAssigned : ∀ i, i ∈ done → (st.σ i).stream_id ≠ kInvalidStream
  changedIff : st.changed = true ↔ ∃ i, i ∈ done ∧ (σ0 i).stream_id = kInvalidStream

/-- Invariant of the loop of `AssignByDependencyPass::Run` on the subgraphs `ptrs`, none
of which has a `reused_subgraph` at entry: every recorded pair `(c, r)` links a subgraph
to an owner of a stream. -/
structure DepLink (σ0 : SubgraphHeap) (ptrs : List Nat) (st : DepState) : Prop where
  rootOk : ∀ c r, (c, r) ∈ st.pass.reused_subgraphs_ →
    (r ∈ st.pass.assigned_subgraphs_ ∨ (σ0 r).stream_id ≠ kInvalidStream) ∧
      (c ∈ st.pass.assigned_subgraphs_ → c = r)
  inPtrs : ∀ c r, (c, r) ∈ st.pass.reused_subgraphs_ → c ∈ ptrs ∧ r ∈ ptrs
  assignedIn : ∀ i, i ∈ st.pass.assigned_subgraphs_ → i ∈ ptrs
  rootLink : ∀ c r, (c, r) ∈ st.pass.reused_subgraphs_ →
    (st.σ r).reused_subgraph = none ∨ (r, r) ∈ st.pass.reused_subgraphs_

/-- The result of the first pass of the pipeline, `AssignByLabelPass`. -/
def afterLabel (subgraphs : List Nat) (σ : SubgraphHeap) (context_ : Context) :
    Status × SubgraphHeap × Context :=
  AssignByLabelPass.Run subgraphs σ context_

/-- The result of the second pass of the pipeline, `IndependentStreamPass`. -/
def afterIndependent (subgraphs : List Nat) (σ : SubgraphHeap) (context_ : Context) :
    Status × SubgraphHeap × Context :=
  IndependentStreamPass.Run subgraphs (afterLabel subgraphs σ context_).2.1
    (afterLabel subgraphs σ context_).2.2

/-- The result of the third pass of the pipeline, `AssignByDependencyPass`. -/
def afterDependency (subgraphs : List Nat) (σ : SubgraphHeap) (context_ : Context) :
    Status × SubgraphHeap × Context :=
  AssignByDependencyPass.Run subgraphs (afterIndependent subgraphs σ context_).2.1
    (afterIndependent subgraphs σ context_).2.2

/-- Boundary edges cross from one subgraph into another: no placeholder of a subgraph of
the vector has a peer End node that the end→subgraph map gives to the same subgraph. -/
def CrossEdges (subgraphs : List Nat) (σ : SubgraphHeap) : Prop :=
  ∀ s, s ∈ subgraphs → ∀ pe, pe ∈ (σ s).subgraph_info.pld2end →
    mapFind (InitEndSubgraphMap subgraphs σ) pe.2 ≠ some s

/-- The link relation of a subgraph heap: `a` has the `reused_subgraph` `b`. -/
def linkedTo (σ : SubgraphHeap) (a b : Nat) : Prop := (σ a).reused_subgraph = some b

/-- Example input: subgraph 0 (`A`) owns the End node 10 whose peer is the placeholder 20
of subgraph 1 (`B`); both are fresh, unlabelled and on the engine `aicore`. -/
def Example.chainAB : SubgraphHeap :=
  heapOf
    [{ name := "A", stream_id := kInvalidStream,
       subgraph_info := { engine_name := "aicore", stream_label := "", end2pld := [(10, 20)],
                          pld2end := [], sub_graph := some { name := "A", direct_node := [] } },
       engine_conf := Example.aicore, max_parallel_num := 1, reused_subgraph := none },
     { name := "B", stream_id := kInvalidStream,
       subgraph_info := { engine_name := "aicore", stream_label := "", end2pld := [],
                          pld2end := [(20, 10)],
                          sub_graph := some { name := "B", direct_node := [] } },
       engine_conf := Example.aicore, max_parallel_num := 1, reused_subgraph := none }]

/-- Example input: two fresh subgraphs without boundary nodes, on the engines `aicore`
and `host`. -/
def Example.twoEngines : SubgraphHeap :=
  heapOf [Example.plain "s0" Example.aicore "" 1 [], Example.plain "s1" Example.host "" 1 []]

/-- The state of a fresh pass object after the calls `AssignNewStream(c)` for the
subgraphs `c` of `calls`, in this order. -/
def assignCalls (σ : SubgraphHeap) (calls : List Nat) : DepState :=
  calls.foldl DepState.assignNew { σ := σ, pass := AssignByDependencyPass.new, changed := false }

/-- The number of subgraphs of `calls` whose engine id is `e`. -/
def callCount (σ : SubgraphHeap) (e : String) (calls : List Nat) : Nat :=
  (calls.filter (fun c => decide (engineOf σ c = e))).length

/-- Example input: a subgraph on the engine `aicore` (`max_parallel_num = 1`) and three
subgraphs on the engine `host` (`max_parallel_num = 2`), all fresh and without boundary
nodes. -/
def Example.threeOnHost : SubgraphHeap :=
  heapOf [Example.plain "h0" Example.host "" 2 [], Example.plain "a0" Example.aicore "" 1 [],
    Example.plain "h1" Example.host "" 2 [], Example.plain "h2" Example.host "" 2 []]

/-- No scheduler has a non-null configuration for the engine name `name`: the name is
absent from every `cal_engines` map or mapped to a null pointer there. -/
def EngineUnconfigured (scheduler_confs : List (String × SchedulerConf)) (name : String) : Prop :=
  ∀ item, item ∈ scheduler_confs → ∀ engine_pair, engine_pair ∈ item.2.cal_engines →
    engine_pair.1 = name → engine_pair.2 = none

/-- Example allocator: one scheduler that configures the engine `aicore` and maps the
engine `npu` to a null configuration. -/
def Example.allocator : LogicalStreamAllocator :=
  LogicalStreamAllocator.new
    [("sched", { cal_engines := [("aicore", some Example.aicore), ("npu", none)] })] [] false

/-- Example partitions: one on the configured engine `aicore`, one on the engine `npu`. -/
def Example.partitions : List (Option SubGraphInfo) :=
  [some { engine_name := "aicore", stream_label := "", end2pld := [], pld2end := [],
          sub_graph := some { name := "p0", direct_node := [0] } },
   some { engine_name := "npu", stream_label := "", end2pld := [], pld2end := [],
          sub_graph := some { name := "p1", direct_node := [1] } }]

/-- Example whole graph with the two nodes 0 and 1. -/
def Example.twoNodeGraph : ComputeGraph := { name := "whole", direct_node := [0, 1] }

/-- The nodes of the graph slice of a subgraph, `subgraph_info.GetSubGraph()->GetDirectNode()`
(no node when the slice is null). -/
def nodesOf (σ : SubgraphHeap) (s : Nat) : List Nat :=
  match (σ s).subgraph_info.sub_graph with
  | some compute_graph => compute_graph.direct_node
  | none => []

/-- Every node belongs to exactly one subgraph: two different subgraphs of the vector
share no op descriptor. -/
def DisjointSubgraphs (nodes : NodeHeap) (subgraphs : List Nat) (σ : SubgraphHeap) : Prop :=
  ∀ s, s ∈ subgraphs → ∀ s', s' ∈ subgraphs → s ≠ s' →
    ∀ n, n ∈ nodesOf σ s → ∀ n', n' ∈ nodesOf σ s' → (nodes n).op_desc ≠ (nodes n').op_desc

/-- Example nodes: node 0 has no predecessor, node 1 has the predecessor 0; node `n` has
the op descriptor `n`. -/
def Example.pairNodes : NodeHeap := fun n =>
  if n = 1 then
    { op_desc := some 1, type := "Add", in_nodes := [0], in_all_nodes := [0],
      out_all_nodes := [], in_data_nodes := [0], out_data_nodes := [] }
  else if n = 0 then
    { op_desc := some 0, type := "Data", in_nodes := [], in_all_nodes := [],
      out_all_nodes := [1], in_data_nodes := [], out_data_nodes := [1] }
  else Example.isolated n

/-- A subgraph with the stream 5 that holds the nodes 0 and 1. -/
def Example.streamFive (engine_conf : EngineConf) (stream_label : String) : Subgraph :=
  { Example.plain "s0" engine_conf stream_label 1 [0, 1] with stream_id := 5 }

/-- Example input: the nodes 0 and 1 in one unlabelled subgraph on the skip-assignment
engine `host`, with the stream 5. -/
def Example.skippedPair : SubgraphHeap := heapOf [Example.streamFive Example.host ""]

/-- Example input: the nodes 0 and 1 in one subgraph on the engine `aicore`, with the
stream 5. -/
def Example.assignedPair : SubgraphHeap := heapOf [Example.streamFive Example.aicore ""]

/-- A stream id is the sentinel or lies in `[0, hi)`. -/
def InRange (hi : Int) (v : Int) : Prop :=
  v = kInvalidStream ∨ (0 ≤ v ∧ v < hi)

/-- The whole graph is closed under `GetInAllNodes` and `GetOutAllNodes`: the neighbours
of its nodes are nodes of the graph. -/
def ClosedGraph (nodes : NodeHeap) (whole_graph : ComputeGraph) : Prop :=
  ∀ n, n ∈ whole_graph.direct_node →
    ∀ m, m ∈ (nodes n).in_all_nodes ++ (nodes n).out_all_nodes → m ∈ whole_graph.direct_node

/-- The op descriptors of the nodes of a graph. -/
def opsOf (nodes : NodeHeap) (whole_graph : ComputeGraph) (d : Nat) : Prop :=
  ∃ n, n ∈ whole_graph.direct_node ∧ (nodes n).op_desc = some d

/-- Example input: the nodes 0 and 1 in one fresh subgraph on the engine `aicore`. -/
def Example.freshPair : SubgraphHeap := heapOf [Example.plain "s0" Example.aicore "" 1 [0, 1]]

/-- The stream ids carried by the subgraphs of the vector whose engine id is `e`. -/
def engineStreams (subgraphs : List Nat) (σ : SubgraphHeap) (e : String) : List Int :=
  (subgraphs.filter (fun s => decide (engineOf σ s = e))).map (fun s => (σ s).stream_id)

/-- The number of distinct stream ids carried by the subgraphs of the vector whose engine
id is `e`. -/
def distinctStreams (subgraphs : List Nat) (σ : SubgraphHeap) (e : String) : Nat :=
  (engineStreams subgraphs σ e).dedup.length

/-- Invariant of the loop of `AssignByDependencyPass::Run` for an engine id `e` whose
subgraphs all have `max_parallel_num = m`: the high-water mark of `e` is at most `m`, and
a subgraph of `e` is only linked to a subgraph of `e`. -/
structure DepEngine (σ0 : SubgraphHeap) (e : String) (m : Int) (st : DepState) : Prop where
  mark : mapGet st.pass.engine_stream_num_ e ≤ m
  rootEngine : ∀ c r, (c, r) ∈ st.pass.reused_subgraphs_ → engineOf σ0 c = e →
    engineOf σ0 r = e

/-- Example input: two fresh subgraphs on the engine `aicore` (`max_parallel_num = 1`)
with the labels `L1` and `L2`. -/
def Example.twoLabels : SubgraphHeap :=
  heapOf [Example.plain "s0" Example.aicore "L1" 1 [], Example.plain "s1" Example.aicore "L2" 1 []]

/-- Example input: three fresh unlabelled subgraphs on the engine `aicore`
(`max_parallel_num = 2`), without boundary nodes. -/
def Example.threeOnAicore : SubgraphHeap :=
  heapOf [Example.plain "s0" Example.aicore "" 2 [], Example.plain "s1" Example.aicore "" 2 [],
    Example.plain "s2" Example.aicore "" 2 []]

/-- The distinct elements of a list in the order of their first occurrence. -/
def firstOccurrences {α : Type} [DecidableEq α] (l : List α) : List α :=
  l.foldl (fun seen x => if x ∈ seen then seen else seen ++ [x]) []

/-- The distinct non-empty stream labels of the subgraphs of the vector, in the order of
their first occurrence. -/
def distinctLabels (subgraphs : List Nat) (σ : SubgraphHeap) : List String :=
  firstOccurrences ((subgraphs.map (labelOf σ)).filter (fun l => decide (l ≠ "")))

/-- The key of a subgraph in `IndependentStreamPass`: engine id and stream label. -/
def keyOf (σ : SubgraphHeap) (i : Nat) : String × String := (engineOf σ i, labelOf σ i)

/-- The `(engine id, stream label)` pairs of the subgraphs of the vector that are on an
independent engine, one entry per subgraph. -/
def independentKeys (subgraphs : List Nat) (σ : SubgraphHeap) : List (String × String) :=
  (subgraphs.filter (fun i => IsEngineIndependent (σ i))).map (keyOf σ)

/-- Example input: four fresh subgraphs on `aicore` with the labels `L2`, none, `L1`,
`L2`. -/
def Example.labelsInOrder : SubgraphHeap :=
  heapOf [Example.plain "s0" Example.aicore "L2" 1 [], Example.plain "s1" Example.aicore "" 1 [],
    Example.plain "s2" Example.aicore "L1" 1 [], Example.plain "s3" Example.aicore "L2" 1 []]

/-- Example input: three fresh subgraphs, two on the independent engine `dma` with the
labels `L` and none, one on `aicore`. -/
def Example.dmaPair : SubgraphHeap :=
  heapOf [Example.plain "s0" Example.dma "L" 1 [], Example.plain "s1" Example.aicore "" 1 [],
    Example.plain "s2" Example.dma "" 1 []]

/-- The passes of a vector run one after the other, each on the state the one before left,
and each returns `SUCCESS` or `NOT_CHANGED`: the state after the last one (`none` when
some pass does not return or returns another status). -/
def passesContinue : List Pass → PassState → Option PassState
  | [], st => some st
  | pass :: rest, st =>
    match pass st with
    | none => none
    | some (status, st1) =>
      if status = Status.SUCCESS ∨ status = Status.NOT_CHANGED then passesContinue rest st1
      else none

/-- The outcome of `RunPasses` that ends in the state `st` with the status `status` and
the out-parameter `stream_num`. -/
def Outcome.of (status : Status) (st : PassState) (stream_num : Int) : Outcome :=
  { status := status, σ := st.σ, ops := st.ops, context_ := st.context,
    stream_num := stream_num }

/-- Example nodes: node 0 has a null op descriptor, every other node `n` has the op
descriptor `n`; no node has neighbours. -/
def Example.nullNodes : NodeHeap := fun n =>
  if n = 0 then { Example.isolated 0 with op_desc := none } else Example.isolated n

/-- Node `y` is a data successor of node `x` whose stream label is `L`: what the walk of
`AllReduceParallelPass::Run` follows from `x` for a collective-reduce node with the
label `L`. -/
def LabelledSucc (nodes : NodeHeap) (ops : OpHeap) (L : String) (x y : Nat) : Prop :=
  y ∈ (nodes x).out_data_nodes ∧ ∃ d, (nodes y).op_desc = some d ∧ GetStreamLabel ops d = L

/-- A node that the first loop of `AllReduceParallelPass::Run` does not skip: a
collective-reduce node with more than one data input. -/
def IsParallelReduce (nodes : NodeHeap) (n : Nat) : Prop :=
  (nodes n).type = HCOMALLREDUCE ∧ 1 < (nodes n).in_data_nodes.length

/-- The valid stream ids that the nodes of a list carry, one entry per node. -/
def validStreams (nodes : NodeHeap) (ops : OpHeap) (l : List Nat) : List Int :=
  ((l.filterMap (fun n => (nodes n).op_desc)).map (GetStreamId ops)).filter
    (fun v => v != kInvalidStream)

/-- A context with the collective-overlap optimisation switched on and the counter
`next_stream`. -/
def Example.parallelContext (next_stream : Int) : Context :=
  { next_stream := next_stream, hcom_parallel := true }

/-- Example nodes: node 0 is a collective-reduce node with the two data inputs 1 and 2,
without data successor and with a null op descriptor; the nodes 1 and 2 feed node 0; every
other node `n` has the op descriptor `n` and no neighbours. -/
def Example.nullReduce : NodeHeap := fun n =>
  if n = 0 then
    { op_desc := none, type := HCOMALLREDUCE, in_nodes := [1, 2], in_all_nodes := [1, 2],
      out_all_nodes := [], in_data_nodes := [1, 2], out_data_nodes := [] }
  else if n = 1 ∨ n = 2 then
    { op_desc := some n, type := "Data", in_nodes := [], in_all_nodes := [],
      out_all_nodes := [0], in_data_nodes := [], out_data_nodes := [0] }
  else Example.isolated n

/-- Example whole graph with the three nodes 0, 1 and 2. -/
def Example.threeNodeGraph : ComputeGraph := { name := "whole", direct_node := [0, 1, 2] }

/-- Invariant of the second loop of `AllReduceParallelPass::Run`, entered with the op
descriptors `ops0` and the counter `c`, after the nodes `done` of the collected set. -/
structure RemapInv (nodes : NodeHeap) (ops0 : OpHeap) (c : Int) (done : List Nat)
    (st : RemapState) : Prop where
  frame : ∀ d, (∀ n, n ∈ done → (nodes n).op_desc ≠ some d) → st.ops d = ops0 d
  keys : ∀ k, (mapFind st.old_stream_to_new k).isSome = true ↔ k ∈ validStreams nodes ops0 done
  range : ∀ k v, mapFind st.old_stream_to_new k = some v → c ≤ v ∧ v < st.next_stream
  inj : ∀ k k' v, mapFind st.old_stream_to_new k = some v →
    mapFind st.old_stream_to_new k' = some v → k = k'
  mapped : ∀ n, n ∈ done → ∀ d, (nodes n).op_desc = some d →
    (ops0 d).stream_id ≠ kInvalidStream →
    mapFind st.old_stream_to_new (ops0 d).stream_id = some (st.ops d).stream_id
  count : st.next_stream = c + ((firstOccurrences (validStreams nodes ops0 done)).length : Nat)

/-- Example nodes: node 0 is a collective-reduce node with the data inputs `inputs` and the
two data consumers 1 and 2; node `n` has the op descriptor `n`. -/
def Example.reduceNodes (inputs : List Nat) : NodeHeap := fun n =>
  if n = 0 then
    { op_desc := some 0, type := HCOMALLREDUCE, in_nodes := inputs, in_all_nodes := inputs,
      out_all_nodes := [1, 2], in_data_nodes := inputs, out_data_nodes := [1, 2] }
  else if n = 1 ∨ n = 2 then
    { op_desc := some n, type := "Add", in_nodes := [0], in_all_nodes := [0],
      out_all_nodes := [], in_data_nodes := [0], out_data_nodes := [] }
  else if n ∈ inputs then
    { op_desc := some n, type := "Data", in_nodes := [], in_all_nodes := [],
      out_all_nodes := [0], in_data_nodes := [], out_data_nodes := [0] }
  else Example.isolated n

/-- Example whole graph with the five nodes 0 to 4. -/
def Example.fiveNodeGraph : ComputeGraph := { name := "whole", direct_node := [0, 1, 2, 3, 4] }

/-- Example op descriptors without stream label: the op descriptor 2 carries the stream 1,
every other op descriptor the stream 0. -/
def Example.reduceOps : OpHeap := fun d =>
  { stream_id := if d = 2 then 1 else 0, stream_label := none }

/-- A rank of the nodes of `Example.reduceNodes` that decreases along the data edges. -/
def Example.reduceRank (n : Nat) : Nat :=
  if n = 0 then 1 else if n = 1 ∨ n = 2 then 0 else 2

/-- Example partitions: one on the engine `aicore`, one on the engine `host`. -/
def Example.mixedPartitions : List (Option SubGraphInfo) :=
  [some { engine_name := "aicore", stream_label := "", end2pld := [], pld2end := [],
          sub_graph := some { name := "p0", direct_node := [0] } },
   some { engine_name := "host", stream_label := "", end2pld := [], pld2end := [],
          sub_graph := some { name := "p1", direct_node := [1] } }]

/-- The subgraph `t` is a direct successor of the subgraph `p`: some entry of the
End→Placeholder map of `p` names a placeholder that the placeholder→subgraph map sends to
`t`. -/
def DirectSucc (σ : SubgraphHeap) (pld_subgraph_map : List (Nat × Nat)) (p t : Nat) : Prop :=
  ∃ e ∈ (σ p).subgraph_info.end2pld, mapFind pld_subgraph_map e.2 = some t

/-- The eligibility condition of stream reuse in the words of the specification: both
pointers are non-null, the scheduler ids agree, the predecessor is neither on an
independent engine nor labelled, no direct successor of the predecessor other than the
candidate is on the engine of the predecessor, and the candidate is on the engine of the
predecessor, or on an attached engine, or on the engine of the subgraph the predecessor
itself reuses. -/
def ReuseEligible (σ : SubgraphHeap) (candidate pred : Option Nat)
    (pld_subgraph_map : List (Nat × Nat)) : Prop :=
  ∃ s p, candidate = some s ∧ pred = some p ∧
    (σ s).engine_conf.scheduler_id = (σ p).engine_conf.scheduler_id ∧
    (σ p).engine_conf.independent = false ∧
    (σ p).subgraph_info.stream_label = "" ∧
    (∀ t, DirectSucc σ pld_subgraph_map p t → t ≠ s →
      (σ t).engine_conf.id ≠ (σ p).engine_conf.id) ∧
    ((σ s).engine_conf.id = (σ p).engine_conf.id ∨ (σ s).engine_conf.attach = true ∨
      ∃ r, (σ p).reused_subgraph = some r ∧ (σ r).engine_conf.id = (σ s).engine_conf.id)

/-- The state of the loop of `AssignByDependencyPass::Run` on the vector `subgraphs` when
the iterations for the subgraphs `pre`, the first ones of the vector, are done. -/
def AssignByDependencyPass.loopAfter (subgraphs pre : List Nat) (σ : SubgraphHeap) : DepState :=
  pre.foldl
    (AssignByDependencyPass.step (InitEndSubgraphMap subgraphs σ) (InitPldSubgraphMap subgraphs σ))
    { σ := σ, pass := AssignByDependencyPass.new, changed := false }

/-- In the run of the dependency pass on `subgraphs`, an iteration of the loop finds the
subgraph `s` without a stream and gets the subgraph `p` from `GetReusableSubgraph`: the
branch in which `s` takes the stream of `p` is executed. -/
def ReusesStreamOf (subgraphs : List Nat) (σ : SubgraphHeap) (s p : Nat) : Prop :=
  ∃ pre post, subgraphs = pre ++ s :: post ∧
    HasAssignedStream ((AssignByDependencyPass.loopAfter subgraphs pre σ).σ s) = false ∧
    GetReusableSubgraph (AssignByDependencyPass.loopAfter subgraphs pre σ).σ s
      (InitEndSubgraphMap subgraphs σ) (InitPldSubgraphMap subgraphs σ) = some p

/-- Example input: subgraph 0 (`P`) has two End nodes, 10 and 11, whose peers are the
placeholders 20 of subgraph 1 and 21 of subgraph 2; all three are fresh, unlabelled and on
the engine `aicore`. -/
def Example.fork : SubgraphHeap :=
  heapOf
    [{ name := "P", stream_id := kInvalidStream,
       subgraph_info := { engine_name := "aicore", stream_label := "",
                          end2pld := [(10, 20), (11, 21)], pld2end := [],
                          sub_graph := some { name := "P", direct_node := [] } },
       engine_conf := Example.aicore, max_parallel_num := 1, reused_subgraph := none },
     { name := "S1", stream_id := kInvalidStream,
       subgraph_info := { engine_name := "aicore", stream_label := "", end2pld := [],
                          pld2end := [(20, 10)],
                          sub_graph := some { name := "S1", direct_node := [] } },
       engine_conf := Example.aicore, max_parallel_num := 1, reused_subgraph := none },
     { name := "S2", stream_id := kInvalidStream,
       subgraph_info := { engine_name := "aicore", stream_label := "", end2pld := [],
                          pld2end := [(21, 11)],
                          sub_graph := some { name := "S2", direct_node := [] } },
       engine_conf := Example.aicore, max_parallel_num := 1, reused_subgraph := none }]

/-- Invariant of the loop of `AssignByDependencyPass::Run` entered with heap `σ0`, for an
engine `e` whose subgraphs all have the `max_parallel_num` `m`: with `n` the number of
subgraphs on `e` that `AssignNewStream` was called for, the next slot recorded for `e` is
`(n - 1) mod m + 1` (absent when `n = 0`) and the high-water mark of `e` is `min n m`. -/
structure DepCount (σ0 : SubgraphHeap) (e : String) (m : Int) (st : DepState) : Prop where
  next : mapFind st.pass.engine_next_streams_ e =
    if callCount σ0 e st.pass.assigned_subgraphs_ = 0 then none
    else some (((callCount σ0 e st.pass.assigned_subgraphs_ - 1 : Nat) : Int) % m + 1)
  mark : mapGet st.pass.engine_stream_num_ e =
    min (callCount σ0 e st.pass.assigned_subgraphs_ : Int) m

/-- The engine ids of the subgraphs of a vector, each listed once. -/
def engineIds (σ : SubgraphHeap) (subgraphs : List Nat) : List String :=
  (subgraphs.map (engineOf σ)).dedup

/-- The sum of `h f` over the engine ids `f` of `engines` that are ordered before `e`. -/
def sumBefore (h : String → Int) (engines : List String) (e : String) : Int :=
  ((engines.filter (fun f => decide (keyLt f e))).map h).sum

/-- The owners of freshly allocated streams: the subgraphs that `AssignNewStream` is
called for in the loop of `AssignByDependencyPass::Run` (the final `assigned_subgraphs_`). -/
def freshOwners (subgraphs : List Nat) (σ : SubgraphHeap) : List Nat :=
  (AssignByDependencyPass.loop subgraphs σ).pass.assigned_subgraphs_

/-- The local slot of a subgraph: its stream id when the loop of
`AssignByDependencyPass::Run` ends, before the offsets are added. -/
def localSlot (subgraphs : List Nat) (σ : SubgraphHeap) (i : Nat) : Int :=
  ((AssignByDependencyPass.loop subgraphs σ).σ i).stream_id

/-- The high-water mark `min n m` of the engine `e`: `n` is the number of fresh
allocations on `e`, `m e` the `max_parallel_num` of `e`. -/
def highWater (subgraphs : List Nat) (σ : SubgraphHeap) (m : String → Int) (e : String) : Int :=
  min (callCount σ e (freshOwners subgraphs σ) : Int) (m e)

/-- The base offset of the engine `e`: the counter `c0` plus the high-water marks of the
engines ordered before `e` by engine id. -/
def baseOffset (subgraphs : List Nat) (σ : SubgraphHeap) (m : String → Int) (c0 : Int)
    (e : String) : Int :=
  c0 + sumBefore (highWater subgraphs σ m) (engineIds σ subgraphs) e

/-- Example caps: 2 on the engine `host`, 1 on every other engine. -/
def Example.caps (e : String) : Int := if e = Example.host.id then 2 else 1

/-- A data edge of the graph: `y` is one of the `GetOutDataNodes()` of `x`. -/
def DataEdge (nodes : NodeHeap) (x y : Nat) : Prop := y ∈ (nodes x).out_data_nodes

/-- The data edges of the whole graph are acyclic: no node of the graph reaches itself
along one or more data edges. -/
def AcyclicData (nodes : NodeHeap) (whole_graph : ComputeGraph) : Prop :=
  ∀ x, x ∈ whole_graph.direct_node → ¬ Relation.TransGen (DataEdge nodes) x x

/-- The whole graph is closed under `GetOutDataNodes`: the data successors of its nodes
are nodes of the graph. -/
def ClosedData (nodes : NodeHeap) (whole_graph : ComputeGraph) : Prop :=
  ∀ n, n ∈ whole_graph.direct_node → ∀ m, m ∈ (nodes n).out_data_nodes →
    m ∈ whole_graph.direct_node

/-- The node `y` ends a path of `k` data edges inside the node list `V`; the path is
listed from `y` back to its first node. -/
def EndsPath (nodes : NodeHeap) (V : List Nat) (k : Nat) (y : Nat) : Prop :=
  ∃ p : List Nat, p.length = k ∧ List.Chain (fun b a => DataEdge nodes a b) y p ∧
    ∀ x, x ∈ y :: p → x ∈ V

/-- The op descriptor `d` is marked for the cleanup: it carries a valid stream id in `ops`
and it is the op descriptor of a node of the graph slice of a subgraph of the vector that
is on a skip-assignment engine and has no stream label. -/
def ToBeUpdated (nodes : NodeHeap) (ops : OpHeap) (σ : SubgraphHeap) (subgraphs : List Nat)
    (d : Nat) : Prop :=
  (ops d).stream_id ≠ kInvalidStream ∧
    ∃ s, s ∈ subgraphs ∧ IsEngineSkip (σ s) = true ∧ HasStreamLabel (σ s) = false ∧
      ∃ n, n ∈ nodesOf σ s ∧ (nodes n).op_desc = some d

/-- The predecessors and successors of a node, `GetInAllNodes()` and `GetOutAllNodes()`. -/
def neighbours (nodes : NodeHeap) (n : Nat) : List Nat :=
  (nodes n).in_all_nodes ++ (nodes n).out_all_nodes

/-- The valid stream ids carried by the nodes of `l` form exactly the one value `s`. -/
def SingleStream (nodes : NodeHeap) (ops : OpHeap) (l : List Nat) (s : Int) : Prop :=
  ∀ v, v ∈ validStreams nodes ops l ↔ v = s

/-- The graph cut down to the nodes `pre`. -/
def ComputeGraph.upTo (g : ComputeGraph) (pre : List Nat) : ComputeGraph :=
  { g with direct_node := pre }

/-- Example input: one unlabelled subgraph on the skip-assignment engine `host`, with the
stream 5, whose graph slice holds the node `n`. -/
def Example.skippedNode (n : Nat) : SubgraphHeap :=
  heapOf [{ Example.plain "s0" Example.host "" 1 [n] with stream_id := 5 }]

/-- Example op descriptors without stream label: the op descriptor 0 carries the stream
`a`, the op descriptor 1 the stream `b`, every other op descriptor no stream. -/
def Example.cleanupOps (a b : Int) : OpHeap := fun d =>
  { stream_id := if d = 0 then a else if d = 1 then b else kInvalidStream, stream_label := none }

/-- Example nodes: node 1 feeds node 0, which feeds node 2; the nodes 0 and 1 have the op
descriptors 0 and 1, node 2 has a null op descriptor. -/
def Example.nullSuccessor : NodeHeap := fun n =>
  if n = 0 then
    { op_desc := some 0, type := "Add", in_nodes := [1], in_all_nodes := [1],
      out_all_nodes := [2], in_data_nodes := [1], out_data_nodes := [2] }
  else if n = 1 then
    { op_desc := some 1, type := "Data", in_nodes := [], in_all_nodes := [],
      out_all_nodes := [0], in_data_nodes := [], out_data_nodes := [0] }
  else if n = 2 then
    { op_desc := none, type := "Add", in_nodes := [0], in_all_nodes := [0],
      out_all_nodes := [], in_data_nodes := [0], out_data_nodes := [] }
  else Example.isolated n

/-- The contract of `memcpy_s` of `securec.h` that the round trip relies on: the call
returns `EOK` only when the bound `destMax` is neither zero nor larger than
`SECUREC_MEM_MAX_LEN` (`0x7fffffff`) and `count` does not exceed it. -/
def SecureCopy (lib : Library) : Prop :=
  ∀ dest destMax count, lib.memcpy_s_ok dest destMax count = true →
    destMax ≠ 0 ∧ destMax ≤ 0x7fffffff ∧ count ≤ destMax

/-- The store after `AddTBEKernel` was called for the kernels of the list, in this order,
on a new store. -/
def addKernels (kernels : List TBEKernel) : TBEKernelStore :=
  kernels.foldl (fun store kernel => store.AddTBEKernel (some kernel)) TBEKernelStore.new

/-- The item of a kernel in the buffer: the head (magic, length of the name, length of
the binary), the name, the binary. -/
def itemBytes (kernel : TBEKernel) : Bytes :=
  KernelStoreItemHead.bytes
      { magic := kKernelItemMagic, name_len := kernel.name.length,
        bin_len := kernel.bin_data.length } ++
    kernel.name ++ kernel.bin_data

/-- The items of the kernels of a map, one after the other. -/
def serialize : List (Bytes × TBEKernel) → Bytes
  | [] => []
  | item :: rest => itemBytes item.2 ++ serialize rest

/-- The sum of the item sizes of a list of kernels: 12 bytes of head, the name, the
binary. -/
def itemSizes (kernels : List TBEKernel) : Nat :=
  (kernels.map (fun kernel => 12 + kernel.name.length + kernel.bin_data.length)).sum

/-- Example library: `memcpy_s` succeeds exactly when its bound is neither zero nor larger
than `0x7fffffff` and the count does not exceed it; no allocation fails. -/
def Example.securec : Library :=
  { memcpy_s_ok := fun _ destMax count =>
      decide (destMax ≠ 0 ∧ destMax ≤ 0x7fffffff ∧ count ≤ destMax)
    resize_ok := fun _ => true
    make_shared_ok := fun _ => true }

/-- Example kernels: `a` with three bytes of binary, `bc` with one byte. -/
def Example.twoKernels : List TBEKernel :=
  [{ name := [97], bin_data := [1, 2, 3] }, { name := [98, 99], bin_data := [7] }]

/-- A node whose neighbours are named by other addresses: the address `a` of a node
becomes `π a`; the op descriptor and the type stay. -/
def Node.rename (π : Nat → Nat) (node : Node) : Node :=
  { node with
    in_nodes := node.in_nodes.map π, in_all_nodes := node.in_all_nodes.map π,
    out_all_nodes := node.out_all_nodes.map π, in_data_nodes := node.in_data_nodes.map π,
    out_data_nodes := node.out_data_nodes.map π }

/-- A graph whose nodes are named by other addresses, in the same order. -/
def ComputeGraph.rename (π : Nat → Nat) (g : ComputeGraph) : ComputeGraph :=
  { g with direct_node := g.direct_node.map π }

/-- A partition whose boundary nodes and slice nodes are named by other addresses; the
boundary maps are iterated in the same order. -/
def SubGraphInfo.rename (π : Nat → Nat) (info : SubGraphInfo) : SubGraphInfo :=
  { info with
    end2pld := info.end2pld.map (fun item => (π item.1, π item.2)),
    pld2end := info.pld2end.map (fun item => (π item.1, π item.2)),
    sub_graph := info.sub_graph.map (ComputeGraph.rename π) }

/-- A subgraph whose nodes are named by other addresses. -/
def Subgraph.rename (π : Nat → Nat) (subgraph : Subgraph) : Subgraph :=
  { subgraph with subgraph_info := subgraph.subgraph_info.rename π }

/-- The subgraph heap in which the nodes are named by other addresses. -/
def renameHeap (π : Nat → Nat) (σ : SubgraphHeap) : SubgraphHeap :=
  fun s => (σ s).rename π

/-- The outcome of a run in which the nodes are named by other addresses. -/
def Outcome.rename (π : Nat → Nat) (out : Outcome) : Outcome :=
  { out with σ := renameHeap π out.σ }

section Basics

@[simp] theorem setStreamId_stream_same (σ : SubgraphHeap) (s : Nat) (v : Int) :
    (setStreamId σ s v s).stream_id = v := by
  simp [setStreamId]

theorem setStreamId_other (σ : SubgraphHeap) (s i : Nat) (v : Int) (h : i ≠ s) :
    setStreamId σ s v i = σ i := by
  simp [setStreamId, h]

theorem setStreamId_stream (σ : SubgraphHeap) (s i : Nat) (v : Int) :
    (setStreamId σ s v i).stream_id = if i = s then v else (σ i).stream_id := by
  unfold setStreamId; split <;> simp_all

@[simp] theorem setStreamId_info (σ : SubgraphHeap) (s i : Nat) (v : Int) :
    (setStreamId σ s v i).subgraph_info = (σ i).subgraph_info := by
  unfold setStreamId; split <;> simp_all

@[simp] theorem setStreamId_conf (σ : SubgraphHeap) (s i : Nat) (v : Int) :
    (setStreamId σ s v i).engine_conf = (σ i).engine_conf := by
  unfold setStreamId; split <;> simp_all

@[simp] theorem setStreamId_max (σ : SubgraphHeap) (s i : Nat) (v : Int) :
    (setStreamId σ s v i).max_parallel_num = (σ i).max_parallel_num := by
  unfold setStreamId; split <;> simp_all

@[simp] theorem setStreamId_reused (σ : SubgraphHeap) (s i : Nat) (v : Int) :
    (setStreamId σ s v i).reused_subgraph = (σ i).reused_subgraph := by
  unfold setStreamId; split <;> simp_all

@[simp] theorem setReused_stream (σ : SubgraphHeap) (s i : Nat) (r : Option Nat) :
    (setReused σ s r i).stream_id = (σ i).stream_id := by
  unfold setReused; split <;> simp_all

@[simp] theorem setReused_info (σ : SubgraphHeap) (s i : Nat) (r : Option Nat) :
    (setReused σ s r i).subgraph_info = (σ i).subgraph_info := by
  unfold setReused; split <;> simp_all

@[simp] theorem setReused_conf (σ : SubgraphHeap) (s i : Nat) (r : Option Nat) :
    (setReused σ s r i).engine_conf = (σ i).engine_conf := by
  unfold setReused; split <;> simp_all

@[simp] theorem setReused_max (σ : SubgraphHeap) (s i : Nat) (r : Option Nat) :
    (setReused σ s r i).max_parallel_num = (σ i).max_parallel_num := by
  unfold setReused; split <;> simp_all

theorem setReused_reused (σ : SubgraphHeap) (s i : Nat) (r : Option Nat) :
    (setReused σ s r i).reused_subgraph = if i = s then r else (σ i).reused_subgraph := by
  unfold setReused; split <;> simp_all

theorem mapFind_append {κ β : Type} [DecidableEq κ] (m m' : List (κ × β)) (a : κ) :
    mapFind (m ++ m') a = (mapFind m a).orElse (fun _ => mapFind m' a) := by
  induction m with
  | nil => simp [mapFind]
  | cons x rest ih =>
    obtain ⟨k, v⟩ := x
    simp only [List.cons_append, mapFind]
    split <;> simp_all

theorem mapFind_mapEmplace {κ β : Type} [DecidableEq κ] (m : List (κ × β)) (k a : κ) (v : β) :
    mapFind (mapEmplace m k v) a =
      match mapFind m a with
      | some w => some w
      | none => if a = k then some v else none := by
  unfold mapEmplace
  cases hk : mapFind m k with
  | some w =>
    simp only
    cases ha : mapFind m a with
    | some w' => rfl
    | none =>
      simp only
      split
      · next h => subst h; simp_all
      · rfl
  | none =>
    simp only [mapFind_append]
    cases ha : mapFind m a <;> simp [mapFind, Option.orElse]

theorem mapFind_mapSet (m : List (String × Int)) (k a : String) (v : Int) :
    mapFind (mapSet m k v) a = if a = k then some v else mapFind m a := by
  induction m with
  | nil => simp [mapSet, mapFind]
  | cons x rest ih =>
    obtain ⟨k', v'⟩ := x
    simp only [mapSet]
    by_cases h1 : k = k'
    · subst h1; simp only [if_true, mapFind]; split <;> rfl
    · simp only [h1, if_false]
      by_cases h2 : keyLt k k'
      · simp [h2, mapFind]
      · simp only [h2, if_false, mapFind, ih]
        by_cases h3 : a = k'
        · subst h3; simp [Ne.symm h1]
        · simp [h3]

end Basics

/-! ## Sorted maps and sets -/

theorem keyLt_irrefl (a : String) : ¬ keyLt a a := by
  unfold keyLt; exact lt_irrefl _

theorem keyLt_trans {a b c : String} (h1 : keyLt a b) (h2 : keyLt b c) : keyLt a c := by
  unfold keyLt at *; exact lt_trans h1 h2

theorem keyLt_asymm {a b : String} (h1 : keyLt a b) : ¬ keyLt b a := by
  unfold keyLt at *; exact lt_asymm h1

theorem keyLt_total {a b : String} (h1 : a ≠ b) (h2 : ¬ keyLt a b) : keyLt b a := by
  unfold keyLt at *
  rcases lt_trichotomy a.data b.data with h | h | h
  · exact absurd h h2
  · exact absurd (String.ext h) h1
  · exact h

theorem mem_mapSet {m : List (String × Int)} {k : String} {v : Int} {x : String × Int}
    (h : x ∈ mapSet m k v) : x = (k, v) ∨ x ∈ m := by
  induction m with
  | nil => simp [mapSet] at h; exact Or.inl h
  | cons y rest ih =>
    obtain ⟨k', v'⟩ := y
    simp only [mapSet] at h
    split at h
    · simp only [List.mem_cons] at h ⊢
      rcases h with h | h
      · exact Or.inl h
      · exact Or.inr (Or.inr h)
    · split at h
      · simp only [List.mem_cons] at h ⊢
        rcases h with h | h | h
        · exact Or.inl h
        · exact Or.inr (Or.inl h)
        · exact Or.inr (Or.inr h)
      · simp only [List.mem_cons] at h ⊢
        rcases h with h | h
        · exact Or.inr (Or.inl h)
        · rcases ih h with h | h
          · exact Or.inl h
          · exact Or.inr (Or.inr h)

theorem KeySorted.sorted_mapSet {m : List (String × Int)} (h : KeySorted m) (k : String) (v : Int) :
    KeySorted (mapSet m k v) := by
  induction m with
  | nil => simp [ge.mapSet, KeySorted]
  | cons y rest ih =>
    obtain ⟨k', v'⟩ := y
    unfold KeySorted at h ih ⊢
    rw [List.pairwise_cons] at h
    simp only [ge.mapSet]
    by_cases h1 : k = k'
    · subst h1
      simp only [if_true]
      rw [List.pairwise_cons]
      exact ⟨h.1, h.2⟩
    · simp only [h1, if_false]
      by_cases h2 : keyLt k k'
      · simp only [h2, if_true]
        rw [List.pairwise_cons, List.pairwise_cons]
        refine ⟨?_, h.1, h.2⟩
        intro x hx
        simp only [List.mem_cons] at hx
        rcases hx with hx | hx
        · subst hx; exact h2
        · exact keyLt_trans h2 (h.1 x hx)
      · simp only [h2, if_false]
        rw [List.pairwise_cons]
        refine ⟨?_, ih h.2⟩
        intro x hx
        rcases mem_mapSet hx with hx | hx
        · subst hx; exact keyLt_total h1 h2
        · exact h.1 x hx

theorem mapFind_eq_none_of_lt {m : List (String × Int)} {k : String}
    (h : ∀ x ∈ m, keyLt k x.1) : mapFind m k = none := by
  induction m with
  | nil => rfl
  | cons y rest ih =>
    obtain ⟨k', v'⟩ := y
    simp only [mapFind]
    have h1 : k ≠ k' := by
      intro e; subst e
      exact keyLt_irrefl _ (h (k, v') (by simp))
    simp only [h1, if_false]
    exact ih (fun x hx => h x (by simp [hx]))

theorem mapFind_of_mem {m : List (String × Int)} (hs : KeySorted m) {k : String} {v : Int}
    (h : (k, v) ∈ m) : mapFind m k = some v := by
  induction m with
  | nil => simp at h
  | cons y rest ih =>
    obtain ⟨k', v'⟩ := y
    unfold KeySorted at hs ih
    rw [List.pairwise_cons] at hs
    simp only [List.mem_cons, Prod.mk.injEq] at h
    simp only [mapFind]
    rcases h with ⟨h1, h2⟩ | h
    · subst h1; subst h2; simp
    · have hk : k ≠ k' := by
        intro e; subst e
        exact keyLt_irrefl _ (hs.1 (k, v) h)
      simp only [hk, if_false]
      exact ih hs.2 h

theorem mem_of_mapFind {κ β : Type} [DecidableEq κ] {m : List (κ × β)} {k : κ} {v : β}
    (h : mapFind m k = some v) : (k, v) ∈ m := by
  induction m with
  | nil => simp [mapFind] at h
  | cons y rest ih =>
    obtain ⟨k', v'⟩ := y
    simp only [mapFind] at h
    split at h
    · next e => simp only [Option.some.injEq] at h; subst h; subst e; simp
    · exact List.mem_cons_of_mem _ (ih h)

theorem mapGet_mapSet (m : List (String × Int)) (k a : String) (v : Int) :
    mapGet (mapSet m k v) a = if a = k then v else mapGet m a := by
  unfold mapGet
  rw [mapFind_mapSet]
  split <;> simp

theorem mapGet_mapTouch (m : List (String × Int)) (k a : String) :
    mapGet (mapTouch m k) a = mapGet m a := by
  unfold mapTouch
  cases h : mapFind m k with
  | some v => rfl
  | none =>
    simp only [mapGet_mapSet]
    split
    · next e => subst e; simp [mapGet, h]
    · rfl

theorem KeySorted.sorted_mapTouch {m : List (String × Int)} (h : KeySorted m) (k : String) :
    KeySorted (mapTouch m k) := by
  unfold ge.mapTouch
  cases mapFind m k with
  | some v => exact h
  | none => exact h.sorted_mapSet k 0

theorem mapFind_mapTouch_isSome (m : List (String × Int)) (k : String) :
    ∃ v, mapFind (mapTouch m k) k = some v := by
  unfold ge.mapTouch
  cases h : mapFind m k with
  | some v => exact ⟨v, h⟩
  | none => exact ⟨0, by simp [mapFind_mapSet]⟩

theorem mem_setInsert {x a : Nat} {l : List Nat} : a ∈ setInsert x l ↔ a = x ∨ a ∈ l := by
  induction l with
  | nil => simp [setInsert]
  | cons y ys ih =>
    simp only [setInsert]
    split
    · next e => subst e; simp only [List.mem_cons]; tauto
    · split
      · simp only [List.mem_cons]
      · simp only [List.mem_cons, ih]; tauto

theorem setInsert_sorted {x : Nat} {l : List Nat} (h : l.Pairwise (fun a b => a < b)) :
    (setInsert x l).Pairwise (fun a b => a < b) := by
  induction l with
  | nil => simp [setInsert]
  | cons y ys ih =>
    rw [List.pairwise_cons] at h
    simp only [setInsert]
    split
    · exact List.pairwise_cons.mpr h
    · next hne =>
      split
      · next hlt =>
        refine List.pairwise_cons.mpr ⟨?_, List.pairwise_cons.mpr h⟩
        intro a ha
        simp only [List.mem_cons] at ha
        rcases ha with ha | ha
        · omega
        · have := h.1 a ha; omega
      · next hnlt =>
        refine List.pairwise_cons.mpr ⟨?_, ih h.2⟩
        intro a ha
        rcases mem_setInsert.mp ha with ha | ha
        · omega
        · exact h.1 a ha

/-! ## `AssignByLabelPass`: the loop invariant -/

theorem foldl_invariant {α β : Type} (f : β → α → β) (P : List α → β → Prop) :
    ∀ (l done : List α) (b : β), P done b →
      (∀ d b a, P d b → P (d ++ [a]) (f b a)) → P (done ++ l) (l.foldl f b) := by
  intro l
  induction l with
  | nil => intro done b h _; simpa using h
  | cons a rest ih =>
    intro done b h hstep
    have := ih (done ++ [a]) (f b a) (hstep done b a h) hstep
    simpa using this

theorem SameButStream.rfl_same (a : Subgraph) : SameButStream a a := ⟨rfl, rfl, rfl, rfl, rfl⟩

theorem SameButStream.of_setStreamId (σ : SubgraphHeap) (s i : Nat) (v : Int) :
    SameButStream (setStreamId σ s v i) (σ i) := by
  unfold setStreamId SameButStream; split <;> simp_all

theorem SameButStream.trans_same {a b c : Subgraph} (h1 : SameButStream a b) (h2 : SameButStream b c) :
    SameButStream a c := by
  obtain ⟨a1, a2, a3, a4, a5⟩ := h1
  obtain ⟨b1, b2, b3, b4, b5⟩ := h2
  exact ⟨a1.trans b1, a2.trans b2, a3.trans b3, a4.trans b4, a5.trans b5⟩

theorem LabelInv.label_init (σ0 : SubgraphHeap) (c0 : Int) :
    LabelInv σ0 c0 [] { σ := σ0, next_stream := c0, label_streams := [], changed := false } where
  frame := fun i => SameButStream.rfl_same _
  untouched := fun i _ => rfl
  le := le_refl _
  range := by intro l v h; simp [mapFind] at h
  inj := by intro l l' v h; simp [mapFind] at h
  consistent := by intro i h; simp at h
  changed := by simp

theorem LabelInv.label_step {σ0 : SubgraphHeap} {c0 : Int} {done : List Nat} {st : LabelState}
    (h : LabelInv σ0 c0 done st) (s : Nat) :
    LabelInv σ0 c0 (done ++ [s]) (AssignByLabelPass.step st s) := by
  have hlab : (st.σ s).subgraph_info.stream_label = labelOf σ0 s := by
    have := (h.frame s).2.1
    simp [labelOf, this]
  unfold AssignByLabelPass.step
  simp only [hlab]
  by_cases hempty : labelOf σ0 s = ""
  · simp only [hempty, ne_eq, not_true_eq_false, if_false]
    exact
      { frame := h.frame
        untouched := by
          intro i hi
          apply h.untouched
          rcases hi with hi | hi
          · left; intro hmem; exact hi (by simp [hmem])
          · right; exact hi
        le := h.le
        range := h.range
        inj := h.inj
        consistent := by
          intro i hi hne
          simp only [List.mem_append, List.mem_singleton] at hi
          rcases hi with hi | hi
          · exact h.consistent i hi hne
          · subst hi; exact absurd hempty hne
        changed := by
          rw [h.changed]
          constructor
          · rintro ⟨i, hi, hne⟩; exact ⟨i, by simp [hi], hne⟩
          · rintro ⟨i, hi, hne⟩
            simp only [List.mem_append, List.mem_singleton] at hi
            rcases hi with hi | hi
            · exact ⟨i, hi, hne⟩
            · subst hi; exact absurd hempty hne }
  · simp only [ne_eq, hempty, not_false_eq_true, if_true]
    cases hfind : mapFind st.label_streams (labelOf σ0 s) with
    | some id =>
      simp only
      exact
        { frame := fun i => (SameButStream.of_setStreamId _ _ _ _).trans_same (h.frame i)
          untouched := by
            intro i hi
            have hne : i ≠ s := by
              rcases hi with hi | hi
              · intro e; exact hi (by simp [e])
              · intro e; subst e; exact hempty hi
            dsimp only
            rw [setStreamId_other _ _ _ _ hne]
            apply h.untouched
            rcases hi with hi | hi
            · left; intro hmem; exact hi (by simp [hmem])
            · right; exact hi
          le := h.le
          range := h.range
          inj := h.inj
          consistent := by
            intro i hi hne
            simp only [List.mem_append, List.mem_singleton] at hi
            by_cases his : i = s
            · subst his; simp [hfind]
            · dsimp only
              rw [setStreamId_other _ _ _ _ his]
              rcases hi with hi | hi
              · exact h.consistent i hi hne
              · exact absurd hi his
          changed := by
            simp only [true_iff]
            exact ⟨s, by simp, hempty⟩ }
    | none =>
      simp only
      exact
        { frame := fun i => (SameButStream.of_setStreamId _ _ _ _).trans_same (h.frame i)
          untouched := by
            intro i hi
            have hne : i ≠ s := by
              rcases hi with hi | hi
              · intro e; exact hi (by simp [e])
              · intro e; subst e; exact hempty hi
            simp only
            rw [setStreamId_other _ _ _ _ hne]
            apply h.untouched
            rcases hi with hi | hi
            · left; intro hmem; exact hi (by simp [hmem])
            · right; exact hi
          le := by have := h.le; simp only; omega
          range := by
            intro l v hl
            simp only [mapFind_mapEmplace] at hl
            cases hl' : mapFind st.label_streams l with
            | some w =>
              rw [hl'] at hl; simp only [Option.some.injEq] at hl; subst hl
              have := h.range l w hl'
              simp only; omega
            | none =>
              rw [hl'] at hl; simp only at hl
              split at hl
              · simp only [Option.some.injEq] at hl; subst hl
                have := h.le; simp only; omega
              · simp at hl
          inj := by
            intro l l' v hl hl'
            simp only [mapFind_mapEmplace] at hl hl'
            cases h1 : mapFind st.label_streams l with
            | some w =>
              rw [h1] at hl; simp only [Option.some.injEq] at hl; subst hl
              cases h2 : mapFind st.label_streams l' with
              | some w' =>
                rw [h2] at hl'; simp only [Option.some.injEq] at hl'; subst hl'
                exact h.inj l l' _ h1 h2
              | none =>
                rw [h2] at hl'; simp only at hl'
                split at hl'
                · simp only [Option.some.injEq] at hl'
                  have := (h.range l w h1).2
                  omega
                · simp at hl'
            | none =>
              rw [h1] at hl; simp only at hl
              split at hl
              · next e1 =>
                simp only [Option.some.injEq] at hl
                cases h2 : mapFind st.label_streams l' with
                | some w' =>
                  rw [h2] at hl'; simp only [Option.some.injEq] at hl'; subst hl'
                  have := (h.range l' w' h2).2
                  omega
                | none =>
                  rw [h2] at hl'; simp only at hl'
                  split at hl'
                  · next e2 => rw [e1, e2]
                  · simp at hl'
              · simp at hl
          consistent := by
            intro i hi hne
            simp only [List.mem_append, List.mem_singleton] at hi
            simp only [mapFind_mapEmplace]
            by_cases his : i = s
            · subst his; simp [hfind]
            · rw [setStreamId_other _ _ _ _ his]
              rcases hi with hi | hi
              · rw [h.consistent i hi hne]
              · exact absurd hi his
          changed := by
            simp only [true_iff]
            exact ⟨s, by simp, hempty⟩ }

theorem LabelInv.label_run (σ0 : SubgraphHeap) (c0 : Int) (subgraphs : List Nat) :
    LabelInv σ0 c0 subgraphs (subgraphs.foldl AssignByLabelPass.step
      { σ := σ0, next_stream := c0, label_streams := [], changed := false }) := by
  have := foldl_invariant AssignByLabelPass.step (LabelInv σ0 c0) subgraphs [] _
    (LabelInv.label_init σ0 c0) (fun d b a hb => hb.label_step a)
  simpa using this

/-! ## `IndependentStreamPass`: the loop invariant -/

theorem IndependentInv.indep_init (σ0 : SubgraphHeap) (c0 : Int) :
    IndependentInv σ0 c0 [] { σ := σ0, next_stream := c0, engine_streams := [], changed := false } where
  frame := fun i => SameButStream.rfl_same _
  untouched := fun i _ => rfl
  le := le_refl _
  range := by intro l v h; simp [mapFind] at h
  inj := by intro l l' v h; simp [mapFind] at h
  consistent := by intro i h; simp at h
  changed := by simp

theorem IndependentInv.indep_step {σ0 : SubgraphHeap} {c0 : Int} {done : List Nat} {st : IndependentState}
    (h : IndependentInv σ0 c0 done st) (s : Nat) :
    IndependentInv σ0 c0 (done ++ [s]) (IndependentStreamPass.step st s) := by
  have hlab : (st.σ s).subgraph_info.stream_label = labelOf σ0 s := by
    have := (h.frame s).2.1
    simp [labelOf, this]
  have heng : (st.σ s).engine_conf.id = engineOf σ0 s := by
    have := (h.frame s).2.2.1
    simp [engineOf, this]
  have hind : IsEngineIndependent (st.σ s) = IsEngineIndependent (σ0 s) := by
    have := (h.frame s).2.2.1
    simp [IsEngineIndependent, this]
  unfold IndependentStreamPass.step
  simp only [hlab, heng, hind]
  by_cases hempty : IsEngineIndependent (σ0 s) = false
  · simp only [hempty, Bool.not_false, if_true]
    exact
      { frame := h.frame
        untouched := by
          intro i hi
          apply h.untouched
          rcases hi with hi | hi
          · left; intro hmem; exact hi (by simp [hmem])
          · right; exact hi
        le := h.le
        range := h.range
        inj := h.inj
        consistent := by
          intro i hi hne
          simp only [List.mem_append, List.mem_singleton] at hi
          rcases hi with hi | hi
          · exact h.consistent i hi hne
          · subst hi; simp [hempty] at hne
        changed := by
          rw [h.changed]
          constructor
          · rintro ⟨i, hi, hne⟩; exact ⟨i, by simp [hi], hne⟩
          · rintro ⟨i, hi, hne⟩
            simp only [List.mem_append, List.mem_singleton] at hi
            rcases hi with hi | hi
            · exact ⟨i, hi, hne⟩
            · subst hi; simp [hempty] at hne }
  · simp only [Bool.not_eq_false] at hempty
    simp only [hempty, Bool.not_true, Bool.false_eq_true, if_false]
    cases hfind : mapFind st.engine_streams (engineOf σ0 s, labelOf σ0 s) with
    | some id =>
      simp only
      exact
        { frame := fun i => (SameButStream.of_setStreamId _ _ _ _).trans_same (h.frame i)
          untouched := by
            intro i hi
            have hne : i ≠ s := by
              rcases hi with hi | hi
              · intro e; exact hi (by simp [e])
              · intro e; subst e; simp [hempty] at hi
            dsimp only
            rw [setStreamId_other _ _ _ _ hne]
            apply h.untouched
            rcases hi with hi | hi
            · left; intro hmem; exact hi (by simp [hmem])
            · right; exact hi
          le := h.le
          range := h.range
          inj := h.inj
          consistent := by
            intro i hi hne
            simp only [List.mem_append, List.mem_singleton] at hi
            by_cases his : i = s
            · subst his; simp [hfind]
            · dsimp only
              rw [setStreamId_other _ _ _ _ his]
              rcases hi with hi | hi
              · exact h.consistent i hi hne
              · exact absurd hi his
          changed := by
            simp only [true_iff]
            exact ⟨s, by simp, hempty⟩ }
    | none =>
      simp only
      exact
        { frame := fun i => (SameButStream.of_setStreamId _ _ _ _).trans_same (h.frame i)
          untouched := by
            intro i hi
            have hne : i ≠ s := by
              rcases hi with hi | hi
              · intro e; exact hi (by simp [e])
              · intro e; subst e; simp [hempty] at hi
            simp only
            rw [setStreamId_other _ _ _ _ hne]
            apply h.untouched
            rcases hi with hi | hi
            · left; intro hmem; exact hi (by simp [hmem])
            · right; exact hi
          le := by have := h.le; simp only; omega
          range := by
            intro l v hl
            simp only [mapFind_mapEmplace] at hl
            cases hl' : mapFind st.engine_streams l with
            | some w =>
              rw [hl'] at hl; simp only [Option.some.injEq] at hl; subst hl
              have := h.range l w hl'
              simp only; omega
            | none =>
              rw [hl'] at hl; simp only at hl
              split at hl
              · simp only [Option.some.injEq] at hl; subst hl
                have := h.le; simp only; omega
              · simp at hl
          inj := by
            intro l l' v hl hl'
            simp only [mapFind_mapEmplace] at hl hl'
            cases h1 : mapFind st.engine_streams l with
            | some w =>
              rw [h1] at hl; simp only [Option.some.injEq] at hl; subst hl
              cases h2 : mapFind st.engine_streams l' with
              | some w' =>
                rw [h2] at hl'; simp only [Option.some.injEq] at hl'; subst hl'
                exact h.inj l l' _ h1 h2
              | none =>
                rw [h2] at hl'; simp only at hl'
                split at hl'
                · simp only [Option.some.injEq] at hl'
                  have := (h.range l w h1).2
                  omega
                · simp at hl'
            | none =>
              rw [h1] at hl; simp only at hl
              split at hl
              · next e1 =>
                simp only [Option.some.injEq] at hl
                cases h2 : mapFind st.engine_streams l' with
                | some w' =>
                  rw [h2] at hl'; simp only [Option.some.injEq] at hl'; subst hl'
                  have := (h.range l' w' h2).2
                  omega
                | none =>
                  rw [h2] at hl'; simp only at hl'
                  split at hl'
                  · next e2 => rw [e1, e2]
                  · simp at hl'
              · simp at hl
          consistent := by
            intro i hi hne
            simp only [List.mem_append, List.mem_singleton] at hi
            simp only [mapFind_mapEmplace]
            by_cases his : i = s
            · subst his; simp [hfind]
            · rw [setStreamId_other _ _ _ _ his]
              rcases hi with hi | hi
              · rw [h.consistent i hi hne]
              · exact absurd hi his
          changed := by
            simp only [true_iff]
            exact ⟨s, by simp, hempty⟩ }

theorem IndependentInv.indep_run (σ0 : SubgraphHeap) (c0 : Int) (subgraphs : List Nat) :
    IndependentInv σ0 c0 subgraphs (subgraphs.foldl IndependentStreamPass.step
      { σ := σ0, next_stream := c0, engine_streams := [], changed := false }) := by
  have := foldl_invariant IndependentStreamPass.step (IndependentInv σ0 c0) subgraphs [] _
    (IndependentInv.indep_init σ0 c0) (fun d b a hb => hb.indep_step a)
  simpa using this

/-! ## `AssignByLabelPass`: the labels in the order of their first occurrence -/

theorem firstOccurrences_snoc {α : Type} [DecidableEq α] (l : List α) (x : α) :
    firstOccurrences (l ++ [x]) =
      if x ∈ firstOccurrences l then firstOccurrences l else firstOccurrences l ++ [x] := by
  simp [firstOccurrences, List.foldl_append]

theorem mem_firstOccurrences {α : Type} [DecidableEq α] (l : List α) (x : α) :
    x ∈ firstOccurrences l ↔ x ∈ l := by
  induction l using List.reverseRecOn with
  | nil => simp [firstOccurrences]
  | append_singleton l a ih =>
    rw [firstOccurrences_snoc]
    by_cases ha : a ∈ firstOccurrences l
    · simp only [ha, if_true, List.mem_append, List.mem_singleton]
      constructor
      · intro h; exact Or.inl (ih.mp h)
      · rintro (h | h)
        · exact ih.mpr h
        · subst h; exact ha
    · simp only [ha, if_false, List.mem_append, List.mem_singleton, ih]

theorem nodup_firstOccurrences {α : Type} [DecidableEq α] (l : List α) :
    (firstOccurrences l).Nodup := by
  induction l using List.reverseRecOn with
  | nil => simp [firstOccurrences]
  | append_singleton l a ih =>
    rw [firstOccurrences_snoc]
    by_cases ha : a ∈ firstOccurrences l
    · simpa [ha] using ih
    · simp only [ha, if_false]
      rw [List.nodup_append]
      refine ⟨ih, List.nodup_singleton a, ?_⟩
      intro x hx hx'
      simp only [List.mem_singleton] at hx'
      subst hx'; exact ha hx

theorem firstOccurrences_length {α : Type} [DecidableEq α] (l : List α) :
    (firstOccurrences l).length = l.dedup.length := by
  apply List.Perm.length_eq
  rw [List.perm_ext_iff_of_nodup (nodup_firstOccurrences l) (List.nodup_dedup l)]
  intro a
  rw [mem_firstOccurrences, List.mem_dedup]

theorem distinctLabels_snoc (ptrs : List Nat) (σ : SubgraphHeap) (s : Nat) :
    distinctLabels (ptrs ++ [s]) σ =
      if labelOf σ s = "" then distinctLabels ptrs σ
      else if labelOf σ s ∈ distinctLabels ptrs σ then distinctLabels ptrs σ
      else distinctLabels ptrs σ ++ [labelOf σ s] := by
  unfold distinctLabels
  by_cases h : labelOf σ s = ""
  · simp [h, List.filter_append]
  · simp only [List.map_append, List.map_cons, List.map_nil, List.filter_append, h, if_false]
    have : List.filter (fun l => decide (l ≠ "")) [labelOf σ s] = [labelOf σ s] := by
      simp [List.filter, h]
    rw [this, firstOccurrences_snoc]

theorem mem_distinctLabels (ptrs : List Nat) (σ : SubgraphHeap) (l : String) :
    l ∈ distinctLabels ptrs σ ↔ l ≠ "" ∧ ∃ i, i ∈ ptrs ∧ labelOf σ i = l := by
  unfold distinctLabels
  rw [mem_firstOccurrences]
  simp only [List.mem_filter, List.mem_map, decide_eq_true_eq]
  tauto

/-- The map `label_streams` after the subgraphs `done`: the distinct labels seen so far,
numbered from the counter at entry in the order of their first occurrence. -/
theorem label_order (σ0 : SubgraphHeap) (c0 : Int) (subgraphs : List Nat) :
    let st := subgraphs.foldl AssignByLabelPass.step
      { σ := σ0, next_stream := c0, label_streams := [], changed := false }
    (∀ l, mapFind st.label_streams l =
      if l ∈ distinctLabels subgraphs σ0 then
        some (c0 + ((distinctLabels subgraphs σ0).indexOf l : Nat)) else none) ∧
    st.next_stream = c0 + ((distinctLabels subgraphs σ0).length : Nat) := by
  have := foldl_invariant AssignByLabelPass.step
    (fun done st => LabelInv σ0 c0 done st ∧
      (∀ l, mapFind st.label_streams l =
        if l ∈ distinctLabels done σ0 then
          some (c0 + ((distinctLabels done σ0).indexOf l : Nat)) else none) ∧
      st.next_stream = c0 + ((distinctLabels done σ0).length : Nat))
    subgraphs [] { σ := σ0, next_stream := c0, label_streams := [], changed := false }
    ⟨LabelInv.label_init σ0 c0, by simp [distinctLabels, firstOccurrences, mapFind],
      by simp [distinctLabels, firstOccurrences]⟩
    (by
      rintro d st s ⟨hinv, hmap, hnext⟩
      refine ⟨hinv.label_step s, ?_⟩
      have hlab : (st.σ s).subgraph_info.stream_label = labelOf σ0 s := by
        have := (hinv.frame s).2.1
        simp [labelOf, this]
      rw [distinctLabels_snoc]
      unfold AssignByLabelPass.step
      simp only [hlab]
      by_cases hempty : labelOf σ0 s = ""
      · simp only [hempty, ne_eq, not_true_eq_false, if_false, if_true]
        exact ⟨hmap, hnext⟩
      · simp only [ne_eq, hempty, not_false_eq_true, if_true, if_false]
        have hs := hmap (labelOf σ0 s)
        by_cases hmem : labelOf σ0 s ∈ distinctLabels d σ0
        · simp only [hmem, if_true] at hs ⊢
          rw [hs]
          exact ⟨hmap, hnext⟩
        · simp only [hmem, if_false] at hs ⊢
          rw [hs]
          simp only
          refine ⟨?_, ?_⟩
          · intro l
            rw [mapFind_mapEmplace, hmap l]
            by_cases hl : l ∈ distinctLabels d σ0
            · simp [hl, List.indexOf_append_of_mem hl]
            · by_cases hls : l = labelOf σ0 s
              · subst hls
                simp [hl, hnext, List.indexOf_append_of_not_mem hl]
              · simp [hl, hls]
          · simp [hnext]; omega)
  simp only [List.nil_append] at this
  exact this.2

/-! ## `IndependentStreamPass`: the number of allocated streams -/

theorem independentKeys_snoc (ptrs : List Nat) (σ : SubgraphHeap) (s : Nat) :
    independentKeys (ptrs ++ [s]) σ =
      if IsEngineIndependent (σ s) = true then independentKeys ptrs σ ++ [keyOf σ s]
      else independentKeys ptrs σ := by
  unfold independentKeys
  by_cases h : IsEngineIndependent (σ s) = true
  · simp [h, List.filter_append, List.filter]
  · simp [h, List.filter_append, List.filter]

/-- The map `engine_streams` after the subgraphs `done`: its keys are the pairs of the
independent subgraphs seen so far, and the counter has advanced once per distinct pair. -/
theorem independent_count (σ0 : SubgraphHeap) (c0 : Int) (subgraphs : List Nat) :
    let st := subgraphs.foldl IndependentStreamPass.step
      { σ := σ0, next_stream := c0, engine_streams := [], changed := false }
    (∀ k, (mapFind st.engine_streams k).isSome = true ↔ k ∈ independentKeys subgraphs σ0) ∧
    st.next_stream = c0 + ((firstOccurrences (independentKeys subgraphs σ0)).length : Nat) := by
  have := foldl_invariant IndependentStreamPass.step
    (fun done st => IndependentInv σ0 c0 done st ∧
      (∀ k, (mapFind st.engine_streams k).isSome = true ↔ k ∈ independentKeys done σ0) ∧
      st.next_stream = c0 + ((firstOccurrences (independentKeys done σ0)).length : Nat))
    subgraphs [] { σ := σ0, next_stream := c0, engine_streams := [], changed := false }
    ⟨IndependentInv.indep_init σ0 c0, by simp [independentKeys, mapFind],
      by simp [independentKeys, firstOccurrences]⟩
    (by
      rintro d st s ⟨hinv, hmap, hnext⟩
      refine ⟨hinv.indep_step s, ?_⟩
      have hlab : (st.σ s).subgraph_info.stream_label = labelOf σ0 s := by
        have := (hinv.frame s).2.1
        simp [labelOf, this]
      have heng : (st.σ s).engine_conf.id = engineOf σ0 s := by
        have := (hinv.frame s).2.2.1
        simp [engineOf, this]
      have hind : IsEngineIndependent (st.σ s) = IsEngineIndependent (σ0 s) := by
        have := (hinv.frame s).2.2.1
        simp [IsEngineIndependent, this]
      rw [independentKeys_snoc]
      unfold IndependentStreamPass.step
      simp only [hlab, heng, hind]
      by_cases hi : IsEngineIndependent (σ0 s) = true
      · simp only [hi, Bool.not_true, if_true, Bool.false_eq_true, if_false]
        have hs := hmap (engineOf σ0 s, labelOf σ0 s)
        cases hfind : mapFind st.engine_streams (engineOf σ0 s, labelOf σ0 s) with
        | some id =>
          rw [hfind] at hs
          have hmem : keyOf σ0 s ∈ independentKeys d σ0 := hs.mp rfl
          simp only
          refine ⟨?_, ?_⟩
          · intro k
            rw [hmap k, List.mem_append, List.mem_singleton]
            constructor
            · intro h; exact Or.inl h
            · rintro (h | h)
              · exact h
              · subst h; exact hmem
          · rw [firstOccurrences_snoc, if_pos ((mem_firstOccurrences _ _).mpr hmem)]
            exact hnext
        | none =>
          rw [hfind] at hs
          have hmem : keyOf σ0 s ∉ independentKeys d σ0 := fun h => by
            have := hs.mpr h
            simp at this
          simp only
          refine ⟨?_, ?_⟩
          · intro k
            rw [mapFind_mapEmplace, List.mem_append, List.mem_singleton, ← hmap k]
            cases hk : mapFind st.engine_streams k with
            | some w => simp
            | none =>
              by_cases hks : k = (engineOf σ0 s, labelOf σ0 s)
              · simp [hks, keyOf]
              · simp [hks, keyOf]
          · rw [firstOccurrences_snoc,
              if_neg (fun h => hmem ((mem_firstOccurrences _ _).mp h))]
            simp [hnext]; omega
      · have hi' : IsEngineIndependent (σ0 s) = false := by simpa using hi
        simp only [hi', Bool.not_false, if_true, Bool.false_eq_true, if_false]
        exact ⟨hmap, hnext⟩)
  simp only [List.nil_append] at this
  exact this.2

/-! ## `AssignByDependencyPass`: the two updates of the loop body -/

theorem SameStatic.rfl_static (a : Subgraph) : SameStatic a a := ⟨rfl, rfl, rfl, rfl⟩

theorem SameStatic.trans_static {a b c : Subgraph} (h1 : SameStatic a b) (h2 : SameStatic b c) :
    SameStatic a c := by
  obtain ⟨a1, a2, a3, a4⟩ := h1
  obtain ⟨b1, b2, b3, b4⟩ := h2
  exact ⟨a1.trans b1, a2.trans b2, a3.trans b3, a4.trans b4⟩

theorem SameStatic.static_setStream (σ : SubgraphHeap) (s i : Nat) (v : Int) :
    SameStatic (setStreamId σ s v i) (σ i) := by
  unfold setStreamId SameStatic; split <;> simp_all

theorem SameStatic.static_setReused (σ : SubgraphHeap) (s i : Nat) (r : Option Nat) :
    SameStatic (setReused σ s r i) (σ i) := by
  unfold setReused SameStatic; split <;> simp_all

theorem SameButStream.to_static {a b : Subgraph} (h : SameButStream a b) : SameStatic a b :=
  ⟨h.1, h.2.1, h.2.2.1, h.2.2.2.1⟩

theorem setReused_other (σ : SubgraphHeap) (s i : Nat) (r : Option Nat) (h : i ≠ s) :
    setReused σ s r i = σ i := by
  simp [setReused, h]

theorem newStreamId_nonneg {pass : AssignByDependencyPass} {σ : SubgraphHeap} {x : Nat}
    (h : ∀ k v, mapFind pass.engine_next_streams_ k = some v → 0 ≤ v) :
    0 ≤ newStreamId pass σ x := by
  unfold newStreamId
  cases hf : mapFind pass.engine_next_streams_ (σ x).engine_conf.id with
  | some v =>
    simp only
    split
    · exact le_refl _
    · exact h _ _ hf
  | none =>
    simp only
    split <;> exact le_refl _

theorem assignNew_num_ge (pass : AssignByDependencyPass) (σ : SubgraphHeap) (x : Nat) (k : String) :
    mapGet pass.engine_stream_num_ k ≤ mapGet (AssignNewStream.pass pass σ x).engine_stream_num_ k := by
  unfold AssignNewStream.pass
  simp only
  split
  · next hgt =>
    rw [mapGet_mapSet]
    split
    · next e => subst e; rw [mapGet_mapTouch] at hgt; omega
    · rw [mapGet_mapTouch]
  · rw [mapGet_mapTouch]

theorem assignNew_num_gt (pass : AssignByDependencyPass) (σ : SubgraphHeap) (x : Nat) :
    newStreamId pass σ x < mapGet (AssignNewStream.pass pass σ x).engine_stream_num_ (σ x).engine_conf.id := by
  unfold AssignNewStream.pass
  simp only
  split
  · rw [mapGet_mapSet]; simp
  · next hgt => omega

theorem assignNew_num_sorted {pass : AssignByDependencyPass} (σ : SubgraphHeap) (x : Nat)
    (h : KeySorted pass.engine_stream_num_) :
    KeySorted (AssignNewStream.pass pass σ x).engine_stream_num_ := by
  unfold AssignNewStream.pass
  simp only
  split
  · exact (h.sorted_mapTouch _).sorted_mapSet _ _
  · exact h.sorted_mapTouch _

theorem mem_mapTouch {m : List (String × Int)} {k : String} {x : String × Int}
    (h : x ∈ mapTouch m k) : x = (k, 0) ∨ x ∈ m := by
  unfold mapTouch at h
  cases hf : mapFind m k with
  | some v => rw [hf] at h; exact Or.inr h
  | none => rw [hf] at h; exact mem_mapSet h

theorem assignNew_num_pos {pass : AssignByDependencyPass} (σ : SubgraphHeap) (x : Nat)
    (hn : ∀ k v, mapFind pass.engine_next_streams_ k = some v → 0 ≤ v)
    (h : ∀ y, y ∈ pass.engine_stream_num_ → 0 ≤ y.2) :
    ∀ y, y ∈ (AssignNewStream.pass pass σ x).engine_stream_num_ → 0 ≤ y.2 := by
  have hv := newStreamId_nonneg (σ := σ) (x := x) hn
  unfold AssignNewStream.pass
  simp only
  intro y hy
  split at hy
  · rcases mem_mapSet hy with hy | hy
    · subst hy; simp only; omega
    · rcases mem_mapTouch hy with hy | hy
      · subst hy; simp
      · exact h y hy
  · rcases mem_mapTouch hy with hy | hy
    · subst hy; simp
    · exact h y hy

@[simp] theorem assignNew_reused_list (pass : AssignByDependencyPass) (σ : SubgraphHeap) (x : Nat) :
    (AssignNewStream.pass pass σ x).reused_subgraphs_ = pass.reused_subgraphs_ := rfl

@[simp] theorem assignNew_assigned (pass : AssignByDependencyPass) (σ : SubgraphHeap) (x : Nat) :
    (AssignNewStream.pass pass σ x).assigned_subgraphs_ = setInsert x pass.assigned_subgraphs_ := rfl

@[simp] theorem assignNew_next (pass : AssignByDependencyPass) (σ : SubgraphHeap) (x : Nat) :
    (AssignNewStream.pass pass σ x).engine_next_streams_ =
      mapSet pass.engine_next_streams_ (σ x).engine_conf.id (newStreamId pass σ x + 1) := rfl

theorem DepCore.core_init (σ0 : SubgraphHeap) :
    DepCore σ0 { σ := σ0, pass := AssignByDependencyPass.new, changed := false } where
  static := fun i => SameStatic.rfl_static _
  entry := fun i _ => rfl
  untouched := fun i _ => rfl
  assignedFresh := by intro i h; simp [AssignByDependencyPass.new] at h
  slot := by intro i h; simp [AssignByDependencyPass.new] at h
  curFresh := by intro c r h; simp [AssignByDependencyPass.new] at h
  link := by intro c r h; simp [AssignByDependencyPass.new] at h
  linkOnly := by intro i r h; exact Or.inr h
  nextPos := by intro k v h; simp [AssignByDependencyPass.new, mapFind] at h
  numSorted := by simp [AssignByDependencyPass.new, KeySorted]
  numPos := by intro x h; simp [AssignByDependencyPass.new] at h
  assignedSorted := by simp [AssignByDependencyPass.new]
  unchanged := fun _ => ⟨rfl, rfl⟩
  origin := fun i hi => Or.inl hi

theorem DepCore.core_assignNew {σ0 : SubgraphHeap} {st : DepState} (h : DepCore σ0 st) (x : Nat)
    (hx : (st.σ x).stream_id = kInvalidStream) : DepCore σ0 (st.assignNew x) := by
  have hv := newStreamId_nonneg (σ := st.σ) (x := x) h.nextPos
  have hxe : (st.σ x).engine_conf.id = engineOf σ0 x := by
    have := (h.static x).2.2.1
    simp [engineOf, this]
  have hne : ∀ i, (σ0 i).stream_id ≠ kInvalidStream → i ≠ x := by
    intro i hi e; subst e
    rw [h.entry i hi] at hx; exact hi hx
  exact
    { static := fun i => (SameStatic.static_setStream _ _ _ _).trans_static (h.static i)
      entry := by
        intro i hi
        show setStreamId st.σ x _ i = σ0 i
        rw [setStreamId_other _ _ _ _ (hne i hi)]
        exact h.entry i hi
      untouched := by
        intro i hi
        have hix : i ≠ x := by
          intro e; subst e
          have : (setStreamId st.σ i (newStreamId st.pass st.σ i) i).stream_id = kInvalidStream := hi
          rw [setStreamId_stream_same] at this
          rw [this] at hv; simp [kInvalidStream] at hv
        have hi' : (setStreamId st.σ x (newStreamId st.pass st.σ x) i).stream_id = kInvalidStream := hi
        show setStreamId st.σ x _ i = σ0 i
        rw [setStreamId_other _ _ _ _ hix] at hi' ⊢
        exact h.untouched i hi'
      assignedFresh := by
        intro i hi
        rcases mem_setInsert.mp hi with hi | hi
        · subst hi
          rw [← h.untouched i hx]; exact hx
        · exact h.assignedFresh i hi
      slot := by
        intro i hi
        show 0 ≤ (setStreamId st.σ x _ i).stream_id ∧ (setStreamId st.σ x _ i).stream_id < _
        rw [setStreamId_stream]
        by_cases hix : i = x
        · subst hix
          simp only [if_true]
          refine ⟨hv, ?_⟩
          have := assignNew_num_gt st.pass st.σ i
          rw [hxe] at this
          exact this
        · simp only [hix, if_false]
          rcases mem_setInsert.mp hi with hi | hi
          · exact absurd hi hix
          · have := h.slot i hi
            refine ⟨this.1, lt_of_lt_of_le this.2 ?_⟩
            exact assignNew_num_ge _ _ _ _
      curFresh := h.curFresh
      link := by
        intro c r hc
        have := h.link c r hc
        have hcx : c ≠ x := by
          intro e; subst e; exact this.2 hx
        show (setStreamId st.σ x _ c).reused_subgraph = some r ∧ (setStreamId st.σ x _ c).stream_id ≠ _
        rw [setStreamId_other _ _ _ _ hcx]
        exact this
      linkOnly := by
        intro i r hi
        have hi' : (setStreamId st.σ x (newStreamId st.pass st.σ x) i).reused_subgraph = some r := hi
        rw [setStreamId_reused] at hi'
        exact h.linkOnly i r hi'
      nextPos := by
        intro k v hk
        have hk' : mapFind (mapSet st.pass.engine_next_streams_ (st.σ x).engine_conf.id
          (newStreamId st.pass st.σ x + 1)) k = some v := hk
        rw [mapFind_mapSet] at hk'
        split at hk'
        · simp only [Option.some.injEq] at hk'; omega
        · exact h.nextPos k v hk'
      numSorted := assignNew_num_sorted _ _ h.numSorted
      numPos := assignNew_num_pos _ _ h.nextPos h.numPos
      assignedSorted := setInsert_sorted h.assignedSorted
      unchanged := by intro hc; simp [DepState.assignNew] at hc
      origin := by
        intro i hi
        have hi' : (setStreamId st.σ x (newStreamId st.pass st.σ x) i).stream_id ≠ kInvalidStream := hi
        rw [setStreamId_stream] at hi'
        by_cases hix : i = x
        · right; left; exact mem_setInsert.mpr (Or.inl hix)
        · simp only [hix, if_false] at hi'
          rcases h.origin i hi' with h1 | h1 | h1
          · exact Or.inl h1
          · right; left; exact mem_setInsert.mpr (Or.inr h1)
          · right; right; exact h1 }

theorem DepCore.core_link {σ0 : SubgraphHeap} {st : DepState} (h : DepCore σ0 st) (s r : Nat) (v : Int)
    (hs0 : (σ0 s).stream_id = kInvalidStream) (hv : v ≠ kInvalidStream)
    (hsa : s ∈ st.pass.assigned_subgraphs_ → v = (st.σ s).stream_id)
    (hnc : ∀ r', (s, r') ∉ st.pass.reused_subgraphs_) : DepCore σ0 (st.link s v r) := by
  exact
    { static := fun i =>
        ((SameStatic.static_setReused _ _ _ _).trans_static (SameStatic.static_setStream _ _ _ _)).trans_static (h.static i)
      entry := by
        intro i hi
        have his : i ≠ s := by intro e; subst e; exact hi hs0
        show setReused (setStreamId st.σ s v) s (some r) i = σ0 i
        rw [setReused_other _ _ _ _ his, setStreamId_other _ _ _ _ his]
        exact h.entry i hi
      untouched := by
        intro i hi
        have hi' : (setReused (setStreamId st.σ s v) s (some r) i).stream_id = kInvalidStream := hi
        rw [setReused_stream, setStreamId_stream] at hi'
        have his : i ≠ s := by
          intro e; subst e; simp only [if_true] at hi'; exact hv hi'
        simp only [his, if_false] at hi'
        show setReused (setStreamId st.σ s v) s (some r) i = σ0 i
        rw [setReused_other _ _ _ _ his, setStreamId_other _ _ _ _ his]
        exact h.untouched i hi'
      assignedFresh := h.assignedFresh
      slot := by
        intro i hi
        have := h.slot i hi
        show 0 ≤ (setReused (setStreamId st.σ s v) s (some r) i).stream_id ∧
          (setReused (setStreamId st.σ s v) s (some r) i).stream_id < _
        rw [setReused_stream, setStreamId_stream]
        by_cases his : i = s
        · subst his; simp only [if_true]; rw [hsa hi]; exact this
        · simp only [his, if_false]; exact this
      curFresh := by
        intro c r' hc
        have hc' : (c, r') ∈ st.pass.reused_subgraphs_ ++ [(s, r)] := hc
        simp only [List.mem_append, List.mem_singleton, Prod.mk.injEq] at hc'
        rcases hc' with hc' | ⟨e1, _⟩
        · exact h.curFresh c r' hc'
        · subst e1; exact hs0
      link := by
        intro c r' hc
        have hc' : (c, r') ∈ st.pass.reused_subgraphs_ ++ [(s, r)] := hc
        simp only [List.mem_append, List.mem_singleton, Prod.mk.injEq] at hc'
        show (setReused (setStreamId st.σ s v) s (some r) c).reused_subgraph = some r' ∧
          (setReused (setStreamId st.σ s v) s (some r) c).stream_id ≠ _
        rw [setReused_stream, setStreamId_stream, setReused_reused, setStreamId_reused]
        rcases hc' with hc' | ⟨e1, e2⟩
        · have hcs : c ≠ s := by intro e; subst e; exact hnc r' hc'
          simp only [hcs, if_false]
          exact h.link c r' hc'
        · subst e1; subst e2; simp only [if_true]; exact ⟨trivial, hv⟩
      linkOnly := by
        intro i r' hi
        have hi' : (setReused (setStreamId st.σ s v) s (some r) i).reused_subgraph = some r' := hi
        rw [setReused_reused, setStreamId_reused] at hi'
        show (i, r') ∈ st.pass.reused_subgraphs_ ++ [(s, r)] ∨ _
        by_cases his : i = s
        · subst his; simp only [if_true, Option.some.injEq] at hi'; subst hi'
          left; simp
        · simp only [his, if_false] at hi'
          rcases h.linkOnly i r' hi' with h1 | h1
          · left; simp [h1]
          · right; exact h1
      nextPos := h.nextPos
      numSorted := h.numSorted
      numPos := h.numPos
      assignedSorted := h.assignedSorted
      unchanged := by intro hc; simp [DepState.link] at hc
      origin := by
        intro i hi
        have hi' : (setReused (setStreamId st.σ s v) s (some r) i).stream_id ≠ kInvalidStream := hi
        rw [setReused_stream, setStreamId_stream] at hi'
        show _ ∨ _ ∨ ∃ r', (i, r') ∈ st.pass.reused_subgraphs_ ++ [(s, r)]
        by_cases his : i = s
        · right; right; exact ⟨r, by simp [his]⟩
        · simp only [his, if_false] at hi'
          rcases h.origin i hi' with h1 | h1 | ⟨r', h1⟩
          · exact Or.inl h1
          · right; left; exact h1
          · right; right; exact ⟨r', by simp [h1]⟩ }

/-! ## `AssignByDependencyPass`: the loop body -/

theorem rootOf_setStreamId (σ : SubgraphHeap) (s q : Nat) (v : Int) :
    rootOf (setStreamId σ s v) q = rootOf σ q := by
  simp [rootOf]

theorem reuse_eq (st : DepState) (s q : Nat) :
    AssignByDependencyPass.reuse st s q =
      if HasAssignedStream (st.σ q) then st.link s (st.σ q).stream_id (rootOf st.σ q)
      else (st.assignNew q).link s (newStreamId st.pass st.σ q) (rootOf st.σ q) := by
  unfold AssignByDependencyPass.reuse
  by_cases h : HasAssignedStream (st.σ q) = true
  · simp only [h, if_true, DepState.link, rootOf, setStreamId_reused]
  · simp only [h, if_false, DepState.link, DepState.assignNew, AssignNewStream.heap, rootOf,
      setStreamId_reused, Bool.false_eq_true]

theorem hasAssigned_iff (a : Subgraph) : HasAssignedStream a = true ↔ a.stream_id ≠ kInvalidStream := by
  simp [HasAssignedStream]

theorem assignNew_stable (st : DepState) (x i : Nat)
    (hn : ∀ k v, mapFind st.pass.engine_next_streams_ k = some v → 0 ≤ v)
    (h : (st.σ i).stream_id ≠ kInvalidStream) :
    ((st.assignNew x).σ i).stream_id ≠ kInvalidStream := by
  show (setStreamId st.σ x _ i).stream_id ≠ _
  rw [setStreamId_stream]
  split
  · have := newStreamId_nonneg (σ := st.σ) (x := x) hn
    intro e; rw [e] at this; simp [kInvalidStream] at this
  · exact h

theorem assignNew_self (st : DepState) (x : Nat)
    (hn : ∀ k v, mapFind st.pass.engine_next_streams_ k = some v → 0 ≤ v) :
    ((st.assignNew x).σ x).stream_id ≠ kInvalidStream := by
  show (setStreamId st.σ x _ x).stream_id ≠ _
  rw [setStreamId_stream_same]
  have := newStreamId_nonneg (σ := st.σ) (x := x) hn
  intro e; rw [e] at this; simp [kInvalidStream] at this

theorem link_stable (st : DepState) (s r i : Nat) (v : Int) (hv : v ≠ kInvalidStream)
    (h : (st.σ i).stream_id ≠ kInvalidStream) :
    ((st.link s v r).σ i).stream_id ≠ kInvalidStream := by
  show (setReused (setStreamId st.σ s v) s (some r) i).stream_id ≠ _
  rw [setReused_stream, setStreamId_stream]
  split
  · exact hv
  · exact h

theorem link_self (st : DepState) (s r : Nat) (v : Int) (hv : v ≠ kInvalidStream) :
    ((st.link s v r).σ s).stream_id ≠ kInvalidStream := by
  show (setReused (setStreamId st.σ s v) s (some r) s).stream_id ≠ _
  rw [setReused_stream, setStreamId_stream]
  simpa using hv

/-- What the loop body of `AssignByDependencyPass::Run` does, as one of four cases. -/
theorem step_cases (E P : List (Nat × Nat)) (st : DepState) (s : Nat) :
    ((st.σ s).stream_id ≠ kInvalidStream ∧ AssignByDependencyPass.step E P st s = st) ∨
    ((st.σ s).stream_id = kInvalidStream ∧ GetReusableSubgraph st.σ s E P = none ∧
      AssignByDependencyPass.step E P st s = st.assignNew s) ∨
    (∃ q, (st.σ s).stream_id = kInvalidStream ∧ GetReusableSubgraph st.σ s E P = some q ∧
      (st.σ q).stream_id ≠ kInvalidStream ∧
      AssignByDependencyPass.step E P st s = st.link s (st.σ q).stream_id (rootOf st.σ q)) ∨
    (∃ q, (st.σ s).stream_id = kInvalidStream ∧ GetReusableSubgraph st.σ s E P = some q ∧
      (st.σ q).stream_id = kInvalidStream ∧
      AssignByDependencyPass.step E P st s =
        (st.assignNew q).link s (newStreamId st.pass st.σ q) (rootOf st.σ q)) := by
  unfold AssignByDependencyPass.step
  by_cases h : HasAssignedStream (st.σ s) = true
  · left
    simp only [h, if_true]
    exact ⟨(hasAssigned_iff _).mp h, trivial⟩
  · right
    have hs : (st.σ s).stream_id = kInvalidStream := by
      by_contra hne; exact h ((hasAssigned_iff _).mpr hne)
    simp only [h, if_false]
    cases hq : GetReusableSubgraph st.σ s E P with
    | none => left; exact ⟨hs, rfl, rfl⟩
    | some q =>
      right
      simp only [reuse_eq]
      by_cases hqa : HasAssignedStream (st.σ q) = true
      · left
        refine ⟨q, hs, rfl, (hasAssigned_iff _).mp hqa, ?_⟩
        simp [hqa]
      · right
        have hq' : (st.σ q).stream_id = kInvalidStream := by
          by_contra hne; exact hqa ((hasAssigned_iff _).mpr hne)
        refine ⟨q, hs, rfl, hq', ?_⟩
        simp [hqa]

theorem DepCore.not_assigned_of_invalid {σ0 : SubgraphHeap} {st : DepState} (h : DepCore σ0 st)
    {s : Nat} (hs : (st.σ s).stream_id = kInvalidStream) : s ∉ st.pass.assigned_subgraphs_ := by
  intro hmem
  have := (h.slot s hmem).1
  rw [hs] at this; simp [kInvalidStream] at this

theorem DepCore.not_cur_of_invalid {σ0 : SubgraphHeap} {st : DepState} (h : DepCore σ0 st)
    {s : Nat} (hs : (st.σ s).stream_id = kInvalidStream) (r : Nat) :
    (s, r) ∉ st.pass.reused_subgraphs_ := by
  intro hmem
  exact (h.link s r hmem).2 hs

theorem DepCore.entry_invalid {σ0 : SubgraphHeap} {st : DepState} (h : DepCore σ0 st)
    {s : Nat} (hs : (st.σ s).stream_id = kInvalidStream) : (σ0 s).stream_id = kInvalidStream := by
  rw [← h.untouched s hs]; exact hs

theorem newStreamId_ne_invalid {σ0 : SubgraphHeap} {st : DepState} (h : DepCore σ0 st) (q : Nat) :
    newStreamId st.pass st.σ q ≠ kInvalidStream := by
  have := newStreamId_nonneg (σ := st.σ) (x := q) h.nextPos
  intro e; rw [e] at this; simp [kInvalidStream] at this

theorem DepCore.core_step {σ0 : SubgraphHeap} {st : DepState} (h : DepCore σ0 st)
    (E P : List (Nat × Nat)) (s : Nat) : DepCore σ0 (AssignByDependencyPass.step E P st s) := by
  rcases step_cases E P st s with ⟨_, e⟩ | ⟨hs, _, e⟩ | ⟨q, hs, _, hq, e⟩ | ⟨q, hs, _, hq, e⟩
  · rw [e]; exact h
  · rw [e]; exact h.core_assignNew s hs
  · rw [e]
    exact h.core_link s _ _ (h.entry_invalid hs) hq
      (fun hm => absurd hm (h.not_assigned_of_invalid hs)) (h.not_cur_of_invalid hs)
  · rw [e]
    have h1 := h.core_assignNew q hq
    refine h1.core_link s _ _ (h.entry_invalid hs) (newStreamId_ne_invalid h q) ?_ ?_
    · intro hm
      rcases mem_setInsert.mp hm with hm | hm
      · subst hm
        show _ = (setStreamId st.σ s _ s).stream_id
        rw [setStreamId_stream_same]
      · exact absurd hm (h.not_assigned_of_invalid hs)
    · exact h.not_cur_of_invalid hs

theorem DepInv.inv_init (σ0 : SubgraphHeap) :
    DepInv σ0 [] { σ := σ0, pass := AssignByDependencyPass.new, changed := false } where
  core := DepCore.core_init σ0
  doneAssigned := by intro i h; simp at h
  changedIff := by simp

theorem DepInv.inv_step {σ0 : SubgraphHeap} {done : List Nat} {st : DepState}
    (h : DepInv σ0 done st) (E P : List (Nat × Nat)) (s : Nat) :
    DepInv σ0 (done ++ [s]) (AssignByDependencyPass.step E P st s) := by
  have hc := h.core.core_step E P s
  refine ⟨hc, ?_, ?_⟩
  · intro i hi
    simp only [List.mem_append, List.mem_singleton] at hi
    rcases step_cases E P st s with ⟨hs, e⟩ | ⟨hs, _, e⟩ | ⟨q, hs, _, hq, e⟩ | ⟨q, hs, _, hq, e⟩
    · rw [e]
      rcases hi with hi | hi
      · exact h.doneAssigned i hi
      · subst hi; exact hs
    · rw [e]
      rcases hi with hi | hi
      · exact assignNew_stable _ _ _ h.core.nextPos (h.doneAssigned i hi)
      · subst hi; exact assignNew_self _ _ h.core.nextPos
    · rw [e]
      rcases hi with hi | hi
      · exact link_stable _ _ _ _ _ hq (h.doneAssigned i hi)
      · subst hi; exact link_self _ _ _ _ hq
    · rw [e]
      rcases hi with hi | hi
      · exact link_stable _ _ _ _ _ (newStreamId_ne_invalid h.core q)
          (assignNew_stable _ _ _ h.core.nextPos (h.doneAssigned i hi))
      · subst hi; exact link_self _ _ _ _ (newStreamId_ne_invalid h.core q)
  · rcases step_cases E P st s with ⟨hs, e⟩ | ⟨hs, _, e⟩ | ⟨q, hs, _, hq, e⟩ | ⟨q, hs, _, hq, e⟩
    · rw [e, h.changedIff]
      constructor
      · rintro ⟨i, hi, h0⟩; exact ⟨i, by simp [hi], h0⟩
      · rintro ⟨i, hi, h0⟩
        simp only [List.mem_append, List.mem_singleton] at hi
        rcases hi with hi | hi
        · exact ⟨i, hi, h0⟩
        · subst hi
          by_contra hno
          have hch : st.changed = false := by
            cases hb : st.changed with
            | false => rfl
            | true => exact absurd (h.changedIff.mp hb) hno
          have := (h.core.unchanged hch).1
          rw [this] at hs
          exact hs h0
    · rw [e]
      simp only [DepState.assignNew, true_iff]
      exact ⟨s, by simp, h.core.entry_invalid hs⟩
    · rw [e]
      simp only [DepState.link, true_iff]
      exact ⟨s, by simp, h.core.entry_invalid hs⟩
    · rw [e]
      simp only [DepState.link, true_iff]
      exact ⟨s, by simp, h.core.entry_invalid hs⟩

theorem DepInv.inv_loop (σ0 : SubgraphHeap) (subgraphs : List Nat) :
    DepInv σ0 subgraphs (AssignByDependencyPass.loop subgraphs σ0) := by
  unfold AssignByDependencyPass.loop
  have := foldl_invariant
    (AssignByDependencyPass.step (InitEndSubgraphMap subgraphs σ0) (InitPldSubgraphMap subgraphs σ0))
    (DepInv σ0) subgraphs [] _ (DepInv.inv_init σ0) (fun d b a hb => hb.inv_step _ _ a)
  simpa using this

/-! ## The boundary maps and `GetReusableSubgraph` -/

theorem foldl_invariant_mem {α β : Type} (f : β → α → β) (P : List α → β → Prop) (L : List α) :
    ∀ (l done : List α) (b : β), (∀ a, a ∈ l → a ∈ L) → P done b →
      (∀ d b a, a ∈ L → P d b → P (d ++ [a]) (f b a)) → P (done ++ l) (l.foldl f b) := by
  intro l
  induction l with
  | nil => intro done b _ h _; simpa using h
  | cons a rest ih =>
    intro done b hl h hstep
    have := ih (done ++ [a]) (f b a) (fun x hx => hl x (by simp [hx]))
      (hstep done b a (hl a (by simp)) h) hstep
    simpa using this

theorem mapFind_emplace_fold (l : List (Nat × Nat)) (s : Nat) (m0 : List (Nat × Nat)) (e : Nat) :
    mapFind (l.foldl (fun m item => mapEmplace m item.1 s) m0) e =
      (mapFind m0 e).orElse (fun _ => if e ∈ l.map Prod.fst then some s else none) := by
  induction l generalizing m0 with
  | nil => cases h : mapFind m0 e <;> simp [Option.orElse, h]
  | cons x rest ih =>
    simp only [List.foldl_cons, ih, mapFind_mapEmplace, List.map_cons, List.mem_cons]
    cases h : mapFind m0 e with
    | some w => simp [Option.orElse]
    | none =>
      simp only [Option.orElse]
      by_cases hx : e = x.1
      · simp [hx]
      · simp only [hx, if_false, false_or]

/-- The owner of a boundary node in a map built by `InitEndSubgraphMap` or
`InitPldSubgraphMap`: the first subgraph of the vector that has the node as a key. -/
theorem mapFind_init_fold (f : Subgraph → List (Nat × Nat)) (σ : SubgraphHeap) (ptrs : List Nat)
    (m0 : List (Nat × Nat)) (e : Nat) :
    mapFind (ptrs.foldl (fun m subgraph =>
        (f (σ subgraph)).foldl (fun m item => mapEmplace m item.1 subgraph) m) m0) e =
      (mapFind m0 e).orElse
        (fun _ => ptrs.find? (fun s => decide (e ∈ (f (σ s)).map Prod.fst))) := by
  induction ptrs generalizing m0 with
  | nil => cases h : mapFind m0 e <;> simp [Option.orElse, h]
  | cons x rest ih =>
    simp only [List.foldl_cons, ih, mapFind_emplace_fold, List.find?_cons]
    cases h : mapFind m0 e with
    | some w => simp [Option.orElse]
    | none =>
      simp only [Option.orElse]
      by_cases hx : e ∈ (f (σ x)).map Prod.fst
      · simp [hx]
      · simp [hx]

theorem mapFind_InitEndSubgraphMap (ptrs : List Nat) (σ : SubgraphHeap) (e : Nat) :
    mapFind (InitEndSubgraphMap ptrs σ) e =
      ptrs.find? (fun s => decide (e ∈ (σ s).subgraph_info.end2pld.map Prod.fst)) := by
  unfold InitEndSubgraphMap
  rw [mapFind_init_fold (fun a => a.subgraph_info.end2pld)]
  simp [mapFind, Option.orElse]

theorem mapFind_InitPldSubgraphMap (ptrs : List Nat) (σ : SubgraphHeap) (e : Nat) :
    mapFind (InitPldSubgraphMap ptrs σ) e =
      ptrs.find? (fun s => decide (e ∈ (σ s).subgraph_info.pld2end.map Prod.fst)) := by
  unfold InitPldSubgraphMap
  rw [mapFind_init_fold (fun a => a.subgraph_info.pld2end)]
  simp [mapFind, Option.orElse]

theorem mem_of_InitEndSubgraphMap {ptrs : List Nat} {σ : SubgraphHeap} {e q : Nat}
    (h : mapFind (InitEndSubgraphMap ptrs σ) e = some q) : q ∈ ptrs := by
  rw [mapFind_InitEndSubgraphMap] at h
  exact List.mem_of_find?_eq_some h

theorem GetReusableSubgraph_some {σ : SubgraphHeap} {s q : Nat} {E P : List (Nat × Nat)}
    (h : GetReusableSubgraph σ s E P = some q) :
    ∃ pe, pe ∈ (σ s).subgraph_info.pld2end ∧ mapFind E pe.2 = some q ∧
      CouldReuse σ (some s) (some q) P = true := by
  unfold GetReusableSubgraph at h
  obtain ⟨pe, hpe, hf⟩ := List.exists_of_findSome?_eq_some h
  refine ⟨pe, hpe, ?_⟩
  cases hm : mapFind E pe.2 with
  | none => rw [hm] at hf; simp at hf
  | some p =>
    rw [hm] at hf
    simp only at hf
    split at hf
    · next hc =>
      simp only [Option.some.injEq] at hf
      subst hf
      exact ⟨rfl, hc⟩
    · simp at hf

/-! ## `AssignByDependencyPass`: the recorded links -/

theorem DepLink.link_init (σ0 : SubgraphHeap) (ptrs : List Nat) :
    DepLink σ0 ptrs { σ := σ0, pass := AssignByDependencyPass.new, changed := false } where
  rootOk := by intro c r h; simp [AssignByDependencyPass.new] at h
  inPtrs := by intro c r h; simp [AssignByDependencyPass.new] at h
  assignedIn := by intro i h; simp [AssignByDependencyPass.new] at h
  rootLink := by intro c r h; simp [AssignByDependencyPass.new] at h

theorem DepLink.link_assignNew {σ0 : SubgraphHeap} {ptrs : List Nat} {st : DepState}
    (hc : DepCore σ0 st) (h : DepLink σ0 ptrs st) (x : Nat) (hx : x ∈ ptrs)
    (hxs : (st.σ x).stream_id = kInvalidStream) : DepLink σ0 ptrs (st.assignNew x) where
  rootOk := by
    intro c r hcr
    have hcr' : (c, r) ∈ st.pass.reused_subgraphs_ := hcr
    have := h.rootOk c r hcr'
    refine ⟨?_, ?_⟩
    · rcases this.1 with h1 | h1
      · left; exact mem_setInsert.mpr (Or.inr h1)
      · right; exact h1
    · intro hm
      rcases mem_setInsert.mp hm with hm | hm
      · subst hm; exact absurd hcr' (hc.not_cur_of_invalid hxs r)
      · exact this.2 hm
  inPtrs := fun c r hcr => h.inPtrs c r hcr
  assignedIn := by
    intro i hi
    rcases mem_setInsert.mp hi with hi | hi
    · subst hi; exact hx
    · exact h.assignedIn i hi
  rootLink := by
    intro c r hcr
    have hcr' : (c, r) ∈ st.pass.reused_subgraphs_ := hcr
    show (setStreamId st.σ x _ r).reused_subgraph = none ∨ _
    rw [setStreamId_reused]
    exact h.rootLink c r hcr'

theorem DepLink.link_link {σ0 : SubgraphHeap} {ptrs : List Nat} {st : DepState}
    (h : DepLink σ0 ptrs st) (s r : Nat) (v : Int)
    (hs : s ∈ ptrs) (hr : r ∈ ptrs) (hs0 : (σ0 s).stream_id = kInvalidStream)
    (hro : r ∈ st.pass.assigned_subgraphs_ ∨ (σ0 r).stream_id ≠ kInvalidStream)
    (hsa : s ∈ st.pass.assigned_subgraphs_ → s = r)
    (hrl : r = s ∨ (st.σ r).reused_subgraph = none ∨ (r, r) ∈ st.pass.reused_subgraphs_) :
    DepLink σ0 ptrs (st.link s v r) where
  rootOk := by
    intro c r' hcr
    have hcr' : (c, r') ∈ st.pass.reused_subgraphs_ ++ [(s, r)] := hcr
    simp only [List.mem_append, List.mem_singleton, Prod.mk.injEq] at hcr'
    rcases hcr' with hcr' | ⟨e1, e2⟩
    · exact h.rootOk c r' hcr'
    · subst e1; subst e2; exact ⟨hro, hsa⟩
  inPtrs := by
    intro c r' hcr
    have hcr' : (c, r') ∈ st.pass.reused_subgraphs_ ++ [(s, r)] := hcr
    simp only [List.mem_append, List.mem_singleton, Prod.mk.injEq] at hcr'
    rcases hcr' with hcr' | ⟨e1, e2⟩
    · exact h.inPtrs c r' hcr'
    · subst e1; subst e2; exact ⟨hs, hr⟩
  assignedIn := h.assignedIn
  rootLink := by
    intro c r' hcr
    have hcr' : (c, r') ∈ st.pass.reused_subgraphs_ ++ [(s, r)] := hcr
    simp only [List.mem_append, List.mem_singleton, Prod.mk.injEq] at hcr'
    show (setReused (setStreamId st.σ s v) s (some r) r').reused_subgraph = none ∨
      (r', r') ∈ st.pass.reused_subgraphs_ ++ [(s, r)]
    rw [setReused_reused, setStreamId_reused]
    by_cases hrs : r' = s
    · -- the target is the subgraph just linked: it owns a stream, so it is linked to itself
      right
      subst hrs
      have hself : r' = r := by
        rcases hcr' with hcr' | ⟨_, e2⟩
        · rcases (h.rootOk c r' hcr').1 with h1 | h1
          · exact hsa h1
          · exact absurd hs0 h1
        · exact e2
      subst hself
      simp
    · simp only [hrs, if_false]
      rcases hcr' with hcr' | ⟨_, e2⟩
      · rcases h.rootLink c r' hcr' with h1 | h1
        · exact Or.inl h1
        · right; simp [h1]
      · subst e2
        rcases hrl with h1 | h1 | h1
        · exact absurd h1 hrs
        · exact Or.inl h1
        · right; simp [h1]

theorem DepLink.link_step {σ0 : SubgraphHeap} {ptrs : List Nat} {st : DepState}
    (hc : DepCore σ0 st) (h : DepLink σ0 ptrs st) (E P : List (Nat × Nat)) (s : Nat)
    (h0 : ∀ i, i ∈ ptrs → (σ0 i).reused_subgraph = none)
    (hE : ∀ e q, mapFind E e = some q → q ∈ ptrs) (hs : s ∈ ptrs) :
    DepLink σ0 ptrs (AssignByDependencyPass.step E P st s) := by
  -- the links of the subgraphs of the vector are those the pass recorded
  have hlinks : ∀ i r, i ∈ ptrs → (st.σ i).reused_subgraph = some r →
      (i, r) ∈ st.pass.reused_subgraphs_ := by
    intro i r hi hir
    rcases hc.linkOnly i r hir with h1 | h1
    · exact h1
    · rw [h0 i hi] at h1; simp at h1
  rcases step_cases E P st s with ⟨_, e⟩ | ⟨hsi, _, e⟩ | ⟨q, hsi, hq, hqa, e⟩ | ⟨q, hsi, hq, hqa, e⟩
  · rw [e]; exact h
  · rw [e]; exact h.link_assignNew hc s hs hsi
  · rw [e]
    obtain ⟨pe, _, hpe, _⟩ := GetReusableSubgraph_some hq
    have hqp : q ∈ ptrs := hE _ _ hpe
    have hs0 := hc.entry_invalid hsi
    have hsna := hc.not_assigned_of_invalid hsi
    cases hrq : (st.σ q).reused_subgraph with
    | some r =>
      have hroot : rootOf st.σ q = r := by simp [rootOf, hrq]
      rw [hroot]
      have hqr := hlinks q r hqp hrq
      refine h.link_link s r _ hs (h.inPtrs q r hqr).2 hs0 (h.rootOk q r hqr).1
        (fun hm => absurd hm hsna) ?_
      right; exact h.rootLink q r hqr
    | none =>
      have hroot : rootOf st.σ q = q := by simp [rootOf, hrq]
      rw [hroot]
      refine h.link_link s q _ hs hqp hs0 ?_ (fun hm => absurd hm hsna) (Or.inr (Or.inl hrq))
      rcases hc.origin q hqa with h1 | h1 | ⟨r, h1⟩
      · exact Or.inr h1
      · exact Or.inl h1
      · have := (hc.link q r h1).1
        rw [hrq] at this; simp at this
  · rw [e]
    obtain ⟨pe, _, hpe, _⟩ := GetReusableSubgraph_some hq
    have hqp : q ∈ ptrs := hE _ _ hpe
    have hs0 := hc.entry_invalid hsi
    have hsna := hc.not_assigned_of_invalid hsi
    have hrq : (st.σ q).reused_subgraph = none := by
      rw [hc.untouched q hqa]; exact h0 q hqp
    have hroot : rootOf st.σ q = q := by simp [rootOf, hrq]
    rw [hroot]
    have h1 := h.link_assignNew hc q hqp hqa
    refine h1.link_link s q _ hs hqp hs0 ?_ ?_ ?_
    · left; exact mem_setInsert.mpr (Or.inl rfl)
    · intro hm
      rcases mem_setInsert.mp hm with hm | hm
      · exact hm
      · exact absurd hm hsna
    · right; left
      show (setStreamId st.σ q _ q).reused_subgraph = none
      rw [setStreamId_reused]; exact hrq

/-- The loop invariants at the end of the loop of `AssignByDependencyPass::Run`. -/
theorem DepLink.link_loop (σ0 : SubgraphHeap) (subgraphs : List Nat)
    (h0 : ∀ i, i ∈ subgraphs → (σ0 i).reused_subgraph = none) :
    DepLink σ0 subgraphs (AssignByDependencyPass.loop subgraphs σ0) := by
  unfold AssignByDependencyPass.loop
  have := foldl_invariant_mem
    (AssignByDependencyPass.step (InitEndSubgraphMap subgraphs σ0) (InitPldSubgraphMap subgraphs σ0))
    (fun d st => DepInv σ0 d st ∧ DepLink σ0 subgraphs st) subgraphs subgraphs [] _
    (fun a ha => ha) ⟨DepInv.inv_init σ0, DepLink.link_init σ0 subgraphs⟩
    (fun d b a ha hb => ⟨hb.1.inv_step _ _ a,
      hb.2.link_step hb.1.core _ _ a h0 (fun e q hq => mem_of_InitEndSubgraphMap hq) ha⟩)
  exact this.2

/-! ## `UpdateAssignedSubgraphs`: the start stream of every engine -/

theorem startFold_snd (m : List (String × Int)) (S : List (String × Int)) (n : Int) :
    (m.foldl (fun acc item => (mapSet acc.1 item.1 acc.2, acc.2 + item.2)) (S, n)).2 =
      n + sumAll m := by
  induction m generalizing S n with
  | nil => simp [sumAll]
  | cons x rest ih =>
    simp only [List.foldl_cons, ih, sumAll, List.map_cons, List.sum_cons]
    omega

theorem startFold_find_of_not_mem (m : List (String × Int)) (S : List (String × Int)) (n : Int)
    (k : String) (hk : ∀ x, x ∈ m → x.1 ≠ k) :
    mapFind (m.foldl (fun acc item => (mapSet acc.1 item.1 acc.2, acc.2 + item.2)) (S, n)).1 k =
      mapFind S k := by
  induction m generalizing S n with
  | nil => rfl
  | cons x rest ih =>
    simp only [List.foldl_cons]
    rw [ih _ _ (fun y hy => hk y (by simp [hy])), mapFind_mapSet]
    have := hk x (by simp)
    simp [Ne.symm this]

theorem sumBelow_cons (x : String × Int) (rest : List (String × Int)) (k : String) :
    sumBelow (x :: rest) k = (if keyLt x.1 k then x.2 else 0) + sumBelow rest k := by
  unfold sumBelow
  by_cases h : keyLt x.1 k
  · simp [List.filter_cons, h]
  · simp [List.filter_cons, h]

theorem sumBelow_eq_zero {m : List (String × Int)} {k : String}
    (h : ∀ x, x ∈ m → ¬ keyLt x.1 k) : sumBelow m k = 0 := by
  induction m with
  | nil => rfl
  | cons x rest ih =>
    rw [sumBelow_cons, ih (fun y hy => h y (by simp [hy]))]
    simp [h x (by simp)]

theorem startFold_find {m : List (String × Int)} (hs : KeySorted m) (S : List (String × Int))
    (n : Int) {k : String} {v : Int} (hk : (k, v) ∈ m) :
    mapFind (m.foldl (fun acc item => (mapSet acc.1 item.1 acc.2, acc.2 + item.2)) (S, n)).1 k =
      some (n + sumBelow m k) := by
  induction m generalizing S n with
  | nil => simp at hk
  | cons x rest ih =>
    unfold KeySorted at hs ih
    rw [List.pairwise_cons] at hs
    simp only [List.foldl_cons]
    simp only [List.mem_cons] at hk
    rcases hk with hk | hk
    · subst hk
      rw [startFold_find_of_not_mem, mapFind_mapSet]
      · have : sumBelow ((k, v) :: rest) k = 0 := by
          apply sumBelow_eq_zero
          intro y hy
          simp only [List.mem_cons] at hy
          rcases hy with hy | hy
          · subst hy; exact keyLt_irrefl _
          · exact keyLt_asymm (hs.1 y hy)
        simp [this]
      · intro y hy e
        have := hs.1 y hy
        simp only at this
        rw [e] at this
        exact keyLt_irrefl _ this
    · rw [ih hs.2 _ _ hk, sumBelow_cons]
      have := hs.1 (k, v) hk
      simp only at this
      simp only [this, if_true]
      congr 1; omega

theorem engineStartStreams_snd (m : List (String × Int)) (n : Int) :
    (engineStartStreams m n).2 = n + sumAll m := by
  unfold engineStartStreams; exact startFold_snd m [] n

theorem engineStartStreams_get {m : List (String × Int)} (hs : KeySorted m) (n : Int)
    {k : String} {v : Int} (hk : (k, v) ∈ m) :
    mapGet (engineStartStreams m n).1 k = n + sumBelow m k := by
  unfold engineStartStreams mapGet
  rw [startFold_find hs [] n hk]
  rfl

theorem sumBelow_nonneg {m : List (String × Int)} (hp : ∀ x, x ∈ m → 0 ≤ x.2) (k : String) :
    0 ≤ sumBelow m k := by
  induction m with
  | nil => simp [sumBelow]
  | cons x rest ih =>
    rw [sumBelow_cons]
    have := ih (fun y hy => hp y (by simp [hy]))
    have := hp x (by simp)
    split <;> omega

theorem sumAll_cons (x : String × Int) (rest : List (String × Int)) :
    sumAll (x :: rest) = x.2 + sumAll rest := by
  simp [sumAll]

theorem sumAll_nonneg {m : List (String × Int)} (hp : ∀ x, x ∈ m → 0 ≤ x.2) : 0 ≤ sumAll m := by
  induction m with
  | nil => simp [sumAll]
  | cons x rest ih =>
    rw [sumAll_cons]
    have := ih (fun y hy => hp y (by simp [hy]))
    have := hp x (by simp)
    omega

/-- The streams of an engine end below the total: the base offset of a key plus its high
water mark is at most the sum of all marks. -/
theorem sumBelow_add_le_sumAll {m : List (String × Int)} (hs : KeySorted m)
    (hp : ∀ x, x ∈ m → 0 ≤ x.2) {k : String} {v : Int} (hk : (k, v) ∈ m) :
    sumBelow m k + v ≤ sumAll m := by
  induction m with
  | nil => simp at hk
  | cons x rest ih =>
    unfold KeySorted at hs ih
    rw [List.pairwise_cons] at hs
    rw [sumBelow_cons, sumAll_cons]
    simp only [List.mem_cons] at hk
    have hrest := sumAll_nonneg (fun y hy => hp y (List.mem_cons_of_mem _ hy))
    rcases hk with hk | hk
    · subst hk
      have : sumBelow rest k = 0 := by
        apply sumBelow_eq_zero
        intro y hy
        exact keyLt_asymm (hs.1 y hy)
      simp only [this, keyLt_irrefl, if_false]
      omega
    · have := ih hs.2 (fun y hy => hp y (List.mem_cons_of_mem _ hy)) hk
      have := hp x (by simp)
      split <;> omega

/-- The streams of two engines do not overlap: the smaller key ends where or before the
larger one starts. -/
theorem sumBelow_disjoint {m : List (String × Int)} (hs : KeySorted m)
    (hp : ∀ x, x ∈ m → 0 ≤ x.2) {k k' : String} {v v' : Int} (hk : (k, v) ∈ m)
    (hk' : (k', v') ∈ m) (hlt : keyLt k k') : sumBelow m k + v ≤ sumBelow m k' := by
  induction m with
  | nil => simp at hk
  | cons x rest ih =>
    unfold KeySorted at hs ih
    rw [List.pairwise_cons] at hs
    rw [sumBelow_cons, sumBelow_cons]
    simp only [List.mem_cons] at hk hk'
    have hp' : ∀ y, y ∈ rest → 0 ≤ y.2 := fun y hy => hp y (List.mem_cons_of_mem _ hy)
    rcases hk with hk | hk
    · subst hk
      have h0 : sumBelow rest k = 0 := by
        apply sumBelow_eq_zero
        intro y hy
        exact keyLt_asymm (hs.1 y hy)
      have := sumBelow_nonneg hp' k'
      simp only [h0, keyLt_irrefl, if_false, hlt, if_true]
      omega
    · rcases hk' with hk' | hk'
      · subst hk'
        have := hs.1 (k, v) hk
        exact absurd hlt (keyLt_asymm this)
      · have := ih hs.2 hp' hk hk'
        have h1 : keyLt x.1 k := hs.1 (k, v) hk
        have h2 : keyLt x.1 k' := hs.1 (k', v') hk'
        simp only [h1, h2, if_true]
        omega

/-! ## `UpdateAssignedSubgraphs` and `UpdateReusedSubgraphs`: the two loops -/

theorem Subgraph.eq_of_same {a b : Subgraph} (h : SameButStream a b)
    (hs : a.stream_id = b.stream_id) : a = b := by
  obtain ⟨h1, h2, h3, h4, h5⟩ := h
  cases a; cases b; simp_all

theorem setStreamId_self (σ : SubgraphHeap) (s : Nat) :
    setStreamId σ s (σ s).stream_id = σ := by
  funext i
  unfold setStreamId
  split
  · next e => subst e; rfl
  · rfl

theorem updateAssigned_fold (g : String → Int) (l : List Nat) (hl : l.Nodup) (σ : SubgraphHeap)
    (i : Nat) :
    SameButStream
        ((l.foldl (fun σ s => setStreamId σ s ((σ s).stream_id + g (σ s).engine_conf.id)) σ) i)
        (σ i) ∧
      ((l.foldl (fun σ s => setStreamId σ s ((σ s).stream_id + g (σ s).engine_conf.id)) σ) i).stream_id
        = if i ∈ l then (σ i).stream_id + g (σ i).engine_conf.id else (σ i).stream_id := by
  induction l generalizing σ with
  | nil => exact ⟨SameButStream.rfl_same _, by simp⟩
  | cons x rest ih =>
    rw [List.nodup_cons] at hl
    simp only [List.foldl_cons]
    have := ih hl.2 (setStreamId σ x ((σ x).stream_id + g (σ x).engine_conf.id))
    refine ⟨this.1.trans_same (SameButStream.of_setStreamId _ _ _ _), ?_⟩
    rw [this.2]
    by_cases hix : i = x
    · subst hix
      simp [hl.1]
    · simp only [List.mem_cons, hix, false_or, setStreamId_stream, if_false, setStreamId_conf]

theorem updateReused_frame (L : List (Nat × Nat)) (σ : SubgraphHeap) (i : Nat)
    (hi : ∀ r, (i, r) ∉ L) :
    (L.foldl (fun σ item => setStreamId σ item.1 (σ item.2).stream_id) σ) i = σ i := by
  induction L generalizing σ with
  | nil => rfl
  | cons x rest ih =>
    simp only [List.foldl_cons]
    rw [ih _ (fun r hr => hi r (List.mem_cons_of_mem _ hr))]
    apply setStreamId_other
    intro e
    exact hi x.2 (by rw [e]; simp)

theorem updateReused_same (L : List (Nat × Nat)) (σ : SubgraphHeap) (i : Nat) :
    SameButStream ((L.foldl (fun σ item => setStreamId σ item.1 (σ item.2).stream_id) σ) i)
      (σ i) := by
  induction L generalizing σ with
  | nil => exact SameButStream.rfl_same _
  | cons x rest ih =>
    simp only [List.foldl_cons]
    exact (ih _).trans_same (SameButStream.of_setStreamId _ _ _ _)

/-- The effect of `UpdateReusedSubgraphs` when every recorded target belongs to a set `T`
of stream owners, which the loop only copies onto themselves. -/
theorem updateReused_fold (L : List (Nat × Nat)) (σ1 : SubgraphHeap) (T : Nat → Prop)
    (hT : ∀ c r, (c, r) ∈ L → T r ∧ (T c → c = r))
    (hF : ∀ c r r', (c, r) ∈ L → (c, r') ∈ L → r = r') :
    (∀ i, T i → (L.foldl (fun σ item => setStreamId σ item.1 (σ item.2).stream_id) σ1) i = σ1 i) ∧
    (∀ c r, (c, r) ∈ L →
      ((L.foldl (fun σ item => setStreamId σ item.1 (σ item.2).stream_id) σ1) c).stream_id =
        (σ1 r).stream_id) := by
  have := foldl_invariant_mem (fun σ (item : Nat × Nat) => setStreamId σ item.1 (σ item.2).stream_id)
    (fun d σ => (∀ i, T i → σ i = σ1 i) ∧
      (∀ c r, (c, r) ∈ d → (σ c).stream_id = (σ1 r).stream_id) ∧ (∀ x, x ∈ d → x ∈ L)) L L [] σ1
    (fun a ha => ha) ⟨fun i _ => rfl, by intro c r h; simp at h, by intro x h; simp at h⟩
    (by
      intro d σ item hitem ⟨h1, h2, h3⟩
      obtain ⟨c, r⟩ := item
      have hr := (hT c r hitem).1
      have hrr : σ r = σ1 r := h1 r hr
      refine ⟨?_, ?_, ?_⟩
      · intro i hi
        by_cases hic : i = c
        · subst hic
          have e := (hT i r hitem).2 hi
          subst e
          simp only
          rw [setStreamId_self]
          exact h1 i hi
        · simp only
          rw [setStreamId_other _ _ _ _ hic]
          exact h1 i hi
      · intro c' r' hmem
        simp only [List.mem_append, List.mem_singleton, Prod.mk.injEq] at hmem
        simp only [setStreamId_stream]
        by_cases hcc : c' = c
        · subst hcc
          simp only [if_true]
          rw [hrr]
          rcases hmem with hmem | ⟨_, e⟩
          · -- an earlier pair of the same subgraph has the same target
            rw [hF c' r' r (h3 _ hmem) hitem]
          · rw [e]
        · simp only [hcc, if_false]
          rcases hmem with hmem | ⟨e, _⟩
          · exact h2 c' r' hmem
          · exact absurd e hcc
      · intro x hx
        simp only [List.mem_append, List.mem_singleton] at hx
        rcases hx with hx | hx
        · exact h3 x hx
        · rw [hx]; exact hitem)
  simp only [List.nil_append] at this
  exact ⟨this.1, this.2.1⟩

/-! ## `AssignByDependencyPass::Run`: what the pass leaves -/

theorem DepCore.engine_eq {σ0 : SubgraphHeap} {st : DepState} (h : DepCore σ0 st) (i : Nat) :
    (st.σ i).engine_conf.id = engineOf σ0 i := by
  have := (h.static i).2.2.1
  simp [engineOf, this]

theorem DepCore.key_mem {σ0 : SubgraphHeap} {st : DepState} (h : DepCore σ0 st) {i : Nat}
    (hi : i ∈ st.pass.assigned_subgraphs_) :
    (engineOf σ0 i, mapGet st.pass.engine_stream_num_ (engineOf σ0 i)) ∈
      st.pass.engine_stream_num_ := by
  have hs := h.slot i hi
  cases hf : mapFind st.pass.engine_stream_num_ (engineOf σ0 i) with
  | none =>
    have : mapGet st.pass.engine_stream_num_ (engineOf σ0 i) = 0 := by simp [mapGet, hf]
    omega
  | some v =>
    have : mapGet st.pass.engine_stream_num_ (engineOf σ0 i) = v := by simp [mapGet, hf]
    rw [this]
    exact mem_of_mapFind hf

theorem Run_static (ptrs : List Nat) (σ0 : SubgraphHeap) (ctx : Context) (i : Nat) :
    SameStatic ((AssignByDependencyPass.Run ptrs σ0 ctx).2.1 i) (σ0 i) := by
  have hc := (DepInv.inv_loop σ0 ptrs).core
  unfold AssignByDependencyPass.Run UpdateReusedSubgraphs UpdateAssignedSubgraphs
  simp only
  refine ((updateReused_same _ _ i).to_static.trans_static ?_).trans_static (hc.static i)
  have hn : (AssignByDependencyPass.loop ptrs σ0).pass.assigned_subgraphs_.Nodup :=
    hc.assignedSorted.imp (fun h => Nat.ne_of_lt h)
  exact (updateAssigned_fold _ _ hn _ i).1.to_static

theorem Run_reused_field (ptrs : List Nat) (σ0 : SubgraphHeap) (ctx : Context) (i : Nat) :
    ((AssignByDependencyPass.Run ptrs σ0 ctx).2.1 i).reused_subgraph =
      ((AssignByDependencyPass.loop ptrs σ0).σ i).reused_subgraph := by
  have hc := (DepInv.inv_loop σ0 ptrs).core
  unfold AssignByDependencyPass.Run UpdateReusedSubgraphs UpdateAssignedSubgraphs
  simp only
  have hn : (AssignByDependencyPass.loop ptrs σ0).pass.assigned_subgraphs_.Nodup :=
    hc.assignedSorted.imp (fun h => Nat.ne_of_lt h)
  rw [(updateReused_same _ _ i).2.2.2.2, (updateAssigned_fold _ _ hn _ i).1.2.2.2.2]

/-- Frame of `AssignByDependencyPass::Run`: a subgraph that has a stream at entry is left
as it is. -/
theorem Run_frame (ptrs : List Nat) (σ0 : SubgraphHeap) (ctx : Context) (i : Nat)
    (hi : (σ0 i).stream_id ≠ kInvalidStream) :
    (AssignByDependencyPass.Run ptrs σ0 ctx).2.1 i = σ0 i := by
  have hc := (DepInv.inv_loop σ0 ptrs).core
  unfold AssignByDependencyPass.Run UpdateReusedSubgraphs UpdateAssignedSubgraphs
  simp only
  have hn : (AssignByDependencyPass.loop ptrs σ0).pass.assigned_subgraphs_.Nodup :=
    hc.assignedSorted.imp (fun h => Nat.ne_of_lt h)
  rw [updateReused_frame _ _ i (fun r hr => hi (hc.curFresh i r hr))]
  have hna : i ∉ (AssignByDependencyPass.loop ptrs σ0).pass.assigned_subgraphs_ :=
    fun hm => hi (hc.assignedFresh i hm)
  have h2 := updateAssigned_fold
    (mapGet (engineStartStreams (AssignByDependencyPass.loop ptrs σ0).pass.engine_stream_num_
      ctx.next_stream).1)
    _ hn (AssignByDependencyPass.loop ptrs σ0).σ i
  rw [if_neg hna] at h2
  rw [Subgraph.eq_of_same h2.1 h2.2]
  exact hc.entry i hi

theorem Run_next (ptrs : List Nat) (σ0 : SubgraphHeap) (ctx : Context) :
    (AssignByDependencyPass.Run ptrs σ0 ctx).2.2 =
      { ctx with next_stream := (ctx.next_stream +
          sumAll (AssignByDependencyPass.loop ptrs σ0).pass.engine_stream_num_) } := by
  unfold AssignByDependencyPass.Run UpdateAssignedSubgraphs
  simp only [engineStartStreams_snd]

/-- The stream owners: the subgraphs given a slot by `AssignNewStream` and those that
have a stream at entry. -/
theorem Run_owner {ptrs : List Nat} {σ0 : SubgraphHeap} (ctx : Context)
    (h0 : ∀ i, i ∈ ptrs → (σ0 i).reused_subgraph = none) {i : Nat}
    (hi : i ∈ (AssignByDependencyPass.loop ptrs σ0).pass.assigned_subgraphs_ ∨
      (σ0 i).stream_id ≠ kInvalidStream) :
    (AssignByDependencyPass.Run ptrs σ0 ctx).2.1 i =
      (UpdateAssignedSubgraphs (AssignByDependencyPass.loop ptrs σ0).pass
        (AssignByDependencyPass.loop ptrs σ0).σ ctx).1 i := by
  have hc := (DepInv.inv_loop σ0 ptrs).core
  have hl := DepLink.link_loop σ0 ptrs h0
  unfold AssignByDependencyPass.Run UpdateReusedSubgraphs
  simp only
  exact (updateReused_fold _ _
    (fun r => r ∈ (AssignByDependencyPass.loop ptrs σ0).pass.assigned_subgraphs_ ∨
      (σ0 r).stream_id ≠ kInvalidStream)
    (fun c r hcr => ⟨(hl.rootOk c r hcr).1, fun hT => by
      rcases hT with hT | hT
      · exact (hl.rootOk c r hcr).2 hT
      · exact absurd (hc.curFresh c r hcr) hT⟩)
    (fun c r r' h1 h2 => by
      have e1 := (hc.link c r h1).1
      have e2 := (hc.link c r' h2).1
      rw [e1] at e2
      exact Option.some.inj e2)).1 i hi

/-- The final stream id of a subgraph given a slot by `AssignNewStream`: the slot plus the
counter at entry plus the high-water marks of the engines with a smaller id. -/
theorem Run_assigned {ptrs : List Nat} {σ0 : SubgraphHeap} (ctx : Context)
    (h0 : ∀ i, i ∈ ptrs → (σ0 i).reused_subgraph = none) {i : Nat}
    (hi : i ∈ (AssignByDependencyPass.loop ptrs σ0).pass.assigned_subgraphs_) :
    ((AssignByDependencyPass.Run ptrs σ0 ctx).2.1 i).stream_id =
      ((AssignByDependencyPass.loop ptrs σ0).σ i).stream_id + (ctx.next_stream +
        sumBelow (AssignByDependencyPass.loop ptrs σ0).pass.engine_stream_num_ (engineOf σ0 i)) := by
  have hc := (DepInv.inv_loop σ0 ptrs).core
  rw [Run_owner ctx h0 (Or.inl hi)]
  unfold UpdateAssignedSubgraphs
  simp only
  have hn : (AssignByDependencyPass.loop ptrs σ0).pass.assigned_subgraphs_.Nodup :=
    hc.assignedSorted.imp (fun h => Nat.ne_of_lt h)
  rw [(updateAssigned_fold _ _ hn _ i).2, if_pos hi, hc.engine_eq,
    engineStartStreams_get hc.numSorted _ (hc.key_mem hi)]

theorem Run_entry_stream {ptrs : List Nat} {σ0 : SubgraphHeap} (ctx : Context) {i : Nat}
    (hi : (σ0 i).stream_id ≠ kInvalidStream) :
    ((AssignByDependencyPass.Run ptrs σ0 ctx).2.1 i).stream_id = (σ0 i).stream_id := by
  rw [Run_frame ptrs σ0 ctx i hi]

/-- After `UpdateReusedSubgraphs` a linked subgraph has the stream id of the subgraph it
is linked to. -/
theorem Run_reused {ptrs : List Nat} {σ0 : SubgraphHeap} (ctx : Context)
    (h0 : ∀ i, i ∈ ptrs → (σ0 i).reused_subgraph = none) {c r : Nat}
    (hcr : (c, r) ∈ (AssignByDependencyPass.loop ptrs σ0).pass.reused_subgraphs_) :
    ((AssignByDependencyPass.Run ptrs σ0 ctx).2.1 c).stream_id =
      ((AssignByDependencyPass.Run ptrs σ0 ctx).2.1 r).stream_id := by
  have hc := (DepInv.inv_loop σ0 ptrs).core
  have hl := DepLink.link_loop σ0 ptrs h0
  rw [Run_owner ctx h0 (hl.rootOk c r hcr).1]
  unfold AssignByDependencyPass.Run UpdateReusedSubgraphs
  simp only
  exact (updateReused_fold _ _
    (fun r => r ∈ (AssignByDependencyPass.loop ptrs σ0).pass.assigned_subgraphs_ ∨
      (σ0 r).stream_id ≠ kInvalidStream)
    (fun c r hcr => ⟨(hl.rootOk c r hcr).1, fun hT => by
      rcases hT with hT | hT
      · exact (hl.rootOk c r hcr).2 hT
      · exact absurd (hc.curFresh c r hcr) hT⟩)
    (fun c r r' h1 h2 => by
      have e1 := (hc.link c r h1).1
      have e2 := (hc.link c r' h2).1
      rw [e1] at e2
      exact Option.some.inj e2)).2 c r hcr

/-- Range of the stream ids after `AssignByDependencyPass::Run`. -/
theorem Run_range {ptrs : List Nat} {σ0 : SubgraphHeap} (ctx : Context)
    (h0 : ∀ i, i ∈ ptrs → (σ0 i).reused_subgraph = none)
    (hr : ∀ i, i ∈ ptrs → (σ0 i).stream_id = kInvalidStream ∨
      (0 ≤ (σ0 i).stream_id ∧ (σ0 i).stream_id < ctx.next_stream))
    (hc0 : 0 ≤ ctx.next_stream) {i : Nat} (hi : i ∈ ptrs) :
    0 ≤ ((AssignByDependencyPass.Run ptrs σ0 ctx).2.1 i).stream_id ∧
      ((AssignByDependencyPass.Run ptrs σ0 ctx).2.1 i).stream_id <
        (AssignByDependencyPass.Run ptrs σ0 ctx).2.2.next_stream := by
  have hinv := DepInv.inv_loop σ0 ptrs
  have hc := hinv.core
  have hl := DepLink.link_loop σ0 ptrs h0
  rw [Run_next]
  simp only
  have hall := sumAll_nonneg hc.numPos
  -- the owners of a stream are in range
  have howner : ∀ r, r ∈ ptrs →
      (r ∈ (AssignByDependencyPass.loop ptrs σ0).pass.assigned_subgraphs_ ∨
        (σ0 r).stream_id ≠ kInvalidStream) →
      0 ≤ ((AssignByDependencyPass.Run ptrs σ0 ctx).2.1 r).stream_id ∧
      ((AssignByDependencyPass.Run ptrs σ0 ctx).2.1 r).stream_id <
        ctx.next_stream + sumAll (AssignByDependencyPass.loop ptrs σ0).pass.engine_stream_num_ := by
    intro r hrp hro
    by_cases hre : (σ0 r).stream_id ≠ kInvalidStream
    · rw [Run_entry_stream ctx hre]
      rcases hr r hrp with h1 | h1
      · exact absurd h1 hre
      · omega
    · rcases hro with hro | hro
      · rw [Run_assigned ctx h0 hro]
        have hs := hc.slot r hro
        have h1 := sumBelow_nonneg hc.numPos (engineOf σ0 r)
        have h2 := sumBelow_add_le_sumAll hc.numSorted hc.numPos (hc.key_mem hro)
        omega
      · exact absurd hro hre
  rcases hc.origin i (hinv.doneAssigned i hi) with h1 | h1 | ⟨r, h1⟩
  · exact howner i hi (Or.inr h1)
  · exact howner i hi (Or.inl h1)
  · rw [Run_reused ctx h0 h1]
    exact howner r (hl.inPtrs i r h1).2 (hl.rootOk i r h1).1

/-! ## Links when boundary edges cross subgraphs -/

theorem noSelf_step {σ0 : SubgraphHeap} {ptrs : List Nat} {st : DepState}
    (hc : DepCore σ0 st) (hl : DepLink σ0 ptrs st)
    (h : ∀ c r, (c, r) ∈ st.pass.reused_subgraphs_ → c ≠ r)
    (h0 : ∀ i, i ∈ ptrs → (σ0 i).reused_subgraph = none)
    (hcross : CrossEdges ptrs σ0) (s : Nat) (hs : s ∈ ptrs) :
    ∀ c r, (c, r) ∈ (AssignByDependencyPass.step (InitEndSubgraphMap ptrs σ0)
      (InitPldSubgraphMap ptrs σ0) st s).pass.reused_subgraphs_ → c ≠ r := by
  have hlinks : ∀ i r, i ∈ ptrs → (st.σ i).reused_subgraph = some r →
      (i, r) ∈ st.pass.reused_subgraphs_ := by
    intro i r hi hir
    rcases hc.linkOnly i r hir with h1 | h1
    · exact h1
    · rw [h0 i hi] at h1; simp at h1
  -- the subgraph a reusable predecessor stands for is not the candidate
  have hroot : ∀ q, (st.σ s).stream_id = kInvalidStream →
      GetReusableSubgraph st.σ s (InitEndSubgraphMap ptrs σ0) (InitPldSubgraphMap ptrs σ0) = some q →
      s ≠ rootOf st.σ q := by
    intro q hsi hq
    obtain ⟨pe, hpe, hfind, _⟩ := GetReusableSubgraph_some hq
    have hqp : q ∈ ptrs := mem_of_InitEndSubgraphMap hfind
    have hinfo : (st.σ s).subgraph_info = (σ0 s).subgraph_info := (hc.static s).2.1
    rw [hinfo] at hpe
    have hqs : q ≠ s := by
      intro e; subst e
      exact hcross q hs pe hpe hfind
    cases hrq : (st.σ q).reused_subgraph with
    | some r =>
      have e : rootOf st.σ q = r := by simp [rootOf, hrq]
      rw [e]
      intro e'; subst e'
      rcases (hl.rootOk q s (hlinks q s hqp hrq)).1 with h1 | h1
      · exact hc.not_assigned_of_invalid hsi h1
      · exact h1 (hc.entry_invalid hsi)
    | none =>
      have e : rootOf st.σ q = q := by simp [rootOf, hrq]
      rw [e]; exact Ne.symm hqs
  intro c r hcr
  rcases step_cases (InitEndSubgraphMap ptrs σ0) (InitPldSubgraphMap ptrs σ0) st s with
    ⟨_, e⟩ | ⟨hsi, _, e⟩ | ⟨q, hsi, hq, hqa, e⟩ | ⟨q, hsi, hq, hqa, e⟩
  · rw [e] at hcr; exact h c r hcr
  · rw [e] at hcr; exact h c r hcr
  · rw [e] at hcr
    have hcr' : (c, r) ∈ st.pass.reused_subgraphs_ ++ [(s, rootOf st.σ q)] := hcr
    simp only [List.mem_append, List.mem_singleton, Prod.mk.injEq] at hcr'
    rcases hcr' with h1 | ⟨e1, e2⟩
    · exact h c r h1
    · rw [e1, e2]; exact hroot q hsi hq
  · rw [e] at hcr
    have hcr' : (c, r) ∈ st.pass.reused_subgraphs_ ++ [(s, rootOf st.σ q)] := hcr
    simp only [List.mem_append, List.mem_singleton, Prod.mk.injEq] at hcr'
    rcases hcr' with h1 | ⟨e1, e2⟩
    · exact h c r h1
    · rw [e1, e2]; exact hroot q hsi hq

theorem noSelf_loop (σ0 : SubgraphHeap) (subgraphs : List Nat)
    (h0 : ∀ i, i ∈ subgraphs → (σ0 i).reused_subgraph = none)
    (hcross : CrossEdges subgraphs σ0) :
    ∀ c r, (c, r) ∈ (AssignByDependencyPass.loop subgraphs σ0).pass.reused_subgraphs_ → c ≠ r := by
  unfold AssignByDependencyPass.loop
  have := foldl_invariant_mem
    (AssignByDependencyPass.step (InitEndSubgraphMap subgraphs σ0) (InitPldSubgraphMap subgraphs σ0))
    (fun d st => DepInv σ0 d st ∧ DepLink σ0 subgraphs st ∧
      ∀ c r, (c, r) ∈ st.pass.reused_subgraphs_ → c ≠ r) subgraphs subgraphs [] _
    (fun a ha => ha)
    ⟨DepInv.inv_init σ0, DepLink.link_init σ0 subgraphs, by
      intro c r h; simp [AssignByDependencyPass.new] at h⟩
    (fun d b a ha hb => ⟨hb.1.inv_step _ _ a,
      hb.2.1.link_step hb.1.core _ _ a h0 (fun e q hq => mem_of_InitEndSubgraphMap hq) ha,
      noSelf_step hb.1.core hb.2.1 hb.2.2 h0 hcross a ha⟩)
  exact this.2.2

/-- The links left by `AssignByDependencyPass::Run` are the pairs recorded by the loop. -/
theorem Run_link_recorded {ptrs : List Nat} {σ0 : SubgraphHeap} (ctx : Context)
    (h0 : ∀ i, i ∈ ptrs → (σ0 i).reused_subgraph = none) {i r : Nat} (hi : i ∈ ptrs)
    (h : linkedTo (AssignByDependencyPass.Run ptrs σ0 ctx).2.1 i r) :
    (i, r) ∈ (AssignByDependencyPass.loop ptrs σ0).pass.reused_subgraphs_ := by
  unfold linkedTo at h
  rw [Run_reused_field] at h
  rcases (DepInv.inv_loop σ0 ptrs).core.linkOnly i r h with h1 | h1
  · exact h1
  · rw [h0 i hi] at h1; simp at h1

/-- With boundary edges that cross subgraphs, every link target is a root. -/
theorem Run_target_root {ptrs : List Nat} {σ0 : SubgraphHeap} (ctx : Context)
    (h0 : ∀ i, i ∈ ptrs → (σ0 i).reused_subgraph = none) (hcross : CrossEdges ptrs σ0)
    {i r : Nat} (hi : i ∈ ptrs)
    (h : linkedTo (AssignByDependencyPass.Run ptrs σ0 ctx).2.1 i r) :
    r ∈ ptrs ∧ ((AssignByDependencyPass.Run ptrs σ0 ctx).2.1 r).reused_subgraph = none := by
  have hrec := Run_link_recorded ctx h0 hi h
  have hl := DepLink.link_loop σ0 ptrs h0
  refine ⟨(hl.inPtrs i r hrec).2, ?_⟩
  rw [Run_reused_field]
  rcases hl.rootLink i r hrec with h1 | h1
  · exact h1
  · exact absurd rfl (noSelf_loop σ0 ptrs h0 hcross r r h1)

/-! ## `AssignByDependencyPass`: the streams of one engine -/

theorem CouldReuse_true {σ : SubgraphHeap} {s q : Nat} {P : List (Nat × Nat)}
    (h : CouldReuse σ (some s) (some q) P = true) :
    (σ s).engine_conf.id = (σ q).engine_conf.id ∨ IsEngineAttach (σ s) = true ∨
      ∃ r, (σ q).reused_subgraph = some r ∧ (σ r).engine_conf.id = (σ s).engine_conf.id := by
  unfold CouldReuse at h
  simp only at h
  split at h
  · simp at h
  · split at h
    · simp at h
    · split at h
      · simp at h
      · split at h
        · next hc =>
          simp only [Bool.or_eq_true, beq_iff_eq] at hc
          rcases hc with hc | hc
          · exact Or.inl hc
          · exact Or.inr (Or.inl hc)
        · cases hr : (σ q).reused_subgraph with
          | none => rw [hr] at h; simp at h
          | some r =>
            rw [hr] at h
            simp only [beq_iff_eq] at h
            exact Or.inr (Or.inr ⟨r, rfl, h⟩)

theorem newStreamId_lt_max (pass : AssignByDependencyPass) (σ : SubgraphHeap) (x : Nat)
    (h : 1 ≤ (σ x).max_parallel_num) : newStreamId pass σ x < (σ x).max_parallel_num := by
  unfold newStreamId
  simp only
  split
  · omega
  · next hlt => omega

theorem assignNew_num_other (pass : AssignByDependencyPass) (σ : SubgraphHeap) (x : Nat)
    (k : String) (hk : k ≠ (σ x).engine_conf.id) :
    mapGet (AssignNewStream.pass pass σ x).engine_stream_num_ k =
      mapGet pass.engine_stream_num_ k := by
  unfold AssignNewStream.pass
  simp only
  split
  · rw [mapGet_mapSet, if_neg hk, mapGet_mapTouch]
  · rw [mapGet_mapTouch]

theorem assignNew_num_same (pass : AssignByDependencyPass) (σ : SubgraphHeap) (x : Nat) :
    mapGet (AssignNewStream.pass pass σ x).engine_stream_num_ (σ x).engine_conf.id =
      max (mapGet pass.engine_stream_num_ (σ x).engine_conf.id) (newStreamId pass σ x + 1) := by
  unfold AssignNewStream.pass
  simp only
  split
  · next hgt =>
    rw [mapGet_mapSet, if_pos rfl]
    rw [mapGet_mapTouch] at hgt
    omega
  · next hle =>
    rw [mapGet_mapTouch] at hle ⊢
    omega

theorem DepEngine.engine_init (σ0 : SubgraphHeap) (e : String) (m : Int) (hm : 1 ≤ m) :
    DepEngine σ0 e m { σ := σ0, pass := AssignByDependencyPass.new, changed := false } where
  mark := by
    simp only [AssignByDependencyPass.new, mapGet, mapFind, Option.getD_none]
    omega
  rootEngine := by intro c r h; simp [AssignByDependencyPass.new] at h

theorem DepEngine.engine_assignNew {σ0 : SubgraphHeap} {e : String} {m : Int} {st : DepState}
    (hc : DepCore σ0 st) (h : DepEngine σ0 e m st) (hm : 1 ≤ m) (x : Nat)
    (hx : engineOf σ0 x = e → (σ0 x).max_parallel_num = m) :
    DepEngine σ0 e m (st.assignNew x) where
  mark := by
    show mapGet (AssignNewStream.pass st.pass st.σ x).engine_stream_num_ e ≤ m
    by_cases he : e = (st.σ x).engine_conf.id
    · rw [he, assignNew_num_same]
      have hmax : (st.σ x).max_parallel_num = m := by
        rw [(hc.static x).2.2.2]
        apply hx
        rw [he, hc.engine_eq]
      have := newStreamId_lt_max st.pass st.σ x (by rw [hmax]; exact hm)
      have := h.mark
      rw [he] at this
      omega
    · rw [assignNew_num_other _ _ _ _ he]
      exact h.mark
  rootEngine := fun c r hcr => h.rootEngine c r hcr

theorem DepEngine.engine_link {σ0 : SubgraphHeap} {e : String} {m : Int} {st : DepState}
    (h : DepEngine σ0 e m st) (s r : Nat) (v : Int)
    (hsr : engineOf σ0 s = e → engineOf σ0 r = e) : DepEngine σ0 e m (st.link s v r) where
  mark := h.mark
  rootEngine := by
    intro c r' hcr
    have hcr' : (c, r') ∈ st.pass.reused_subgraphs_ ++ [(s, r)] := hcr
    simp only [List.mem_append, List.mem_singleton, Prod.mk.injEq] at hcr'
    rcases hcr' with h1 | ⟨e1, e2⟩
    · exact h.rootEngine c r' h1
    · subst e1; subst e2; exact hsr

theorem DepEngine.engine_step {σ0 : SubgraphHeap} {ptrs : List Nat} {e : String} {m : Int}
    {st : DepState} (hc : DepCore σ0 st) (h : DepEngine σ0 e m st) (hm : 1 ≤ m)
    (E P : List (Nat × Nat)) (s : Nat)
    (h0 : ∀ i, i ∈ ptrs → (σ0 i).reused_subgraph = none)
    (hE : ∀ e' q, mapFind E e' = some q → q ∈ ptrs) (hs : s ∈ ptrs)
    (hu : ∀ i, i ∈ ptrs → engineOf σ0 i = e →
      (σ0 i).max_parallel_num = m ∧ IsEngineAttach (σ0 i) = false) :
    DepEngine σ0 e m (AssignByDependencyPass.step E P st s) := by
  -- the subgraph a reusable predecessor of a subgraph of `e` stands for is on `e`
  have hroot : ∀ q, GetReusableSubgraph st.σ s E P = some q → engineOf σ0 s = e →
      engineOf σ0 (rootOf st.σ q) = e := by
    intro q hq hse
    obtain ⟨pe, _, hfind, hcould⟩ := GetReusableSubgraph_some hq
    have hqp : q ∈ ptrs := hE _ _ hfind
    have hatt : IsEngineAttach (st.σ s) = false := by
      have := (hu s hs hse).2
      simpa [IsEngineAttach, (hc.static s).2.2.1] using this
    rcases CouldReuse_true hcould with h1 | h1 | ⟨r, hr, h1⟩
    · rw [hc.engine_eq, hc.engine_eq] at h1
      cases hrq : (st.σ q).reused_subgraph with
      | none =>
        have : rootOf st.σ q = q := by simp [rootOf, hrq]
        rw [this, ← h1]; exact hse
      | some r =>
        have : rootOf st.σ q = r := by simp [rootOf, hrq]
        rw [this]
        rcases hc.linkOnly q r hrq with h2 | h2
        · exact h.rootEngine q r h2 (by rw [← h1]; exact hse)
        · rw [h0 q hqp] at h2; simp at h2
    · rw [hatt] at h1; simp at h1
    · have : rootOf st.σ q = r := by simp [rootOf, hr]
      rw [this]
      rw [hc.engine_eq, hc.engine_eq] at h1
      rw [h1]; exact hse
  rcases step_cases E P st s with ⟨_, e1⟩ | ⟨hsi, _, e1⟩ | ⟨q, hsi, hq, hqa, e1⟩ |
    ⟨q, hsi, hq, hqa, e1⟩
  · rw [e1]; exact h
  · rw [e1]; exact h.engine_assignNew hc hm s (fun he => (hu s hs he).1)
  · rw [e1]; exact h.engine_link s _ _ (hroot q hq)
  · rw [e1]
    obtain ⟨pe, _, hfind, _⟩ := GetReusableSubgraph_some hq
    have hqp : q ∈ ptrs := hE _ _ hfind
    exact (h.engine_assignNew hc hm q (fun he => (hu q hqp he).1)).engine_link s _ _ (hroot q hq)

theorem DepEngine.engine_loop (σ0 : SubgraphHeap) (subgraphs : List Nat) (e : String) (m : Int)
    (hm : 1 ≤ m) (h0 : ∀ i, i ∈ subgraphs → (σ0 i).reused_subgraph = none)
    (hu : ∀ i, i ∈ subgraphs → engineOf σ0 i = e →
      (σ0 i).max_parallel_num = m ∧ IsEngineAttach (σ0 i) = false) :
    DepEngine σ0 e m (AssignByDependencyPass.loop subgraphs σ0) := by
  unfold AssignByDependencyPass.loop
  have := foldl_invariant_mem
    (AssignByDependencyPass.step (InitEndSubgraphMap subgraphs σ0) (InitPldSubgraphMap subgraphs σ0))
    (fun d st => DepInv σ0 d st ∧ DepEngine σ0 e m st) subgraphs subgraphs [] _
    (fun a ha => ha) ⟨DepInv.inv_init σ0, DepEngine.engine_init σ0 e m hm⟩
    (fun d b a ha hb => ⟨hb.1.inv_step _ _ a,
      hb.2.engine_step hb.1.core hm _ _ a h0 (fun e' q hq => mem_of_InitEndSubgraphMap hq) ha hu⟩)
  exact this.2

/-! ## The stream pool of one engine -/

theorem dedup_length_le_of_interval (l : List Int) (b m : Int) (hm : 0 ≤ m)
    (h : ∀ x, x ∈ l → b ≤ x ∧ x < b + m) : (l.dedup.length : Int) ≤ m := by
  have hsub : l.toFinset ⊆ Finset.Ico b (b + m) := by
    intro x hx
    rw [List.mem_toFinset] at hx
    rw [Finset.mem_Ico]
    exact h x hx
  have hcard := Finset.card_le_card hsub
  rw [List.card_toFinset, Int.card_Ico] at hcard
  have : ((b + m - b).toNat : Int) = m := by
    rw [Int.toNat_of_nonneg (by omega)]; omega
  omega

theorem dedup_length_le_one_of_const (l : List Int) (v : Int) (h : ∀ x, x ∈ l → x = v) :
    l.dedup.length ≤ 1 := by
  have := dedup_length_le_of_interval l v 1 (by omega) (fun x hx => by
    have := h x hx; omega)
  omega

/-- After `AssignByDependencyPass::Run` the subgraphs of an engine `e` that were all
unassigned at entry, are not attach and share `max_parallel_num = m ≥ 1` carry stream ids
of the `m` streams that start at the base offset of `e`. -/
theorem Run_engine_interval {ptrs : List Nat} {σ0 : SubgraphHeap} (ctx : Context) (e : String)
    (m : Int) (hm : 1 ≤ m) (h0 : ∀ i, i ∈ ptrs → (σ0 i).reused_subgraph = none)
    (hu : ∀ i, i ∈ ptrs → engineOf σ0 i = e →
      (σ0 i).max_parallel_num = m ∧ IsEngineAttach (σ0 i) = false)
    (hun : ∀ i, i ∈ ptrs → engineOf σ0 i = e → (σ0 i).stream_id = kInvalidStream)
    {i : Nat} (hi : i ∈ ptrs) (hie : engineOf σ0 i = e) :
    ctx.next_stream + sumBelow (AssignByDependencyPass.loop ptrs σ0).pass.engine_stream_num_ e ≤
        ((AssignByDependencyPass.Run ptrs σ0 ctx).2.1 i).stream_id ∧
      ((AssignByDependencyPass.Run ptrs σ0 ctx).2.1 i).stream_id <
        ctx.next_stream +
          sumBelow (AssignByDependencyPass.loop ptrs σ0).pass.engine_stream_num_ e + m := by
  have hinv := DepInv.inv_loop σ0 ptrs
  have hc := hinv.core
  have hl := DepLink.link_loop σ0 ptrs h0
  have he := DepEngine.engine_loop σ0 ptrs e m hm h0 hu
  have howner : ∀ r, r ∈ (AssignByDependencyPass.loop ptrs σ0).pass.assigned_subgraphs_ →
      engineOf σ0 r = e →
      ctx.next_stream + sumBelow (AssignByDependencyPass.loop ptrs σ0).pass.engine_stream_num_ e ≤
        ((AssignByDependencyPass.Run ptrs σ0 ctx).2.1 r).stream_id ∧
      ((AssignByDependencyPass.Run ptrs σ0 ctx).2.1 r).stream_id <
        ctx.next_stream +
          sumBelow (AssignByDependencyPass.loop ptrs σ0).pass.engine_stream_num_ e + m := by
    intro r hr hre
    rw [Run_assigned ctx h0 hr, hre]
    have hs := hc.slot r hr
    rw [hre] at hs
    have := he.mark
    omega
  rcases hc.origin i (hinv.doneAssigned i hi) with h1 | h1 | ⟨r, h1⟩
  · exact absurd (hun i hi hie) h1
  · exact howner i h1 hie
  · rw [Run_reused ctx h0 h1]
    have hre := he.rootEngine i r h1 hie
    have hrp := (hl.inPtrs i r h1).2
    rcases (hl.rootOk i r h1).1 with h2 | h2
    · exact howner r h2 hre
    · exact absurd (hun r hrp hre) h2

/-! ## `RunPasses`: the shape of a run -/

theorem label_status (ptrs : List Nat) (σ : SubgraphHeap) (ctx : Context) :
    passContinues (AssignByLabelPass.Run ptrs σ ctx).1 = true := by
  unfold AssignByLabelPass.Run
  simp only
  split <;> rfl

theorem independent_status (ptrs : List Nat) (σ : SubgraphHeap) (ctx : Context) :
    passContinues (IndependentStreamPass.Run ptrs σ ctx).1 = true := by
  unfold IndependentStreamPass.Run
  simp only
  split <;> rfl

theorem dependency_status (ptrs : List Nat) (σ : SubgraphHeap) (ctx : Context) :
    passContinues (AssignByDependencyPass.Run ptrs σ ctx).1 = true := by
  unfold AssignByDependencyPass.Run
  simp only
  split <;> rfl

/-- The shape of a run of `RunPasses` that returns: the first three passes never abort,
the subgraphs are those left by `AssignByDependencyPass`. -/
theorem RunPasses_some {fuel : Nat} {nodes : NodeHeap} {g : ComputeGraph} {ptrs : List Nat}
    {σ : SubgraphHeap} {ops : OpHeap} {ctx : Context} {n : Int} {out : Outcome}
    (h : RunPasses fuel nodes g ptrs σ ops ctx n = some out) :
    out.σ = (afterDependency ptrs σ ctx).2.1 ∧
    ∃ r4, NodeStreamUpdatePass.Run nodes g ptrs (afterDependency ptrs σ ctx).2.1 ops = some r4 ∧
      ((passContinues r4.1 = false ∧ out.status = r4.1 ∧ out.ops = r4.2 ∧
          out.context_ = (afterDependency ptrs σ ctx).2.2 ∧ out.stream_num = n) ∨
       (passContinues r4.1 = true ∧
        ∃ r5, AllReduceParallelPass.Run fuel nodes g r4.2 (afterDependency ptrs σ ctx).2.2 = some r5 ∧
          out.ops = r5.2.1 ∧ out.context_ = r5.2.2 ∧
          ((passContinues r5.1 = false ∧ out.status = r5.1 ∧ out.stream_num = n) ∨
           (passContinues r5.1 = true ∧ out.status = Status.SUCCESS ∧
            out.stream_num = r5.2.2.next_stream)))) := by
  unfold RunPasses at h
  simp only [label_status, independent_status, dependency_status, Bool.not_true,
    Bool.false_eq_true, if_false] at h
  have e3 : AssignByDependencyPass.Run ptrs
      (IndependentStreamPass.Run ptrs (AssignByLabelPass.Run ptrs σ ctx).2.1
        (AssignByLabelPass.Run ptrs σ ctx).2.2).2.1
      (IndependentStreamPass.Run ptrs (AssignByLabelPass.Run ptrs σ ctx).2.1
        (AssignByLabelPass.Run ptrs σ ctx).2.2).2.2 = afterDependency ptrs σ ctx := rfl
  rw [e3] at h
  cases h4 : NodeStreamUpdatePass.Run nodes g ptrs (afterDependency ptrs σ ctx).2.1 ops with
  | none => rw [h4] at h; simp at h
  | some r4 =>
    rw [h4] at h
    simp only at h
    by_cases hc4 : passContinues r4.1 = true
    · simp only [hc4, Bool.not_true, Bool.false_eq_true, if_false] at h
      cases h5 : AllReduceParallelPass.Run fuel nodes g r4.2 (afterDependency ptrs σ ctx).2.2 with
      | none => rw [h5] at h; simp at h
      | some r5 =>
        rw [h5] at h
        simp only at h
        by_cases hc5 : passContinues r5.1 = true
        · simp only [hc5, Bool.not_true, Bool.false_eq_true, if_false, Option.some.injEq] at h
          subst h
          exact ⟨rfl, r4, rfl, Or.inr ⟨hc4, r5, h5, rfl, rfl, Or.inr ⟨hc5, rfl, rfl⟩⟩⟩
        · simp only [Bool.not_eq_true] at hc5
          simp only [hc5, Bool.not_false, if_true, Option.some.injEq] at h
          subst h
          exact ⟨rfl, r4, rfl, Or.inr ⟨hc4, r5, h5, rfl, rfl, Or.inl ⟨hc5, rfl, rfl⟩⟩⟩
    · simp only [Bool.not_eq_true] at hc4
      simp only [hc4, Bool.not_false, if_true, Option.some.injEq] at h
      subst h
      exact ⟨rfl, r4, rfl, Or.inl ⟨hc4, rfl, rfl, rfl, rfl⟩⟩

theorem passContinues_false_ne_success {s : Status} (h : passContinues s = false) :
    s ≠ Status.SUCCESS := by
  intro e; subst e; simp [passContinues] at h

/-- A successful run of `RunPasses`: all five passes ran. -/
theorem RunPasses_success {fuel : Nat} {nodes : NodeHeap} {g : ComputeGraph} {ptrs : List Nat}
    {σ : SubgraphHeap} {ops : OpHeap} {ctx : Context} {n : Int} {out : Outcome}
    (h : RunPasses fuel nodes g ptrs σ ops ctx n = some out) (hs : out.status = Status.SUCCESS) :
    out.σ = (afterDependency ptrs σ ctx).2.1 ∧
    ∃ r4 r5, NodeStreamUpdatePass.Run nodes g ptrs (afterDependency ptrs σ ctx).2.1 ops = some r4 ∧
      passContinues r4.1 = true ∧
      AllReduceParallelPass.Run fuel nodes g r4.2 (afterDependency ptrs σ ctx).2.2 = some r5 ∧
      passContinues r5.1 = true ∧
      out.ops = r5.2.1 ∧ out.context_ = r5.2.2 ∧ out.stream_num = r5.2.2.next_stream := by
  obtain ⟨hσ, r4, h4, hrest⟩ := RunPasses_some h
  refine ⟨hσ, ?_⟩
  rcases hrest with ⟨hc4, hst, _⟩ | ⟨hc4, r5, h5, ho, hcx, hrest⟩
  · rw [hs] at hst
    exact absurd hst.symm (passContinues_false_ne_success hc4)
  · rcases hrest with ⟨hc5, hst, _⟩ | ⟨hc5, _, hn⟩
    · rw [hs] at hst
      exact absurd hst.symm (passContinues_false_ne_success hc5)
    · exact ⟨r4, r5, h4, hc4, h5, hc5, ho, hcx, hn⟩

/-! ## The subgraphs after the label pass and the independent pass -/

theorem afterLabel_inv (ptrs : List Nat) (σ : SubgraphHeap) (ctx : Context) :
    ∃ st, LabelInv σ ctx.next_stream ptrs st ∧ (afterLabel ptrs σ ctx).2.1 = st.σ ∧
      (afterLabel ptrs σ ctx).2.2 = { ctx with next_stream := st.next_stream } :=
  ⟨_, LabelInv.label_run σ ctx.next_stream ptrs, rfl, rfl⟩

theorem afterIndependent_inv (ptrs : List Nat) (σ : SubgraphHeap) (ctx : Context) :
    ∃ st, IndependentInv (afterLabel ptrs σ ctx).2.1 (afterLabel ptrs σ ctx).2.2.next_stream ptrs st ∧
      (afterIndependent ptrs σ ctx).2.1 = st.σ ∧
      (afterIndependent ptrs σ ctx).2.2 =
        { (afterLabel ptrs σ ctx).2.2 with next_stream := st.next_stream } :=
  ⟨_, IndependentInv.indep_run (afterLabel ptrs σ ctx).2.1 (afterLabel ptrs σ ctx).2.2.next_stream ptrs,
    rfl, rfl⟩

/-- After the label pass and the independent pass the subgraphs differ from the input in
their stream ids only. -/
theorem afterIndependent_same (ptrs : List Nat) (σ : SubgraphHeap) (ctx : Context) (i : Nat) :
    SameButStream ((afterIndependent ptrs σ ctx).2.1 i) (σ i) := by
  obtain ⟨st1, h1, e1, _⟩ := afterLabel_inv ptrs σ ctx
  obtain ⟨st2, h2, e2, _⟩ := afterIndependent_inv ptrs σ ctx
  rw [e2]
  have := h2.frame i
  rw [e1] at this
  exact this.trans_same (h1.frame i)

theorem afterLabel_next_le (ptrs : List Nat) (σ : SubgraphHeap) (ctx : Context) :
    ctx.next_stream ≤ (afterLabel ptrs σ ctx).2.2.next_stream := by
  obtain ⟨st1, h1, _, e1⟩ := afterLabel_inv ptrs σ ctx
  rw [e1]; exact h1.le

theorem afterIndependent_next_le (ptrs : List Nat) (σ : SubgraphHeap) (ctx : Context) :
    (afterLabel ptrs σ ctx).2.2.next_stream ≤ (afterIndependent ptrs σ ctx).2.2.next_stream := by
  obtain ⟨st2, h2, _, e2⟩ := afterIndependent_inv ptrs σ ctx
  rw [e2]; exact h2.le

/-- After the label pass a labelled subgraph of the vector has a stream of the range
handed out by the pass, and two of them have the same stream when their labels agree. -/
theorem afterLabel_labelled (ptrs : List Nat) (σ : SubgraphHeap) (ctx : Context) {i : Nat}
    (hi : i ∈ ptrs) (hl : labelOf σ i ≠ "") :
    ctx.next_stream ≤ ((afterLabel ptrs σ ctx).2.1 i).stream_id ∧
      ((afterLabel ptrs σ ctx).2.1 i).stream_id < (afterLabel ptrs σ ctx).2.2.next_stream ∧
      ∀ j, j ∈ ptrs → labelOf σ j = labelOf σ i →
        ((afterLabel ptrs σ ctx).2.1 j).stream_id = ((afterLabel ptrs σ ctx).2.1 i).stream_id := by
  obtain ⟨st1, h1, e1, e1'⟩ := afterLabel_inv ptrs σ ctx
  rw [e1, e1']
  have hc := h1.consistent i hi hl
  have hr := h1.range _ _ hc
  refine ⟨hr.1, hr.2, ?_⟩
  intro j hj hlj
  have hcj := h1.consistent j hj (by rw [hlj]; exact hl)
  rw [hlj, hc] at hcj
  exact (Option.some.inj hcj).symm

/-- After the independent pass a subgraph on an independent engine has a stream of the
range handed out by the pass, and two of them have the same stream exactly when their
engine ids and their labels agree. -/
theorem afterIndependent_independent (ptrs : List Nat) (σ : SubgraphHeap) (ctx : Context) {i : Nat}
    (hi : i ∈ ptrs) (hind : IsEngineIndependent (σ i) = true) :
    (afterLabel ptrs σ ctx).2.2.next_stream ≤ ((afterIndependent ptrs σ ctx).2.1 i).stream_id ∧
      ((afterIndependent ptrs σ ctx).2.1 i).stream_id <
        (afterIndependent ptrs σ ctx).2.2.next_stream ∧
      ∀ j, j ∈ ptrs → IsEngineIndependent (σ j) = true →
        (((afterIndependent ptrs σ ctx).2.1 j).stream_id =
            ((afterIndependent ptrs σ ctx).2.1 i).stream_id ↔
          (engineOf σ j = engineOf σ i ∧ labelOf σ j = labelOf σ i)) := by
  obtain ⟨st1, h1, e1, e1'⟩ := afterLabel_inv ptrs σ ctx
  obtain ⟨st2, h2, e2, e2'⟩ := afterIndependent_inv ptrs σ ctx
  have hconf : ∀ k, ((afterLabel ptrs σ ctx).2.1 k).engine_conf = (σ k).engine_conf := by
    intro k; rw [e1]; exact (h1.frame k).2.2.1
  have hinfo : ∀ k, ((afterLabel ptrs σ ctx).2.1 k).subgraph_info = (σ k).subgraph_info := by
    intro k; rw [e1]; exact (h1.frame k).2.1
  have hI : ∀ k, IsEngineIndependent ((afterLabel ptrs σ ctx).2.1 k) = IsEngineIndependent (σ k) := by
    intro k; simp [IsEngineIndependent, hconf k]
  have hE : ∀ k, engineOf (afterLabel ptrs σ ctx).2.1 k = engineOf σ k := by
    intro k; simp [engineOf, hconf k]
  have hL : ∀ k, labelOf (afterLabel ptrs σ ctx).2.1 k = labelOf σ k := by
    intro k; simp [labelOf, hinfo k]
  rw [e2, e2']
  have hc := h2.consistent i hi (by rw [hI]; exact hind)
  rw [hE, hL] at hc
  have hr := h2.range _ _ hc
  refine ⟨hr.1, hr.2, ?_⟩
  intro j hj hjind
  have hcj := h2.consistent j hj (by rw [hI]; exact hjind)
  rw [hE, hL] at hcj
  constructor
  · intro heq
    rw [heq] at hcj
    have := h2.inj _ _ _ hcj hc
    simp only [Prod.mk.injEq] at this
    exact this
  · rintro ⟨he, hl⟩
    rw [he, hl, hc] at hcj
    exact (Option.some.inj hcj).symm

/-- The independent pass leaves the subgraphs on the other engines as the label pass left
them. -/
theorem afterIndependent_other (ptrs : List Nat) (σ : SubgraphHeap) (ctx : Context) {i : Nat}
    (hind : IsEngineIndependent (σ i) = false) :
    (afterIndependent ptrs σ ctx).2.1 i = (afterLabel ptrs σ ctx).2.1 i := by
  obtain ⟨st1, h1, e1, e1'⟩ := afterLabel_inv ptrs σ ctx
  obtain ⟨st2, h2, e2, e2'⟩ := afterIndependent_inv ptrs σ ctx
  rw [e2]
  apply h2.untouched
  right
  have : ((afterLabel ptrs σ ctx).2.1 i).engine_conf = (σ i).engine_conf := by
    rw [e1]; exact (h1.frame i).2.2.1
  simp [IsEngineIndependent, this]
  simpa [IsEngineIndependent] using hind

/-- The dependency pass keeps the stream of a subgraph that has a non-negative stream id
after the independent pass. -/
theorem afterDependency_keep (ptrs : List Nat) (σ : SubgraphHeap) (ctx : Context) {i : Nat}
    (h : 0 ≤ ((afterIndependent ptrs σ ctx).2.1 i).stream_id) :
    (afterDependency ptrs σ ctx).2.1 i = (afterIndependent ptrs σ ctx).2.1 i := by
  unfold afterDependency
  apply Run_frame
  intro e
  rw [e] at h
  simp [kInvalidStream] at h

/-! ## Every subgraph has a stream after the dependency pass -/

/-- After `AssignByDependencyPass::Run`, entered with a counter that is not negative and
with subgraphs without `reused_subgraph`, every subgraph of the vector has a stream. -/
theorem Run_has_stream {ptrs : List Nat} {σ0 : SubgraphHeap} (ctx : Context)
    (h0 : ∀ i, i ∈ ptrs → (σ0 i).reused_subgraph = none)
    (hc0 : 0 ≤ ctx.next_stream) {i : Nat} (hi : i ∈ ptrs) :
    ((AssignByDependencyPass.Run ptrs σ0 ctx).2.1 i).stream_id ≠ kInvalidStream := by
  have hinv := DepInv.inv_loop σ0 ptrs
  have hc := hinv.core
  have hl := DepLink.link_loop σ0 ptrs h0
  have howner : ∀ r,
      (r ∈ (AssignByDependencyPass.loop ptrs σ0).pass.assigned_subgraphs_ ∨
        (σ0 r).stream_id ≠ kInvalidStream) →
      ((AssignByDependencyPass.Run ptrs σ0 ctx).2.1 r).stream_id ≠ kInvalidStream := by
    intro r hro
    by_cases hre : (σ0 r).stream_id ≠ kInvalidStream
    · rw [Run_entry_stream ctx hre]; exact hre
    · rcases hro with hro | hro
      · rw [Run_assigned ctx h0 hro]
        have hs := hc.slot r hro
        have h1 := sumBelow_nonneg hc.numPos (engineOf σ0 r)
        simp only [kInvalidStream]
        omega
      · exact absurd hro hre
  rcases hc.origin i (hinv.doneAssigned i hi) with h1 | h1 | ⟨r, h1⟩
  · exact howner i (Or.inr h1)
  · exact howner i (Or.inl h1)
  · rw [Run_reused ctx h0 h1]
    exact howner r (hl.rootOk i r h1).1

/-- After the first three passes of the pipeline, entered with a counter that is not
negative and with subgraphs without `reused_subgraph`, every subgraph of the vector has
a stream. -/
theorem afterDependency_has_stream (ptrs : List Nat) (σ : SubgraphHeap) (ctx : Context)
    (hctx : 0 ≤ ctx.next_stream)
    (hlink : ∀ i, i ∈ ptrs → (σ i).reused_subgraph = none) {i : Nat} (hi : i ∈ ptrs) :
    ((afterDependency ptrs σ ctx).2.1 i).stream_id ≠ kInvalidStream := by
  unfold afterDependency
  apply Run_has_stream
  · intro j hj
    rw [(afterIndependent_same ptrs σ ctx j).2.2.2.2]
    exact hlink j hj
  · have h1 := afterLabel_next_le ptrs σ ctx
    have h2 := afterIndependent_next_le ptrs σ ctx
    omega
  · exact hi

/-! ## The scenario `A → B` -/

theorem findSome_eq_of_all {α β : Type} (f : α → Option β) (l : List α) (a : β)
    (hall : ∀ x, x ∈ l → f x = none ∨ f x = some a) (hex : ∃ x, x ∈ l ∧ f x = some a) :
    l.findSome? f = some a := by
  induction l with
  | nil => obtain ⟨x, hx, _⟩ := hex; simp at hx
  | cons y rest ih =>
    simp only [List.findSome?_cons]
    rcases hall y (by simp) with h | h
    · rw [h]
      simp only
      apply ih (fun x hx => hall x (by simp [hx]))
      obtain ⟨x, hx, hfx⟩ := hex
      simp only [List.mem_cons] at hx
      rcases hx with hx | hx
      · subst hx; rw [h] at hfx; simp at hfx
      · exact ⟨x, hx, hfx⟩
    · rw [h]

/-- In the scenario `A → B` the subgraph `A` is the reusable predecessor of `B`, whatever
the stream ids and links of the heap are. -/
theorem chain_reusable (σ σ' : SubgraphHeap) (a b : Nat) (ptrs : List Nat)
    (hptrs : ptrs = [a, b] ∨ ptrs = [b, a])
    (hstatic : ∀ i, SameStatic (σ' i) (σ i))
    (heng : (σ a).engine_conf.id = (σ b).engine_conf.id)
    (hsched : (σ a).engine_conf.scheduler_id = (σ b).engine_conf.scheduler_id)
    (hind : IsEngineIndependent (σ a) = false) (hlab : HasStreamLabel (σ a) = false)
    (hApld : (σ a).subgraph_info.pld2end = []) (hBend : (σ b).subgraph_info.end2pld = [])
    (hedge : ∃ p e, (p, e) ∈ (σ b).subgraph_info.pld2end ∧ (e, p) ∈ (σ a).subgraph_info.end2pld) :
    GetReusableSubgraph σ' b (InitEndSubgraphMap ptrs σ) (InitPldSubgraphMap ptrs σ) = some a := by
  have hinfo : ∀ i, (σ' i).subgraph_info = (σ i).subgraph_info := fun i => (hstatic i).2.1
  have hconf : ∀ i, (σ' i).engine_conf = (σ i).engine_conf := fun i => (hstatic i).2.2.1
  -- the placeholder map only knows `B`, the end map only knows `A`
  have hP : ∀ p s, mapFind (InitPldSubgraphMap ptrs σ) p = some s → s = b := by
    intro p s hs
    rw [mapFind_InitPldSubgraphMap] at hs
    have hmem := List.mem_of_find?_eq_some hs
    have hprop := List.find?_some hs
    simp only [decide_eq_true_eq] at hprop
    rcases hptrs with e | e <;> subst e <;> simp only [List.mem_cons, List.mem_singleton,
      List.not_mem_nil, or_false] at hmem <;> rcases hmem with h | h
    · subst h; rw [hApld] at hprop; simp at hprop
    · exact h
    · exact h
    · subst h; rw [hApld] at hprop; simp at hprop
  have hE : ∀ e s, mapFind (InitEndSubgraphMap ptrs σ) e = some s → s = a := by
    intro e s hs
    rw [mapFind_InitEndSubgraphMap] at hs
    have hmem := List.mem_of_find?_eq_some hs
    have hprop := List.find?_some hs
    simp only [decide_eq_true_eq] at hprop
    rcases hptrs with e | e <;> subst e <;> simp only [List.mem_cons, List.mem_singleton,
      List.not_mem_nil, or_false] at hmem <;> rcases hmem with h | h
    · exact h
    · subst h; rw [hBend] at hprop; simp at hprop
    · subst h; rw [hBend] at hprop; simp at hprop
    · exact h
  have hEfound : ∀ e, e ∈ (σ a).subgraph_info.end2pld.map Prod.fst →
      mapFind (InitEndSubgraphMap ptrs σ) e = some a := by
    intro e he
    rw [mapFind_InitEndSubgraphMap]
    rcases hptrs with h | h <;> subst h
    · simp [List.find?_cons, he]
    · have : e ∉ (σ b).subgraph_info.end2pld.map Prod.fst := by rw [hBend]; simp
      simp only [List.find?_cons, this, decide_False, he, decide_True]
  have hother : otherSuccOnSameEngine σ' b a (InitPldSubgraphMap ptrs σ) = false := by
    unfold otherSuccOnSameEngine
    rw [List.any_eq_false]
    intro x _
    cases hf : mapFind (InitPldSubgraphMap ptrs σ) x.2 with
    | none => simp
    | some s =>
      have := hP _ _ hf
      subst this
      simp
  have hcould : CouldReuse σ' (some b) (some a) (InitPldSubgraphMap ptrs σ) = true := by
    unfold CouldReuse
    have h1 : IsEngineIndependent (σ' a) = false := by
      simpa [IsEngineIndependent, hconf a] using hind
    have h2 : HasStreamLabel (σ' a) = false := by
      simpa [HasStreamLabel, hinfo a] using hlab
    simp only [hconf, hsched, ne_eq, not_true_eq_false, if_false, h1, h2, Bool.or_self,
      Bool.false_eq_true, hother, heng, beq_self_eq_true, Bool.true_or, if_true]
  unfold GetReusableSubgraph
  apply findSome_eq_of_all
  · intro pe _
    cases hf : mapFind (InitEndSubgraphMap ptrs σ) pe.2 with
    | none => left; rfl
    | some s =>
      have := hE _ _ hf
      subst this
      right
      simp only [hcould, if_true]
  · obtain ⟨p, e, hpe, hep⟩ := hedge
    refine ⟨(p, e), by rw [hinfo]; exact hpe, ?_⟩
    have : mapFind (InitEndSubgraphMap ptrs σ) e = some a :=
      hEfound e (List.mem_map.mpr ⟨(e, p), hep, rfl⟩)
    simp only [this, hcould, if_true]

theorem newStreamId_new (σ : SubgraphHeap) (x : Nat) :
    newStreamId AssignByDependencyPass.new σ x = 0 := by
  simp [newStreamId, AssignByDependencyPass.new, mapFind]

theorem GetReusableSubgraph_nil {σ : SubgraphHeap} {s : Nat} (E P : List (Nat × Nat))
    (h : (σ s).subgraph_info.pld2end = []) : GetReusableSubgraph σ s E P = none := by
  simp [GetReusableSubgraph, h]

/-- The state of the loop of `AssignByDependencyPass::Run` in the scenario `A → B`, in
either order of the vector: `A` got the slot 0 from `AssignNewStream`, `B` took it and was
linked to `A`. -/
theorem chain_loop (σ : SubgraphHeap) (a b : Nat) (ptrs : List Nat)
    (hptrs : ptrs = [a, b] ∨ ptrs = [b, a]) (hab : a ≠ b)
    (hA : (σ a).stream_id = kInvalidStream) (hB : (σ b).stream_id = kInvalidStream)
    (hAlink : (σ a).reused_subgraph = none)
    (heng : (σ a).engine_conf.id = (σ b).engine_conf.id)
    (hsched : (σ a).engine_conf.scheduler_id = (σ b).engine_conf.scheduler_id)
    (hind : IsEngineIndependent (σ a) = false) (hlab : HasStreamLabel (σ a) = false)
    (hApld : (σ a).subgraph_info.pld2end = []) (hBend : (σ b).subgraph_info.end2pld = [])
    (hedge : ∃ p e, (p, e) ∈ (σ b).subgraph_info.pld2end ∧ (e, p) ∈ (σ a).subgraph_info.end2pld) :
    AssignByDependencyPass.loop ptrs σ =
      (DepState.assignNew { σ := σ, pass := AssignByDependencyPass.new, changed := false } a).link
        b 0 a := by
  have hroot : ∀ σ' : SubgraphHeap, (σ' a).reused_subgraph = none → rootOf σ' a = a := by
    intro σ' h; simp [rootOf, h]
  have hv : newStreamId AssignByDependencyPass.new σ a = 0 := newStreamId_new σ a
  have hst1 : ∀ i, SameStatic
      ((DepState.assignNew { σ := σ, pass := AssignByDependencyPass.new, changed := false } a).σ i)
      (σ i) := fun i => SameStatic.static_setStream _ _ _ _
  have hst1a : ((DepState.assignNew
      { σ := σ, pass := AssignByDependencyPass.new, changed := false } a).σ a).stream_id = 0 := by
    show (setStreamId σ a _ a).stream_id = 0
    rw [setStreamId_stream_same]; exact hv
  have hst1b : ((DepState.assignNew
      { σ := σ, pass := AssignByDependencyPass.new, changed := false } a).σ b).stream_id =
      kInvalidStream := by
    show (setStreamId σ a _ b).stream_id = _
    rw [setStreamId_other _ _ _ _ (Ne.symm hab)]; exact hB
  have hst1r : ((DepState.assignNew
      { σ := σ, pass := AssignByDependencyPass.new, changed := false } a).σ a).reused_subgraph =
      none := by
    show (setStreamId σ a _ a).reused_subgraph = none
    rw [setStreamId_reused]; exact hAlink
  unfold AssignByDependencyPass.loop
  rcases hptrs with e | e
  · -- the vector is `[A, B]`
    have hE := e
    subst e
    simp only [List.foldl_cons, List.foldl_nil]
    have s1 : AssignByDependencyPass.step (InitEndSubgraphMap [a, b] σ) (InitPldSubgraphMap [a, b] σ)
        { σ := σ, pass := AssignByDependencyPass.new, changed := false } a =
        DepState.assignNew { σ := σ, pass := AssignByDependencyPass.new, changed := false } a := by
      rcases step_cases (InitEndSubgraphMap [a, b] σ) (InitPldSubgraphMap [a, b] σ)
        { σ := σ, pass := AssignByDependencyPass.new, changed := false } a with
        ⟨h1, _⟩ | ⟨_, _, h3⟩ | ⟨q, _, hq, _⟩ | ⟨q, _, hq, _⟩
      · exact absurd hA h1
      · exact h3
      · rw [GetReusableSubgraph_nil _ _ hApld] at hq; simp at hq
      · rw [GetReusableSubgraph_nil _ _ hApld] at hq; simp at hq
    rw [s1]
    have hreuse := chain_reusable σ
      (DepState.assignNew { σ := σ, pass := AssignByDependencyPass.new, changed := false } a).σ
      a b [a, b] (Or.inl rfl) hst1 heng hsched hind hlab hApld hBend hedge
    rcases step_cases (InitEndSubgraphMap [a, b] σ) (InitPldSubgraphMap [a, b] σ)
      (DepState.assignNew { σ := σ, pass := AssignByDependencyPass.new, changed := false } a) b with
      ⟨h1, _⟩ | ⟨_, hq, _⟩ | ⟨q, _, hq, _, h3⟩ | ⟨q, _, hq, hqa, _⟩
    · exact absurd hst1b h1
    · rw [hreuse] at hq; simp at hq
    · rw [hreuse] at hq
      have := Option.some.inj hq
      subst this
      rw [h3, hst1a, hroot _ hst1r]
    · rw [hreuse] at hq
      have := Option.some.inj hq
      subst this
      rw [hst1a] at hqa
      simp [kInvalidStream] at hqa
  · -- the vector is `[B, A]`
    subst e
    simp only [List.foldl_cons, List.foldl_nil]
    have hreuse := chain_reusable σ σ a b [b, a] (Or.inr rfl) (fun i => SameStatic.rfl_static _)
      heng hsched hind hlab hApld hBend hedge
    have s1 : AssignByDependencyPass.step (InitEndSubgraphMap [b, a] σ) (InitPldSubgraphMap [b, a] σ)
        { σ := σ, pass := AssignByDependencyPass.new, changed := false } b =
        (DepState.assignNew { σ := σ, pass := AssignByDependencyPass.new, changed := false } a).link
          b 0 a := by
      rcases step_cases (InitEndSubgraphMap [b, a] σ) (InitPldSubgraphMap [b, a] σ)
        { σ := σ, pass := AssignByDependencyPass.new, changed := false } b with
        ⟨h1, _⟩ | ⟨_, hq, _⟩ | ⟨q, _, hq, hqa, _⟩ | ⟨q, _, hq, _, h3⟩
      · exact absurd hB h1
      · rw [hreuse] at hq; simp at hq
      · rw [hreuse] at hq
        have := Option.some.inj hq
        subst this
        exact absurd hA hqa
      · rw [hreuse] at hq
        have := Option.some.inj hq
        subst this
        rw [h3, hv, hroot σ hAlink]
    rw [s1]
    rcases step_cases (InitEndSubgraphMap [b, a] σ) (InitPldSubgraphMap [b, a] σ)
      ((DepState.assignNew { σ := σ, pass := AssignByDependencyPass.new, changed := false } a).link
        b 0 a) a with ⟨_, h2⟩ | ⟨h1, _⟩ | ⟨q, h1, _⟩ | ⟨q, h1, _⟩
    · exact h2
    all_goals
      exfalso
      have : (((DepState.assignNew
          { σ := σ, pass := AssignByDependencyPass.new, changed := false } a).link b 0 a).σ
            a).stream_id = 0 := by
        show (setReused (setStreamId _ b 0) b (some a) a).stream_id = 0
        rw [setReused_stream, setStreamId_other _ _ _ _ hab]
        exact hst1a
      rw [this] at h1
      simp [kInvalidStream] at h1

/-! ## Round-robin with cap -/

theorem succ_emod (k m : Int) (hm : 1 ≤ m) :
    (k + 1) % m = if k % m + 1 ≥ m then 0 else k % m + 1 := by
  have h0 : 0 ≤ k % m := Int.emod_nonneg k (by omega)
  have h1 : k % m < m := Int.emod_lt_of_pos k (by omega)
  have hk : k + 1 = (k % m + 1) + m * (k / m) := by
    have := Int.emod_add_ediv k m
    omega
  rw [hk, Int.add_mul_emod_self_left]
  split
  · next hge =>
    have : k % m + 1 = m := by omega
    rw [this, Int.emod_self]
  · next hlt =>
    exact Int.emod_eq_of_lt (by omega) (by omega)

theorem assignCalls_snoc (σ : SubgraphHeap) (pre : List Nat) (x : Nat) :
    assignCalls σ (pre ++ [x]) = (assignCalls σ pre).assignNew x := by
  simp [assignCalls, List.foldl_append]

theorem assignCalls_static (σ : SubgraphHeap) (calls : List Nat) (i : Nat) :
    SameStatic ((assignCalls σ calls).σ i) (σ i) := by
  induction calls using List.reverseRecOn with
  | nil => exact SameStatic.rfl_static _
  | append_singleton pre x ih =>
    rw [assignCalls_snoc]
    exact (SameStatic.static_setStream _ _ _ _).trans_static ih

theorem callCount_snoc (σ : SubgraphHeap) (e : String) (pre : List Nat) (x : Nat) :
    callCount σ e (pre ++ [x]) = callCount σ e pre + (if engineOf σ x = e then 1 else 0) := by
  unfold callCount
  rw [List.filter_append, List.length_append]
  by_cases h : engineOf σ x = e
  · simp [List.filter_cons, h]
  · simp [List.filter_cons, h]

/-- The slot computed by `AssignNewStream` from the recorded next slot of the engine. -/
theorem newStreamId_of_next (pass : AssignByDependencyPass) (σ : SubgraphHeap) (x : Nat)
    (m : Int) (hm : 1 ≤ m) (hmax : (σ x).max_parallel_num = m) (cnt : Nat)
    (hnext : mapFind pass.engine_next_streams_ (σ x).engine_conf.id =
      if cnt = 0 then none else some (((cnt - 1 : Nat) : Int) % m + 1)) :
    newStreamId pass σ x = (cnt : Int) % m := by
  unfold newStreamId
  rw [hnext, hmax]
  cases cnt with
  | zero =>
    simp only [if_true]
    split <;> simp
  | succ k =>
    simp only [Nat.add_one_ne_zero, if_false, Nat.add_sub_cancel]
    have := succ_emod (k : Int) m hm
    push_cast
    rw [this]

/-- The next slot recorded for an engine after a sequence of calls of `AssignNewStream`,
all with the same `max_parallel_num` on that engine. -/
theorem assignCalls_next (σ : SubgraphHeap) (e : String) (m : Int) (hm : 1 ≤ m)
    (calls : List Nat)
    (hu : ∀ c, c ∈ calls → engineOf σ c = e → (σ c).max_parallel_num = m) :
    mapFind (assignCalls σ calls).pass.engine_next_streams_ e =
      if callCount σ e calls = 0 then none
      else some (((callCount σ e calls - 1 : Nat) : Int) % m + 1) := by
  induction calls using List.reverseRecOn with
  | nil => simp [assignCalls, callCount, AssignByDependencyPass.new, mapFind]
  | append_singleton pre x ih =>
    have ih' := ih (fun c hc => hu c (by simp [hc]))
    rw [assignCalls_snoc, callCount_snoc]
    show mapFind (mapSet _ ((assignCalls σ pre).σ x).engine_conf.id _) e = _
    have hst := assignCalls_static σ pre x
    have hxe : ((assignCalls σ pre).σ x).engine_conf.id = engineOf σ x := by
      simp [engineOf, hst.2.2.1]
    rw [mapFind_mapSet, hxe]
    by_cases he : engineOf σ x = e
    · have hmax : ((assignCalls σ pre).σ x).max_parallel_num = m := by
        rw [hst.2.2.2]; exact hu x (by simp) he
      have hslot := newStreamId_of_next (assignCalls σ pre).pass (assignCalls σ pre).σ x m hm hmax
        (callCount σ e pre) (by rw [hxe, he]; exact ih')
      simp only [he, if_true, Nat.add_one_ne_zero, if_false, Nat.add_sub_cancel, hslot]
    · have he' : e ≠ engineOf σ x := fun h => he h.symm
      simp only [he', if_false, he, Nat.add_zero]
      exact ih'

/-- Round-robin with cap: the slot of a call of `AssignNewStream` is the number of
earlier calls for the same engine, modulo `max_parallel_num`. -/
theorem assignCalls_slot (σ : SubgraphHeap) (pre : List Nat) (x : Nat) (m : Int) (hm : 1 ≤ m)
    (hu : ∀ c, c ∈ x :: pre → engineOf σ c = engineOf σ x → (σ c).max_parallel_num = m) :
    newStreamId (assignCalls σ pre).pass (assignCalls σ pre).σ x =
      (callCount σ (engineOf σ x) pre : Int) % m := by
  have hst := assignCalls_static σ pre x
  have hxe : ((assignCalls σ pre).σ x).engine_conf.id = engineOf σ x := by
    simp [engineOf, hst.2.2.1]
  apply newStreamId_of_next _ _ _ m hm
  · rw [hst.2.2.2]; exact hu x (by simp) rfl
  · rw [hxe]
    exact assignCalls_next σ (engineOf σ x) m hm pre (fun c hc => hu c (by simp [hc]))

/-! ## The dependency pass without reuse opportunities -/

theorem assignNew_fold_other (calls : List Nat) (st : DepState) (i : Nat) (hi : i ∉ calls) :
    (calls.foldl DepState.assignNew st).σ i = st.σ i := by
  induction calls generalizing st with
  | nil => rfl
  | cons x rest ih =>
    simp only [List.foldl_cons]
    rw [ih _ (fun h => hi (List.mem_cons_of_mem _ h))]
    show setStreamId st.σ x _ i = st.σ i
    apply setStreamId_other
    intro e; exact hi (by simp [e])

theorem assignNew_fold_assigned (calls : List Nat) (st : DepState) (i : Nat)
    (hi : i ∈ st.pass.assigned_subgraphs_) :
    i ∈ (calls.foldl DepState.assignNew st).pass.assigned_subgraphs_ := by
  induction calls generalizing st with
  | nil => exact hi
  | cons x rest ih =>
    simp only [List.foldl_cons]
    apply ih
    exact mem_setInsert.mpr (Or.inr hi)

theorem assignNew_fold_reused (calls : List Nat) (st : DepState) :
    (calls.foldl DepState.assignNew st).pass.reused_subgraphs_ = st.pass.reused_subgraphs_ := by
  induction calls generalizing st with
  | nil => rfl
  | cons x rest ih =>
    simp only [List.foldl_cons]
    rw [ih]
    rfl

/-- Without placeholders no subgraph has a reusable predecessor: the loop of
`AssignByDependencyPass::Run` calls `AssignNewStream` for every subgraph of the vector. -/
theorem step_fold_no_reuse (E P : List (Nat × Nat)) (ptrs : List Nat) (st : DepState)
    (hnd : ptrs.Nodup)
    (hun : ∀ s, s ∈ ptrs → (st.σ s).stream_id = kInvalidStream)
    (hpld : ∀ s, s ∈ ptrs → (st.σ s).subgraph_info.pld2end = []) :
    ptrs.foldl (AssignByDependencyPass.step E P) st = ptrs.foldl DepState.assignNew st := by
  induction ptrs generalizing st with
  | nil => rfl
  | cons s rest ih =>
    rw [List.nodup_cons] at hnd
    simp only [List.foldl_cons]
    have hs : AssignByDependencyPass.step E P st s = st.assignNew s := by
      rcases step_cases E P st s with ⟨h1, _⟩ | ⟨_, _, h3⟩ | ⟨q, _, hq, _⟩ | ⟨q, _, hq, _⟩
      · exact absurd (hun s (by simp)) h1
      · exact h3
      · rw [GetReusableSubgraph_nil _ _ (hpld s (by simp))] at hq; simp at hq
      · rw [GetReusableSubgraph_nil _ _ (hpld s (by simp))] at hq; simp at hq
    rw [hs]
    apply ih _ hnd.2
    · intro i hi
      have hne : i ≠ s := fun e => hnd.1 (e ▸ hi)
      show (setStreamId st.σ s _ i).stream_id = _
      rw [setStreamId_other _ _ _ _ hne]
      exact hun i (by simp [hi])
    · intro i hi
      show (setStreamId st.σ s _ i).subgraph_info.pld2end = []
      rw [setStreamId_info]
      exact hpld i (by simp [hi])

theorem loop_no_reuse (ptrs : List Nat) (σ : SubgraphHeap) (hnd : ptrs.Nodup)
    (hun : ∀ s, s ∈ ptrs → (σ s).stream_id = kInvalidStream)
    (hpld : ∀ s, s ∈ ptrs → (σ s).subgraph_info.pld2end = []) :
    AssignByDependencyPass.loop ptrs σ = assignCalls σ ptrs := by
  unfold AssignByDependencyPass.loop assignCalls
  exact step_fold_no_reuse _ _ ptrs _ hnd hun hpld

/-- The final stream id of a subgraph given a slot by `AssignNewStream`, when the loop
recorded no reuse. -/
theorem Run_assigned_no_reuse {ptrs : List Nat} {σ0 : SubgraphHeap} (ctx : Context)
    (hno : (AssignByDependencyPass.loop ptrs σ0).pass.reused_subgraphs_ = []) {i : Nat}
    (hi : i ∈ (AssignByDependencyPass.loop ptrs σ0).pass.assigned_subgraphs_) :
    ((AssignByDependencyPass.Run ptrs σ0 ctx).2.1 i).stream_id =
      ((AssignByDependencyPass.loop ptrs σ0).σ i).stream_id + (ctx.next_stream +
        sumBelow (AssignByDependencyPass.loop ptrs σ0).pass.engine_stream_num_ (engineOf σ0 i)) := by
  have hc := (DepInv.inv_loop σ0 ptrs).core
  unfold AssignByDependencyPass.Run UpdateReusedSubgraphs UpdateAssignedSubgraphs
  simp only [hno, List.foldl_nil]
  have hn : (AssignByDependencyPass.loop ptrs σ0).pass.assigned_subgraphs_.Nodup :=
    hc.assignedSorted.imp (fun h => Nat.ne_of_lt h)
  rw [(updateAssigned_fold _ _ hn _ i).2, if_pos hi, hc.engine_eq,
    engineStartStreams_get hc.numSorted _ (hc.key_mem hi)]

/-! ## `CouldReuse`: the scan over the successors of the predecessor -/

theorem otherSuccOnSameEngine_iff (σ : SubgraphHeap) (s p : Nat)
    (pld_subgraph_map : List (Nat × Nat)) :
    otherSuccOnSameEngine σ s p pld_subgraph_map = true ↔
      ∃ t, DirectSucc σ pld_subgraph_map p t ∧ t ≠ s ∧
        (σ t).engine_conf.id = (σ p).engine_conf.id := by
  unfold otherSuccOnSameEngine DirectSucc
  rw [List.any_eq_true]
  constructor
  · rintro ⟨e, he, h⟩
    cases hf : mapFind pld_subgraph_map e.2 with
    | none => rw [hf] at h; simp at h
    | some t =>
      rw [hf] at h
      simp only [Bool.and_eq_true, bne_iff_ne, ne_eq, beq_iff_eq] at h
      exact ⟨t, ⟨e, he, hf⟩, h.1, h.2⟩
  · rintro ⟨t, ⟨e, he, hf⟩, h1, h2⟩
    refine ⟨e, he, ?_⟩
    rw [hf]
    simp only [Bool.and_eq_true, bne_iff_ne, ne_eq, beq_iff_eq]
    exact ⟨h1, h2⟩

theorem otherSuccOnSameEngine_false (σ : SubgraphHeap) (s p : Nat)
    (pld_subgraph_map : List (Nat × Nat)) :
    otherSuccOnSameEngine σ s p pld_subgraph_map = false ↔
      ∀ t, DirectSucc σ pld_subgraph_map p t → t ≠ s →
        (σ t).engine_conf.id ≠ (σ p).engine_conf.id := by
  rw [← Bool.not_eq_true, otherSuccOnSameEngine_iff]
  constructor
  · intro h t ht hne he
    exact h ⟨t, ht, hne, he⟩
  · rintro h ⟨t, ht, hne, he⟩
    exact h t ht hne he

/-! ## `AssignByDependencyPass`: a vector of assigned subgraphs -/

theorem loop_all_assigned (end_subgraph_map pld_subgraph_map : List (Nat × Nat))
    (subgraphs : List Nat) (st : DepState)
    (h : ∀ s, s ∈ subgraphs → HasAssignedStream (st.σ s) = true) :
    subgraphs.foldl (AssignByDependencyPass.step end_subgraph_map pld_subgraph_map) st = st := by
  induction subgraphs with
  | nil => rfl
  | cons x rest ih =>
    rw [List.foldl_cons]
    have hx : AssignByDependencyPass.step end_subgraph_map pld_subgraph_map st x = st := by
      simp [AssignByDependencyPass.step, h x (List.mem_cons_self _ _)]
    rw [hx]
    exact ih (fun s hs => h s (List.mem_cons_of_mem _ hs))

/-! ## `AssignByDependencyPass`: successors that share the engine of their predecessor -/

theorem otherSucc_static {σ σ0 : SubgraphHeap} (h : ∀ i, SameStatic (σ i) (σ0 i)) (s p : Nat)
    (pld_subgraph_map : List (Nat × Nat)) :
    otherSuccOnSameEngine σ s p pld_subgraph_map =
      otherSuccOnSameEngine σ0 s p pld_subgraph_map := by
  unfold otherSuccOnSameEngine
  rw [(h p).2.1, (h p).2.2.1]
  congr 1
  funext e
  cases mapFind pld_subgraph_map e.2 with
  | none => rfl
  | some t => simp only [(h t).2.2.1]

theorem CouldReuse_scan {σ : SubgraphHeap} {s p : Nat} {pld_subgraph_map : List (Nat × Nat)}
    (h : CouldReuse σ (some s) (some p) pld_subgraph_map = true) :
    otherSuccOnSameEngine σ s p pld_subgraph_map = false := by
  cases hscan : otherSuccOnSameEngine σ s p pld_subgraph_map with
  | false => rfl
  | true =>
    unfold CouldReuse at h
    simp only [hscan, if_true] at h
    split at h
    · simp at h
    · split at h
      · simp at h
      · simp at h

theorem scan_of_other_succ {σ : SubgraphHeap} {pld_subgraph_map : List (Nat × Nat)} {p t : Nat}
    (ht : DirectSucc σ pld_subgraph_map p t)
    (he : (σ t).engine_conf.id = (σ p).engine_conf.id) {s : Nat} (hne : s ≠ t) :
    otherSuccOnSameEngine σ s p pld_subgraph_map = true :=
  (otherSuccOnSameEngine_iff σ s p pld_subgraph_map).mpr ⟨t, ht, fun h => hne h.symm, he⟩

theorem scan_of_two_succs {σ : SubgraphHeap} {pld_subgraph_map : List (Nat × Nat)} {p t1 t2 : Nat}
    (hne : t1 ≠ t2) (h1 : DirectSucc σ pld_subgraph_map p t1)
    (h2 : DirectSucc σ pld_subgraph_map p t2)
    (e1 : (σ t1).engine_conf.id = (σ p).engine_conf.id)
    (e2 : (σ t2).engine_conf.id = (σ p).engine_conf.id) (s : Nat) :
    otherSuccOnSameEngine σ s p pld_subgraph_map = true := by
  by_cases hs : s = t1
  · exact scan_of_other_succ h2 e2 (by rw [hs]; exact hne)
  · exact scan_of_other_succ h1 e1 hs

theorem CouldReuse_of_scan {σ : SubgraphHeap} {p : Nat} {pld_subgraph_map : List (Nat × Nat)}
    (S : Option Nat)
    (h : ∀ s, S = some s → otherSuccOnSameEngine σ s p pld_subgraph_map = true) :
    CouldReuse σ S (some p) pld_subgraph_map = false := by
  cases S with
  | none => simp [CouldReuse]
  | some s =>
    cases hc : CouldReuse σ (some s) (some p) pld_subgraph_map with
    | false => rfl
    | true =>
      have := CouldReuse_scan hc
      rw [h s rfl] at this
      cases this

theorem DepCore.core_fold {σ0 : SubgraphHeap} (E P : List (Nat × Nat)) (l : List Nat) :
    ∀ st : DepState, DepCore σ0 st → DepCore σ0 (l.foldl (AssignByDependencyPass.step E P) st) := by
  induction l with
  | nil => intro st h; exact h
  | cons a rest ih => intro st h; exact ih _ (h.core_step E P a)

theorem DepCore.core_loopAfter (subgraphs pre : List Nat) (σ0 : SubgraphHeap) :
    DepCore σ0 (AssignByDependencyPass.loopAfter subgraphs pre σ0) :=
  DepCore.core_fold _ _ pre _ (DepInv.inv_init σ0).core

theorem reuses_scan {subgraphs : List Nat} {σ0 : SubgraphHeap} {s p : Nat}
    (h : ReusesStreamOf subgraphs σ0 s p) :
    otherSuccOnSameEngine σ0 s p (InitPldSubgraphMap subgraphs σ0) = false := by
  obtain ⟨pre, post, _, _, hg⟩ := h
  obtain ⟨_, _, _, hc⟩ := GetReusableSubgraph_some hg
  rw [← otherSucc_static (DepCore.core_loopAfter subgraphs pre σ0).static]
  exact CouldReuse_scan hc

theorem assignNew_reused (st : DepState) (x : Nat) :
    (st.assignNew x).pass.reused_subgraphs_ = st.pass.reused_subgraphs_ := by
  simp only [DepState.assignNew, AssignNewStream.pass]

theorem donor_root {σ0 : SubgraphHeap} {ptrs : List Nat} {st : DepState} (hc : DepCore σ0 st)
    {P : List (Nat × Nat)}
    (h : ∀ c r, (c, r) ∈ st.pass.reused_subgraphs_ →
      ∃ s, otherSuccOnSameEngine σ0 s r P = false)
    (h0 : ∀ i, i ∈ ptrs → (σ0 i).reused_subgraph = none) {s q : Nat} (hq : q ∈ ptrs)
    (hcr : CouldReuse st.σ (some s) (some q) P = true) :
    ∃ s', otherSuccOnSameEngine σ0 s' (rootOf st.σ q) P = false := by
  unfold rootOf
  cases hr : (st.σ q).reused_subgraph with
  | none =>
    refine ⟨s, ?_⟩
    rw [← otherSucc_static hc.static]
    exact CouldReuse_scan hcr
  | some r =>
    rcases hc.linkOnly q r hr with hrec | hent
    · exact h q r hrec
    · rw [h0 q hq] at hent
      cases hent

theorem donor_step {σ0 : SubgraphHeap} {ptrs : List Nat} {st : DepState} (hc : DepCore σ0 st)
    {E P : List (Nat × Nat)}
    (h : ∀ c r, (c, r) ∈ st.pass.reused_subgraphs_ →
      ∃ s, otherSuccOnSameEngine σ0 s r P = false)
    (h0 : ∀ i, i ∈ ptrs → (σ0 i).reused_subgraph = none)
    (hE : ∀ e q, mapFind E e = some q → q ∈ ptrs) (s : Nat) :
    ∀ c r, (c, r) ∈ (AssignByDependencyPass.step E P st s).pass.reused_subgraphs_ →
      ∃ s', otherSuccOnSameEngine σ0 s' r P = false := by
  intro c r hcr
  rcases step_cases E P st s with ⟨_, he⟩ | ⟨_, _, he⟩ | ⟨q, _, hg, _, he⟩ | ⟨q, _, hg, _, he⟩
  · rw [he] at hcr; exact h c r hcr
  · rw [he, assignNew_reused] at hcr; exact h c r hcr
  · rw [he] at hcr
    simp only [DepState.link, List.mem_append, List.mem_singleton, Prod.mk.injEq] at hcr
    rcases hcr with hold | ⟨_, hr⟩
    · exact h c r hold
    · obtain ⟨pe, _, hm, hcould⟩ := GetReusableSubgraph_some hg
      rw [hr]
      exact donor_root hc h h0 (hE _ _ hm) hcould
  · rw [he] at hcr
    simp only [DepState.link, List.mem_append, List.mem_singleton, Prod.mk.injEq] at hcr
    rcases hcr with hold | ⟨_, hr⟩
    · rw [assignNew_reused] at hold; exact h c r hold
    · obtain ⟨pe, _, hm, hcould⟩ := GetReusableSubgraph_some hg
      rw [hr]
      exact donor_root hc h h0 (hE _ _ hm) hcould

theorem donor_loop (σ0 : SubgraphHeap) (subgraphs : List Nat)
    (h0 : ∀ i, i ∈ subgraphs → (σ0 i).reused_subgraph = none) :
    ∀ c r, (c, r) ∈ (AssignByDependencyPass.loop subgraphs σ0).pass.reused_subgraphs_ →
      ∃ s, otherSuccOnSameEngine σ0 s r (InitPldSubgraphMap subgraphs σ0) = false := by
  unfold AssignByDependencyPass.loop
  have := foldl_invariant
    (AssignByDependencyPass.step (InitEndSubgraphMap subgraphs σ0) (InitPldSubgraphMap subgraphs σ0))
    (fun _ st => DepCore σ0 st ∧ ∀ c r, (c, r) ∈ st.pass.reused_subgraphs_ →
      ∃ s, otherSuccOnSameEngine σ0 s r (InitPldSubgraphMap subgraphs σ0) = false)
    subgraphs [] _ ⟨(DepInv.inv_init σ0).core, by
      intro c r h; simp [AssignByDependencyPass.new] at h⟩
    (fun d b a hb => ⟨hb.1.core_step _ _ a,
      donor_step hb.1 hb.2 h0 (fun e q hq => mem_of_InitEndSubgraphMap hq) a⟩)
  exact this.2

theorem mem_of_InitPldSubgraphMap {ptrs : List Nat} {σ : SubgraphHeap} {e q : Nat}
    (h : mapFind (InitPldSubgraphMap ptrs σ) e = some q) : q ∈ ptrs := by
  rw [mapFind_InitPldSubgraphMap] at h
  exact List.mem_of_find?_eq_some h

theorem no_link_to_fork {subgraphs : List Nat} {σ0 : SubgraphHeap} (ctx : Context)
    (h0 : ∀ i, i ∈ subgraphs → (σ0 i).reused_subgraph = none) {p : Nat}
    (hscan : ∀ s, otherSuccOnSameEngine σ0 s p (InitPldSubgraphMap subgraphs σ0) = true)
    {i : Nat} (hi : i ∈ subgraphs) :
    ¬ linkedTo (AssignByDependencyPass.Run subgraphs σ0 ctx).2.1 i p := by
  intro hl
  obtain ⟨s, hs⟩ := donor_loop σ0 subgraphs h0 i p (Run_link_recorded ctx h0 hi hl)
  rw [hscan s] at hs
  cases hs

/-! ## `AssignByDependencyPass`: the high-water mark of an engine -/

theorem callCount_cons (σ : SubgraphHeap) (e : String) (x : Nat) (l : List Nat) :
    callCount σ e (x :: l) = callCount σ e l + (if engineOf σ x = e then 1 else 0) := by
  unfold callCount
  by_cases h : engineOf σ x = e
  · simp [List.filter_cons, h]
  · simp [List.filter_cons, h]

theorem callCount_setInsert (σ : SubgraphHeap) (e : String) (x : Nat) (l : List Nat)
    (hx : x ∉ l) :
    callCount σ e (setInsert x l) = callCount σ e l + (if engineOf σ x = e then 1 else 0) := by
  induction l with
  | nil =>
    show callCount σ e [x] = _
    rw [callCount_cons]
  | cons y ys ih =>
    have hxy : x ≠ y := fun h => hx (by simp [h])
    have hys : x ∉ ys := fun h => hx (by simp [h])
    unfold setInsert
    simp only [hxy, if_false]
    split
    · rw [callCount_cons]
    · rw [callCount_cons, ih hys, callCount_cons]
      omega

theorem DepCount.count_init (σ0 : SubgraphHeap) (e : String) (m : Int) (hm : 1 ≤ m) :
    DepCount σ0 e m { σ := σ0, pass := AssignByDependencyPass.new, changed := false } where
  next := by simp [AssignByDependencyPass.new, callCount, mapFind]
  mark := by
    simp only [AssignByDependencyPass.new, callCount, mapGet, mapFind, List.filter_nil,
      List.length_nil, Option.getD_none, Nat.cast_zero]
    omega

theorem DepCount.count_assignNew {σ0 : SubgraphHeap} {e : String} {m : Int} {st : DepState}
    (hc : DepCore σ0 st) (h : DepCount σ0 e m st) (hm : 1 ≤ m) (x : Nat)
    (hx : (st.σ x).stream_id = kInvalidStream)
    (hmax : engineOf σ0 x = e → (σ0 x).max_parallel_num = m) :
    DepCount σ0 e m (st.assignNew x) := by
  have hxe : (st.σ x).engine_conf.id = engineOf σ0 x := hc.engine_eq x
  have hnot : x ∉ st.pass.assigned_subgraphs_ := hc.not_assigned_of_invalid hx
  have hcount : callCount σ0 e (st.assignNew x).pass.assigned_subgraphs_ =
      callCount σ0 e st.pass.assigned_subgraphs_ + (if engineOf σ0 x = e then 1 else 0) :=
    callCount_setInsert σ0 e x _ hnot
  by_cases he : engineOf σ0 x = e
  · have hmx : (st.σ x).max_parallel_num = m := by
      rw [(hc.static x).2.2.2]; exact hmax he
    have hslot := newStreamId_of_next st.pass st.σ x m hm hmx
      (callCount σ0 e st.pass.assigned_subgraphs_) (by rw [hxe, he]; exact h.next)
    constructor
    · rw [hcount]
      show mapFind (mapSet _ (st.σ x).engine_conf.id _) e = _
      rw [mapFind_mapSet, hxe]
      simp only [he, if_true, Nat.add_one_ne_zero, if_false, Nat.add_sub_cancel, hslot]
    · rw [hcount]
      have hsame := assignNew_num_same st.pass st.σ x
      rw [hxe, he] at hsame
      show mapGet (AssignNewStream.pass st.pass st.σ x).engine_stream_num_ e = _
      rw [hsame, h.mark, hslot]
      simp only [he, if_true]
      push_cast
      have h0 : (0 : Int) ≤ (callCount σ0 e st.pass.assigned_subgraphs_ : Int) := by positivity
      by_cases hlt : (callCount σ0 e st.pass.assigned_subgraphs_ : Int) < m
      · rw [Int.emod_eq_of_lt h0 hlt]
        omega
      · have h1 := Int.emod_lt_of_pos (callCount σ0 e st.pass.assigned_subgraphs_ : Int)
          (show (0 : Int) < m by omega)
        have h2 := Int.emod_nonneg (callCount σ0 e st.pass.assigned_subgraphs_ : Int)
          (show m ≠ 0 by omega)
        omega
  · have he' : e ≠ (st.σ x).engine_conf.id := by
      rw [hxe]; exact fun h => he h.symm
    constructor
    · rw [hcount]
      show mapFind (mapSet _ (st.σ x).engine_conf.id _) e = _
      rw [mapFind_mapSet]
      simp only [he', if_false, he, Nat.add_zero]
      exact h.next
    · rw [hcount]
      show mapGet (AssignNewStream.pass st.pass st.σ x).engine_stream_num_ e = _
      rw [assignNew_num_other st.pass st.σ x e he']
      simp only [he, if_false, Nat.add_zero]
      exact h.mark

theorem DepCount.count_link {σ0 : SubgraphHeap} {e : String} {m : Int} {st : DepState}
    (h : DepCount σ0 e m st) (s r : Nat) (v : Int) : DepCount σ0 e m (st.link s v r) where
  next := h.next
  mark := h.mark

theorem DepCount.count_step {σ0 : SubgraphHeap} {ptrs : List Nat} {e : String} {m : Int}
    {st : DepState} (hc : DepCore σ0 st) (h : DepCount σ0 e m st) (hm : 1 ≤ m)
    (E P : List (Nat × Nat)) (s : Nat)
    (hE : ∀ e' q, mapFind E e' = some q → q ∈ ptrs) (hs : s ∈ ptrs)
    (hu : ∀ i, i ∈ ptrs → engineOf σ0 i = e → (σ0 i).max_parallel_num = m) :
    DepCount σ0 e m (AssignByDependencyPass.step E P st s) := by
  rcases step_cases E P st s with ⟨_, he⟩ | ⟨hinv, _, he⟩ | ⟨q, _, _, _, he⟩ | ⟨q, _, hg, hq, he⟩
  · rw [he]; exact h
  · rw [he]; exact h.count_assignNew hc hm s hinv (hu s hs)
  · rw [he]; exact h.count_link _ _ _
  · rw [he]
    obtain ⟨pe, _, hmem, _⟩ := GetReusableSubgraph_some hg
    exact (h.count_assignNew hc hm q hq (hu q (hE _ _ hmem))).count_link _ _ _

theorem DepCount.count_loop (σ0 : SubgraphHeap) (subgraphs : List Nat) (e : String) (m : Int)
    (hm : 1 ≤ m)
    (hu : ∀ i, i ∈ subgraphs → engineOf σ0 i = e → (σ0 i).max_parallel_num = m) :
    DepCount σ0 e m (AssignByDependencyPass.loop subgraphs σ0) := by
  unfold AssignByDependencyPass.loop
  have := foldl_invariant_mem
    (AssignByDependencyPass.step (InitEndSubgraphMap subgraphs σ0) (InitPldSubgraphMap subgraphs σ0))
    (fun _ st => DepCore σ0 st ∧ DepCount σ0 e m st) subgraphs subgraphs [] _
    (fun a ha => ha) ⟨(DepInv.inv_init σ0).core, DepCount.count_init σ0 e m hm⟩
    (fun d b a ha hb => ⟨hb.1.core_step _ _ a,
      hb.2.count_step hb.1 hm _ _ a (fun e q hq => mem_of_InitEndSubgraphMap hq) ha hu⟩)
  exact this.2

theorem KeySorted.keys_nodup {m : List (String × Int)} (hs : KeySorted m) :
    (m.map Prod.fst).Nodup := by
  unfold KeySorted at hs
  rw [List.Nodup, List.pairwise_map]
  refine hs.imp ?_
  intro a b hab heq
  rw [heq] at hab
  exact keyLt_irrefl b.1 hab

theorem mapGet_of_not_key {m : List (String × Int)} {k : String}
    (hk : k ∉ m.map Prod.fst) : mapGet m k = 0 := by
  unfold mapGet
  cases hf : mapFind m k with
  | none => rfl
  | some v =>
    exact absurd (List.mem_map_of_mem Prod.fst (mem_of_mapFind hf)) hk

theorem sum_keys_eq {num : List (String × Int)} (hs : KeySorted num) (h : String → Int)
    {engines : List String} (hnd : engines.Nodup)
    (hval : ∀ k, mapGet num k = h k) (hzero : ∀ k, k ∉ engines → h k = 0)
    (p : String → Bool) :
    ((num.filter (fun x => p x.1)).map Prod.snd).sum = ((engines.filter p).map h).sum := by
  have h1 : (num.filter (fun x => p x.1)).map Prod.snd =
      (((num.map Prod.fst).filter p).map h) := by
    rw [List.filter_map, List.map_map]
    apply List.map_congr_left
    intro x hx
    have hxm : x ∈ num := (List.mem_filter.mp hx).1
    have := mapFind_of_mem hs (show (x.1, x.2) ∈ num from hxm)
    simp only [Function.comp]
    rw [← hval x.1, mapGet, this]
    rfl
  rw [h1]
  have hk := (KeySorted.keys_nodup hs).filter p
  have he := hnd.filter p
  rw [← List.sum_toFinset h hk, ← List.sum_toFinset h he]
  have hA : ∑ x ∈ ((num.map Prod.fst).filter p).toFinset, h x =
      ∑ x ∈ ((num.map Prod.fst).filter p).toFinset ∪ (engines.filter p).toFinset, h x := by
    apply Finset.sum_subset Finset.subset_union_left
    intro x hx hnx
    simp only [Finset.mem_union, List.mem_toFinset, List.mem_filter] at hx hnx
    have hxe : x ∈ engines ∧ p x = true := by
      rcases hx with hx | hx
      · exact absurd hx hnx
      · exact hx
    have hnk : x ∉ num.map Prod.fst := fun hmem => hnx ⟨hmem, hxe.2⟩
    rw [← hval x, mapGet_of_not_key hnk]
  have hB : ∑ x ∈ (engines.filter p).toFinset, h x =
      ∑ x ∈ ((num.map Prod.fst).filter p).toFinset ∪ (engines.filter p).toFinset, h x := by
    apply Finset.sum_subset Finset.subset_union_right
    intro x hx hnx
    simp only [Finset.mem_union, List.mem_toFinset, List.mem_filter] at hx hnx
    have hxk : x ∈ num.map Prod.fst ∧ p x = true := by
      rcases hx with hx | hx
      · exact hx
      · exact absurd hx hnx
    exact hzero x (fun hmem => hnx ⟨hmem, hxk.2⟩)
  rw [hA, hB]

theorem sumBelow_eq_sumBefore {num : List (String × Int)} (hs : KeySorted num) (h : String → Int)
    {engines : List String} (hnd : engines.Nodup)
    (hval : ∀ k, mapGet num k = h k) (hzero : ∀ k, k ∉ engines → h k = 0) (e : String) :
    sumBelow num e = sumBefore h engines e :=
  sum_keys_eq hs h hnd hval hzero (fun f => decide (keyLt f e))

theorem sumAll_eq_sum {num : List (String × Int)} (hs : KeySorted num) (h : String → Int)
    {engines : List String} (hnd : engines.Nodup)
    (hval : ∀ k, mapGet num k = h k) (hzero : ∀ k, k ∉ engines → h k = 0) :
    sumAll num = (engines.map h).sum := by
  have := sum_keys_eq hs h hnd hval hzero (fun _ => true)
  simpa [sumAll] using this

/-! ## `NodeStreamUpdatePass`: the stream ids set from the subgraphs -/

theorem SetStreamId_same (ops : OpHeap) (d : Nat) (v : Int) :
    (SetStreamId ops d v d).stream_id = v := by
  simp [SetStreamId]

theorem SetStreamId_other (ops : OpHeap) (d i : Nat) (v : Int) (h : i ≠ d) :
    SetStreamId ops d v i = ops i := by
  simp [SetStreamId, h]

theorem SetStreamId_label (ops : OpHeap) (d i : Nat) (v : Int) :
    (SetStreamId ops d v i).stream_label = (ops i).stream_label := by
  unfold SetStreamId; split
  · next e => subst e; rfl
  · rfl

theorem SetStreamId_stream (ops : OpHeap) (d i : Nat) (v : Int) :
    (SetStreamId ops d v i).stream_id = if i = d then v else (ops i).stream_id := by
  unfold SetStreamId; split
  · next e => subst e; rfl
  · rfl

/-- What the loop over the nodes of one subgraph leaves in the op descriptors. -/
theorem setNodeStreams_spec (nodes : NodeHeap) (sg : Subgraph) (l : List Nat) (ops : OpHeap) :
    (∀ d, (setNodeStreams nodes sg l ops).2 d = ops d ∨
      ((setNodeStreams nodes sg l ops).2 d).stream_id = sg.stream_id) ∧
    (∀ d, ((setNodeStreams nodes sg l ops).2 d).stream_label = (ops d).stream_label) ∧
    (∀ d, (∀ n, n ∈ l → (nodes n).op_desc ≠ some d) →
      (setNodeStreams nodes sg l ops).2 d = ops d) ∧
    ((setNodeStreams nodes sg l ops).1 = Status.SUCCESS →
      ∀ n, n ∈ l → ∃ d, (nodes n).op_desc = some d ∧
        (¬ (IsEngineSkip sg = true ∧ (nodes n).in_nodes = []) →
          ((setNodeStreams nodes sg l ops).2 d).stream_id = sg.stream_id)) := by
  induction l generalizing ops with
  | nil =>
    refine ⟨fun d => Or.inl rfl, fun d => rfl, fun d _ => rfl, ?_⟩
    intro _ n hn; simp at hn
  | cons x rest ih =>
    cases hx : (nodes x).op_desc with
    | none =>
      rw [show setNodeStreams nodes sg (x :: rest) ops = (Status.PARAM_INVALID, ops) by
        simp [setNodeStreams, hx]]
      refine ⟨fun d => Or.inl rfl, fun d => rfl, fun d _ => rfl, ?_⟩
      intro h; simp at h
    | some dx =>
      simp only [setNodeStreams, hx]
      by_cases hskip : (IsEngineSkip sg && (nodes x).in_nodes.isEmpty) = true
      · simp only [hskip, if_true]
        obtain ⟨h1, h2, h3, h4⟩ := ih ops
        refine ⟨h1, h2, ?_, ?_⟩
        · intro d hd
          exact h3 d (fun n hn => hd n (List.mem_cons_of_mem _ hn))
        · intro hs n hn
          simp only [List.mem_cons] at hn
          rcases hn with hn | hn
          · subst hn
            refine ⟨dx, hx, ?_⟩
            intro hne
            exfalso; apply hne
            simp only [Bool.and_eq_true, List.isEmpty_iff] at hskip
            exact hskip
          · exact h4 hs n hn
      · simp only [hskip, Bool.false_eq_true, if_false]
        obtain ⟨h1, h2, h3, h4⟩ := ih (SetStreamId ops dx sg.stream_id)
        refine ⟨?_, ?_, ?_, ?_⟩
        · intro d
          rcases h1 d with h | h
          · by_cases hd : d = dx
            · right; rw [h, hd, SetStreamId_same]
            · left; rw [h, SetStreamId_other _ _ _ _ hd]
          · exact Or.inr h
        · intro d; rw [h2 d, SetStreamId_label]
        · intro d hd
          rw [h3 d (fun n hn => hd n (List.mem_cons_of_mem _ hn))]
          apply SetStreamId_other
          intro e; subst e
          exact hd x (by simp) hx
        · intro hs n hn
          simp only [List.mem_cons] at hn
          rcases hn with hn | hn
          · subst hn
            refine ⟨dx, hx, fun _ => ?_⟩
            rcases h1 dx with h | h
            · rw [h, SetStreamId_same]
            · exact h
          · exact h4 hs n hn

/-- What the loop over the subgraphs leaves in the op descriptors when it ends with
`SUCCESS`. -/
theorem setSubgraphStreams_spec (nodes : NodeHeap) (σ : SubgraphHeap) (l : List Nat)
    (ops ops' : OpHeap) (h : setSubgraphStreams nodes σ l ops = some (Status.SUCCESS, ops')) :
    (∀ d, ops' d = ops d ∨ ∃ s, s ∈ l ∧ (ops' d).stream_id = (σ s).stream_id) ∧
    (∀ d, (ops' d).stream_label = (ops d).stream_label) ∧
    (∀ d, (∀ s, s ∈ l → ∀ n, n ∈ nodesOf σ s → (nodes n).op_desc ≠ some d) → ops' d = ops d) ∧
    (∀ s, s ∈ l → (σ s).subgraph_info.sub_graph ≠ none) ∧
    (∀ s, s ∈ l → ∀ n, n ∈ nodesOf σ s → ∃ d, (nodes n).op_desc = some d) ∧
    (∀ s, s ∈ l →
      (∀ s', s' ∈ l → s ≠ s' → ∀ n, n ∈ nodesOf σ s → ∀ n', n' ∈ nodesOf σ s' →
        (nodes n).op_desc ≠ (nodes n').op_desc) →
      ∀ n, n ∈ nodesOf σ s → ∀ d, (nodes n).op_desc = some d →
        ¬ (IsEngineSkip (σ s) = true ∧ (nodes n).in_nodes = []) →
        (ops' d).stream_id = (σ s).stream_id) := by
  induction l generalizing ops with
  | nil =>
    simp only [setSubgraphStreams, Option.some.injEq, Prod.mk.injEq, true_and] at h
    subst h
    refine ⟨fun d => Or.inl rfl, fun d => rfl, fun d _ => rfl, ?_, ?_, ?_⟩ <;>
      intro s hs <;> simp at hs
  | cons x rest ih =>
    simp only [setSubgraphStreams] at h
    cases hg : (σ x).subgraph_info.sub_graph with
    | none => rw [hg] at h; simp at h
    | some g =>
      rw [hg] at h
      simp only at h
      have hnx : nodesOf σ x = g.direct_node := by simp [nodesOf, hg]
      by_cases hst : (setNodeStreams nodes (σ x) g.direct_node ops).1 = Status.SUCCESS
      · rw [if_pos hst] at h
        obtain ⟨a1, a2, a3, a4⟩ := setNodeStreams_spec nodes (σ x) g.direct_node ops
        obtain ⟨b1, b2, b3, b4, b5, b6⟩ := ih _ h
        refine ⟨?_, ?_, ?_, ?_, ?_, ?_⟩
        · intro d
          rcases b1 d with hb | ⟨s, hs, hb⟩
          · rcases a1 d with ha | ha
            · left; rw [hb, ha]
            · right; exact ⟨x, by simp, by rw [hb, ha]⟩
          · right; exact ⟨s, by simp [hs], hb⟩
        · intro d; rw [b2 d, a2 d]
        · intro d hd
          rw [b3 d (fun s hs => hd s (by simp [hs])),
            a3 d (fun n hn => hd x (by simp) n (by rw [hnx]; exact hn))]
        · intro s hs
          simp only [List.mem_cons] at hs
          rcases hs with hs | hs
          · subst hs; rw [hg]; simp
          · exact b4 s hs
        · intro s hs n hn
          simp only [List.mem_cons] at hs
          rcases hs with hs | hs
          · subst hs
            rw [hnx] at hn
            obtain ⟨d, hd, _⟩ := a4 hst n hn
            exact ⟨d, hd⟩
          · exact b5 s hs n hn
        · intro s hs hdis n hn d hd hne
          by_cases hsr : s ∈ rest
          · exact b6 s hsr (fun s' hs' => hdis s' (by simp [hs'])) n hn d hd hne
          · simp only [List.mem_cons] at hs
            rcases hs with hs | hs
            · subst hs
              -- no later subgraph shares the op descriptor
              rw [b3 d (fun s' hs' n' hn' e => by
                have hne' : s ≠ s' := fun e' => hsr (e' ▸ hs')
                exact hdis s' (by simp [hs']) hne' n hn n' hn' (by rw [hd, e]))]
              rw [hnx] at hn
              obtain ⟨d', hd', hset⟩ := a4 hst n hn
              rw [hd] at hd'
              have := Option.some.inj hd'
              subst this
              exact hset hne
            · exact absurd hs hsr
      · rw [if_neg hst] at h
        simp only [Option.some.injEq] at h
        have : (setNodeStreams nodes (σ x) g.direct_node ops).1 = Status.SUCCESS := by
          rw [h]
        exact absurd this hst

/-! ## `UpdateForSkippedEngine` -/

theorem mem_setInsert_iff {α : Type} [DecidableEq α] [LT α]
    [DecidableRel (fun a b : α => a < b)] {x a : α} {l : List α} :
    a ∈ setInsert x l ↔ a = x ∨ a ∈ l := by
  induction l with
  | nil => simp [setInsert]
  | cons y ys ih =>
    simp only [setInsert]
    split
    · next e => subst e; simp only [List.mem_cons]; tauto
    · split
      · simp only [List.mem_cons]
      · simp only [List.mem_cons, ih]; tauto

theorem collectToUpdate_mem (nodes : NodeHeap) (ops : OpHeap) (l : List Nat) (acc : List Nat)
    (d : Nat) (hd : d ∈ (collectToUpdate nodes ops l acc).2) :
    d ∈ acc ∨ ∃ n, n ∈ l ∧ (nodes n).op_desc = some d := by
  induction l generalizing acc with
  | nil => left; exact hd
  | cons x rest ih =>
    cases hx : (nodes x).op_desc with
    | none =>
      rw [show collectToUpdate nodes ops (x :: rest) acc = (Status.PARAM_INVALID, acc) by
        simp [collectToUpdate, hx]] at hd
      left; exact hd
    | some dx =>
      simp only [collectToUpdate, hx] at hd
      split at hd
      · rcases ih _ hd with h | ⟨n, hn, h⟩
        · rcases mem_setInsert_iff.mp h with h | h
          · right; exact ⟨x, by simp, by rw [hx, h]⟩
          · left; exact h
        · right; exact ⟨n, by simp [hn], h⟩
      · rcases ih _ hd with h | ⟨n, hn, h⟩
        · left; exact h
        · right; exact ⟨n, by simp [hn], h⟩

theorem nodesToBeUpdated_mem (nodes : NodeHeap) (ops : OpHeap) (σ : SubgraphHeap) (l : List Nat)
    (acc : List Nat) (r : Status × List Nat)
    (h : nodesToBeUpdated nodes ops σ l acc = some r) (d : Nat) (hd : d ∈ r.2) :
    d ∈ acc ∨ ∃ s, s ∈ l ∧ IsEngineSkip (σ s) = true ∧ HasStreamLabel (σ s) = false ∧
      ∃ n, n ∈ nodesOf σ s ∧ (nodes n).op_desc = some d := by
  induction l generalizing acc with
  | nil =>
    simp only [nodesToBeUpdated, Option.some.injEq] at h
    subst h; left; exact hd
  | cons x rest ih =>
    simp only [nodesToBeUpdated] at h
    by_cases hc : (IsEngineSkip (σ x) && !HasStreamLabel (σ x)) = true
    · rw [if_pos hc] at h
      simp only [Bool.and_eq_true, Bool.not_eq_true'] at hc
      cases hg : (σ x).subgraph_info.sub_graph with
      | none => rw [hg] at h; simp at h
      | some g =>
        rw [hg] at h
        simp only at h
        have hnx : nodesOf σ x = g.direct_node := by simp [nodesOf, hg]
        have hfrom : ∀ d', d' ∈ (collectToUpdate nodes ops g.direct_node acc).2 →
            d' ∈ acc ∨ ∃ s, s ∈ x :: rest ∧ IsEngineSkip (σ s) = true ∧
              HasStreamLabel (σ s) = false ∧ ∃ n, n ∈ nodesOf σ s ∧ (nodes n).op_desc = some d' := by
          intro d' hd'
          rcases collectToUpdate_mem nodes ops g.direct_node acc d' hd' with h1 | ⟨n, hn, h1⟩
          · left; exact h1
          · right; exact ⟨x, by simp, hc.1, hc.2, n, by rw [hnx]; exact hn, h1⟩
        split at h
        · rcases ih _ h with h1 | ⟨s, hs, h1⟩
          · exact hfrom d h1
          · right; exact ⟨s, by simp [hs], h1⟩
        · simp only [Option.some.injEq] at h
          subst h
          exact hfrom d hd
    · rw [if_neg hc] at h
      rcases ih _ h with h1 | ⟨s, hs, h1⟩
      · left; exact h1
      · right; exact ⟨s, by simp [hs], h1⟩

/-- The second loop of `UpdateForSkippedEngine` writes only op descriptors of the set
`nodes_to_be_updated`, and never a stream label. -/
theorem reassignSkipped_frame (nodes : NodeHeap) (U : List Nat) (l : List Nat) (ops : OpHeap) :
    (∀ d, d ∉ U → (reassignSkipped nodes U l ops).2 d = ops d) ∧
    (∀ d, ((reassignSkipped nodes U l ops).2 d).stream_label = (ops d).stream_label) := by
  induction l generalizing ops with
  | nil => exact ⟨fun d _ => rfl, fun d => rfl⟩
  | cons x rest ih =>
    cases hx : (nodes x).op_desc with
    | none =>
      rw [show reassignSkipped nodes U (x :: rest) ops = (Status.PARAM_INVALID, ops) by
        simp [reassignSkipped, hx]]
      exact ⟨fun d _ => rfl, fun d => rfl⟩
    | some dx =>
      simp only [reassignSkipped, hx]
      by_cases hU : dx ∈ U
      · simp only [hU, if_true]
        have hother : ∀ d, d ∉ U → d ≠ dx := fun d hd e => hd (e ▸ hU)
        split
        · obtain ⟨h1, h2⟩ := ih (SetStreamId ops dx kInvalidStream)
          exact ⟨fun d hd => by rw [h1 d hd, SetStreamId_other _ _ _ _ (hother d hd)],
            fun d => by rw [h2 d, SetStreamId_label]⟩
        · split
          · obtain ⟨h1, h2⟩ := ih (SetStreamId ops dx (GetSingleInoutStream nodes ops x))
            exact ⟨fun d hd => by rw [h1 d hd, SetStreamId_other _ _ _ _ (hother d hd)],
              fun d => by rw [h2 d, SetStreamId_label]⟩
          · exact ih ops
      · simp only [hU, if_false]
        exact ih ops

/-! ## `NodeStreamUpdatePass::Run`: the shape of a successful run -/

/-- The shape of a run of `NodeStreamUpdatePass::Run` that returns `SUCCESS`. -/
theorem NodeStreamUpdatePass_success {nodes : NodeHeap} {g : ComputeGraph} {ptrs : List Nat}
    {σ : SubgraphHeap} {ops ops' : OpHeap}
    (h : NodeStreamUpdatePass.Run nodes g ptrs σ ops = some (Status.SUCCESS, ops')) :
    (∀ s, s ∈ ptrs → IsEngineSkip (σ s) = true ∨ (σ s).stream_id ≠ kInvalidStream) ∧
    ∃ ops1 ops2 U,
      initNodeStreams nodes g.direct_node ops = (Status.SUCCESS, ops1) ∧
      setSubgraphStreams nodes σ ptrs ops1 = some (Status.SUCCESS, ops2) ∧
      nodesToBeUpdated nodes ops2 σ ptrs [] = some (Status.SUCCESS, U) ∧
      reassignSkipped nodes U g.direct_node ops2 = (Status.SUCCESS, ops') := by
  unfold NodeStreamUpdatePass.Run at h
  by_cases hany : (ptrs.any (fun subgraph =>
      !IsEngineSkip (σ subgraph) && !HasAssignedStream (σ subgraph))) = true
  · rw [if_pos hany] at h; simp at h
  · rw [if_neg hany] at h
    simp only at h
    constructor
    · intro s hs
      simp only [List.any_eq_true, not_exists, not_and, Bool.and_eq_true, Bool.not_eq_true',
        Bool.not_eq_false] at hany
      by_cases hsk : IsEngineSkip (σ s) = true
      · exact Or.inl hsk
      · right
        simp only [Bool.not_eq_true] at hsk
        have := hany s hs hsk
        exact (hasAssigned_iff _).mp this
    · by_cases h1 : (initNodeStreams nodes g.direct_node ops).1 = Status.SUCCESS
      · rw [if_neg (by simpa using h1)] at h
        cases h2 : setSubgraphStreams nodes σ ptrs (initNodeStreams nodes g.direct_node ops).2 with
        | none => rw [h2] at h; simp at h
        | some r2 =>
          rw [h2] at h
          simp only at h
          by_cases h2s : r2.1 = Status.SUCCESS
          · rw [if_neg (by simpa using h2s)] at h
            unfold UpdateForSkippedEngine at h
            cases h3 : nodesToBeUpdated nodes r2.2 σ ptrs [] with
            | none => rw [h3] at h; simp at h
            | some r3 =>
              rw [h3] at h
              simp only at h
              by_cases h3s : r3.1 = Status.SUCCESS
              · rw [if_pos h3s] at h
                simp only [Option.some.injEq] at h
                refine ⟨(initNodeStreams nodes g.direct_node ops).2, r2.2, r3.2, ?_, ?_, ?_, h⟩
                · rw [← h1]
                · rw [h2, ← h2s]
                · rw [← h3s]; exact h3
              · rw [if_neg h3s] at h
                simp only [Option.some.injEq, Prod.mk.injEq] at h
                exact absurd h.1 h3s
          · rw [if_pos (by simpa using h2s)] at h
            simp only [Option.some.injEq] at h
            rw [h] at h2s
            exact absurd rfl h2s
      · rw [if_pos (by simpa using h1)] at h
        simp only [Option.some.injEq] at h
        rw [h] at h1
        exact absurd rfl h1

/-! ## The range of the node stream ids -/

theorem initNodeStreams_spec (nodes : NodeHeap) (l : List Nat) (ops : OpHeap) :
    (∀ d, (initNodeStreams nodes l ops).2 d = ops d ∨
      ((initNodeStreams nodes l ops).2 d).stream_id = kInvalidStream) ∧
    ((initNodeStreams nodes l ops).1 = Status.SUCCESS →
      ∀ n, n ∈ l → ∃ d, (nodes n).op_desc = some d ∧
        ((initNodeStreams nodes l ops).2 d).stream_id = kInvalidStream) := by
  induction l generalizing ops with
  | nil => exact ⟨fun d => Or.inl rfl, fun _ n hn => by simp at hn⟩
  | cons x rest ih =>
    cases hx : (nodes x).op_desc with
    | none =>
      rw [show initNodeStreams nodes (x :: rest) ops = (Status.PARAM_INVALID, ops) by
        simp [initNodeStreams, hx]]
      exact ⟨fun d => Or.inl rfl, fun h => by simp at h⟩
    | some dx =>
      simp only [initNodeStreams, hx]
      obtain ⟨h1, h2⟩ := ih (SetStreamId ops dx kInvalidStream)
      refine ⟨?_, ?_⟩
      · intro d
        rcases h1 d with h | h
        · by_cases hd : d = dx
          · right; rw [h, hd, SetStreamId_same]
          · left; rw [h, SetStreamId_other _ _ _ _ hd]
        · exact Or.inr h
      · intro hs n hn
        simp only [List.mem_cons] at hn
        rcases hn with hn | hn
        · subst hn
          refine ⟨dx, hx, ?_⟩
          rcases h1 dx with h | h
          · rw [h, SetStreamId_same]
          · exact h
        · exact h2 hs n hn

theorem collectStreamIds_mem (nodes : NodeHeap) (ops : OpHeap) (l : List Nat) (acc ids : List Int)
    (h : collectStreamIds nodes ops l acc = some ids) (v : Int) (hv : v ∈ ids) :
    v ∈ acc ∨ ∃ m, m ∈ l ∧ ∃ d, (nodes m).op_desc = some d ∧ (ops d).stream_id = v := by
  induction l generalizing acc with
  | nil =>
    simp only [collectStreamIds, Option.some.injEq] at h
    subst h; left; exact hv
  | cons x rest ih =>
    cases hx : (nodes x).op_desc with
    | none => simp [collectStreamIds, hx] at h
    | some dx =>
      simp only [collectStreamIds, hx] at h
      split at h
      · rcases ih _ h with h1 | ⟨m, hm, h1⟩
        · rcases mem_setInsert_iff.mp h1 with h1 | h1
          · right; exact ⟨x, by simp, dx, hx, by rw [h1]; rfl⟩
          · left; exact h1
        · right; exact ⟨m, by simp [hm], h1⟩
      · rcases ih _ h with h1 | ⟨m, hm, h1⟩
        · left; exact h1
        · right; exact ⟨m, by simp [hm], h1⟩

/-- The value of `GetSingleInoutStream`: the sentinel, or the stream id of a neighbour. -/
theorem GetSingleInoutStream_spec (nodes : NodeHeap) (ops : OpHeap) (node : Nat) :
    GetSingleInoutStream nodes ops node = kInvalidStream ∨
      ∃ m, m ∈ (nodes node).in_all_nodes ++ (nodes node).out_all_nodes ∧
        ∃ d, (nodes m).op_desc = some d ∧
          (ops d).stream_id = GetSingleInoutStream nodes ops node := by
  unfold GetSingleInoutStream
  cases h1 : collectStreamIds nodes ops (nodes node).in_all_nodes [] with
  | none => left; rfl
  | some ids1 =>
    simp only
    cases h2 : collectStreamIds nodes ops (nodes node).out_all_nodes ids1 with
    | none => left; rfl
    | some ids2 =>
      match ids2, h2 with
      | [], _ => left; rfl
      | [v], h2 =>
        right
        simp only
        rcases collectStreamIds_mem nodes ops _ _ _ h2 v (by simp) with h | ⟨m, hm, h⟩
        · rcases collectStreamIds_mem nodes ops _ _ _ h1 v h with h' | ⟨m, hm, h'⟩
          · simp at h'
          · exact ⟨m, by simp [hm], h'⟩
        · exact ⟨m, by simp [hm], h⟩
      | _ :: _ :: _, _ => left; rfl

/-- The second loop of `UpdateForSkippedEngine` keeps a property of the stream ids of a
set `D` of op descriptors that holds the neighbours of the visited nodes. -/
theorem reassignSkipped_good (nodes : NodeHeap) (U : List Nat) (Good : Int → Prop)
    (hG : Good kInvalidStream) (D : Nat → Prop) (l : List Nat) (ops : OpHeap)
    (hclosed : ∀ n, n ∈ l → ∀ m, m ∈ (nodes n).in_all_nodes ++ (nodes n).out_all_nodes →
      ∀ d, (nodes m).op_desc = some d → D d)
    (hinv : ∀ d, D d → Good (ops d).stream_id) :
    ∀ d, D d → Good ((reassignSkipped nodes U l ops).2 d).stream_id := by
  induction l generalizing ops with
  | nil => exact hinv
  | cons x rest ih =>
    have hcl' : ∀ n, n ∈ rest → ∀ m, m ∈ (nodes n).in_all_nodes ++ (nodes n).out_all_nodes →
        ∀ d, (nodes m).op_desc = some d → D d := fun n hn => hclosed n (by simp [hn])
    cases hx : (nodes x).op_desc with
    | none =>
      rw [show reassignSkipped nodes U (x :: rest) ops = (Status.PARAM_INVALID, ops) by
        simp [reassignSkipped, hx]]
      exact hinv
    | some dx =>
      simp only [reassignSkipped, hx]
      have hset : ∀ v, Good v → ∀ d, D d → Good ((SetStreamId ops dx v) d).stream_id := by
        intro v hv d hd
        rw [SetStreamId_stream]
        split
        · exact hv
        · exact hinv d hd
      split
      · split
        · exact ih _ hcl' (hset _ hG)
        · split
          · apply ih _ hcl' (hset _ _)
            rcases GetSingleInoutStream_spec nodes ops x with h | ⟨m, hm, d, hd, h⟩
            · rw [h]; exact hG
            · rw [← h]; exact hinv d (hclosed x (by simp) m hm d hd)
          · exact ih _ hcl' hinv
      · exact ih _ hcl' hinv

/-- The second loop of `AllReduceParallelPass::Run` only hands out stream ids from the
counter, which it never decreases. -/
theorem remapStreams_spec (nodes : NodeHeap) (c : Int) (l : List Nat) (st : RemapState)
    (hc : c ≤ st.next_stream)
    (hmap : ∀ k v, mapFind st.old_stream_to_new k = some v → c ≤ v ∧ v < st.next_stream) :
    st.next_stream ≤ (remapStreams nodes l st).2.next_stream ∧
    (∀ d, ((remapStreams nodes l st).2.ops d) = st.ops d ∨
      (c ≤ ((remapStreams nodes l st).2.ops d).stream_id ∧
        ((remapStreams nodes l st).2.ops d).stream_id < (remapStreams nodes l st).2.next_stream)) ∧
    (∀ d, ((remapStreams nodes l st).2.ops d).stream_label = (st.ops d).stream_label) := by
  induction l generalizing st with
  | nil => exact ⟨le_refl _, fun d => Or.inl rfl, fun d => rfl⟩
  | cons x rest ih =>
    cases hx : (nodes x).op_desc with
    | none =>
      rw [show remapStreams nodes (x :: rest) st = (Status.PARAM_INVALID, st) by
        simp [remapStreams, hx]]
      exact ⟨le_refl _, fun d => Or.inl rfl, fun d => rfl⟩
    | some dx =>
      simp only [remapStreams, hx]
      split
      · cases hf : mapFind st.old_stream_to_new (GetStreamId st.ops dx) with
        | some w =>
          simp only
          have hw := hmap _ _ hf
          obtain ⟨h1, h2, h3⟩ := ih { st with ops := SetStreamId st.ops dx w } hc hmap
          refine ⟨h1, ?_, ?_⟩
          · intro d
            rcases h2 d with h | h
            · by_cases hd : d = dx
              · right
                rw [h, hd]
                show c ≤ (SetStreamId st.ops dx w dx).stream_id ∧
                  (SetStreamId st.ops dx w dx).stream_id < _
                rw [SetStreamId_same]
                have h1' : st.next_stream ≤ _ := h1
                exact ⟨hw.1, lt_of_lt_of_le hw.2 h1'⟩
              · left
                rw [h]
                exact SetStreamId_other _ _ _ _ hd
            · exact Or.inr h
          · intro d
            rw [h3 d]
            exact SetStreamId_label _ _ _ _
        | none =>
          simp only
          obtain ⟨h1, h2, h3⟩ := ih
            { ops := SetStreamId st.ops dx st.next_stream
              next_stream := st.next_stream + 1
              old_stream_to_new :=
                mapEmplace st.old_stream_to_new (GetStreamId st.ops dx) st.next_stream }
            (by show c ≤ st.next_stream + 1; omega)
            (by
              intro k v hkv
              have hkv' : mapFind (mapEmplace st.old_stream_to_new (GetStreamId st.ops dx)
                st.next_stream) k = some v := hkv
              show c ≤ v ∧ v < st.next_stream + 1
              rw [mapFind_mapEmplace] at hkv'
              cases hk : mapFind st.old_stream_to_new k with
              | some w' =>
                rw [hk] at hkv'
                simp only [Option.some.injEq] at hkv'
                subst hkv'
                have := hmap k w' hk
                omega
              | none =>
                rw [hk] at hkv'
                simp only at hkv'
                split at hkv'
                · simp only [Option.some.injEq] at hkv'
                  omega
                · simp at hkv')
          have h1' : st.next_stream + 1 ≤ _ := h1
          refine ⟨by omega, ?_, ?_⟩
          · intro d
            rcases h2 d with h | h
            · by_cases hd : d = dx
              · right
                rw [h, hd]
                show c ≤ (SetStreamId st.ops dx st.next_stream dx).stream_id ∧
                  (SetStreamId st.ops dx st.next_stream dx).stream_id < _
                rw [SetStreamId_same]
                exact ⟨hc, by omega⟩
              · left
                rw [h]
                exact SetStreamId_other _ _ _ _ hd
            · exact Or.inr h
          · intro d
            rw [h3 d]
            exact SetStreamId_label _ _ _ _
      · exact ih st hc hmap

/-- The effect of `AllReduceParallelPass::Run` on the op descriptors and on the counter. -/
theorem AllReduceParallelPass_spec {fuel : Nat} {nodes : NodeHeap} {g : ComputeGraph}
    {ops : OpHeap} {ctx : Context} {r : Status × OpHeap × Context}
    (h : AllReduceParallelPass.Run fuel nodes g ops ctx = some r) :
    ctx.next_stream ≤ r.2.2.next_stream ∧ r.2.2.hcom_parallel = ctx.hcom_parallel ∧
    (∀ d, r.2.1 d = ops d ∨
      (ctx.next_stream ≤ (r.2.1 d).stream_id ∧ (r.2.1 d).stream_id < r.2.2.next_stream)) := by
  unfold AllReduceParallelPass.Run at h
  by_cases hp : (!ctx.hcom_parallel) = true
  · rw [if_pos hp] at h
    simp only [Option.some.injEq] at h
    subst h
    exact ⟨le_refl _, rfl, fun d => Or.inl rfl⟩
  · rw [if_neg hp] at h
    cases hcol : collectAllReduceSuccs fuel nodes ops g.direct_node [] with
    | none => rw [hcol] at h; simp at h
    | some c =>
      rw [hcol] at h
      simp only at h
      have hspec := remapStreams_spec nodes ctx.next_stream c.2
        { ops := ops, next_stream := ctx.next_stream, old_stream_to_new := [] } (le_refl _)
        (by intro k v hk; simp [mapFind] at hk)
      split at h
      · simp only [Option.some.injEq] at h
        subst h
        exact ⟨le_refl _, rfl, fun d => Or.inl rfl⟩
      · split at h
        · simp only [Option.some.injEq] at h
          subst h
          exact ⟨hspec.1, rfl, hspec.2.1⟩
        · simp only [Option.some.injEq] at h
          subst h
          exact ⟨hspec.1, rfl, hspec.2.1⟩

/-! ## Status codes of `NodeStreamUpdatePass`; the range after three passes -/

theorem initNodeStreams_status (nodes : NodeHeap) (l : List Nat) (ops : OpHeap) :
    (initNodeStreams nodes l ops).1 ≠ Status.NOT_CHANGED := by
  induction l generalizing ops with
  | nil => simp [initNodeStreams]
  | cons x rest ih =>
    cases hx : (nodes x).op_desc with
    | none => simp [initNodeStreams, hx]
    | some dx => simp only [initNodeStreams, hx]; exact ih _

theorem setNodeStreams_status (nodes : NodeHeap) (sg : Subgraph) (l : List Nat) (ops : OpHeap) :
    (setNodeStreams nodes sg l ops).1 ≠ Status.NOT_CHANGED := by
  induction l generalizing ops with
  | nil => simp [setNodeStreams]
  | cons x rest ih =>
    cases hx : (nodes x).op_desc with
    | none => simp [setNodeStreams, hx]
    | some dx =>
      simp only [setNodeStreams, hx]
      split
      · exact ih _
      · exact ih _

theorem setSubgraphStreams_status (nodes : NodeHeap) (σ : SubgraphHeap) (l : List Nat)
    (ops : OpHeap) (r : Status × OpHeap) (h : setSubgraphStreams nodes σ l ops = some r) :
    r.1 ≠ Status.NOT_CHANGED := by
  induction l generalizing ops with
  | nil =>
    simp only [setSubgraphStreams, Option.some.injEq] at h
    subst h; simp
  | cons x rest ih =>
    simp only [setSubgraphStreams] at h
    cases hg : (σ x).subgraph_info.sub_graph with
    | none => rw [hg] at h; simp at h
    | some g =>
      rw [hg] at h
      simp only at h
      split at h
      · exact ih _ h
      · simp only [Option.some.injEq] at h
        subst h
        exact setNodeStreams_status _ _ _ _

theorem collectToUpdate_status (nodes : NodeHeap) (ops : OpHeap) (l : List Nat) (acc : List Nat) :
    (collectToUpdate nodes ops l acc).1 ≠ Status.NOT_CHANGED := by
  induction l generalizing acc with
  | nil => simp [collectToUpdate]
  | cons x rest ih =>
    cases hx : (nodes x).op_desc with
    | none => simp [collectToUpdate, hx]
    | some dx =>
      simp only [collectToUpdate, hx]
      split
      · exact ih _
      · exact ih _

theorem nodesToBeUpdated_status (nodes : NodeHeap) (ops : OpHeap) (σ : SubgraphHeap)
    (l : List Nat) (acc : List Nat) (r : Status × List Nat)
    (h : nodesToBeUpdated nodes ops σ l acc = some r) : r.1 ≠ Status.NOT_CHANGED := by
  induction l generalizing acc with
  | nil =>
    simp only [nodesToBeUpdated, Option.some.injEq] at h
    subst h; simp
  | cons x rest ih =>
    simp only [nodesToBeUpdated] at h
    split at h
    · cases hg : (σ x).subgraph_info.sub_graph with
      | none => rw [hg] at h; simp at h
      | some g =>
        rw [hg] at h
        simp only at h
        split at h
        · exact ih _ h
        · simp only [Option.some.injEq] at h
          subst h
          exact collectToUpdate_status _ _ _ _
    · exact ih _ h

theorem reassignSkipped_status (nodes : NodeHeap) (U : List Nat) (l : List Nat) (ops : OpHeap) :
    (reassignSkipped nodes U l ops).1 ≠ Status.NOT_CHANGED := by
  induction l generalizing ops with
  | nil => simp [reassignSkipped]
  | cons x rest ih =>
    cases hx : (nodes x).op_desc with
    | none => simp [reassignSkipped, hx]
    | some dx =>
      simp only [reassignSkipped, hx]
      split
      · split
        · exact ih _
        · split
          · exact ih _
          · exact ih _
      · exact ih _

/-- The pass `NodeStreamUpdatePass` never answers `NOT_CHANGED`. -/
theorem NodeStreamUpdatePass_status {nodes : NodeHeap} {g : ComputeGraph} {ptrs : List Nat}
    {σ : SubgraphHeap} {ops : OpHeap} {r : Status × OpHeap}
    (h : NodeStreamUpdatePass.Run nodes g ptrs σ ops = some r) : r.1 ≠ Status.NOT_CHANGED := by
  unfold NodeStreamUpdatePass.Run at h
  split at h
  · simp only [Option.some.injEq] at h
    subst h; simp
  · simp only at h
    split at h
    · simp only [Option.some.injEq] at h
      subst h
      exact initNodeStreams_status _ _ _
    · cases h2 : setSubgraphStreams nodes σ ptrs (initNodeStreams nodes g.direct_node ops).2 with
      | none => rw [h2] at h; simp at h
      | some r2 =>
        rw [h2] at h
        simp only at h
        split at h
        · simp only [Option.some.injEq] at h
          subst h
          exact setSubgraphStreams_status _ _ _ _ _ h2
        · unfold UpdateForSkippedEngine at h
          cases h3 : nodesToBeUpdated nodes r2.2 σ ptrs [] with
          | none => rw [h3] at h; simp at h
          | some r3 =>
            rw [h3] at h
            simp only at h
            split at h
            · simp only [Option.some.injEq] at h
              subst h
              exact reassignSkipped_status _ _ _ _
            · simp only [Option.some.injEq] at h
              subst h
              exact nodesToBeUpdated_status _ _ _ _ _ _ h3

theorem passContinues_cases {s : Status} (h : passContinues s = true) :
    s = Status.SUCCESS ∨ s = Status.NOT_CHANGED := by
  cases s <;> simp [passContinues] at h ⊢

/-- The label pass leaves an unlabelled subgraph as it is. -/
theorem afterLabel_other (ptrs : List Nat) (σ : SubgraphHeap) (ctx : Context) {i : Nat}
    (h : labelOf σ i = "") : (afterLabel ptrs σ ctx).2.1 i = σ i := by
  obtain ⟨st1, h1, e1, _⟩ := afterLabel_inv ptrs σ ctx
  rw [e1]
  exact h1.untouched i (Or.inr h)

/-- Range of the subgraph stream ids after the first three passes of the pipeline, run on
fresh subgraphs from a non-negative counter. -/
theorem afterDependency_range (ptrs : List Nat) (σ : SubgraphHeap) (ctx : Context)
    (hctx : 0 ≤ ctx.next_stream)
    (hfresh : ∀ s, s ∈ ptrs → (σ s).stream_id = kInvalidStream ∧ (σ s).reused_subgraph = none)
    {i : Nat} (hi : i ∈ ptrs) :
    0 ≤ ((afterDependency ptrs σ ctx).2.1 i).stream_id ∧
      ((afterDependency ptrs σ ctx).2.1 i).stream_id <
        (afterDependency ptrs σ ctx).2.2.next_stream := by
  have hle1 := afterLabel_next_le ptrs σ ctx
  have hle2 := afterIndependent_next_le ptrs σ ctx
  unfold afterDependency
  apply Run_range
  · intro s hs
    rw [(afterIndependent_same ptrs σ ctx s).2.2.2.2]
    exact (hfresh s hs).2
  · intro s hs
    by_cases hind : IsEngineIndependent (σ s) = true
    · right
      have := afterIndependent_independent ptrs σ ctx hs hind
      omega
    · simp only [Bool.not_eq_true] at hind
      rw [afterIndependent_other ptrs σ ctx hind]
      by_cases hlab : labelOf σ s = ""
      · left
        rw [afterLabel_other ptrs σ ctx hlab]
        exact (hfresh s hs).1
      · right
        have := afterLabel_labelled ptrs σ ctx hs hlab
        omega
  · omega
  · exact hi

/-- The counter of the allocator is never negative: it is 0 after construction, and no
pass decreases it. -/
theorem RunPasses_counter {fuel : Nat} {nodes : NodeHeap} {g : ComputeGraph} {ptrs : List Nat}
    {σ : SubgraphHeap} {ops : OpHeap} {ctx : Context} {n : Int} {out : Outcome}
    (h : RunPasses fuel nodes g ptrs σ ops ctx n = some out) :
    ctx.next_stream ≤ out.context_.next_stream := by
  have h1 := afterLabel_next_le ptrs σ ctx
  have h2 := afterIndependent_next_le ptrs σ ctx
  have h3 : (afterIndependent ptrs σ ctx).2.2.next_stream ≤
      (afterDependency ptrs σ ctx).2.2.next_stream := by
    unfold afterDependency
    rw [Run_next]
    have := sumAll_nonneg (DepInv.inv_loop (afterIndependent ptrs σ ctx).2.1 ptrs).core.numPos
    simp only
    omega
  obtain ⟨_, r4, _, hrest⟩ := RunPasses_some h
  rcases hrest with ⟨_, _, _, hc, _⟩ | ⟨_, r5, h5, _, hc, _⟩
  · rw [hc]; omega
  · rw [hc]
    have := (AllReduceParallelPass_spec h5).1
    omega

/-! ## The status codes of `NodeStreamUpdatePass::Run` -/

theorem initNodeStreams_codes (nodes : NodeHeap) (l : List Nat) (ops : OpHeap) :
    (initNodeStreams nodes l ops).1 = Status.SUCCESS ∨
      (initNodeStreams nodes l ops).1 = Status.PARAM_INVALID := by
  induction l generalizing ops with
  | nil => simp [initNodeStreams]
  | cons x rest ih =>
    cases hx : (nodes x).op_desc with
    | none => simp [initNodeStreams, hx]
    | some dx => simp only [initNodeStreams, hx]; exact ih _

theorem setNodeStreams_codes (nodes : NodeHeap) (sg : Subgraph) (l : List Nat) (ops : OpHeap) :
    (setNodeStreams nodes sg l ops).1 = Status.SUCCESS ∨
      (setNodeStreams nodes sg l ops).1 = Status.PARAM_INVALID := by
  induction l generalizing ops with
  | nil => simp [setNodeStreams]
  | cons x rest ih =>
    cases hx : (nodes x).op_desc with
    | none => simp [setNodeStreams, hx]
    | some dx =>
      simp only [setNodeStreams, hx]
      split
      · exact ih _
      · exact ih _

theorem setSubgraphStreams_codes (nodes : NodeHeap) (σ : SubgraphHeap) (l : List Nat)
    (ops : OpHeap) (r : Status × OpHeap) (h : setSubgraphStreams nodes σ l ops = some r) :
    r.1 = Status.SUCCESS ∨ r.1 = Status.PARAM_INVALID := by
  induction l generalizing ops with
  | nil =>
    simp only [setSubgraphStreams, Option.some.injEq] at h
    subst h; simp
  | cons x rest ih =>
    simp only [setSubgraphStreams] at h
    cases hg : (σ x).subgraph_info.sub_graph with
    | none => rw [hg] at h; simp at h
    | some g =>
      rw [hg] at h
      simp only at h
      split at h
      · exact ih _ h
      · simp only [Option.some.injEq] at h
        subst h
        exact setNodeStreams_codes _ _ _ _

theorem collectToUpdate_codes (nodes : NodeHeap) (ops : OpHeap) (l : List Nat) (acc : List Nat) :
    (collectToUpdate nodes ops l acc).1 = Status.SUCCESS ∨
      (collectToUpdate nodes ops l acc).1 = Status.PARAM_INVALID := by
  induction l generalizing acc with
  | nil => simp [collectToUpdate]
  | cons x rest ih =>
    cases hx : (nodes x).op_desc with
    | none => simp [collectToUpdate, hx]
    | some dx =>
      simp only [collectToUpdate, hx]
      split
      · exact ih _
      · exact ih _

theorem nodesToBeUpdated_codes (nodes : NodeHeap) (ops : OpHeap) (σ : SubgraphHeap)
    (l : List Nat) (acc : List Nat) (r : Status × List Nat)
    (h : nodesToBeUpdated nodes ops σ l acc = some r) :
    r.1 = Status.SUCCESS ∨ r.1 = Status.PARAM_INVALID := by
  induction l generalizing acc with
  | nil =>
    simp only [nodesToBeUpdated, Option.some.injEq] at h
    subst h; simp
  | cons x rest ih =>
    simp only [nodesToBeUpdated] at h
    split at h
    · cases hg : (σ x).subgraph_info.sub_graph with
      | none => rw [hg] at h; simp at h
      | some g =>
        rw [hg] at h
        simp only at h
        split at h
        · exact ih _ h
        · simp only [Option.some.injEq] at h
          subst h
          exact collectToUpdate_codes _ _ _ _
    · exact ih _ h

theorem reassignSkipped_codes (nodes : NodeHeap) (U : List Nat) (l : List Nat) (ops : OpHeap) :
    (reassignSkipped nodes U l ops).1 = Status.SUCCESS ∨
      (reassignSkipped nodes U l ops).1 = Status.PARAM_INVALID := by
  induction l generalizing ops with
  | nil => simp [reassignSkipped]
  | cons x rest ih =>
    cases hx : (nodes x).op_desc with
    | none => simp [reassignSkipped, hx]
    | some dx =>
      simp only [reassignSkipped, hx]
      split
      · split
        · exact ih _
        · split
          · exact ih _
          · exact ih _
      · exact ih _

theorem UpdateForSkippedEngine_codes {nodes : NodeHeap} {g : ComputeGraph} {ptrs : List Nat}
    {σ : SubgraphHeap} {ops : OpHeap} {r : Status × OpHeap}
    (h : UpdateForSkippedEngine nodes g ptrs σ ops = some r) :
    r.1 = Status.SUCCESS ∨ r.1 = Status.PARAM_INVALID := by
  unfold UpdateForSkippedEngine at h
  cases h1 : nodesToBeUpdated nodes ops σ ptrs [] with
  | none => rw [h1] at h; simp at h
  | some u =>
    rw [h1] at h
    simp only at h
    split at h
    · simp only [Option.some.injEq] at h
      subst h
      exact reassignSkipped_codes _ _ _ _
    · simp only [Option.some.injEq] at h
      subst h
      exact nodesToBeUpdated_codes _ _ _ _ _ _ h1

/-- The guard of the first loop of `NodeStreamUpdatePass::Run`: some subgraph of the vector
is neither on a skip-assignment engine nor has a stream. -/
theorem unassigned_guard (ptrs : List Nat) (σ : SubgraphHeap) :
    ptrs.any (fun subgraph => !IsEngineSkip (σ subgraph) && !HasAssignedStream (σ subgraph)) = true ↔
      ∃ s, s ∈ ptrs ∧ IsEngineSkip (σ s) = false ∧ (σ s).stream_id = kInvalidStream := by
  simp only [List.any_eq_true, Bool.and_eq_true, Bool.not_eq_true', HasAssignedStream, bne_eq_false_iff_eq]

/-- The statuses of `NodeStreamUpdatePass::Run`: `INTERNAL_ERROR` from the first loop, with
the op descriptors as they were; otherwise `SUCCESS` or the status of a null check. -/
theorem NodeStreamUpdatePass_codes {nodes : NodeHeap} {g : ComputeGraph} {ptrs : List Nat}
    {σ : SubgraphHeap} {ops : OpHeap} {r : Status × OpHeap}
    (h : NodeStreamUpdatePass.Run nodes g ptrs σ ops = some r) :
    ((∃ s, s ∈ ptrs ∧ IsEngineSkip (σ s) = false ∧ (σ s).stream_id = kInvalidStream) ∧
        r = (Status.INTERNAL_ERROR, ops)) ∨
    ((¬ ∃ s, s ∈ ptrs ∧ IsEngineSkip (σ s) = false ∧ (σ s).stream_id = kInvalidStream) ∧
        (r.1 = Status.SUCCESS ∨ r.1 = Status.PARAM_INVALID)) := by
  unfold NodeStreamUpdatePass.Run at h
  split at h
  · next hg =>
    simp only [Option.some.injEq] at h
    subst h
    exact Or.inl ⟨(unassigned_guard ptrs σ).mp hg, rfl⟩
  · next hg =>
    right
    refine ⟨fun hex => hg ((unassigned_guard ptrs σ).mpr hex), ?_⟩
    simp only at h
    split at h
    · simp only [Option.some.injEq] at h
      subst h
      exact initNodeStreams_codes _ _ _
    · cases h2 : setSubgraphStreams nodes σ ptrs (initNodeStreams nodes g.direct_node ops).2 with
      | none => rw [h2] at h; simp at h
      | some r2 =>
        rw [h2] at h
        simp only at h
        split at h
        · simp only [Option.some.injEq] at h
          subst h
          exact setSubgraphStreams_codes _ _ _ _ _ h2
        · exact UpdateForSkippedEngine_codes h

/-! ## The status codes of `AllReduceParallelPass::Run` -/

theorem visitOutDataNodes_codes (nodes : NodeHeap) (ops : OpHeap) (L : String) (l : List Nat)
    (acc : List Nat × List Nat) :
    (visitOutDataNodes nodes ops L l acc).1 = Status.SUCCESS ∨
      (visitOutDataNodes nodes ops L l acc).1 = Status.PARAM_INVALID := by
  induction l generalizing acc with
  | nil => simp [visitOutDataNodes]
  | cons x rest ih =>
    cases hx : (nodes x).op_desc with
    | none => simp [visitOutDataNodes, hx]
    | some dx =>
      simp only [visitOutDataNodes, hx]
      split
      · exact ih _
      · exact ih _

theorem visitCurNodes_codes (nodes : NodeHeap) (ops : OpHeap) (L : String) (l : List Nat)
    (acc : List Nat × List Nat) :
    (visitCurNodes nodes ops L l acc).1 = Status.SUCCESS ∨
      (visitCurNodes nodes ops L l acc).1 = Status.PARAM_INVALID := by
  induction l generalizing acc with
  | nil => simp [visitCurNodes]
  | cons x rest ih =>
    simp only [visitCurNodes]
    split
    · exact ih _
    · exact visitOutDataNodes_codes _ _ _ _ _

theorem walkSuccessors_codes (nodes : NodeHeap) (ops : OpHeap) (L : String) (fuel : Nat)
    (cur acc : List Nat) (r : Status × List Nat)
    (h : walkSuccessors nodes ops L fuel cur acc = some r) :
    r.1 = Status.SUCCESS ∨ r.1 = Status.PARAM_INVALID := by
  induction fuel generalizing cur acc with
  | zero =>
    cases cur with
    | nil => simp only [walkSuccessors, Option.some.injEq] at h; subst h; simp
    | cons c cs => simp [walkSuccessors] at h
  | succ n ih =>
    cases cur with
    | nil => simp only [walkSuccessors, Option.some.injEq] at h; subst h; simp
    | cons c cs =>
      simp only [walkSuccessors] at h
      split at h
      · exact ih _ _ h
      · simp only [Option.some.injEq] at h
        subst h
        exact visitCurNodes_codes _ _ _ _ _

theorem collectAllReduceSuccs_codes (fuel : Nat) (nodes : NodeHeap) (ops : OpHeap) (l : List Nat)
    (acc : List Nat) (r : Status × List Nat)
    (h : collectAllReduceSuccs fuel nodes ops l acc = some r) :
    r.1 = Status.SUCCESS ∨ r.1 = Status.PARAM_INVALID := by
  induction l generalizing acc with
  | nil => simp only [collectAllReduceSuccs, Option.some.injEq] at h; subst h; simp
  | cons x rest ih =>
    simp only [collectAllReduceSuccs] at h
    split at h
    · exact ih _ h
    · cases hx : (nodes x).op_desc with
      | none => rw [hx] at h; simp only [Option.some.injEq] at h; subst h; simp
      | some dx =>
        rw [hx] at h
        simp only at h
        cases hw : walkSuccessors nodes ops (GetStreamLabel ops dx) fuel [x] acc with
        | none => rw [hw] at h; simp at h
        | some w =>
          rw [hw] at h
          simp only at h
          split at h
          · exact ih _ h
          · simp only [Option.some.injEq] at h
            subst h
            exact walkSuccessors_codes _ _ _ _ _ _ _ hw

theorem remapStreams_codes (nodes : NodeHeap) (l : List Nat) (st : RemapState) :
    (remapStreams nodes l st).1 = Status.SUCCESS ∨
      (remapStreams nodes l st).1 = Status.PARAM_INVALID := by
  induction l generalizing st with
  | nil => simp [remapStreams]
  | cons x rest ih =>
    cases hx : (nodes x).op_desc with
    | none => simp [remapStreams, hx]
    | some dx =>
      simp only [remapStreams, hx]
      split
      · split
        · exact ih _
        · exact ih _
      · exact ih _

/-- The statuses of `AllReduceParallelPass::Run`. -/
theorem AllReduceParallelPass_codes {fuel : Nat} {nodes : NodeHeap} {g : ComputeGraph}
    {ops : OpHeap} {ctx : Context} {r : Status × OpHeap × Context}
    (h : AllReduceParallelPass.Run fuel nodes g ops ctx = some r) :
    r.1 = Status.SUCCESS ∨ r.1 = Status.NOT_CHANGED ∨ r.1 = Status.PARAM_INVALID := by
  unfold AllReduceParallelPass.Run at h
  split at h
  · simp only [Option.some.injEq] at h
    subst h; simp
  · cases hcol : collectAllReduceSuccs fuel nodes ops g.direct_node [] with
    | none => rw [hcol] at h; simp at h
    | some c =>
      rw [hcol] at h
      simp only at h
      split at h
      · simp only [Option.some.injEq] at h
        subst h
        rcases collectAllReduceSuccs_codes _ _ _ _ _ _ hcol with h1 | h1
        · exact Or.inl h1
        · exact Or.inr (Or.inr h1)
      · split at h
        · simp only [Option.some.injEq] at h
          subst h
          rcases remapStreams_codes nodes c.2
            { ops := ops, next_stream := ctx.next_stream, old_stream_to_new := [] } with h1 | h1
          · exact Or.inl h1
          · exact Or.inr (Or.inr h1)
        · simp only [Option.some.injEq] at h
          subst h
          simp only
          split
          · exact Or.inl rfl
          · exact Or.inr (Or.inl rfl)

/-! ## `UpdateForSkippedEngine`: the rule applied to one node -/

theorem setInsert_sorted_int {x : Int} {l : List Int} (h : l.Pairwise (fun a b => a < b)) :
    (setInsert x l).Pairwise (fun a b => a < b) := by
  induction l with
  | nil => simp [setInsert]
  | cons y ys ih =>
    rw [List.pairwise_cons] at h
    simp only [setInsert]
    split
    · exact List.pairwise_cons.mpr h
    · next hne =>
      split
      · next hlt =>
        refine List.pairwise_cons.mpr ⟨?_, List.pairwise_cons.mpr h⟩
        intro a ha
        simp only [List.mem_cons] at ha
        rcases ha with ha | ha
        · omega
        · have := h.1 a ha; omega
      · next hnlt =>
        refine List.pairwise_cons.mpr ⟨?_, ih h.2⟩
        intro a ha
        rcases mem_setInsert_iff.mp ha with ha | ha
        · omega
        · exact h.1 a ha

theorem mem_validStreams (nodes : NodeHeap) (ops : OpHeap) (l : List Nat) (v : Int) :
    v ∈ validStreams nodes ops l ↔
      ∃ m, m ∈ l ∧ ∃ d, (nodes m).op_desc = some d ∧ (ops d).stream_id = v ∧
        v ≠ kInvalidStream := by
  unfold validStreams GetStreamId
  simp only [List.mem_filter, List.mem_map, List.mem_filterMap, bne_iff_ne, ne_eq]
  constructor
  · rintro ⟨⟨d, ⟨m, hm, hd⟩, hv⟩, hne⟩
    exact ⟨m, hm, d, hd, hv, hne⟩
  · rintro ⟨m, hm, d, hd, hv, hne⟩
    exact ⟨⟨d, ⟨m, hm, hd⟩, hv⟩, hne⟩

theorem validStreams_append (nodes : NodeHeap) (ops : OpHeap) (l l' : List Nat) :
    validStreams nodes ops (l ++ l') = validStreams nodes ops l ++ validStreams nodes ops l' := by
  simp [validStreams, List.filterMap_append]

theorem collectStreamIds_total (nodes : NodeHeap) (ops : OpHeap)
    (hdesc : ∀ n, (nodes n).op_desc ≠ none) (l : List Nat) :
    ∀ acc : List Int, ∃ ids, collectStreamIds nodes ops l acc = some ids ∧
      (∀ v, v ∈ ids ↔ v ∈ acc ∨ v ∈ validStreams nodes ops l) ∧
      (acc.Pairwise (fun a b => a < b) → ids.Pairwise (fun a b => a < b)) := by
  induction l with
  | nil =>
    intro acc
    exact ⟨acc, rfl, fun v => by simp [validStreams], fun h => h⟩
  | cons x rest ih =>
    intro acc
    cases hx : (nodes x).op_desc with
    | none => exact absurd hx (hdesc x)
    | some d =>
      simp only [collectStreamIds, hx]
      have hvs : ∀ v, v ∈ validStreams nodes ops (x :: rest) ↔
          (v = (ops d).stream_id ∧ (ops d).stream_id ≠ kInvalidStream) ∨
            v ∈ validStreams nodes ops rest := by
        intro v
        rw [show x :: rest = [x] ++ rest from rfl, validStreams_append, List.mem_append]
        apply or_congr_left
        rw [mem_validStreams]
        constructor
        · rintro ⟨m, hm, d', hd', hv, hne⟩
          rw [List.mem_singleton] at hm
          subst hm
          rw [hx] at hd'
          cases hd'
          exact ⟨hv.symm, by rw [hv]; exact hne⟩
        · rintro ⟨hv, hne⟩
          exact ⟨x, by simp, d, hx, hv.symm, by rw [hv]; exact hne⟩
      by_cases hval : (ops d).stream_id = kInvalidStream
      · have hb : (GetStreamId ops d != kInvalidStream) = false := by
          simp [GetStreamId, hval]
        simp only [hb, Bool.false_eq_true, if_false]
        obtain ⟨ids, h1, h2, h3⟩ := ih acc
        refine ⟨ids, h1, fun v => ?_, h3⟩
        rw [h2, hvs]
        constructor
        · rintro (h | h)
          · exact Or.inl h
          · exact Or.inr (Or.inr h)
        · rintro (h | ⟨_, h⟩ | h)
          · exact Or.inl h
          · exact absurd hval h
          · exact Or.inr h
      · have hb : (GetStreamId ops d != kInvalidStream) = true := by
          simp [GetStreamId, hval]
        simp only [hb, if_true]
        obtain ⟨ids, h1, h2, h3⟩ := ih (setInsert (GetStreamId ops d) acc)
        refine ⟨ids, h1, fun v => ?_, fun hs => h3 (setInsert_sorted_int hs)⟩
        rw [h2, hvs, mem_setInsert_iff]
        unfold GetStreamId
        constructor
        · rintro ((h | h) | h)
          · exact Or.inr (Or.inl ⟨h, hval⟩)
          · exact Or.inl h
          · exact Or.inr (Or.inr h)
        · rintro (h | ⟨h, _⟩ | h)
          · exact Or.inl (Or.inr h)
          · exact Or.inl (Or.inl h)
          · exact Or.inr h

theorem inout_ids (nodes : NodeHeap) (ops : OpHeap) (hdesc : ∀ n, (nodes n).op_desc ≠ none)
    (node : Nat) :
    ∃ ids1 ids2, collectStreamIds nodes ops (nodes node).in_all_nodes [] = some ids1 ∧
      collectStreamIds nodes ops (nodes node).out_all_nodes ids1 = some ids2 ∧
      (∀ v, v ∈ ids2 ↔ v ∈ validStreams nodes ops (neighbours nodes node)) ∧
      ids2.Pairwise (fun a b => a < b) := by
  obtain ⟨ids1, h1, m1, s1⟩ := collectStreamIds_total nodes ops hdesc (nodes node).in_all_nodes []
  obtain ⟨ids2, h2, m2, s2⟩ :=
    collectStreamIds_total nodes ops hdesc (nodes node).out_all_nodes ids1
  refine ⟨ids1, ids2, h1, h2, fun v => ?_, s2 (s1 List.Pairwise.nil)⟩
  rw [m2, m1, neighbours, validStreams_append, List.mem_append]
  simp

theorem GetSingleInoutStream_single (nodes : NodeHeap) (ops : OpHeap)
    (hdesc : ∀ n, (nodes n).op_desc ≠ none) (node : Nat) (s : Int)
    (h : SingleStream nodes ops (neighbours nodes node) s) :
    GetSingleInoutStream nodes ops node = s ∧ s ≠ kInvalidStream := by
  obtain ⟨ids1, ids2, h1, h2, hm, hs⟩ := inout_ids nodes ops hdesc node
  have hsv : s ∈ validStreams nodes ops (neighbours nodes node) := (h s).mpr rfl
  refine ⟨?_, ?_⟩
  · unfold GetSingleInoutStream
    rw [h1]
    simp only
    rw [h2]
    match ids2, hm, hs with
    | [], hm, _ => exact absurd ((hm s).mpr hsv) (by simp)
    | [a], hm, _ =>
      have : a = s := (h a).mp ((hm a).mp (by simp))
      simp [this]
    | a :: b :: rest, hm, hs =>
      have ha : a = s := (h a).mp ((hm a).mp (by simp))
      have hb : b = s := (h b).mp ((hm b).mp (by simp))
      have hlt : a < b := (List.pairwise_cons.mp hs).1 b (by simp)
      omega
  · obtain ⟨_, _, _, _, _, hne⟩ := (mem_validStreams nodes ops _ s).mp hsv
    exact hne

theorem GetSingleInoutStream_invalid (nodes : NodeHeap) (ops : OpHeap)
    (hdesc : ∀ n, (nodes n).op_desc ≠ none) (node : Nat)
    (h : ¬ ∃ s, SingleStream nodes ops (neighbours nodes node) s) :
    GetSingleInoutStream nodes ops node = kInvalidStream := by
  obtain ⟨ids1, ids2, h1, h2, hm, hs⟩ := inout_ids nodes ops hdesc node
  unfold GetSingleInoutStream
  rw [h1]
  simp only
  rw [h2]
  match ids2, hm, hs with
  | [], _, _ => rfl
  | [a], hm, _ =>
    exfalso
    apply h
    refine ⟨a, fun v => ?_⟩
    rw [← hm]
    simp
  | a :: b :: rest, _, _ => rfl

theorem AreAllPredStreamsInvalid_iff (nodes : NodeHeap) (ops : OpHeap) (node : Nat) :
    AreAllPredStreamsInvalid nodes ops node = true ↔
      validStreams nodes ops (nodes node).in_all_nodes = [] := by
  rw [List.eq_nil_iff_forall_not_mem]
  unfold AreAllPredStreamsInvalid
  rw [List.all_eq_true]
  constructor
  · intro h v hv
    obtain ⟨m, hm, d, hd, hv1, hne⟩ := (mem_validStreams nodes ops _ v).mp hv
    have := h m hm
    rw [hd] at this
    simp only [GetStreamId, hv1, Bool.not_eq_true', bne_eq_false_iff_eq] at this
    exact hne this
  · intro h m hm
    cases hd : (nodes m).op_desc with
    | none => rfl
    | some d =>
      simp only [GetStreamId, Bool.not_eq_true', bne_eq_false_iff_eq]
      by_contra hne
      exact h (ops d).stream_id ((mem_validStreams nodes ops _ _).mpr ⟨m, hm, d, hd, rfl, hne⟩)

theorem collectToUpdate_total (nodes : NodeHeap) (ops : OpHeap)
    (hdesc : ∀ n, (nodes n).op_desc ≠ none) (l : List Nat) :
    ∀ acc : List Nat, (collectToUpdate nodes ops l acc).1 = Status.SUCCESS ∧
      ∀ d, d ∈ (collectToUpdate nodes ops l acc).2 ↔
        d ∈ acc ∨ ((ops d).stream_id ≠ kInvalidStream ∧ ∃ n, n ∈ l ∧ (nodes n).op_desc = some d) := by
  induction l with
  | nil => intro acc; exact ⟨rfl, fun d => by simp [collectToUpdate]⟩
  | cons x rest ih =>
    intro acc
    cases hx : (nodes x).op_desc with
    | none => exact absurd hx (hdesc x)
    | some dx =>
      simp only [collectToUpdate, hx]
      by_cases hval : (ops dx).stream_id = kInvalidStream
      · have hb : (GetStreamId ops dx != kInvalidStream) = false := by
          simp [GetStreamId, hval]
        simp only [hb, Bool.false_eq_true, if_false]
        refine ⟨(ih acc).1, fun d => ?_⟩
        rw [(ih acc).2]
        apply or_congr_right
        constructor
        · rintro ⟨hv, n, hn, hd⟩
          exact ⟨hv, n, List.mem_cons_of_mem _ hn, hd⟩
        · rintro ⟨hv, n, hn, hd⟩
          rcases List.mem_cons.mp hn with hn | hn
          · subst hn
            rw [hx] at hd
            cases hd
            exact absurd hval hv
          · exact ⟨hv, n, hn, hd⟩
      · have hb : (GetStreamId ops dx != kInvalidStream) = true := by
          simp [GetStreamId, hval]
        simp only [hb, if_true]
        refine ⟨(ih _).1, fun d => ?_⟩
        rw [(ih _).2, mem_setInsert_iff]
        constructor
        · rintro ((h | h) | ⟨hv, n, hn, hd⟩)
          · subst h
            exact Or.inr ⟨hval, x, List.mem_cons_self _ _, hx⟩
          · exact Or.inl h
          · exact Or.inr ⟨hv, n, List.mem_cons_of_mem _ hn, hd⟩
        · rintro (h | ⟨hv, n, hn, hd⟩)
          · exact Or.inl (Or.inr h)
          · rcases List.mem_cons.mp hn with hn | hn
            · subst hn
              rw [hx] at hd
              cases hd
              exact Or.inl (Or.inl rfl)
            · exact Or.inr ⟨hv, n, hn, hd⟩

theorem nodesToBeUpdated_total (nodes : NodeHeap) (ops : OpHeap) (σ : SubgraphHeap)
    (hdesc : ∀ n, (nodes n).op_desc ≠ none) (l : List Nat)
    (hslice : ∀ s, s ∈ l → IsEngineSkip (σ s) = true → HasStreamLabel (σ s) = false →
      (σ s).subgraph_info.sub_graph ≠ none) :
    ∀ acc : List Nat, ∃ U, nodesToBeUpdated nodes ops σ l acc = some (Status.SUCCESS, U) ∧
      ∀ d, d ∈ U ↔ d ∈ acc ∨ ToBeUpdated nodes ops σ l d := by
  induction l with
  | nil =>
    intro acc
    exact ⟨acc, rfl, fun d => by simp [ToBeUpdated]⟩
  | cons x rest ih =>
    intro acc
    have ih' := ih (fun s hs => hslice s (List.mem_cons_of_mem _ hs))
    have hsplit : ∀ d, ToBeUpdated nodes ops σ (x :: rest) d ↔
        ((ops d).stream_id ≠ kInvalidStream ∧ IsEngineSkip (σ x) = true ∧
          HasStreamLabel (σ x) = false ∧ ∃ n, n ∈ nodesOf σ x ∧ (nodes n).op_desc = some d) ∨
        ToBeUpdated nodes ops σ rest d := by
      intro d
      unfold ToBeUpdated
      constructor
      · rintro ⟨hv, s, hs, h1, h2, h3⟩
        rcases List.mem_cons.mp hs with hs | hs
        · subst hs; exact Or.inl ⟨hv, h1, h2, h3⟩
        · exact Or.inr ⟨hv, s, hs, h1, h2, h3⟩
      · rintro (⟨hv, h1, h2, h3⟩ | ⟨hv, s, hs, h1, h2, h3⟩)
        · exact ⟨hv, x, List.mem_cons_self _ _, h1, h2, h3⟩
        · exact ⟨hv, s, List.mem_cons_of_mem _ hs, h1, h2, h3⟩
    simp only [nodesToBeUpdated]
    by_cases hc : (IsEngineSkip (σ x) && !HasStreamLabel (σ x)) = true
    · simp only [hc, if_true]
      have hc' : IsEngineSkip (σ x) = true ∧ HasStreamLabel (σ x) = false := by
        simpa using hc
      cases hg : (σ x).subgraph_info.sub_graph with
      | none => exact absurd hg (hslice x (List.mem_cons_self _ _) hc'.1 hc'.2)
      | some g =>
        simp only
        have ht := collectToUpdate_total nodes ops hdesc g.direct_node acc
        simp only [ht.1, if_true]
        obtain ⟨U, hU, hm⟩ := ih' (collectToUpdate nodes ops g.direct_node acc).2
        refine ⟨U, hU, fun d => ?_⟩
        have hno : nodesOf σ x = g.direct_node := by simp [nodesOf, hg]
        rw [hm, ht.2, hsplit, hno]
        constructor
        · rintro ((h | ⟨hv, h⟩) | h)
          · exact Or.inl h
          · exact Or.inr (Or.inl ⟨hv, hc'.1, hc'.2, h⟩)
          · exact Or.inr (Or.inr h)
        · rintro (h | ⟨hv, _, _, h⟩ | h)
          · exact Or.inl (Or.inl h)
          · exact Or.inl (Or.inr ⟨hv, h⟩)
          · exact Or.inr h
    · simp only [hc, Bool.false_eq_true, if_false]
      obtain ⟨U, hU, hm⟩ := ih' acc
      refine ⟨U, hU, fun d => ?_⟩
      rw [hm, hsplit]
      apply or_congr_right
      constructor
      · intro h; exact Or.inr h
      · rintro (⟨_, h1, h2, _⟩ | h)
        · exact absurd (by simp [h1, h2]) hc
        · exact h

theorem reassignSkipped_total (nodes : NodeHeap) (U : List Nat)
    (hdesc : ∀ n, (nodes n).op_desc ≠ none) (l : List Nat) :
    ∀ ops : OpHeap, (reassignSkipped nodes U l ops).1 = Status.SUCCESS := by
  induction l with
  | nil => intro ops; rfl
  | cons x rest ih =>
    intro ops
    cases hx : (nodes x).op_desc with
    | none => exact absurd hx (hdesc x)
    | some d =>
      simp only [reassignSkipped, hx]
      split
      · split
        · exact ih _
        · split
          · exact ih _
          · exact ih _
      · exact ih _

theorem reassignSkipped_append (nodes : NodeHeap) (U : List Nat)
    (hdesc : ∀ n, (nodes n).op_desc ≠ none) (pre l : List Nat) :
    ∀ ops : OpHeap, reassignSkipped nodes U (pre ++ l) ops =
      reassignSkipped nodes U l (reassignSkipped nodes U pre ops).2 := by
  induction pre with
  | nil => intro ops; rfl
  | cons x rest ih =>
    intro ops
    cases hx : (nodes x).op_desc with
    | none => exact absurd hx (hdesc x)
    | some d =>
      simp only [List.cons_append, reassignSkipped, hx]
      split
      · split
        · exact ih _
        · split
          · exact ih _
          · exact ih _
      · exact ih _

theorem reassignSkipped_one (nodes : NodeHeap) (U : List Nat) (n d : Nat) (ops : OpHeap)
    (hd : (nodes n).op_desc = some d) :
    (reassignSkipped nodes U [n] ops).2 =
      if d ∈ U then
        if AreAllPredStreamsInvalid nodes ops n then SetStreamId ops d kInvalidStream
        else if GetSingleInoutStream nodes ops n != kInvalidStream then
          SetStreamId ops d (GetSingleInoutStream nodes ops n)
        else ops
      else ops := by
  simp only [reassignSkipped, hd]
  split
  · split
    · rfl
    · split <;> rfl
  · rfl

theorem UpdateForSkippedEngine_total (nodes : NodeHeap) (whole_graph : ComputeGraph)
    (subgraphs : List Nat) (σ : SubgraphHeap) (ops : OpHeap)
    (hdesc : ∀ n, (nodes n).op_desc ≠ none)
    (hslice : ∀ s, s ∈ subgraphs → IsEngineSkip (σ s) = true → HasStreamLabel (σ s) = false →
      (σ s).subgraph_info.sub_graph ≠ none) :
    ∃ U, (∀ d, d ∈ U ↔ ToBeUpdated nodes ops σ subgraphs d) ∧
      ∀ l, UpdateForSkippedEngine nodes (whole_graph.upTo l) subgraphs σ ops =
        some (Status.SUCCESS, (reassignSkipped nodes U l ops).2) := by
  obtain ⟨U, hU, hm⟩ := nodesToBeUpdated_total nodes ops σ hdesc subgraphs hslice []
  refine ⟨U, fun d => by rw [hm]; simp, fun l => ?_⟩
  unfold UpdateForSkippedEngine
  rw [hU]
  simp only [if_true, ComputeGraph.upTo]
  rw [← reassignSkipped_total nodes U hdesc l ops]

/-! ## `ConvertSubgraphs` and the engine configurations -/

theorem mapFind_mapAssign {κ β : Type} [DecidableEq κ] (m : List (κ × β)) (k a : κ) (v : β) :
    mapFind (mapAssign m k v) a = if a = k then some v else mapFind m a := by
  induction m with
  | nil => simp [mapAssign, mapFind]
  | cons x rest ih =>
    obtain ⟨k', v'⟩ := x
    simp only [mapAssign]
    by_cases h1 : k = k'
    · subst h1; simp only [if_true, mapFind]; split <;> rfl
    · simp only [h1, if_false, mapFind, ih]
      by_cases h3 : a = k'
      · subst h3; simp [Ne.symm h1]
      · simp [h3]

theorem engines_fold_none (l : List (String × Option EngineConf))
    (m : List (String × Option EngineConf)) (name : String)
    (hm : mapFind m name = none) (hl : ∀ p, p ∈ l → p.1 = name → p.2 = none) :
    mapFind (l.foldl (fun engine_confs engine_pair =>
      match engine_pair.2 with
      | some engine_conf => mapAssign engine_confs engine_pair.1 (some engine_conf)
      | none => engine_confs) m) name = none := by
  induction l generalizing m with
  | nil => exact hm
  | cons p rest ih =>
    simp only [List.foldl_cons]
    apply ih
    · cases hp : p.2 with
      | none => exact hm
      | some c =>
        simp only
        rw [mapFind_mapAssign]
        have : name ≠ p.1 := by
          intro e
          have := hl p (by simp) e.symm
          rw [hp] at this; simp at this
        simp [this, hm]
    · intro q hq; exact hl q (by simp [hq])

theorem collectEngineConfs_none (scheds : List (String × SchedulerConf)) (name : String)
    (h : EngineUnconfigured scheds name) : mapFind (collectEngineConfs scheds) name = none := by
  unfold collectEngineConfs
  suffices hgen : ∀ (m : List (String × Option EngineConf)), mapFind m name = none →
      mapFind (scheds.foldl (fun engine_confs item =>
        item.2.cal_engines.foldl (fun engine_confs engine_pair =>
          match engine_pair.2 with
          | some engine_conf => mapAssign engine_confs engine_pair.1 (some engine_conf)
          | none => engine_confs) engine_confs) m) name = none from hgen [] rfl
  unfold EngineUnconfigured at h
  induction scheds with
  | nil => intro m hm; exact hm
  | cons s rest ih =>
    intro m hm
    simp only [List.foldl_cons]
    apply ih (fun item hi => h item (by simp [hi]))
    exact engines_fold_none _ _ _ hm (h s (by simp))

theorem ConvertSubgraphs_fails (par : List (String × Int))
    (confs : List (String × Option EngineConf)) (infos : List (Option SubGraphInfo))
    (acc : List Subgraph) (info : SubGraphInfo) (hmem : some info ∈ infos)
    (hbad : mapFind confs info.engine_name = none) :
    (ConvertSubgraphs par confs infos acc).1 = Status.INTERNAL_ERROR ∨
      (ConvertSubgraphs par confs infos acc).1 = Status.PARAM_INVALID := by
  induction infos generalizing acc with
  | nil => simp at hmem
  | cons x rest ih =>
    cases x with
    | none => right; rfl
    | some i' =>
      simp only [ConvertSubgraphs]
      cases hf : mapFind confs i'.engine_name with
      | none => left; rfl
      | some oc =>
        cases oc with
        | none => left; rfl
        | some c =>
          simp only
          apply ih
          simp only [List.mem_cons, Option.some.injEq] at hmem
          rcases hmem with h | h
          · subst h; rw [hbad] at hf; simp at hf
          · exact h

/-- The subgraphs created by `ConvertSubgraphs` are fresh: they have no stream and no
`reused_subgraph`. -/
theorem ConvertSubgraphs_fresh (par : List (String × Int))
    (confs : List (String × Option EngineConf)) (infos : List (Option SubGraphInfo))
    (acc : List Subgraph)
    (hacc : ∀ s, s ∈ acc → s.stream_id = kInvalidStream ∧ s.reused_subgraph = none) :
    ∀ s, s ∈ (ConvertSubgraphs par confs infos acc).2 →
      s.stream_id = kInvalidStream ∧ s.reused_subgraph = none := by
  induction infos generalizing acc with
  | nil => exact hacc
  | cons x rest ih =>
    cases x with
    | none => exact hacc
    | some info =>
      simp only [ConvertSubgraphs]
      cases hf : mapFind confs info.engine_name with
      | none => exact hacc
      | some oc =>
        cases oc with
        | none => exact hacc
        | some c =>
          simp only
          apply ih
          intro s hs
          simp only [List.mem_append, List.mem_singleton] at hs
          rcases hs with hs | hs
          · exact hacc s hs
          · subst hs; exact ⟨rfl, rfl⟩

/-- The subgraphs that `Assign` hands to `RunPasses` are fresh. -/
theorem heapOf_fresh (l : List Subgraph)
    (hl : ∀ s, s ∈ l → s.stream_id = kInvalidStream ∧ s.reused_subgraph = none) (i : Nat) :
    (heapOf l i).stream_id = kInvalidStream ∧ (heapOf l i).reused_subgraph = none := by
  unfold heapOf
  by_cases hi : i < l.length
  · rw [List.getD_eq_getElem _ _ hi]
    exact hl _ (List.getElem_mem hi)
  · rw [List.getD_eq_default _ _ (by omega)]
    exact ⟨rfl, rfl⟩

/-! ## The loop of `RunPasses` -/

theorem loop_success (passes : List Pass) (st st1 : PassState) (stream_num : Int)
    (h : passesContinue passes st = some st1) :
    RunPasses.loop passes st stream_num =
      some (Outcome.of Status.SUCCESS st1 st1.context.next_stream) := by
  induction passes generalizing st with
  | nil =>
    simp only [passesContinue, Option.some.injEq] at h
    subst h
    rfl
  | cons p rest ih =>
    simp only [passesContinue] at h
    simp only [RunPasses.loop]
    cases hp : p st with
    | none => rw [hp] at h; simp at h
    | some r =>
      obtain ⟨s, st2⟩ := r
      rw [hp] at h
      simp only at h ⊢
      by_cases hs : s = Status.SUCCESS
      · rw [if_pos (Or.inl hs)] at h
        rw [if_pos hs]
        exact ih _ h
      · by_cases hn : s = Status.NOT_CHANGED
        · rw [if_pos (Or.inr hn)] at h
          rw [if_neg hs, if_pos hn]
          exact ih _ h
        · rw [if_neg (by rintro (h' | h') <;> contradiction)] at h
          simp at h

theorem loop_abort (before after : List Pass) (pass : Pass) (st st1 st2 : PassState)
    (status : Status) (stream_num : Int)
    (h : passesContinue before st = some st1) (hp : pass st1 = some (status, st2))
    (hs : status ≠ Status.SUCCESS) (hn : status ≠ Status.NOT_CHANGED) :
    RunPasses.loop (before ++ pass :: after) st stream_num =
      some (Outcome.of status st2 stream_num) := by
  induction before generalizing st with
  | nil =>
    simp only [passesContinue, Option.some.injEq] at h
    subst h
    simp only [List.nil_append, RunPasses.loop, hp, if_neg hs, if_neg hn]
    rfl
  | cons p rest ih =>
    simp only [passesContinue] at h
    simp only [List.cons_append, RunPasses.loop]
    cases hq : p st with
    | none => rw [hq] at h; simp at h
    | some r =>
      obtain ⟨s, st3⟩ := r
      rw [hq] at h
      simp only at h ⊢
      by_cases hs' : s = Status.SUCCESS
      · rw [if_pos (Or.inl hs')] at h
        rw [if_pos hs']
        exact ih _ h
      · by_cases hn' : s = Status.NOT_CHANGED
        · rw [if_pos (Or.inr hn')] at h
          rw [if_neg hs', if_pos hn']
          exact ih _ h
        · rw [if_neg (by rintro (h' | h') <;> contradiction)] at h
          simp at h

theorem loop_cons (pass : Pass) (rest : List Pass) (st : PassState) (stream_num : Int) :
    RunPasses.loop (pass :: rest) st stream_num =
      match pass st with
      | none => none
      | some r =>
        if !passContinues r.1 then some (Outcome.of r.1 r.2 stream_num)
        else RunPasses.loop rest r.2 stream_num := by
  simp only [RunPasses.loop]
  cases hp : pass st with
  | none => rfl
  | some r =>
    obtain ⟨s, st1⟩ := r
    cases s <;> simp [passContinues, Outcome.of]

theorem RunPasses_eq_loop (fuel : Nat) (nodes : NodeHeap) (g : ComputeGraph) (ptrs : List Nat)
    (σ : SubgraphHeap) (ops : OpHeap) (ctx : Context) (n : Int) :
    RunPasses fuel nodes g ptrs σ ops ctx n =
      RunPasses.loop (RunPasses.passes fuel nodes g ptrs)
        { σ := σ, ops := ops, context := ctx } n := by
  unfold RunPasses RunPasses.passes
  simp only [loop_cons, AssignByLabelPass.pass, IndependentStreamPass.pass,
    AssignByDependencyPass.pass, NodeStreamUpdatePass.pass, AllReduceParallelPass.pass,
    Outcome.of]
  split
  · rfl
  · split
    · rfl
    · split
      · rfl
      · cases h4 : NodeStreamUpdatePass.Run nodes g ptrs
          (AssignByDependencyPass.Run ptrs (IndependentStreamPass.Run ptrs
            (AssignByLabelPass.Run ptrs σ ctx).2.1 (AssignByLabelPass.Run ptrs σ ctx).2.2).2.1
            (IndependentStreamPass.Run ptrs (AssignByLabelPass.Run ptrs σ ctx).2.1
              (AssignByLabelPass.Run ptrs σ ctx).2.2).2.2).2.1 ops with
        | none => rfl
        | some r4 =>
          simp only
          split
          · rfl
          · cases h5 : AllReduceParallelPass.Run fuel nodes g r4.2
              (AssignByDependencyPass.Run ptrs (IndependentStreamPass.Run ptrs
                (AssignByLabelPass.Run ptrs σ ctx).2.1 (AssignByLabelPass.Run ptrs σ ctx).2.2).2.1
                (IndependentStreamPass.Run ptrs (AssignByLabelPass.Run ptrs σ ctx).2.1
                  (AssignByLabelPass.Run ptrs σ ctx).2.2).2.2).2.2 with
            | none => rfl
            | some r5 =>
              simp only
              split
              · rfl
              · rfl

/-! ## What a run of `RunPasses` depends on -/

@[simp] theorem rename_max_parallel_num (π : Nat → Nat) (a : Subgraph) :
    (a.rename π).max_parallel_num = a.max_parallel_num := rfl

/-- The loop over `GetOutDataNodes()` of the node `x`, when it completes: the nodes with the
label `L` are inserted into both sets. -/
theorem visitOutDataNodes_spec (nodes : NodeHeap) (ops : OpHeap) (L : String) (x : Nat)
    (l : List Nat) (acc : List Nat × List Nat)
    (hl : ∀ m, m ∈ l → m ∈ (nodes x).out_data_nodes)
    (hs : (visitOutDataNodes nodes ops L l acc).1 = Status.SUCCESS) :
    (∀ m, m ∈ (visitOutDataNodes nodes ops L l acc).2.1 ↔
      m ∈ acc.1 ∨ (m ∈ l ∧ LabelledSucc nodes ops L x m)) ∧
    (∀ m, m ∈ (visitOutDataNodes nodes ops L l acc).2.2 ↔
      m ∈ acc.2 ∨ (m ∈ l ∧ LabelledSucc nodes ops L x m)) ∧
    (acc.1.Pairwise (fun a b => a < b) →
      (visitOutDataNodes nodes ops L l acc).2.1.Pairwise (fun a b => a < b)) ∧
    (acc.2.Pairwise (fun a b => a < b) →
      (visitOutDataNodes nodes ops L l acc).2.2.Pairwise (fun a b => a < b)) := by
  induction l generalizing acc with
  | nil => simp [visitOutDataNodes]
  | cons y rest ih =>
    have hrest : ∀ m, m ∈ rest → m ∈ (nodes x).out_data_nodes :=
      fun m hm => hl m (List.mem_cons_of_mem _ hm)
    cases hy : (nodes y).op_desc with
    | none => simp [visitOutDataNodes, hy] at hs
    | some dy =>
      simp only [visitOutDataNodes, hy] at hs ⊢
      by_cases hlab : GetStreamLabel ops dy = L
      · rw [if_pos hlab] at hs ⊢
        obtain ⟨h1, h2, h3, h4⟩ := ih _ hrest hs
        have hstep : LabelledSucc nodes ops L x y :=
          ⟨hl y (List.mem_cons_self _ _), dy, hy, hlab⟩
        refine ⟨?_, ?_, ?_, ?_⟩
        · intro m
          rw [h1 m]
          simp only [mem_setInsert, List.mem_cons]
          constructor
          · rintro ((h | h) | h)
            · subst h; exact Or.inr ⟨Or.inl rfl, hstep⟩
            · exact Or.inl h
            · exact Or.inr ⟨Or.inr h.1, h.2⟩
          · rintro (h | ⟨h | h, h'⟩)
            · exact Or.inl (Or.inr h)
            · exact Or.inl (Or.inl h)
            · exact Or.inr ⟨h, h'⟩
        · intro m
          rw [h2 m]
          simp only [mem_setInsert, List.mem_cons]
          constructor
          · rintro ((h | h) | h)
            · subst h; exact Or.inr ⟨Or.inl rfl, hstep⟩
            · exact Or.inl h
            · exact Or.inr ⟨Or.inr h.1, h.2⟩
          · rintro (h | ⟨h | h, h'⟩)
            · exact Or.inl (Or.inr h)
            · exact Or.inl (Or.inl h)
            · exact Or.inr ⟨h, h'⟩
        · intro hp; exact h3 (setInsert_sorted hp)
        · intro hp; exact h4 (setInsert_sorted hp)
      · rw [if_neg hlab] at hs ⊢
        obtain ⟨h1, h2, h3, h4⟩ := ih _ hrest hs
        have hno : ¬ LabelledSucc nodes ops L x y := by
          rintro ⟨_, d, hd, hd'⟩
          rw [hy] at hd
          simp only [Option.some.injEq] at hd
          subst hd
          exact hlab hd'
        refine ⟨?_, ?_, h3, h4⟩
        · intro m
          rw [h1 m]
          simp only [List.mem_cons]
          constructor
          · rintro (h | h)
            · exact Or.inl h
            · exact Or.inr ⟨Or.inr h.1, h.2⟩
          · rintro (h | ⟨h | h, h'⟩)
            · exact Or.inl h
            · subst h; exact absurd h' hno
            · exact Or.inr ⟨h, h'⟩
        · intro m
          rw [h2 m]
          simp only [List.mem_cons]
          constructor
          · rintro (h | h)
            · exact Or.inl h
            · exact Or.inr ⟨Or.inr h.1, h.2⟩
          · rintro (h | ⟨h | h, h'⟩)
            · exact Or.inl h
            · subst h; exact absurd h' hno
            · exact Or.inr ⟨h, h'⟩

theorem visitOutDataNodes_total (nodes : NodeHeap) (ops : OpHeap) (L : String)
    (l : List Nat) (acc : List Nat × List Nat)
    (hdesc : ∀ m, m ∈ l → (nodes m).op_desc ≠ none) :
    (visitOutDataNodes nodes ops L l acc).1 = Status.SUCCESS := by
  induction l generalizing acc with
  | nil => simp [visitOutDataNodes]
  | cons y rest ih =>
    have hrest : ∀ m, m ∈ rest → (nodes m).op_desc ≠ none :=
      fun m hm => hdesc m (List.mem_cons_of_mem _ hm)
    cases hy : (nodes y).op_desc with
    | none => exact absurd hy (hdesc y (List.mem_cons_self _ _))
    | some dy =>
      simp only [visitOutDataNodes, hy]
      split
      · exact ih _ hrest
      · exact ih _ hrest

/-- No node of the list has the label `L`: the loop over `GetOutDataNodes()` collects
nothing (whatever status it ends with). -/
theorem visitOutDataNodes_none (nodes : NodeHeap) (ops : OpHeap) (L : String)
    (l : List Nat) (acc : List Nat × List Nat)
    (hno : ∀ m, m ∈ l → ∀ d, (nodes m).op_desc = some d → GetStreamLabel ops d ≠ L) :
    (visitOutDataNodes nodes ops L l acc).2 = acc := by
  induction l generalizing acc with
  | nil => simp [visitOutDataNodes]
  | cons y rest ih =>
    have hrest : ∀ m, m ∈ rest → ∀ d, (nodes m).op_desc = some d → GetStreamLabel ops d ≠ L :=
      fun m hm => hno m (List.mem_cons_of_mem _ hm)
    cases hy : (nodes y).op_desc with
    | none => simp [visitOutDataNodes, hy]
    | some dy =>
      simp only [visitOutDataNodes, hy]
      rw [if_neg (hno y (List.mem_cons_self _ _) dy hy)]
      exact ih _ hrest

theorem visitOutDataNodes_desc (nodes : NodeHeap) (ops : OpHeap) (L : String)
    (l : List Nat) (acc : List Nat × List Nat)
    (h1 : ∀ n, n ∈ acc.1 → (nodes n).op_desc ≠ none)
    (h2 : ∀ n, n ∈ acc.2 → (nodes n).op_desc ≠ none) :
    (∀ n, n ∈ (visitOutDataNodes nodes ops L l acc).2.1 → (nodes n).op_desc ≠ none) ∧
    (∀ n, n ∈ (visitOutDataNodes nodes ops L l acc).2.2 → (nodes n).op_desc ≠ none) := by
  induction l generalizing acc with
  | nil => exact ⟨h1, h2⟩
  | cons y rest ih =>
    cases hy : (nodes y).op_desc with
    | none => simp only [visitOutDataNodes, hy]; exact ⟨h1, h2⟩
    | some dy =>
      simp only [visitOutDataNodes, hy]
      split
      · apply ih
        · intro n hn
          simp only [mem_setInsert] at hn
          rcases hn with hn | hn
          · subst hn; rw [hy]; simp
          · exact h1 n hn
        · intro n hn
          simp only [mem_setInsert] at hn
          rcases hn with hn | hn
          · subst hn; rw [hy]; simp
          · exact h2 n hn
      · exact ih _ h1 h2

/-- One round of the walk, when it completes: the data successors with the label `L` of
the nodes of the frontier are inserted into both sets. -/
theorem visitCurNodes_spec (nodes : NodeHeap) (ops : OpHeap) (L : String)
    (cur : List Nat) (acc : List Nat × List Nat)
    (hs : (visitCurNodes nodes ops L cur acc).1 = Status.SUCCESS) :
    (∀ m, m ∈ (visitCurNodes nodes ops L cur acc).2.1 ↔
      m ∈ acc.1 ∨ ∃ x, x ∈ cur ∧ LabelledSucc nodes ops L x m) ∧
    (∀ m, m ∈ (visitCurNodes nodes ops L cur acc).2.2 ↔
      m ∈ acc.2 ∨ ∃ x, x ∈ cur ∧ LabelledSucc nodes ops L x m) ∧
    (acc.1.Pairwise (fun a b => a < b) →
      (visitCurNodes nodes ops L cur acc).2.1.Pairwise (fun a b => a < b)) ∧
    (acc.2.Pairwise (fun a b => a < b) →
      (visitCurNodes nodes ops L cur acc).2.2.Pairwise (fun a b => a < b)) := by
  induction cur generalizing acc with
  | nil => simp [visitCurNodes]
  | cons c rest ih =>
    simp only [visitCurNodes] at hs ⊢
    by_cases hc : (visitOutDataNodes nodes ops L (nodes c).out_data_nodes acc).1 = Status.SUCCESS
    · rw [if_pos hc] at hs ⊢
      obtain ⟨a1, a2, a3, a4⟩ :=
        visitOutDataNodes_spec nodes ops L c (nodes c).out_data_nodes acc (fun m hm => hm) hc
      obtain ⟨h1, h2, h3, h4⟩ := ih _ hs
      refine ⟨?_, ?_, fun hp => h3 (a3 hp), fun hp => h4 (a4 hp)⟩
      · intro m
        rw [h1 m, a1 m]
        simp only [List.mem_cons]
        constructor
        · rintro ((h | h) | ⟨x, hx, h⟩)
          · exact Or.inl h
          · exact Or.inr ⟨c, Or.inl rfl, h.2⟩
          · exact Or.inr ⟨x, Or.inr hx, h⟩
        · rintro (h | ⟨x, hx | hx, h⟩)
          · exact Or.inl (Or.inl h)
          · subst hx; exact Or.inl (Or.inr ⟨h.1, h⟩)
          · exact Or.inr ⟨x, hx, h⟩
      · intro m
        rw [h2 m, a2 m]
        simp only [List.mem_cons]
        constructor
        · rintro ((h | h) | ⟨x, hx, h⟩)
          · exact Or.inl h
          · exact Or.inr ⟨c, Or.inl rfl, h.2⟩
          · exact Or.inr ⟨x, Or.inr hx, h⟩
        · rintro (h | ⟨x, hx | hx, h⟩)
          · exact Or.inl (Or.inl h)
          · subst hx; exact Or.inl (Or.inr ⟨h.1, h⟩)
          · exact Or.inr ⟨x, hx, h⟩
    · rw [if_neg hc] at hs
      exact absurd hs hc

theorem visitCurNodes_total (nodes : NodeHeap) (ops : OpHeap) (L : String)
    (cur : List Nat) (acc : List Nat × List Nat)
    (hdesc : ∀ n, (nodes n).op_desc ≠ none) :
    (visitCurNodes nodes ops L cur acc).1 = Status.SUCCESS := by
  induction cur generalizing acc with
  | nil => simp [visitCurNodes]
  | cons c rest ih =>
    simp only [visitCurNodes]
    rw [if_pos (visitOutDataNodes_total nodes ops L _ acc (fun m _ => hdesc m))]
    exact ih _

/-- No data successor of the frontier has the label `L`: the round collects nothing. -/
theorem visitCurNodes_none (nodes : NodeHeap) (ops : OpHeap) (L : String)
    (cur : List Nat) (acc : List Nat × List Nat)
    (hno : ∀ x, x ∈ cur → ∀ m, ¬ LabelledSucc nodes ops L x m) :
    (visitCurNodes nodes ops L cur acc).2 = acc := by
  induction cur generalizing acc with
  | nil => simp [visitCurNodes]
  | cons c rest ih =>
    have hc : (visitOutDataNodes nodes ops L (nodes c).out_data_nodes acc).2 = acc := by
      apply visitOutDataNodes_none
      intro m hm d hd hlab
      exact hno c (List.mem_cons_self _ _) m ⟨hm, d, hd, hlab⟩
    simp only [visitCurNodes]
    split
    · rw [hc]
      exact ih _ (fun x hx => hno x (List.mem_cons_of_mem _ hx))
    · exact hc

theorem visitCurNodes_desc (nodes : NodeHeap) (ops : OpHeap) (L : String)
    (cur : List Nat) (acc : List Nat × List Nat)
    (h1 : ∀ n, n ∈ acc.1 → (nodes n).op_desc ≠ none)
    (h2 : ∀ n, n ∈ acc.2 → (nodes n).op_desc ≠ none) :
    (∀ n, n ∈ (visitCurNodes nodes ops L cur acc).2.1 → (nodes n).op_desc ≠ none) ∧
    (∀ n, n ∈ (visitCurNodes nodes ops L cur acc).2.2 → (nodes n).op_desc ≠ none) := by
  induction cur generalizing acc with
  | nil => exact ⟨h1, h2⟩
  | cons c rest ih =>
    have hc := visitOutDataNodes_desc nodes ops L (nodes c).out_data_nodes acc h1 h2
    simp only [visitCurNodes]
    split
    · exact ih _ hc.1 hc.2
    · exact hc

/-! ## `AllReduceParallelPass`: the walk and the collected set -/

/-- The walk from a frontier, when it completes: the set has grown, it holds every
transitive data successor with the label `L` of the nodes of the frontier, it is still
strictly increasing and its nodes still have op descriptors. -/
theorem walkSuccessors_spec (nodes : NodeHeap) (ops : OpHeap) (L : String) (fuel : Nat)
    (cur acc res : List Nat)
    (h : walkSuccessors nodes ops L fuel cur acc = some (Status.SUCCESS, res)) :
    (∀ m, m ∈ acc → m ∈ res) ∧
    (∀ x, x ∈ cur → ∀ m, Relation.TransGen (LabelledSucc nodes ops L) x m → m ∈ res) ∧
    (acc.Pairwise (fun a b => a < b) → res.Pairwise (fun a b => a < b)) ∧
    ((∀ n, n ∈ acc → (nodes n).op_desc ≠ none) → ∀ n, n ∈ res → (nodes n).op_desc ≠ none) := by
  induction fuel generalizing cur acc with
  | zero =>
    cases cur with
    | nil =>
      simp only [walkSuccessors, Option.some.injEq, Prod.mk.injEq, true_and] at h
      subst h
      exact ⟨fun m hm => hm, fun x hx => by simp at hx, fun hp => hp, fun hd => hd⟩
    | cons c cs => simp [walkSuccessors] at h
  | succ n ih =>
    cases cur with
    | nil =>
      simp only [walkSuccessors, Option.some.injEq, Prod.mk.injEq, true_and] at h
      subst h
      exact ⟨fun m hm => hm, fun x hx => by simp at hx, fun hp => hp, fun hd => hd⟩
    | cons c cs =>
      simp only [walkSuccessors] at h
      by_cases hv : (visitCurNodes nodes ops L (c :: cs) (acc, [])).1 = Status.SUCCESS
      · rw [if_pos hv] at h
        obtain ⟨v1, v2, v3, v4⟩ := visitCurNodes_spec nodes ops L (c :: cs) (acc, []) hv
        obtain ⟨i1, i2, i3, i4⟩ := ih _ _ h
        refine ⟨?_, ?_, ?_, ?_⟩
        · intro m hm
          exact i1 m ((v1 m).mpr (Or.inl hm))
        · intro x hx m hxm
          obtain ⟨y, hxy, hym⟩ := (Relation.TransGen.head'_iff).mp hxm
          have hy2 : y ∈ (visitCurNodes nodes ops L (c :: cs) (acc, [])).2.2 :=
            (v2 y).mpr (Or.inr ⟨x, hx, hxy⟩)
          have hy1 : y ∈ (visitCurNodes nodes ops L (c :: cs) (acc, [])).2.1 :=
            (v1 y).mpr (Or.inr ⟨x, hx, hxy⟩)
          rcases Relation.reflTransGen_iff_eq_or_transGen.mp hym with heq | htr
          · rw [heq]; exact i1 y hy1
          · exact i2 y hy2 m htr
        · intro hp
          exact i3 (v3 hp)
        · intro hd
          exact i4 (visitCurNodes_desc nodes ops L (c :: cs) (acc, []) hd
            (by intro n hn; simp at hn)).1
      · rw [if_neg hv] at h
        simp only [Option.some.injEq, Prod.mk.injEq] at h
        exact absurd h.1 hv

/-- The walk from a node without a data successor of the label `L` collects nothing. -/
theorem walkSuccessors_none (nodes : NodeHeap) (ops : OpHeap) (L : String) (fuel : Nat)
    (x : Nat) (acc : List Nat) (hfuel : 0 < fuel)
    (hno : ∀ m, ¬ LabelledSucc nodes ops L x m) :
    ∃ s, walkSuccessors nodes ops L fuel [x] acc = some (s, acc) ∧
      (s = Status.SUCCESS ∨ s = Status.PARAM_INVALID) ∧
      ((∀ n, (nodes n).op_desc ≠ none) → s = Status.SUCCESS) := by
  obtain ⟨n, rfl⟩ : ∃ n, fuel = n + 1 := ⟨fuel - 1, by omega⟩
  have hv := visitCurNodes_none nodes ops L [x] (acc, [])
    (by intro y hy; simp only [List.mem_singleton] at hy; subst hy; exact hno)
  simp only [walkSuccessors]
  by_cases hs : (visitCurNodes nodes ops L [x] (acc, [])).1 = Status.SUCCESS
  · rw [if_pos hs, hv]
    refine ⟨Status.SUCCESS, ?_, Or.inl rfl, fun _ => rfl⟩
    cases n <;> simp [walkSuccessors]
  · rw [if_neg hs, hv]
    refine ⟨_, rfl, visitCurNodes_codes _ _ _ _ _, ?_⟩
    intro hdesc
    exact visitCurNodes_total nodes ops L [x] (acc, []) hdesc

theorem not_skipped_iff (nodes : NodeHeap) (n : Nat) :
    ¬ ((nodes n).type ≠ HCOMALLREDUCE ∨ (nodes n).in_data_nodes.length ≤ 1) ↔
      IsParallelReduce nodes n := by
  unfold IsParallelReduce
  constructor
  · intro h
    refine ⟨?_, ?_⟩
    · by_contra hc; exact h (Or.inl hc)
    · by_contra hc; exact h (Or.inr (by omega))
  · rintro ⟨h1, h2⟩ (h | h)
    · exact h h1
    · omega

/-- The first loop of `AllReduceParallelPass::Run`, when it completes: the set holds every
transitive data successor, with the label of the node, of every collective-reduce node
of the list that has more than one data input. -/
theorem collectAllReduceSuccs_spec (fuel : Nat) (nodes : NodeHeap) (ops : OpHeap)
    (l acc res : List Nat)
    (h : collectAllReduceSuccs fuel nodes ops l acc = some (Status.SUCCESS, res)) :
    (∀ m, m ∈ acc → m ∈ res) ∧
    (∀ a, a ∈ l → IsParallelReduce nodes a → ∀ d, (nodes a).op_desc = some d →
      ∀ m, Relation.TransGen (LabelledSucc nodes ops (GetStreamLabel ops d)) a m → m ∈ res) ∧
    (acc.Pairwise (fun a b => a < b) → res.Pairwise (fun a b => a < b)) ∧
    ((∀ n, n ∈ acc → (nodes n).op_desc ≠ none) → ∀ n, n ∈ res → (nodes n).op_desc ≠ none) := by
  induction l generalizing acc with
  | nil =>
    simp only [collectAllReduceSuccs, Option.some.injEq, Prod.mk.injEq, true_and] at h
    subst h
    exact ⟨fun m hm => hm, fun a ha => by simp at ha, fun hp => hp, fun hd => hd⟩
  | cons x rest ih =>
    simp only [collectAllReduceSuccs] at h
    by_cases hskip : (nodes x).type ≠ HCOMALLREDUCE ∨ (nodes x).in_data_nodes.length ≤ 1
    · rw [if_pos hskip] at h
      obtain ⟨i1, i2, i3, i4⟩ := ih _ h
      refine ⟨i1, ?_, i3, i4⟩
      intro a ha hq d hd m hm
      simp only [List.mem_cons] at ha
      rcases ha with ha | ha
      · subst ha
        exact absurd hskip ((not_skipped_iff nodes a).mpr hq)
      · exact i2 a ha hq d hd m hm
    · rw [if_neg hskip] at h
      cases hx : (nodes x).op_desc with
      | none => rw [hx] at h; simp at h
      | some dx =>
        rw [hx] at h
        simp only at h
        cases hw : walkSuccessors nodes ops (GetStreamLabel ops dx) fuel [x] acc with
        | none => rw [hw] at h; simp at h
        | some w =>
          obtain ⟨s, wres⟩ := w
          rw [hw] at h
          simp only at h
          by_cases hs : s = Status.SUCCESS
          · subst hs
            simp only [if_true] at h
            obtain ⟨w1, w2, w3, w4⟩ := walkSuccessors_spec _ _ _ _ _ _ _ hw
            obtain ⟨i1, i2, i3, i4⟩ := ih _ h
            refine ⟨fun m hm => i1 m (w1 m hm), ?_, fun hp => i3 (w3 hp),
              fun hd => i4 (w4 hd)⟩
            intro a ha hq d hd m hm
            simp only [List.mem_cons] at ha
            rcases ha with ha | ha
            · subst ha
              rw [hx] at hd
              simp only [Option.some.injEq] at hd
              subst hd
              exact i1 m (w2 a (List.mem_singleton_self a) m hm)
            · exact i2 a ha hq d hd m hm
          · rw [if_neg hs] at h
            simp only [Option.some.injEq, Prod.mk.injEq] at h
            exact absurd h.1 hs

/-- No collective-reduce node with more than one data input has a data successor with its
label: the first loop of `AllReduceParallelPass::Run` collects nothing. -/
theorem collectAllReduceSuccs_none (fuel : Nat) (nodes : NodeHeap) (ops : OpHeap)
    (l acc : List Nat) (hfuel : 0 < fuel)
    (hno : ∀ a, a ∈ l → IsParallelReduce nodes a → ∀ d, (nodes a).op_desc = some d →
      ∀ m, ¬ LabelledSucc nodes ops (GetStreamLabel ops d) a m) :
    ∃ s, collectAllReduceSuccs fuel nodes ops l acc = some (s, acc) ∧
      (s = Status.SUCCESS ∨ s = Status.PARAM_INVALID) ∧
      ((∀ n, (nodes n).op_desc ≠ none) → s = Status.SUCCESS) := by
  induction l generalizing acc with
  | nil => exact ⟨Status.SUCCESS, by simp [collectAllReduceSuccs], Or.inl rfl, fun _ => rfl⟩
  | cons x rest ih =>
    have hrest := ih acc (fun a ha => hno a (List.mem_cons_of_mem _ ha))
    simp only [collectAllReduceSuccs]
    by_cases hskip : (nodes x).type ≠ HCOMALLREDUCE ∨ (nodes x).in_data_nodes.length ≤ 1
    · rw [if_pos hskip]
      exact hrest
    · rw [if_neg hskip]
      cases hx : (nodes x).op_desc with
      | none =>
        exact ⟨Status.PARAM_INVALID, rfl, Or.inr rfl, fun hd => absurd hx (hd x)⟩
      | some dx =>
        simp only
        obtain ⟨s, hw, hcode, hsucc⟩ := walkSuccessors_none nodes ops (GetStreamLabel ops dx)
          fuel x acc hfuel
          (hno x (List.mem_cons_self _ _) ((not_skipped_iff nodes x).mp hskip) dx hx)
        rw [hw]
        simp only
        by_cases hs : s = Status.SUCCESS
        · rw [if_pos hs]
          exact hrest
        · rw [if_neg hs]
          exact ⟨s, rfl, hcode, hsucc⟩

/-! ## `AllReduceParallelPass`: the remapping of the stream ids -/

theorem validStreams_snoc (nodes : NodeHeap) (ops : OpHeap) (l : List Nat) (x : Nat) :
    validStreams nodes ops (l ++ [x]) =
      validStreams nodes ops l ++
        (match (nodes x).op_desc with
          | some d => if (ops d).stream_id ≠ kInvalidStream then [(ops d).stream_id] else []
          | none => []) := by
  unfold validStreams
  cases hx : (nodes x).op_desc with
  | none => simp [List.filterMap_append, hx]
  | some d =>
    by_cases hv : (ops d).stream_id = kInvalidStream
    · simp [List.filterMap_append, hx, GetStreamId, hv, List.filter_append]
    · have hb : ((ops d).stream_id != kInvalidStream) = true := by simpa using hv
      simp [List.filterMap_append, hx, GetStreamId, hv, List.filter_append, List.filter, hb]

theorem RemapInv.remap_init (nodes : NodeHeap) (ops0 : OpHeap) (c : Int) :
    RemapInv nodes ops0 c [] { ops := ops0, next_stream := c, old_stream_to_new := [] } where
  frame := fun d _ => rfl
  keys := by intro k; simp [mapFind, validStreams]
  range := by intro k v h; simp [mapFind] at h
  inj := by intro k k' v h; simp [mapFind] at h
  mapped := by intro n hn; simp at hn
  count := by simp [validStreams, firstOccurrences]

theorem RemapInv.remap_skip {nodes : NodeHeap} {ops0 : OpHeap} {c : Int} {done : List Nat}
    {st : RemapState} (h : RemapInv nodes ops0 c done st) (x : Nat)
    (hx : ∀ d, (nodes x).op_desc = some d → (ops0 d).stream_id = kInvalidStream) :
    RemapInv nodes ops0 c (done ++ [x]) st := by
  have hvs : validStreams nodes ops0 (done ++ [x]) = validStreams nodes ops0 done := by
    rw [validStreams_snoc]
    cases hd : (nodes x).op_desc with
    | none => simp
    | some d => simp [hx d hd]
  exact
    { frame := fun d hd => h.frame d (fun n hn => hd n (by simp [hn]))
      keys := by rw [hvs]; exact h.keys
      range := h.range
      inj := h.inj
      mapped := by
        intro n hn d hd hv
        simp only [List.mem_append, List.mem_singleton] at hn
        rcases hn with hn | hn
        · exact h.mapped n hn d hd hv
        · subst hn; exact absurd (hx d hd) hv
      count := by rw [hvs]; exact h.count }

theorem RemapInv.remap_known {nodes : NodeHeap} {ops0 : OpHeap} {c : Int} {done : List Nat}
    {st : RemapState} (h : RemapInv nodes ops0 c done st) (x dx : Nat) (w : Int)
    (hx : (nodes x).op_desc = some dx)
    (hfresh : ∀ n, n ∈ done → (nodes n).op_desc ≠ some dx)
    (hv : (ops0 dx).stream_id ≠ kInvalidStream)
    (hf : mapFind st.old_stream_to_new (ops0 dx).stream_id = some w) :
    RemapInv nodes ops0 c (done ++ [x]) { st with ops := SetStreamId st.ops dx w } := by
  have hmem : (ops0 dx).stream_id ∈ validStreams nodes ops0 done :=
    (h.keys _).mp (by rw [hf]; rfl)
  have hvs : validStreams nodes ops0 (done ++ [x]) =
      validStreams nodes ops0 done ++ [(ops0 dx).stream_id] := by
    rw [validStreams_snoc, hx]; simp [hv]
  exact
    { frame := by
        intro d hd
        have hne : d ≠ dx := by
          intro e; subst e
          exact hd x (by simp) hx
        show SetStreamId st.ops dx w d = ops0 d
        rw [SetStreamId_other _ _ _ _ hne]
        exact h.frame d (fun n hn => hd n (by simp [hn]))
      keys := by
        intro k
        rw [hvs, List.mem_append, List.mem_singleton]
        show (mapFind st.old_stream_to_new k).isSome = true ↔ _
        rw [h.keys k]
        constructor
        · intro hk; exact Or.inl hk
        · rintro (hk | hk)
          · exact hk
          · rw [hk]; exact hmem
      range := h.range
      inj := h.inj
      mapped := by
        intro n hn d hd hvd
        simp only [List.mem_append, List.mem_singleton] at hn
        show mapFind st.old_stream_to_new (ops0 d).stream_id =
          some (SetStreamId st.ops dx w d).stream_id
        rcases hn with hn | hn
        · have hne : d ≠ dx := by
            intro e; subst e
            exact hfresh n hn hd
          rw [SetStreamId_other _ _ _ _ hne]
          exact h.mapped n hn d hd hvd
        · subst hn
          rw [hx] at hd
          simp only [Option.some.injEq] at hd
          subst hd
          rw [SetStreamId_same]
          exact hf
      count := by
        rw [hvs, firstOccurrences_snoc, if_pos ((mem_firstOccurrences _ _).mpr hmem)]
        exact h.count }

theorem RemapInv.remap_new {nodes : NodeHeap} {ops0 : OpHeap} {c : Int} {done : List Nat}
    {st : RemapState} (h : RemapInv nodes ops0 c done st) (hc : c ≤ st.next_stream)
    (x dx : Nat) (hx : (nodes x).op_desc = some dx)
    (hfresh : ∀ n, n ∈ done → (nodes n).op_desc ≠ some dx)
    (hv : (ops0 dx).stream_id ≠ kInvalidStream)
    (hf : mapFind st.old_stream_to_new (ops0 dx).stream_id = none) :
    RemapInv nodes ops0 c (done ++ [x])
      { ops := SetStreamId st.ops dx st.next_stream
        next_stream := st.next_stream + 1
        old_stream_to_new :=
          mapEmplace st.old_stream_to_new (ops0 dx).stream_id st.next_stream } := by
  have hmem : (ops0 dx).stream_id ∉ validStreams nodes ops0 done := by
    intro hin
    have := (h.keys _).mpr hin
    rw [hf] at this
    simp at this
  have hvs : validStreams nodes ops0 (done ++ [x]) =
      validStreams nodes ops0 done ++ [(ops0 dx).stream_id] := by
    rw [validStreams_snoc, hx]; simp [hv]
  exact
    { frame := by
        intro d hd
        have hne : d ≠ dx := by
          intro e; subst e
          exact hd x (by simp) hx
        show SetStreamId st.ops dx st.next_stream d = ops0 d
        rw [SetStreamId_other _ _ _ _ hne]
        exact h.frame d (fun n hn => hd n (by simp [hn]))
      keys := by
        intro k
        rw [hvs, List.mem_append, List.mem_singleton]
        show (mapFind (mapEmplace st.old_stream_to_new (ops0 dx).stream_id st.next_stream)
          k).isSome = true ↔ _
        rw [mapFind_mapEmplace, ← h.keys k]
        cases hk : mapFind st.old_stream_to_new k with
        | some w => simp
        | none =>
          by_cases hks : k = (ops0 dx).stream_id
          · simp [hks]
          · simp [hks]
      range := by
        intro k v hkv
        have hkv' : mapFind (mapEmplace st.old_stream_to_new (ops0 dx).stream_id
          st.next_stream) k = some v := hkv
        show c ≤ v ∧ v < st.next_stream + 1
        rw [mapFind_mapEmplace] at hkv'
        cases hk : mapFind st.old_stream_to_new k with
        | some w' =>
          rw [hk] at hkv'
          simp only [Option.some.injEq] at hkv'
          subst hkv'
          have := h.range k w' hk
          omega
        | none =>
          rw [hk] at hkv'
          simp only at hkv'
          split at hkv'
          · simp only [Option.some.injEq] at hkv'
            omega
          · simp at hkv'
      inj := by
        intro k k' v hk hk'
        have hk1 : mapFind (mapEmplace st.old_stream_to_new (ops0 dx).stream_id
          st.next_stream) k = some v := hk
        have hk2 : mapFind (mapEmplace st.old_stream_to_new (ops0 dx).stream_id
          st.next_stream) k' = some v := hk'
        rw [mapFind_mapEmplace] at hk1 hk2
        cases h1 : mapFind st.old_stream_to_new k with
        | some w =>
          rw [h1] at hk1; simp only [Option.some.injEq] at hk1; subst hk1
          cases h2 : mapFind st.old_stream_to_new k' with
          | some w' =>
            rw [h2] at hk2; simp only [Option.some.injEq] at hk2; subst hk2
            exact h.inj k k' _ h1 h2
          | none =>
            rw [h2] at hk2; simp only at hk2
            split at hk2
            · simp only [Option.some.injEq] at hk2
              have := (h.range k w h1).2
              omega
            · simp at hk2
        | none =>
          rw [h1] at hk1; simp only at hk1
          split at hk1
          · next e1 =>
            simp only [Option.some.injEq] at hk1
            cases h2 : mapFind st.old_stream_to_new k' with
            | some w' =>
              rw [h2] at hk2; simp only [Option.some.injEq] at hk2; subst hk2
              have := (h.range k' w' h2).2
              omega
            | none =>
              rw [h2] at hk2; simp only at hk2
              split at hk2
              · next e2 => rw [e1, e2]
              · simp at hk2
          · simp at hk1
      mapped := by
        intro n hn d hd hvd
        simp only [List.mem_append, List.mem_singleton] at hn
        show mapFind (mapEmplace st.old_stream_to_new (ops0 dx).stream_id st.next_stream)
          (ops0 d).stream_id = some (SetStreamId st.ops dx st.next_stream d).stream_id
        rw [mapFind_mapEmplace]
        rcases hn with hn | hn
        · have hne : d ≠ dx := by
            intro e; subst e
            exact hfresh n hn hd
          rw [SetStreamId_other _ _ _ _ hne, h.mapped n hn d hd hvd]
        · subst hn
          rw [hx] at hd
          simp only [Option.some.injEq] at hd
          subst hd
          rw [SetStreamId_same, hf]
          simp
      count := by
        rw [hvs, firstOccurrences_snoc,
          if_neg (fun hin => hmem ((mem_firstOccurrences _ _).mp hin))]
        show st.next_stream + 1 = _
        rw [h.count]
        simp only [List.length_append, List.length_singleton]
        push_cast
        omega }

/-- The second loop of `AllReduceParallelPass::Run` on a set of nodes that have op
descriptors of their own: it completes and keeps the invariant. -/
theorem remapStreams_inv (nodes : NodeHeap) (ops0 : OpHeap) (c : Int) (rest : List Nat) :
    ∀ (done : List Nat) (st : RemapState),
      (done ++ rest).Nodup →
      (∀ a b, a ∈ done ++ rest → b ∈ done ++ rest →
        (nodes a).op_desc = (nodes b).op_desc → a = b) →
      (∀ n, n ∈ rest → (nodes n).op_desc ≠ none) →
      RemapInv nodes ops0 c done st →
      (remapStreams nodes rest st).1 = Status.SUCCESS ∧
        RemapInv nodes ops0 c (done ++ rest) (remapStreams nodes rest st).2 := by
  induction rest with
  | nil =>
    intro done st _ _ _ h
    rw [List.append_nil]
    exact ⟨rfl, h⟩
  | cons x rest ih =>
    intro done st hnd hown hdesc h
    have hnd' : ((done ++ [x]) ++ rest).Nodup := by simpa using hnd
    have hown' : ∀ a b, a ∈ (done ++ [x]) ++ rest → b ∈ (done ++ [x]) ++ rest →
        (nodes a).op_desc = (nodes b).op_desc → a = b := by
      intro a b ha hb
      exact hown a b (by simpa using ha) (by simpa using hb)
    have hdesc' : ∀ n, n ∈ rest → (nodes n).op_desc ≠ none :=
      fun n hn => hdesc n (List.mem_cons_of_mem _ hn)
    have hxd : x ∉ done := by
      intro hx
      have := List.disjoint_of_nodup_append hnd hx
      exact this (List.mem_cons_self _ _)
    have happ : done ++ x :: rest = (done ++ [x]) ++ rest := by simp
    cases hx : (nodes x).op_desc with
    | none => exact absurd hx (hdesc x (List.mem_cons_self _ _))
    | some dx =>
      have hfresh : ∀ n, n ∈ done → (nodes n).op_desc ≠ some dx := by
        intro n hn hnd2
        have : n = x := hown n x (by simp [hn]) (by simp) (by rw [hnd2, hx])
        exact hxd (this ▸ hn)
      have hcur : st.ops dx = ops0 dx := h.frame dx hfresh
      simp only [remapStreams, hx, GetStreamId, hcur]
      rw [happ]
      by_cases hv : (ops0 dx).stream_id = kInvalidStream
      · have hb : ((ops0 dx).stream_id != kInvalidStream) = false := by simpa using hv
        simp only [hb, Bool.false_eq_true, if_false]
        apply ih _ _ hnd' hown' hdesc'
        apply h.remap_skip
        intro d hd
        rw [hx] at hd
        simp only [Option.some.injEq] at hd
        subst hd
        exact hv
      · have hb : ((ops0 dx).stream_id != kInvalidStream) = true := by simpa using hv
        simp only [hb, if_true]
        cases hf : mapFind st.old_stream_to_new (ops0 dx).stream_id with
        | some w =>
          simp only
          exact ih _ _ hnd' hown' hdesc' (h.remap_known x dx w hx hfresh hv hf)
        | none =>
          simp only
          have hc : c ≤ st.next_stream := by rw [h.count]; omega
          exact ih _ _ hnd' hown' hdesc' (h.remap_new hc x dx hx hfresh hv hf)

/-- A run of `AllReduceParallelPass::Run` with the feature on whose first loop completes
with the set `succs`, each node of which has an op descriptor of its own: the pass
returns, and the invariant of the second loop holds of what it leaves. -/
theorem AllReduceParallelPass_remap {fuel : Nat} {nodes : NodeHeap} {g : ComputeGraph}
    {ops : OpHeap} {ctx : Context} {succs : List Nat}
    (hpar : ctx.hcom_parallel = true)
    (hsuccs : collectAllReduceSuccs fuel nodes ops g.direct_node [] =
      some (Status.SUCCESS, succs))
    (hown : ∀ a b, a ∈ succs → b ∈ succs → (nodes a).op_desc = (nodes b).op_desc → a = b) :
    ∃ st, RemapInv nodes ops ctx.next_stream succs st ∧
      AllReduceParallelPass.Run fuel nodes g ops ctx =
        some (if succs ≠ [] then Status.SUCCESS else Status.NOT_CHANGED, st.ops,
          { ctx with next_stream := st.next_stream }) := by
  obtain ⟨_, _, hsorted, hdesc⟩ := collectAllReduceSuccs_spec _ _ _ _ _ _ hsuccs
  have hnd : succs.Nodup := (hsorted List.Pairwise.nil).imp (fun h => Nat.ne_of_lt h)
  obtain ⟨hs, hinv⟩ := remapStreams_inv nodes ops ctx.next_stream succs []
    { ops := ops, next_stream := ctx.next_stream, old_stream_to_new := [] }
    (by simpa using hnd) (by simpa using hown)
    (hdesc (by intro n hn; simp at hn)) (RemapInv.remap_init nodes ops ctx.next_stream)
  refine ⟨_, by simpa using hinv, ?_⟩
  unfold AllReduceParallelPass.Run
  simp only [hpar, Bool.not_true, Bool.false_eq_true, if_false, hsuccs, ne_eq,
    not_true_eq_false, hs]

theorem chain_nodup {nodes : NodeHeap} {V : List Nat}
    (hac : ∀ x, x ∈ V → ¬ Relation.TransGen (DataEdge nodes) x x) :
    ∀ (p : List Nat) (y : Nat), List.Chain (fun b a => DataEdge nodes a b) y p →
      (∀ x, x ∈ y :: p → x ∈ V) → (y :: p).Nodup := by
  intro p y hch hV
  have hch2 : List.Chain (fun b a => Relation.TransGen (DataEdge nodes) a b) y p :=
    @List.Chain.imp Nat (fun b a => DataEdge nodes a b)
      (fun b a => Relation.TransGen (DataEdge nodes) a b)
      (fun {a b} h => Relation.TransGen.single h) y p hch
  have htr : ∀ a b c : Nat, Relation.TransGen (DataEdge nodes) b a →
      Relation.TransGen (DataEdge nodes) c b → Relation.TransGen (DataEdge nodes) c a :=
    fun a b c h1 h2 => h2.trans h1
  have hpw : List.Pairwise (fun b a => Relation.TransGen (DataEdge nodes) a b) (y :: p) := by
    haveI : IsTrans Nat (fun b a => Relation.TransGen (DataEdge nodes) a b) :=
      ⟨fun a b c h1 h2 => htr a b c h1 h2⟩
    exact List.Chain.pairwise hch2
  unfold List.Nodup
  refine hpw.imp_of_mem ?_
  intro a b ha _ hab heq
  rw [heq] at hab
  exact hac b (hV b (by rw [← heq]; exact ha)) hab

theorem endsPath_bound {nodes : NodeHeap} {V : List Nat}
    (hac : ∀ x, x ∈ V → ¬ Relation.TransGen (DataEdge nodes) x x) {k y : Nat}
    (h : EndsPath nodes V k y) : k + 1 ≤ V.length := by
  obtain ⟨p, hlen, hch, hV⟩ := h
  have hnd := chain_nodup hac p y hch hV
  have := (List.subperm_of_subset hnd (fun x hx => hV x hx)).length_le
  simp only [List.length_cons, hlen] at this
  exact this

theorem endsPath_succ {nodes : NodeHeap} {V : List Nat}
    (hcl : ∀ n, n ∈ V → ∀ m, m ∈ (nodes n).out_data_nodes → m ∈ V) {k x y : Nat}
    (h : EndsPath nodes V k x) (hxy : DataEdge nodes x y) : EndsPath nodes V (k + 1) y := by
  obtain ⟨p, hlen, hch, hV⟩ := h
  refine ⟨x :: p, by simp [hlen], List.Chain.cons hxy hch, ?_⟩
  intro z hz
  rcases List.mem_cons.mp hz with hz | hz
  · rw [hz]; exact hcl x (hV x (List.mem_cons_self _ _)) y hxy
  · exact hV z hz

theorem walkSuccessors_terminates (nodes : NodeHeap) (ops : OpHeap) (L : String) (V : List Nat)
    (hcl : ∀ n, n ∈ V → ∀ m, m ∈ (nodes n).out_data_nodes → m ∈ V)
    (hac : ∀ x, x ∈ V → ¬ Relation.TransGen (DataEdge nodes) x x) :
    ∀ (fuel k : Nat) (cur acc : List Nat), V.length ≤ k + fuel →
      (∀ y, y ∈ cur → EndsPath nodes V k y) →
      ∃ r, walkSuccessors nodes ops L fuel cur acc = some r ∧
        ((∀ n, (nodes n).op_desc ≠ none) → r.1 = Status.SUCCESS) := by
  intro fuel
  induction fuel with
  | zero =>
    intro k cur acc hk hcur
    cases cur with
    | nil => exact ⟨_, rfl, fun _ => rfl⟩
    | cons c cs =>
      have := endsPath_bound hac (hcur c (List.mem_cons_self _ _))
      omega
  | succ fuel ih =>
    intro k cur acc hk hcur
    cases cur with
    | nil => exact ⟨_, rfl, fun _ => rfl⟩
    | cons c cs =>
      simp only [walkSuccessors]
      by_cases hs : (visitCurNodes nodes ops L (c :: cs) (acc, [])).1 = Status.SUCCESS
      · simp only [hs, if_true]
        apply ih (k + 1) _ _ (by omega)
        intro y hy
        rcases ((visitCurNodes_spec nodes ops L (c :: cs) (acc, []) hs).2.1 y).mp hy with h | h
        · simp at h
        · obtain ⟨x, hx, hxy⟩ := h
          exact endsPath_succ hcl (hcur x hx) hxy.1
      · simp only [hs, if_false]
        refine ⟨_, rfl, fun hdesc => ?_⟩
        exact absurd (visitCurNodes_total nodes ops L (c :: cs) (acc, []) hdesc) hs

theorem endsPath_zero {nodes : NodeHeap} {V : List Nat} {a : Nat} (ha : a ∈ V) :
    EndsPath nodes V 0 a :=
  ⟨[], rfl, List.Chain.nil, fun x hx => by
    rw [List.mem_singleton] at hx; rw [hx]; exact ha⟩

theorem collectAllReduceSuccs_terminates (nodes : NodeHeap) (ops : OpHeap) (V : List Nat)
    (hcl : ∀ n, n ∈ V → ∀ m, m ∈ (nodes n).out_data_nodes → m ∈ V)
    (hac : ∀ x, x ∈ V → ¬ Relation.TransGen (DataEdge nodes) x x) :
    ∀ (l acc : List Nat), (∀ a, a ∈ l → a ∈ V) →
      ∃ r, collectAllReduceSuccs V.length nodes ops l acc = some r ∧
        ((∀ n, (nodes n).op_desc ≠ none) → r.1 = Status.SUCCESS) := by
  intro l
  induction l with
  | nil => intro acc _; exact ⟨_, rfl, fun _ => rfl⟩
  | cons a rest ih =>
    intro acc hl
    have hrest : ∀ b, b ∈ rest → b ∈ V := fun b hb => hl b (List.mem_cons_of_mem _ hb)
    simp only [collectAllReduceSuccs]
    split
    · exact ih acc hrest
    · cases hd : (nodes a).op_desc with
      | none =>
        refine ⟨_, rfl, fun hdesc => absurd hd (hdesc a)⟩
      | some d =>
        simp only
        obtain ⟨r, hr, hrs⟩ := walkSuccessors_terminates nodes ops (GetStreamLabel ops d) V hcl hac
          V.length 0 [a] acc (by omega) (fun y hy => by
            rw [List.mem_singleton] at hy; rw [hy]
            exact endsPath_zero (hl a (List.mem_cons_self _ _)))
        rw [hr]
        simp only
        by_cases hs : r.1 = Status.SUCCESS
        · simp only [hs, if_true]
          exact ih r.2 hrest
        · simp only [hs, if_false]
          exact ⟨r, rfl, hrs⟩

theorem AllReduceParallelPass_terminates (nodes : NodeHeap) (whole_graph : ComputeGraph)
    (ops : OpHeap) (context : Context)
    (hcl : ClosedData nodes whole_graph) (hac : AcyclicData nodes whole_graph) :
    ∃ r, AllReduceParallelPass.Run whole_graph.direct_node.length nodes whole_graph ops
      context = some r := by
  unfold AllReduceParallelPass.Run
  split
  · exact ⟨_, rfl⟩
  · obtain ⟨r, hr, _⟩ := collectAllReduceSuccs_terminates nodes ops whole_graph.direct_node
      hcl hac whole_graph.direct_node [] (fun a ha => ha)
    rw [hr]
    simp only
    split
    · exact ⟨_, rfl⟩
    · split
      · exact ⟨_, rfl⟩
      · exact ⟨_, rfl⟩

theorem acyclic_of_rank {nodes : NodeHeap} (rank : Nat → Nat)
    (hrank : ∀ n m, m ∈ (nodes n).out_data_nodes → rank m < rank n) (x y : Nat)
    (h : Relation.TransGen (DataEdge nodes) x y) : rank y < rank x := by
  induction h with
  | single hxy => exact hrank _ _ hxy
  | tail _ hbc ih => exact lt_trans (hrank _ _ hbc) ih

theorem reduceNodes_rank (n m : Nat)
    (hm : m ∈ (Example.reduceNodes [3, 4] n).out_data_nodes) :
    Example.reduceRank m < Example.reduceRank n := by
  unfold Example.reduceNodes Example.isolated at hm
  split at hm
  · next h0 =>
    subst h0
    simp only [List.mem_cons, List.mem_singleton, List.not_mem_nil, or_false] at hm
    rcases hm with h | h <;> subst h <;> decide
  · split at hm
    · simp at hm
    · next hn0 hn12 =>
      split at hm
      · simp only [List.mem_singleton] at hm
        subst hm
        unfold Example.reduceRank
        simp only [if_true]
        rw [if_neg hn0, if_neg hn12]
        omega
      · simp at hm

/-! ## `TBEKernelStore`: the buffer that `Build` writes and `Load` reads -/

theorem subSize_eq {a b : Nat} (hb : b ≤ a) (ha : a < 2 ^ 64) : subSize a b = a - b := by
  unfold subSize
  have h1 : a % 2 ^ 64 = a := Nat.mod_eq_of_lt ha
  have h2 : b % 2 ^ 64 = b := Nat.mod_eq_of_lt (lt_of_le_of_lt hb ha)
  rw [h1, h2]
  have h3 : a + 2 ^ 64 - b = (a - b) + 2 ^ 64 := by omega
  rw [h3, Nat.add_mod_right]
  exact Nat.mod_eq_of_lt (lt_of_le_of_lt (Nat.sub_le a b) ha)

theorem size_t_eq {a : Nat} (ha : a < 2 ^ 64) : size_t a = a := Nat.mod_eq_of_lt ha

theorem uint32_t_eq {a : Nat} (ha : a < 2 ^ 32) : uint32_t a = a := Nat.mod_eq_of_lt ha

theorem u32OfBytes_bytesOfU32 (v : Nat) (hv : v < 2 ^ 32) (rest : Bytes) :
    u32OfBytes (bytesOfU32 v ++ rest) = v := by
  simp only [u32OfBytes, bytesOfU32, List.cons_append, List.nil_append, List.getD_cons_zero,
    List.getD_cons_succ]
  have : v < 4294967296 := by simpa using hv
  omega

theorem bytesOfU32_length (v : Nat) : (bytesOfU32 v).length = 4 := rfl

theorem head_bytes_length (kernel_head : KernelStoreItemHead) :
    kernel_head.bytes.length = 12 := rfl

theorem head_read_bytes (kernel_head : KernelStoreItemHead) (rest : Bytes)
    (h1 : kernel_head.magic < 2 ^ 32) (h2 : kernel_head.name_len < 2 ^ 32)
    (h3 : kernel_head.bin_len < 2 ^ 32) :
    KernelStoreItemHead.read (kernel_head.bytes ++ rest) = kernel_head := by
  obtain ⟨magic, name_len, bin_len⟩ := kernel_head
  simp only [KernelStoreItemHead.read, KernelStoreItemHead.bytes, List.append_assoc]
  have d4 : ∀ (a : Nat) (t : Bytes), (bytesOfU32 a ++ t).drop 4 = t := fun a t => rfl
  have d8 : ∀ (a b : Nat) (t : Bytes), (bytesOfU32 a ++ (bytesOfU32 b ++ t)).drop 8 = t :=
    fun a b t => rfl
  rw [d4, d8, u32OfBytes_bytesOfU32 _ h1, u32OfBytes_bytesOfU32 _ h2,
    u32OfBytes_bytesOfU32 _ h3]

theorem itemBytes_length (kernel : TBEKernel) :
    (itemBytes kernel).length = 12 + kernel.name.length + kernel.bin_data.length := by
  simp only [itemBytes, List.length_append, head_bytes_length]

theorem serialize_length (l : List (Bytes × TBEKernel)) :
    (serialize l).length = itemSizes (l.map Prod.snd) := by
  induction l with
  | nil => rfl
  | cons item rest ih =>
    simp only [serialize, List.length_append, itemBytes_length, ih, itemSizes, List.map_cons,
      List.sum_cons]

theorem totalLen_fold (l : List (Bytes × TBEKernel)) :
    ∀ t0 : Nat, t0 + (serialize l).length < 2 ^ 64 →
      l.foldl (fun total_len item =>
        size_t (size_t (size_t (total_len + KernelStoreItemHead.sizeof) + item.2.name.length) +
          item.2.bin_data.length)) t0 = t0 + (serialize l).length := by
  induction l with
  | nil => intro t0 _; rfl
  | cons item rest ih =>
    intro t0 h
    simp only [serialize, List.length_append, itemBytes_length] at h
    rw [List.foldl_cons]
    have e1 : size_t (size_t (size_t (t0 + KernelStoreItemHead.sizeof) + item.2.name.length) +
        item.2.bin_data.length) = t0 + 12 + item.2.name.length + item.2.bin_data.length := by
      simp only [KernelStoreItemHead.sizeof]
      rw [size_t_eq (show t0 + 12 < 2 ^ 64 by omega),
        size_t_eq (show t0 + 12 + item.2.name.length < 2 ^ 64 by omega),
        size_t_eq (show t0 + 12 + item.2.name.length + item.2.bin_data.length < 2 ^ 64 by omega)]
    rw [e1, ih _ (by omega)]
    simp only [serialize, List.length_append, itemBytes_length]
    omega

theorem totalLen_eq (l : List (Bytes × TBEKernel)) (h : (serialize l).length < 2 ^ 64) :
    Build.totalLen l = (serialize l).length := by
  unfold Build.totalLen
  rw [totalLen_fold l 0 (by omega)]
  omega

theorem copyBytes_append (pre zone src : Bytes) (dest count : Nat) (hpre : pre.length = dest)
    (hsrc : src.length = count) (hz : count ≤ zone.length) :
    copyBytes (pre ++ zone) dest src count = some ((pre ++ src) ++ zone.drop count) := by
  unfold copyBytes
  have hlen : dest + count ≤ (pre ++ zone).length := by
    rw [List.length_append]; omega
  rw [if_pos hlen]
  congr 1
  rw [← hpre, ← hsrc, List.take_left, List.take_length, List.drop_append]

theorem Build.copy_spec (lib : Library) (hcopy : SecureCopy lib) (l : List (Bytes × TBEKernel)) :
    ∀ (pre zone out : Bytes), zone.length = (serialize l).length →
      (serialize l).length ≤ 0x7fffffff →
      Build.copy lib l (pre ++ zone) pre.length zone.length = some (true, out) →
      out = pre ++ serialize l ∧ ∀ x, l.getLast? = some x → x.2.bin_data ≠ [] := by
  induction l with
  | nil =>
    intro pre zone out hz _ h
    simp only [serialize, List.length_nil, List.length_eq_zero] at hz
    subst hz
    simp only [Build.copy, Option.some.injEq, Prod.mk.injEq, true_and] at h
    exact ⟨by rw [← h]; rfl, fun x hx => by simp at hx⟩
  | cons item rest ih =>
    intro pre zone out hz hsmall h
    simp only [serialize, List.length_append, itemBytes_length] at hz hsmall
    have hn : uint32_t item.2.name.length = item.2.name.length :=
      uint32_t_eq (by norm_num; omega)
    have hb : uint32_t item.2.bin_data.length = item.2.bin_data.length :=
      uint32_t_eq (by norm_num; omega)
    have hz64 : zone.length < 2 ^ 64 := by norm_num; omega
    have hr1 : subSize zone.length 12 = zone.length - 12 := subSize_eq (by omega) hz64
    have hr2 : subSize (zone.length - 12) item.2.name.length =
        zone.length - 12 - item.2.name.length :=
      subSize_eq (by omega) (by norm_num; omega)
    have hr3 : subSize (zone.length - 12 - item.2.name.length) item.2.bin_data.length =
        zone.length - 12 - item.2.name.length - item.2.bin_data.length :=
      subSize_eq (by omega) (by norm_num; omega)
    simp only [Build.copy, KernelStoreItemHead.sizeof, hn, hb, hr1, hr2, hr3] at h
    cases ho1 : lib.memcpy_s_ok pre.length zone.length 12 with
    | false => simp [ho1] at h
    | true =>
      simp only [ho1, Bool.not_true, Bool.false_eq_true, if_false] at h
      rw [copyBytes_append pre zone _ pre.length 12 rfl (head_bytes_length _) (by omega)] at h
      simp only at h
      cases ho2 : lib.memcpy_s_ok (pre.length + 12) (zone.length - 12) item.2.name.length with
      | false => simp [ho2] at h
      | true =>
        simp only [ho2, Bool.not_true, Bool.false_eq_true, if_false] at h
        rw [copyBytes_append _ (zone.drop 12) item.2.name (pre.length + 12) item.2.name.length
          (by simp only [List.length_append, head_bytes_length]) rfl
          (by rw [List.length_drop]; omega)] at h
        simp only at h
        cases ho3 : lib.memcpy_s_ok (pre.length + 12 + item.2.name.length)
            (zone.length - 12 - item.2.name.length) item.2.bin_data.length with
        | false => simp [ho3] at h
        | true =>
          simp only [ho3, Bool.not_true, Bool.false_eq_true, if_false] at h
          rw [copyBytes_append _ ((zone.drop 12).drop item.2.name.length) item.2.bin_data
            (pre.length + 12 + item.2.name.length) item.2.bin_data.length
            (by simp only [List.length_append, head_bytes_length]) rfl
            (by rw [List.length_drop, List.length_drop]; omega)] at h
          simp only at h
          have hpre : pre ++ KernelStoreItemHead.bytes
              { magic := kKernelItemMagic, name_len := item.2.name.length,
                bin_len := item.2.bin_data.length } ++ item.2.name ++ item.2.bin_data =
              pre ++ itemBytes item.2 := by
            simp only [itemBytes, List.append_assoc]
          have hzl : (((zone.drop 12).drop item.2.name.length).drop
              item.2.bin_data.length).length = (serialize rest).length := by
            rw [List.length_drop, List.length_drop, List.length_drop]; omega
          have hpl : pre.length + 12 + item.2.name.length + item.2.bin_data.length =
              (pre ++ itemBytes item.2).length := by
            rw [List.length_append, itemBytes_length]; omega
          have hzl2 : zone.length - 12 - item.2.name.length - item.2.bin_data.length =
              (((zone.drop 12).drop item.2.name.length).drop
                item.2.bin_data.length).length := by
            rw [hzl]; omega
          rw [hpre, hpl, hzl2] at h
          obtain ⟨h1, h2⟩ := ih _ _ out hzl (by omega) h
          refine ⟨by rw [h1, serialize, List.append_assoc], ?_⟩
          intro x hx
          cases rest with
          | nil =>
            simp only [List.getLast?_singleton, Option.some.injEq] at hx
            subst hx
            have hne := (hcopy _ _ _ ho3).1
            simp only [serialize, List.length_nil] at hz
            intro hnil
            have hlen0 : item.2.bin_data.length = 0 := by rw [hnil]; rfl
            omega
          | cons y ys =>
            rw [List.getLast?_cons_cons] at hx
            exact h2 x hx

theorem Build.copy_first (lib : Library) (item : Bytes × TBEKernel)
    (rest : List (Bytes × TBEKernel)) (buffer out : Bytes) (next_buffer remain_len : Nat)
    (h : Build.copy lib (item :: rest) buffer next_buffer remain_len = some (true, out)) :
    lib.memcpy_s_ok next_buffer remain_len 12 = true := by
  cases ho : lib.memcpy_s_ok next_buffer remain_len 12 with
  | true => rfl
  | false => simp [Build.copy, KernelStoreItemHead.sizeof, ho] at h

theorem Build_spec (lib : Library) (hcopy : SecureCopy lib) (store built : TBEKernelStore)
    (hmem : (serialize store.kernels_).length < 2 ^ 64)
    (hbuild : store.Build lib = some (true, built)) (hne : built.buffer_ ≠ []) :
    built.buffer_ = serialize store.kernels_ ∧ built.kernels_ = [] ∧
      (serialize store.kernels_).length ≤ 0x7fffffff ∧
      ∀ x, store.kernels_.getLast? = some x → x.2.bin_data ≠ [] := by
  unfold TBEKernelStore.Build at hbuild
  rw [totalLen_eq _ hmem] at hbuild
  simp only at hbuild
  cases hres : lib.resize_ok (serialize store.kernels_).length with
  | false => simp [hres] at hbuild
  | true =>
    simp only [hres, Bool.not_true, Bool.false_eq_true, if_false] at hbuild
    cases hc : Build.copy lib store.kernels_
        (List.replicate (serialize store.kernels_).length 0) 0
        (serialize store.kernels_).length with
    | none => simp [hc] at hbuild
    | some r =>
      obtain ⟨flag, out⟩ := r
      simp only [hc] at hbuild
      cases flag with
      | false => simp at hbuild
      | true =>
        simp only [if_true, Option.some.injEq, Prod.mk.injEq, true_and] at hbuild
        subst hbuild
        simp only at hne ⊢
        have hsmall : (serialize store.kernels_).length ≤ 0x7fffffff := by
          cases hk : store.kernels_ with
          | nil => simp [serialize]
          | cons item rest =>
            rw [hk] at hc
            exact (hcopy _ _ _ (Build.copy_first lib item rest _ _ _ _ hc)).2.1
        have hc2 : Build.copy lib store.kernels_
            (([] : Bytes) ++ List.replicate (serialize store.kernels_).length 0)
            ([] : Bytes).length (List.replicate (serialize store.kernels_).length 0).length =
            some (true, out) := by
          simpa using hc
        obtain ⟨h1, h2⟩ := Build.copy_spec lib hcopy store.kernels_ [] _ out
          (by simp) hsmall hc2
        exact ⟨by simpa using h1, trivial, hsmall, h2⟩

theorem serialize_cons_length_pos (item : Bytes × TBEKernel) (rest : List (Bytes × TBEKernel)) :
    12 ≤ (serialize (item :: rest)).length := by
  simp only [serialize, List.length_append, itemBytes_length]
  omega

theorem Load.loop_serialize (lib : Library) (hshared : ∀ k, lib.make_shared_ok k = true)
    (data : Bytes) (hdata : data.length ≤ 0x7fffffff) (l : List (Bytes × TBEKernel)) :
    ∀ (pre : Bytes) (fuel : Nat) (m : List (Bytes × TBEKernel)),
      data = pre ++ serialize l →
      (∀ x, l.getLast? = some x → x.2.bin_data ≠ []) →
      l.length ≤ fuel →
      Load.loop lib data data.length fuel (serialize l).length m =
        some (l.foldl (fun m item => mapEmplace m item.2.name item.2) m) := by
  induction l with
  | nil =>
    intro pre fuel m _ _ _
    cases fuel <;> simp [Load.loop, serialize, KernelStoreItemHead.sizeof]
  | cons item rest ih =>
    intro pre fuel m hd hlast hfuel
    cases fuel with
    | zero => simp at hfuel
    | succ fuel =>
      have hlen : data.length = pre.length + (12 + item.2.name.length +
          item.2.bin_data.length + (serialize rest).length) := by
        rw [hd, List.length_append, serialize, List.length_append, itemBytes_length]
      have hpos : 0 < item.2.name.length + item.2.bin_data.length + (serialize rest).length := by
        cases rest with
        | nil =>
          have := hlast item (by simp)
          have : item.2.bin_data.length ≠ 0 := fun h => this (List.length_eq_zero.mp h)
          omega
        | cons y ys =>
          have := serialize_cons_length_pos y ys
          omega
      have hbl : (serialize (item :: rest)).length = 12 + item.2.name.length +
          item.2.bin_data.length + (serialize rest).length := by
        rw [serialize, List.length_append, itemBytes_length]
      have hnext : subSize data.length (serialize (item :: rest)).length = pre.length := by
        rw [subSize_eq (by omega) (by norm_num; omega), hbl, hlen]
        omega
      have hdrop : data.drop pre.length =
          KernelStoreItemHead.bytes
            { magic := kKernelItemMagic, name_len := item.2.name.length,
              bin_len := item.2.bin_data.length } ++
          (item.2.name ++ (item.2.bin_data ++ serialize rest)) := by
        rw [hd, List.drop_left, serialize, itemBytes]
        simp only [List.append_assoc]
      have hhead : KernelStoreItemHead.read (data.drop pre.length) =
          { magic := kKernelItemMagic, name_len := item.2.name.length,
            bin_len := item.2.bin_data.length } := by
        rw [hdrop]
        exact head_read_bytes _ _ (show kKernelItemMagic < 2 ^ 32 by decide) (by norm_num; omega)
          (by norm_num; omega)
      have hdrop2 : data.drop (pre.length + 12) =
          item.2.name ++ (item.2.bin_data ++ serialize rest) := by
        rw [← List.drop_drop, hdrop]
        exact List.drop_left' (head_bytes_length _)
      have hdrop3 : data.drop (pre.length + 12 + item.2.name.length) =
          item.2.bin_data ++ serialize rest := by
        rw [← List.drop_drop, hdrop2, List.drop_left]
      have hname : (data.drop (pre.length + 12)).take item.2.name.length = item.2.name := by
        rw [hdrop2, List.take_left]
      have hbin : (data.drop (pre.length + 12 + item.2.name.length)).take
          item.2.bin_data.length = item.2.bin_data := by
        rw [hdrop3, List.take_left]
      have hguard : size_t (uint32_t (item.2.name.length + item.2.bin_data.length) + 12) =
          item.2.name.length + item.2.bin_data.length + 12 := by
        rw [uint32_t_eq (by norm_num; omega), size_t_eq (by norm_num; omega)]
      have hstep : subSize (serialize (item :: rest)).length
          (size_t (size_t (12 + item.2.name.length) + item.2.bin_data.length)) =
          (serialize rest).length := by
        rw [size_t_eq (show 12 + item.2.name.length < 2 ^ 64 by norm_num; omega),
          size_t_eq (show 12 + item.2.name.length + item.2.bin_data.length < 2 ^ 64 by
            norm_num; omega),
          subSize_eq (by omega) (by norm_num; omega), hbl]
        omega
      have hgt : (serialize (item :: rest)).length > 12 := by omega
      have hoob1 : ¬ pre.length + 12 > data.length := by omega
      have hng : ¬ (serialize (item :: rest)).length <
          item.2.name.length + item.2.bin_data.length + 12 := by omega
      have hoob2 : ¬ pre.length + 12 + item.2.name.length + item.2.bin_data.length >
          data.length := by omega
      rw [Load.loop]
      simp only [KernelStoreItemHead.sizeof, hnext, hhead, hguard, hname, hbin, hstep, hgt,
        hoob1, hng, hoob2, if_true, if_false, hshared]
      rw [List.foldl_cons]
      exact ih (pre ++ itemBytes item.2) fuel _
        (by rw [hd, serialize, List.append_assoc])
        (fun x hx => hlast x (by
          cases rest with
          | nil => simp at hx
          | cons y ys => rw [List.getLast?_cons_cons]; exact hx))
        (by simpa using hfuel)

theorem mapFind_none_of_not_key {κ β : Type} [DecidableEq κ] {m : List (κ × β)} {a : κ}
    (h : ∀ x, x ∈ m → x.1 ≠ a) : mapFind m a = none := by
  cases hf : mapFind m a with
  | none => rfl
  | some v => exact absurd rfl (h _ (mem_of_mapFind hf))

theorem mapFind_of_mem_nodup {κ β : Type} [DecidableEq κ] {m : List (κ × β)}
    (hnd : (m.map Prod.fst).Nodup) {a : κ} {v : β} (h : (a, v) ∈ m) : mapFind m a = some v := by
  induction m with
  | nil => simp at h
  | cons x rest ih =>
    obtain ⟨k, w⟩ := x
    rw [List.map_cons, List.nodup_cons] at hnd
    simp only [mapFind]
    rcases List.mem_cons.mp h with h | h
    · cases h
      simp
    · have hne : a ≠ k := by
        intro e
        have hmem : a ∈ rest.map Prod.fst := List.mem_map_of_mem Prod.fst h
        rw [e] at hmem
        exact hnd.1 hmem
      rw [if_neg hne]
      exact ih hnd.2 h

theorem mapAssign_of_not_key {κ β : Type} [DecidableEq κ] {m : List (κ × β)} {k : κ} (v : β)
    (h : ∀ x, x ∈ m → x.1 ≠ k) : mapAssign m k v = m ++ [(k, v)] := by
  induction m with
  | nil => rfl
  | cons x rest ih =>
    obtain ⟨k', w⟩ := x
    have hne : k ≠ k' := fun e => h (k', w) (List.mem_cons_self _ _) e.symm
    simp only [mapAssign, hne, if_false, List.cons_append]
    rw [ih (fun y hy => h y (List.mem_cons_of_mem _ hy))]

theorem addKernels_snoc (pre : List TBEKernel) (k : TBEKernel) :
    addKernels (pre ++ [k]) = (addKernels pre).AddTBEKernel (some k) := by
  simp [addKernels, List.foldl_append]

theorem addKernels_kernels (kernels : List TBEKernel)
    (hdistinct : (kernels.map TBEKernel.name).Nodup) :
    (addKernels kernels).kernels_ = kernels.map (fun k => (k.name, k)) := by
  induction kernels using List.reverseRecOn with
  | nil => rfl
  | append_singleton pre k ih =>
    rw [List.map_append, List.nodup_append] at hdistinct
    rw [addKernels_snoc]
    simp only [TBEKernelStore.AddTBEKernel]
    rw [ih hdistinct.1, mapAssign_of_not_key, List.map_append]
    · rfl
    · intro x hx hxk
      obtain ⟨k', hk', rfl⟩ := List.mem_map.mp hx
      exact hdistinct.2.2 (List.mem_map_of_mem TBEKernel.name hk') (by simpa using hxk)

theorem emplace_fold_kernels (l : List (Bytes × TBEKernel))
    (hnd : (l.map (fun item => item.2.name)).Nodup) :
    l.foldl (fun m item => mapEmplace m item.2.name item.2) [] =
      l.map (fun item => (item.2.name, item.2)) := by
  induction l using List.reverseRecOn with
  | nil => rfl
  | append_singleton pre item ih =>
    rw [List.map_append, List.nodup_append] at hnd
    rw [List.foldl_append, ih hnd.1, List.map_append]
    simp only [List.foldl_cons, List.foldl_nil, List.map_cons, List.map_nil]
    unfold mapEmplace
    rw [mapFind_none_of_not_key]
    intro x hx hxk
    obtain ⟨y, hy, rfl⟩ := List.mem_map.mp hx
    exact hnd.2.2 (List.mem_map_of_mem (fun item => item.2.name) hy) (by simpa using hxk)

theorem length_le_serialize (l : List (Bytes × TBEKernel)) : l.length ≤ (serialize l).length := by
  induction l with
  | nil => simp
  | cons item rest ih =>
    simp only [serialize, List.length_append, itemBytes_length, List.length_cons]
    omega

theorem itemSizes_perm {a b : List TBEKernel} (h : a.Perm b) : itemSizes a = itemSizes b :=
  (h.map _).sum_eq

/-! ## The claims -/

/-- Claim C1: two fresh subgraphs `A` and `B` (no stream, no reuse link), where `B` has a
placeholder whose peer End node belongs to `A` and `A`'s End→Placeholder map points back
to that placeholder, `A` has no placeholder and `B` no End node, both on the same engine
id and scheduler id, `A` neither independent nor labelled, in either order of the vector:
after `AssignByDependencyPass::Run` from a context with `next_stream = 0`,
`B.reused_subgraph` is `A`, `B.stream_id` equals `A.stream_id`, and `context.next_stream`
is 1.  (The flags of `B` play no role in this pass.) -/
theorem chain_reuses_one_stream (σ : SubgraphHeap) (a b : Nat) (subgraphs : List Nat)
    (context : Context)
    (horder : subgraphs = [a, b] ∨ subgraphs = [b, a]) (hab : a ≠ b)
    (hctx : context.next_stream = 0)
    (hA : (σ a).stream_id = kInvalidStream) (hB : (σ b).stream_id = kInvalidStream)
    (hAlink : (σ a).reused_subgraph = none) (hBlink : (σ b).reused_subgraph = none)
    (heng : (σ a).engine_conf.id = (σ b).engine_conf.id)
    (hsched : (σ a).engine_conf.scheduler_id = (σ b).engine_conf.scheduler_id)
    (hind : IsEngineIndependent (σ a) = false) (hlab : HasStreamLabel (σ a) = false)
    (hApld : (σ a).subgraph_info.pld2end = []) (hBend : (σ b).subgraph_info.end2pld = [])
    (hedge : ∃ p e, (p, e) ∈ (σ b).subgraph_info.pld2end ∧ (e, p) ∈ (σ a).subgraph_info.end2pld) :
    ((AssignByDependencyPass.Run subgraphs σ context).2.1 b).reused_subgraph = some a ∧
    ((AssignByDependencyPass.Run subgraphs σ context).2.1 b).stream_id =
      ((AssignByDependencyPass.Run subgraphs σ context).2.1 a).stream_id ∧
    (AssignByDependencyPass.Run subgraphs σ context).2.2.next_stream = 1 := by
  have hloop := chain_loop σ a b subgraphs horder hab hA hB hAlink heng hsched hind hlab
    hApld hBend hedge
  have h0 : ∀ i, i ∈ subgraphs → (σ i).reused_subgraph = none := by
    intro i hi
    rcases horder with e | e <;> subst e <;>
      simp only [List.mem_cons, List.mem_singleton, List.not_mem_nil, or_false] at hi <;>
      rcases hi with h | h <;> subst h <;> assumption
  refine ⟨?_, ?_, ?_⟩
  · rw [Run_reused_field, hloop]
    show (setReused _ b (some a) b).reused_subgraph = some a
    rw [setReused_reused, if_pos rfl]
  · apply Run_reused context h0
    rw [hloop]
    show (b, a) ∈ _ ++ [(b, a)]
    simp
  · rw [Run_next, hloop]
    show context.next_stream +
      sumAll (AssignNewStream.pass AssignByDependencyPass.new σ a).engine_stream_num_ = 1
    rw [hctx]
    simp only [AssignNewStream.pass, newStreamId_new]
    simp [mapTouch, AssignByDependencyPass.new, mapFind, mapSet, mapGet, sumAll]

/-- Claim C1 at a concrete input, the vector in the order `[B, A]`. -/
theorem chain_reuses_one_stream_witness :
    ((AssignByDependencyPass.Run [1, 0] Example.chainAB Example.freshContext).2.1 1).reused_subgraph
      = some 0 ∧
    ((AssignByDependencyPass.Run [1, 0] Example.chainAB Example.freshContext).2.1 1).stream_id =
      ((AssignByDependencyPass.Run [1, 0] Example.chainAB Example.freshContext).2.1 0).stream_id ∧
    (AssignByDependencyPass.Run [1, 0] Example.chainAB Example.freshContext).2.2.next_stream = 1 :=
  chain_reuses_one_stream Example.chainAB 0 1 [1, 0] Example.freshContext (Or.inr rfl)
    (by decide) (by decide) (by decide) (by decide) (by decide) (by decide) (by decide)
    (by decide) (by decide) (by decide) (by decide) (by decide) ⟨20, 10, by decide, by decide⟩

/-- Claim C2: round-robin with cap.  (1) In a sequence of calls of `AssignNewStream` on a
fresh pass object, a call for a subgraph whose engine has the same `max_parallel_num = m`,
`m ≥ 1`, on all its subgraphs gives the slot `k mod m`, where `k` is the number of earlier
calls for that engine.  (2) When the vector holds distinct fresh subgraphs without
placeholders (no reuse opportunity), the final stream id of a subgraph is that slot plus
the base offset of its engine: the counter at entry of the pass plus the high-water marks
of the engines with a smaller id.  For three subgraphs on one engine with `m = 2` the
slots are `0 mod 2, 1 mod 2, 2 mod 2`, that is 0, 1, 0. -/
theorem round_robin_with_cap :
    (∀ (σ : SubgraphHeap) (pre : List Nat) (x : Nat) (m : Int), 1 ≤ m →
      (∀ c, c ∈ x :: pre → engineOf σ c = engineOf σ x → (σ c).max_parallel_num = m) →
      newStreamId (assignCalls σ pre).pass (assignCalls σ pre).σ x =
        (callCount σ (engineOf σ x) pre : Int) % m) ∧
    (∀ (σ : SubgraphHeap) (context : Context) (pre post : List Nat) (x : Nat) (m : Int), 1 ≤ m →
      (pre ++ x :: post).Nodup →
      (∀ s, s ∈ pre ++ x :: post → (σ s).stream_id = kInvalidStream) →
      (∀ s, s ∈ pre ++ x :: post → (σ s).subgraph_info.pld2end = []) →
      (∀ c, c ∈ pre ++ x :: post → engineOf σ c = engineOf σ x → (σ c).max_parallel_num = m) →
      ((AssignByDependencyPass.Run (pre ++ x :: post) σ context).2.1 x).stream_id =
        (callCount σ (engineOf σ x) pre : Int) % m + (context.next_stream +
          sumBelow (AssignByDependencyPass.loop (pre ++ x :: post) σ).pass.engine_stream_num_
            (engineOf σ x))) := by
  constructor
  · intro σ pre x m hm hu
    exact assignCalls_slot σ pre x m hm hu
  · intro σ context pre post x m hm hnd hun hpld hu
    have hloop := loop_no_reuse (pre ++ x :: post) σ hnd hun hpld
    have hsplit : assignCalls σ (pre ++ x :: post) =
        post.foldl DepState.assignNew ((assignCalls σ pre).assignNew x) := by
      simp [assignCalls, List.foldl_append]
    have hxpost : x ∉ post := by
      have := List.nodup_append.mp hnd
      exact (List.nodup_cons.mp this.2.1).1
    have hmem : x ∈ (AssignByDependencyPass.loop (pre ++ x :: post) σ).pass.assigned_subgraphs_ := by
      rw [hloop, hsplit]
      apply assignNew_fold_assigned
      exact mem_setInsert.mpr (Or.inl rfl)
    have hno : (AssignByDependencyPass.loop (pre ++ x :: post) σ).pass.reused_subgraphs_ = [] := by
      rw [hloop]
      unfold assignCalls
      rw [assignNew_fold_reused]
      rfl
    rw [Run_assigned_no_reuse context hno hmem]
    congr 1
    rw [hloop, hsplit, assignNew_fold_other post _ x hxpost]
    show (setStreamId _ x _ x).stream_id = _
    rw [setStreamId_stream_same]
    exact assignCalls_slot σ pre x m hm (fun c hc => hu c (by
      simp only [List.mem_cons] at hc
      simp only [List.mem_append, List.mem_cons]
      rcases hc with h | h
      · exact Or.inr (Or.inl h)
      · exact Or.inl h))

/-- Claim C2 at a concrete input: the vector `[h0, a0, h1, h2]` with three subgraphs on
`host` (`max_parallel_num = 2`) and one on `aicore`, which precedes `host`: the third
subgraph on `host` gets the slot 0 again and the final stream id 0 + 1. -/
theorem round_robin_with_cap_witness :
    newStreamId (assignCalls Example.threeOnHost [0, 1, 2]).pass
        (assignCalls Example.threeOnHost [0, 1, 2]).σ 3 = 0 ∧
    ((AssignByDependencyPass.Run [0, 1, 2, 3] Example.threeOnHost Example.freshContext).2.1
      3).stream_id = 1 :=
  ⟨(round_robin_with_cap.1 Example.threeOnHost [0, 1, 2] 3 2 (by decide) (by decide)).trans
      (by decide),
    (round_robin_with_cap.2 Example.threeOnHost Example.freshContext [0, 1, 2] [] 3 2
      (by decide) (by decide) (by decide) (by decide) (by decide)).trans (by decide)⟩

/-- Claim C3, as it stands, fails: two subgraphs carry the label `L`, the first on an
independent engine; the label pass gives both the stream 0, the independent pass moves
the first one to the stream 1, and the pipeline succeeds with different stream ids. -/
theorem same_label_streams_differ_on_independent_engine :
    ∃ out, RunPasses 0 Example.isolatedNodes Example.emptyGraph [0, 1] Example.labelMixed
        Example.freshOps Example.freshContext 0 = some out ∧
      out.status = Status.SUCCESS ∧
      labelOf Example.labelMixed 0 = labelOf Example.labelMixed 1 ∧
      labelOf Example.labelMixed 0 ≠ "" ∧
      (out.σ 0).stream_id ≠ (out.σ 1).stream_id := by
  have hs : (RunPasses 0 Example.isolatedNodes Example.emptyGraph [0, 1] Example.labelMixed
      Example.freshOps Example.freshContext 0).map
        (fun o => (o.status, (o.σ 0).stream_id, (o.σ 1).stream_id)) =
      some (Status.SUCCESS, 1, 0) := by decide
  cases h : RunPasses 0 Example.isolatedNodes Example.emptyGraph [0, 1] Example.labelMixed
      Example.freshOps Example.freshContext 0 with
  | none => rw [h] at hs; simp at hs
  | some out =>
    rw [h] at hs
    simp only [Option.map_some', Option.some.injEq, Prod.mk.injEq] at hs
    refine ⟨out, rfl, hs.1, by decide, by decide, ?_⟩
    rw [hs.2.1, hs.2.2]
    decide

/-- Claim C3, amended: after a successful run of the pass pipeline (entered with a
non-negative stream counter), two subgraphs of the vector that carry the same non-empty
stream label have equal final stream ids when neither is on an independent engine, or
when both are on independent engines with the same engine id. -/
theorem same_label_same_stream (fuel : Nat) (nodes : NodeHeap) (whole_graph : ComputeGraph)
    (subgraphs : List Nat) (σ : SubgraphHeap) (ops : OpHeap) (context_ : Context)
    (stream_num : Int) (out : Outcome)
    (hrun : RunPasses fuel nodes whole_graph subgraphs σ ops context_ stream_num = some out)
    (hok : out.status = Status.SUCCESS)
    (hctx : 0 ≤ context_.next_stream)
    (i j : Nat) (hi : i ∈ subgraphs) (hj : j ∈ subgraphs)
    (hlabel : labelOf σ i = labelOf σ j) (hne : labelOf σ i ≠ "")
    (hengine : (IsEngineIndependent (σ i) = false ∧ IsEngineIndependent (σ j) = false) ∨
      (IsEngineIndependent (σ i) = true ∧ IsEngineIndependent (σ j) = true ∧
        engineOf σ i = engineOf σ j)) :
    (out.σ i).stream_id = (out.σ j).stream_id := by
  have hσ := (RunPasses_success hrun hok).1
  rw [hσ]
  have hle1 := afterLabel_next_le subgraphs σ context_
  rcases hengine with ⟨h1, h2⟩ | ⟨h1, h2, h3⟩
  · have hli := afterLabel_labelled subgraphs σ context_ hi hne
    have hlj := hli.2.2 j hj hlabel.symm
    have ei := afterIndependent_other subgraphs σ context_ h1
    have ej := afterIndependent_other subgraphs σ context_ h2
    rw [afterDependency_keep subgraphs σ context_ (by rw [ei]; omega),
      afterDependency_keep subgraphs σ context_ (by rw [ej, hlj]; omega), ei, ej, hlj]
  · have hii := afterIndependent_independent subgraphs σ context_ hi h1
    have hjj := (hii.2.2 j hj h2).mpr ⟨h3.symm, hlabel.symm⟩
    rw [afterDependency_keep subgraphs σ context_ (by omega),
      afterDependency_keep subgraphs σ context_ (by rw [hjj]; omega), hjj]

/-- Claim C3, amended, at a concrete input: two subgraphs with the label `L` on the
engine `aicore`. -/
theorem same_label_same_stream_witness :
    ∃ out, RunPasses 0 Example.isolatedNodes Example.emptyGraph [0, 1] Example.labelShared
        Example.freshOps Example.freshContext 0 = some out ∧
      out.status = Status.SUCCESS ∧ (out.σ 0).stream_id = (out.σ 1).stream_id := by
  have hs : (RunPasses 0 Example.isolatedNodes Example.emptyGraph [0, 1] Example.labelShared
      Example.freshOps Example.freshContext 0).map (fun o => o.status) =
      some Status.SUCCESS := by decide
  cases h : RunPasses 0 Example.isolatedNodes Example.emptyGraph [0, 1] Example.labelShared
      Example.freshOps Example.freshContext 0 with
  | none => rw [h] at hs; simp at hs
  | some out =>
    rw [h] at hs
    simp only [Option.map_some', Option.some.injEq] at hs
    exact ⟨out, rfl, hs, same_label_same_stream 0 Example.isolatedNodes Example.emptyGraph
      [0, 1] Example.labelShared Example.freshOps Example.freshContext 0 out h hs
      (by decide) 0 1 (by decide) (by decide) (by decide) (by decide)
      (Or.inl ⟨by decide, by decide⟩)⟩

/-- Claim C4: after a successful run of the pass pipeline (entered with a non-negative
stream counter), two subgraphs of the vector whose engines are marked independent and
whose keys (engine id, stream label) differ have different final stream ids. -/
theorem independent_keys_distinct_streams (fuel : Nat) (nodes : NodeHeap)
    (whole_graph : ComputeGraph) (subgraphs : List Nat) (σ : SubgraphHeap) (ops : OpHeap)
    (context_ : Context) (stream_num : Int) (out : Outcome)
    (hrun : RunPasses fuel nodes whole_graph subgraphs σ ops context_ stream_num = some out)
    (hok : out.status = Status.SUCCESS)
    (hctx : 0 ≤ context_.next_stream)
    (i j : Nat) (hi : i ∈ subgraphs) (hj : j ∈ subgraphs)
    (hii : IsEngineIndependent (σ i) = true) (hij : IsEngineIndependent (σ j) = true)
    (hkey : (engineOf σ i, labelOf σ i) ≠ (engineOf σ j, labelOf σ j)) :
    (out.σ i).stream_id ≠ (out.σ j).stream_id := by
  have hσ := (RunPasses_success hrun hok).1
  rw [hσ]
  have hle1 := afterLabel_next_le subgraphs σ context_
  have hi2 := afterIndependent_independent subgraphs σ context_ hi hii
  have hj2 := afterIndependent_independent subgraphs σ context_ hj hij
  rw [afterDependency_keep subgraphs σ context_ (by omega),
    afterDependency_keep subgraphs σ context_ (by omega)]
  intro heq
  have := (hi2.2.2 j hj hij).mp heq.symm
  exact hkey (by rw [this.1, this.2])

/-- Claim C4 at a concrete input: two unlabelled subgraphs on the independent engines
`dma` and `hccl`. -/
theorem independent_keys_distinct_streams_witness :
    ∃ out, RunPasses 0 Example.isolatedNodes Example.emptyGraph [0, 1] Example.twoIndependent
        Example.freshOps Example.freshContext 0 = some out ∧
      out.status = Status.SUCCESS ∧ (out.σ 0).stream_id ≠ (out.σ 1).stream_id := by
  have hs : (RunPasses 0 Example.isolatedNodes Example.emptyGraph [0, 1] Example.twoIndependent
      Example.freshOps Example.freshContext 0).map (fun o => o.status) =
      some Status.SUCCESS := by decide
  cases h : RunPasses 0 Example.isolatedNodes Example.emptyGraph [0, 1] Example.twoIndependent
      Example.freshOps Example.freshContext 0 with
  | none => rw [h] at hs; simp at hs
  | some out =>
    rw [h] at hs
    simp only [Option.map_some', Option.some.injEq] at hs
    exact ⟨out, rfl, hs, independent_keys_distinct_streams 0 Example.isolatedNodes
      Example.emptyGraph [0, 1] Example.twoIndependent Example.freshOps Example.freshContext 0
      out h hs (by decide) 0 1 (by decide) (by decide) (by decide) (by decide) (by decide)⟩

/-- Claim C5, as it stands, fails: two subgraphs on the engine `aicore`, whose
`max_parallel_num` is 1, carry the labels `L1` and `L2`; the label pass gives each label
a stream of its own, so the subgraphs of the engine carry two distinct stream ids. -/
theorem labelled_subgraphs_exceed_max_parallel_num :
    ∃ out, RunPasses 0 Example.isolatedNodes Example.emptyGraph [0, 1] Example.twoLabels
        Example.freshOps Example.freshContext 0 = some out ∧
      out.status = Status.SUCCESS ∧
      (∀ s, s ∈ [0, 1] → engineOf Example.twoLabels s = "aicore" ∧
        (Example.twoLabels s).max_parallel_num = 1) ∧
      ¬ ((distinctStreams [0, 1] out.σ "aicore" : Int) ≤ 1) := by
  have hs : (RunPasses 0 Example.isolatedNodes Example.emptyGraph [0, 1] Example.twoLabels
      Example.freshOps Example.freshContext 0).map
        (fun o => (o.status, distinctStreams [0, 1] o.σ "aicore")) =
      some (Status.SUCCESS, 2) := by decide
  cases h : RunPasses 0 Example.isolatedNodes Example.emptyGraph [0, 1] Example.twoLabels
      Example.freshOps Example.freshContext 0 with
  | none => rw [h] at hs; simp at hs
  | some out =>
    rw [h] at hs
    simp only [Option.map_some', Option.some.injEq, Prod.mk.injEq] at hs
    refine ⟨out, rfl, hs.1, by decide, ?_⟩
    rw [hs.2]
    decide

/-- Claim C5, amended: after the pass pipeline succeeds on fresh subgraphs (no stream, no
reuse link; counter not negative), for every engine id whose subgraphs all have the same
engine configuration, not attach, the same `max_parallel_num = m ≥ 1` and no stream
label, the number of distinct stream ids carried by the subgraphs of that engine does not
exceed `m`. -/
theorem engine_streams_bounded (fuel : Nat) (nodes : NodeHeap) (whole_graph : ComputeGraph)
    (subgraphs : List Nat) (σ : SubgraphHeap) (ops : OpHeap) (context_ : Context)
    (stream_num : Int) (out : Outcome)
    (hrun : RunPasses fuel nodes whole_graph subgraphs σ ops context_ stream_num = some out)
    (hok : out.status = Status.SUCCESS)
    (hctx : 0 ≤ context_.next_stream)
    (hfresh : ∀ s, s ∈ subgraphs →
      (σ s).stream_id = kInvalidStream ∧ (σ s).reused_subgraph = none)
    (e : String) (engine_conf : EngineConf) (m : Int) (hm : 1 ≤ m)
    (hattach : engine_conf.attach = false)
    (hu : ∀ s, s ∈ subgraphs → engineOf σ s = e →
      (σ s).engine_conf = engine_conf ∧ (σ s).max_parallel_num = m ∧ labelOf σ s = "") :
    (distinctStreams subgraphs out.σ e : Int) ≤ m := by
  have hσ := (RunPasses_success hrun hok).1
  have hle1 := afterLabel_next_le subgraphs σ context_
  have hsame2 := afterIndependent_same subgraphs σ context_
  have hstatic : ∀ s, engineOf out.σ s = engineOf σ s := by
    intro s
    rw [hσ]
    unfold afterDependency
    have h3 := Run_static subgraphs (afterIndependent subgraphs σ context_).2.1
      (afterIndependent subgraphs σ context_).2.2 s
    simp only [engineOf, h3.2.2.1, (hsame2 s).2.2.1]
  have hmem : ∀ v, v ∈ engineStreams subgraphs out.σ e →
      ∃ s, s ∈ subgraphs ∧ engineOf σ s = e ∧ (out.σ s).stream_id = v := by
    intro v hv
    unfold engineStreams at hv
    simp only [List.mem_map, List.mem_filter, decide_eq_true_eq] at hv
    obtain ⟨s, ⟨hs, hse⟩, hv⟩ := hv
    exact ⟨s, hs, by rw [← hstatic]; exact hse, hv⟩
  unfold distinctStreams
  by_cases hind : engine_conf.independent = true
  · -- an independent engine: its unlabelled subgraphs share one stream
    cases hl : engineStreams subgraphs out.σ e with
    | nil => simp; omega
    | cons v0 rest =>
      have hv0 : v0 ∈ engineStreams subgraphs out.σ e := by rw [hl]; simp
      obtain ⟨s0, hs0, hs0e, hv0'⟩ := hmem v0 hv0
      have hindep : ∀ s, s ∈ subgraphs → engineOf σ s = e → IsEngineIndependent (σ s) = true := by
        intro s hs hse
        simp only [IsEngineIndependent, (hu s hs hse).1, hind]
      have h0 := afterIndependent_independent subgraphs σ context_ hs0 (hindep s0 hs0 hs0e)
      have hkeep : ∀ s, s ∈ subgraphs → engineOf σ s = e →
          (out.σ s).stream_id = ((afterIndependent subgraphs σ context_).2.1 s0).stream_id := by
        intro s hs hse
        have hs2 := afterIndependent_independent subgraphs σ context_ hs (hindep s hs hse)
        rw [hσ, afterDependency_keep subgraphs σ context_ (by omega)]
        exact (h0.2.2 s hs (hindep s hs hse)).mpr
          ⟨hse.trans hs0e.symm, by rw [(hu s hs hse).2.2, (hu s0 hs0 hs0e).2.2]⟩
      rw [← hl]
      have := dedup_length_le_one_of_const (engineStreams subgraphs out.σ e)
        ((afterIndependent subgraphs σ context_).2.1 s0).stream_id (fun v hv => by
          obtain ⟨s, hs, hse, hv'⟩ := hmem v hv
          rw [← hv']; exact hkeep s hs hse)
      omega
  · -- the other engines: the streams come from the pool of the engine
    simp only [Bool.not_eq_true] at hind
    have hnind : ∀ s, s ∈ subgraphs → engineOf σ s = e → IsEngineIndependent (σ s) = false := by
      intro s hs hse
      simp only [IsEngineIndependent, (hu s hs hse).1, hind]
    have hE2 : ∀ s, engineOf (afterIndependent subgraphs σ context_).2.1 s = engineOf σ s := by
      intro s; simp only [engineOf, (hsame2 s).2.2.1]
    apply dedup_length_le_of_interval _
      ((afterIndependent subgraphs σ context_).2.2.next_stream +
        sumBelow (AssignByDependencyPass.loop subgraphs
          (afterIndependent subgraphs σ context_).2.1).pass.engine_stream_num_ e) m (by omega)
    intro v hv
    obtain ⟨s, hs, hse, hv'⟩ := hmem v hv
    rw [← hv', hσ]
    unfold afterDependency
    apply Run_engine_interval _ e m hm
    · intro i hi
      rw [(hsame2 i).2.2.2.2]; exact (hfresh i hi).2
    · intro i hi hie
      rw [hE2] at hie
      refine ⟨by rw [(hsame2 i).2.2.2.1]; exact (hu i hi hie).2.1, ?_⟩
      simp only [IsEngineAttach, (hsame2 i).2.2.1, (hu i hi hie).1, hattach]
    · intro i hi hie
      rw [hE2] at hie
      rw [afterIndependent_other subgraphs σ context_ (hnind i hi hie),
        afterLabel_other subgraphs σ context_ (hu i hi hie).2.2]
      exact (hfresh i hi).1
    · exact hs
    · rw [hE2]; exact hse

/-- Claim C5, amended, at a concrete input: three unlabelled subgraphs on the engine
`aicore` with `max_parallel_num = 2`. -/
theorem engine_streams_bounded_witness :
    ∃ out, RunPasses 0 Example.isolatedNodes Example.emptyGraph [0, 1, 2]
        Example.threeOnAicore Example.freshOps Example.freshContext 0 = some out ∧
      out.status = Status.SUCCESS ∧ (distinctStreams [0, 1, 2] out.σ "aicore" : Int) ≤ 2 := by
  have hs : (RunPasses 0 Example.isolatedNodes Example.emptyGraph [0, 1, 2]
      Example.threeOnAicore Example.freshOps Example.freshContext 0).map (fun o => o.status) =
      some Status.SUCCESS := by decide
  cases h : RunPasses 0 Example.isolatedNodes Example.emptyGraph [0, 1, 2]
      Example.threeOnAicore Example.freshOps Example.freshContext 0 with
  | none => rw [h] at hs; simp at hs
  | some out =>
    rw [h] at hs
    simp only [Option.map_some', Option.some.injEq] at hs
    exact ⟨out, rfl, hs, engine_streams_bounded 0 Example.isolatedNodes Example.emptyGraph
      [0, 1, 2] Example.threeOnAicore Example.freshOps Example.freshContext 0 out h hs
      (by decide) (by decide) "aicore" Example.aicore 2 (by decide) (by decide) (by decide)⟩

/-- Claim C6: after `AssignByDependencyPass::Run` on subgraphs that start without
`reused_subgraph` links (and whose boundary edges cross from one subgraph into another),
the links are acyclic, every link target is a root (it has no link itself), and every
linked subgraph has the final stream id of its root. -/
theorem reuse_links_acyclic_and_rooted (subgraphs : List Nat) (σ : SubgraphHeap)
    (context : Context)
    (hfresh : ∀ i, i ∈ subgraphs → (σ i).reused_subgraph = none)
    (hcross : CrossEdges subgraphs σ) :
    (∀ i, i ∈ subgraphs →
      ¬ Relation.TransGen (linkedTo (AssignByDependencyPass.Run subgraphs σ context).2.1) i i) ∧
    (∀ i r, i ∈ subgraphs → linkedTo (AssignByDependencyPass.Run subgraphs σ context).2.1 i r →
      ((AssignByDependencyPass.Run subgraphs σ context).2.1 r).reused_subgraph = none ∧
      ((AssignByDependencyPass.Run subgraphs σ context).2.1 i).stream_id =
        ((AssignByDependencyPass.Run subgraphs σ context).2.1 r).stream_id) := by
  constructor
  · intro i hi hcyc
    obtain ⟨b, hib, hbi⟩ := Relation.TransGen.head'_iff.mp hcyc
    have hroot := (Run_target_root context hfresh hcross hi hib).2
    rcases Relation.ReflTransGen.cases_head hbi with e | ⟨c, hbc, _⟩
    · subst e
      unfold linkedTo at hib
      rw [hroot] at hib
      simp at hib
    · unfold linkedTo at hbc
      rw [hroot] at hbc
      simp at hbc
  · intro i r hi hir
    exact ⟨(Run_target_root context hfresh hcross hi hir).2,
      Run_reused context hfresh (Run_link_recorded context hfresh hi hir)⟩

/-- Claim C6 at a concrete input: `B` consumes a boundary value of `A`; after the pass `B`
is linked to `A`, which has no link, and both have the same stream id. -/
theorem reuse_links_acyclic_and_rooted_witness :
    linkedTo (AssignByDependencyPass.Run [0, 1] Example.chainAB Example.freshContext).2.1 1 0 ∧
    ((AssignByDependencyPass.Run [0, 1] Example.chainAB Example.freshContext).2.1 0).reused_subgraph
      = none ∧
    ((AssignByDependencyPass.Run [0, 1] Example.chainAB Example.freshContext).2.1 1).stream_id =
      ((AssignByDependencyPass.Run [0, 1] Example.chainAB Example.freshContext).2.1 0).stream_id :=
  have hlink : linkedTo
      (AssignByDependencyPass.Run [0, 1] Example.chainAB Example.freshContext).2.1 1 0 := by
    unfold linkedTo; decide
  ⟨hlink, (reuse_links_acyclic_and_rooted [0, 1] Example.chainAB Example.freshContext
    (by decide) (by unfold CrossEdges; decide)).2 1 0 (by decide) hlink⟩

/-- Claim C7, as it stands, fails: the unlabelled skip-assignment subgraph has the stream
5; its node 1 has the in-node 0, which keeps the sentinel, so the cleanup step
`UpdateForSkippedEngine` finds all predecessor streams of node 1 invalid and resets node 1
to the sentinel: a node with in-nodes that does not carry the stream of its subgraph. -/
theorem skipped_node_with_in_nodes_loses_stream :
    ∃ ops', NodeStreamUpdatePass.Run Example.pairNodes Example.twoNodeGraph [0]
        Example.skippedPair Example.freshOps = some (Status.SUCCESS, ops') ∧
      DisjointSubgraphs Example.pairNodes [0] Example.skippedPair ∧
      HasAssignedStream (Example.skippedPair 0) = true ∧
      1 ∈ nodesOf Example.skippedPair 0 ∧
      (Example.pairNodes 1).op_desc = some 1 ∧
      (Example.pairNodes 1).in_nodes ≠ [] ∧
      (ops' 1).stream_id ≠ (Example.skippedPair 0).stream_id := by
  have hs : (NodeStreamUpdatePass.Run Example.pairNodes Example.twoNodeGraph [0]
      Example.skippedPair Example.freshOps).map (fun r => (r.1, (r.2 1).stream_id)) =
      some (Status.SUCCESS, -1) := by decide
  cases h : NodeStreamUpdatePass.Run Example.pairNodes Example.twoNodeGraph [0]
      Example.skippedPair Example.freshOps with
  | none => rw [h] at hs; simp at hs
  | some r =>
    rw [h] at hs
    simp only [Option.map_some', Option.some.injEq, Prod.mk.injEq] at hs
    obtain ⟨st, ops'⟩ := r
    simp only at hs
    refine ⟨ops', by rw [hs.1], ?_, by decide, by decide, by decide, by decide, ?_⟩
    · intro s hs' s' hs'' hne
      simp only [List.mem_singleton] at hs' hs''
      exact absurd (hs'.trans hs''.symm) hne
    · rw [hs.2]; decide

/-- Claim C7, amended: after `NodeStreamUpdatePass::Run` returns `SUCCESS` (each node
belonging to exactly one subgraph), every node of a subgraph that is not on a
skip-assignment engine, and every node with in-nodes of a skip-assignment subgraph that
has a stream label, carries exactly the stream id of its subgraph.  (The nodes of
unlabelled skip-assignment subgraphs are left to the cleanup step.) -/
theorem nodes_carry_subgraph_stream (nodes : NodeHeap) (whole_graph : ComputeGraph)
    (subgraphs : List Nat) (σ : SubgraphHeap) (ops ops' : OpHeap)
    (hrun : NodeStreamUpdatePass.Run nodes whole_graph subgraphs σ ops =
      some (Status.SUCCESS, ops'))
    (hdisjoint : DisjointSubgraphs nodes subgraphs σ)
    (s : Nat) (hs : s ∈ subgraphs) (n : Nat) (hn : n ∈ nodesOf σ s) (d : Nat)
    (hd : (nodes n).op_desc = some d)
    (hkind : IsEngineSkip (σ s) = false ∨
      (HasStreamLabel (σ s) = true ∧ (nodes n).in_nodes ≠ [])) :
    (ops' d).stream_id = (σ s).stream_id := by
  obtain ⟨_, ops1, ops2, U, _, h2, h3, h4⟩ := NodeStreamUpdatePass_success hrun
  obtain ⟨_, _, _, _, _, b6⟩ := setSubgraphStreams_spec nodes σ subgraphs ops1 ops2 h2
  -- the cleanup step does not touch the op descriptor
  have hU : d ∉ U := by
    intro hmem
    rcases nodesToBeUpdated_mem nodes ops2 σ subgraphs [] _ h3 d hmem with h | h
    · simp at h
    · obtain ⟨s', hs', hskip, hlab, n', hn', hd'⟩ := h
      by_cases e : s = s'
      · subst e
        rcases hkind with hk | hk
        · rw [hk] at hskip; simp at hskip
        · rw [hk.1] at hlab; simp at hlab
      · exact hdisjoint s hs s' hs' e n hn n' hn' (by rw [hd, hd'])
  have hfinal : ops' d = ops2 d := by
    have := (reassignSkipped_frame nodes U whole_graph.direct_node ops2).1 d hU
    rw [h4] at this
    exact this
  rw [hfinal]
  apply b6 s hs (fun s' hs' hne => hdisjoint s hs s' hs' hne) n hn d hd
  rintro ⟨hskip, hin⟩
  rcases hkind with hk | hk
  · rw [hk] at hskip; simp at hskip
  · exact hk.2 hin

/-- Claim C7, amended, at a concrete input: the nodes 0 and 1 in a subgraph on the engine
`aicore` with the stream 5. -/
theorem nodes_carry_subgraph_stream_witness :
    ∃ ops', NodeStreamUpdatePass.Run Example.pairNodes Example.twoNodeGraph [0]
        Example.assignedPair Example.freshOps = some (Status.SUCCESS, ops') ∧
      (ops' 1).stream_id = (Example.assignedPair 0).stream_id := by
  have hs : (NodeStreamUpdatePass.Run Example.pairNodes Example.twoNodeGraph [0]
      Example.assignedPair Example.freshOps).map (fun r => r.1) = some Status.SUCCESS := by
    decide
  cases h : NodeStreamUpdatePass.Run Example.pairNodes Example.twoNodeGraph [0]
      Example.assignedPair Example.freshOps with
  | none => rw [h] at hs; simp at hs
  | some r =>
    rw [h] at hs
    simp only [Option.map_some', Option.some.injEq] at hs
    obtain ⟨st, ops'⟩ := r
    simp only at hs
    subst hs
    exact ⟨ops', rfl, nodes_carry_subgraph_stream Example.pairNodes Example.twoNodeGraph [0]
      Example.assignedPair Example.freshOps ops' h
      (by
        intro s hs' s' hs'' hne
        simp only [List.mem_singleton] at hs' hs''
        exact absurd (hs'.trans hs''.symm) hne)
      0 (by decide) 1 (by decide) 1 (by decide) (Or.inl (by decide))⟩

/-- Claim C8: after `RunPasses` succeeds, started from a context whose counter is not
negative (a fresh context has `next_stream = 0`), on fresh subgraphs (no stream, no reuse
link) and a whole graph closed under its neighbour accessors, the stream id of every
subgraph of the vector and of every node of the whole graph is the sentinel −1 or a value
in `[0, stream_num)`, where `stream_num` is the returned total stream count. -/
theorem stream_ids_in_range (fuel : Nat) (nodes : NodeHeap) (whole_graph : ComputeGraph)
    (subgraphs : List Nat) (σ : SubgraphHeap) (ops : OpHeap) (context_ : Context)
    (stream_num : Int) (out : Outcome)
    (hrun : RunPasses fuel nodes whole_graph subgraphs σ ops context_ stream_num = some out)
    (hok : out.status = Status.SUCCESS)
    (hctx : 0 ≤ context_.next_stream)
    (hfresh : ∀ s, s ∈ subgraphs →
      (σ s).stream_id = kInvalidStream ∧ (σ s).reused_subgraph = none)
    (hclosed : ClosedGraph nodes whole_graph) :
    (∀ s, s ∈ subgraphs → InRange out.stream_num (out.σ s).stream_id) ∧
    (∀ n, n ∈ whole_graph.direct_node → ∀ d, (nodes n).op_desc = some d →
      InRange out.stream_num (out.ops d).stream_id) := by
  obtain ⟨hσ, r4, r5, h4, hc4, h5, _, hops, _, hnum⟩ := RunPasses_success hrun hok
  have hsub : ∀ s, s ∈ subgraphs →
      0 ≤ ((afterDependency subgraphs σ context_).2.1 s).stream_id ∧
      ((afterDependency subgraphs σ context_).2.1 s).stream_id <
        (afterDependency subgraphs σ context_).2.2.next_stream :=
    fun s hs => afterDependency_range subgraphs σ context_ hctx hfresh hs
  obtain ⟨hle5, _, hops5⟩ := AllReduceParallelPass_spec h5
  -- the counter after the dependency pass is not negative
  have hc3 : 0 ≤ (afterDependency subgraphs σ context_).2.2.next_stream := by
    have h1 := afterLabel_next_le subgraphs σ context_
    have h2 := afterIndependent_next_le subgraphs σ context_
    have h3 : (afterDependency subgraphs σ context_).2.2.next_stream =
        (afterIndependent subgraphs σ context_).2.2.next_stream +
          sumAll (AssignByDependencyPass.loop subgraphs
            (afterIndependent subgraphs σ context_).2.1).pass.engine_stream_num_ := by
      unfold afterDependency
      rw [Run_next]
    have h4' := sumAll_nonneg
      (DepInv.inv_loop (afterIndependent subgraphs σ context_).2.1 subgraphs).core.numPos
    omega
  rw [hnum, hσ, hops]
  constructor
  · intro s hs
    right
    have := hsub s hs
    omega
  · intro n hn d hd
    have hst4 : r4.1 = Status.SUCCESS := by
      rcases passContinues_cases hc4 with h | h
      · exact h
      · exact absurd h (NodeStreamUpdatePass_status h4)
    have h4' : NodeStreamUpdatePass.Run nodes whole_graph subgraphs
        (afterDependency subgraphs σ context_).2.1 ops = some (Status.SUCCESS, r4.2) := by
      rw [h4, ← hst4]
    obtain ⟨_, ops1, ops2, U, hinit, hset, _, hre⟩ := NodeStreamUpdatePass_success h4'
    have hW : opsOf nodes whole_graph d := ⟨n, hn, hd⟩
    -- after the node pass the op descriptors of the whole graph are in range
    have hrange4 : ∀ d', opsOf nodes whole_graph d' →
        InRange (afterDependency subgraphs σ context_).2.2.next_stream (r4.2 d').stream_id := by
      have hinit' := initNodeStreams_spec nodes whole_graph.direct_node ops
      rw [hinit] at hinit'
      obtain ⟨b1, _⟩ := setSubgraphStreams_spec nodes
        (afterDependency subgraphs σ context_).2.1 subgraphs ops1 ops2 hset
      have h2 : ∀ d', opsOf nodes whole_graph d' →
          InRange (afterDependency subgraphs σ context_).2.2.next_stream (ops2 d').stream_id := by
        intro d' ⟨n', hn', hd'⟩
        rcases b1 d' with h | ⟨s, hs, h⟩
        · left
          rw [h]
          obtain ⟨d'', hd'', hv⟩ := hinit'.2 rfl n' hn'
          rw [hd'] at hd''
          rw [Option.some.inj hd'']
          exact hv
        · right
          rw [h]
          exact hsub s hs
      have := reassignSkipped_good nodes U
        (InRange (afterDependency subgraphs σ context_).2.2.next_stream) (Or.inl rfl)
        (opsOf nodes whole_graph) whole_graph.direct_node ops2
        (fun n' hn' m hm d' hd' => ⟨m, hclosed n' hn' m hm, hd'⟩) h2
      rw [hre] at this
      exact this
    rcases hops5 d with h | h
    · rw [h]
      rcases hrange4 d hW with h' | h'
      · exact Or.inl h'
      · right; omega
    · right; omega

/-- Claim C8 at a concrete input: the nodes 0 and 1 in one fresh subgraph; the pipeline
returns one stream and both nodes carry the stream 0. -/
theorem stream_ids_in_range_witness :
    ∃ out, RunPasses 0 Example.pairNodes Example.twoNodeGraph [0] Example.freshPair
        Example.freshOps Example.freshContext 0 = some out ∧
      out.status = Status.SUCCESS ∧ InRange out.stream_num (out.σ 0).stream_id ∧
      InRange out.stream_num (out.ops 1).stream_id := by
  have hs : (RunPasses 0 Example.pairNodes Example.twoNodeGraph [0] Example.freshPair
      Example.freshOps Example.freshContext 0).map (fun o => o.status) =
      some Status.SUCCESS := by decide
  cases h : RunPasses 0 Example.pairNodes Example.twoNodeGraph [0] Example.freshPair
      Example.freshOps Example.freshContext 0 with
  | none => rw [h] at hs; simp at hs
  | some out =>
    rw [h] at hs
    simp only [Option.map_some', Option.some.injEq] at hs
    have hthm := stream_ids_in_range 0 Example.pairNodes Example.twoNodeGraph [0]
      Example.freshPair Example.freshOps Example.freshContext 0 out h hs (by decide)
      (by decide) (by unfold ClosedGraph; decide)
    exact ⟨out, rfl, hs, hthm.1 0 (by decide), hthm.2 1 (by decide) 1 (by decide)⟩

/-- Claim C9: after `AssignByDependencyPass::Run` (on subgraphs that start without
`reused_subgraph` links), two subgraphs that were given a fresh stream by
`AssignNewStream` and have different engine ids have different final stream ids, and the
final stream id of every such subgraph is at least the value of `context.next_stream` at
entry of the pass. -/
theorem fresh_streams_disjoint_across_engines (subgraphs : List Nat) (σ : SubgraphHeap)
    (context : Context)
    (hfresh : ∀ i, i ∈ subgraphs → (σ i).reused_subgraph = none) :
    (∀ i j, i ∈ (AssignByDependencyPass.loop subgraphs σ).pass.assigned_subgraphs_ →
      j ∈ (AssignByDependencyPass.loop subgraphs σ).pass.assigned_subgraphs_ →
      engineOf σ i ≠ engineOf σ j →
      ((AssignByDependencyPass.Run subgraphs σ context).2.1 i).stream_id ≠
        ((AssignByDependencyPass.Run subgraphs σ context).2.1 j).stream_id) ∧
    (∀ i, i ∈ (AssignByDependencyPass.loop subgraphs σ).pass.assigned_subgraphs_ →
      context.next_stream ≤ ((AssignByDependencyPass.Run subgraphs σ context).2.1 i).stream_id) := by
  have hc := (DepInv.inv_loop σ subgraphs).core
  constructor
  · intro i j hi hj hne
    rw [Run_assigned context hfresh hi, Run_assigned context hfresh hj]
    have hsi := hc.slot i hi
    have hsj := hc.slot j hj
    by_cases hlt : keyLt (engineOf σ i) (engineOf σ j)
    · have := sumBelow_disjoint hc.numSorted hc.numPos (hc.key_mem hi) (hc.key_mem hj) hlt
      omega
    · have hgt := keyLt_total hne hlt
      have := sumBelow_disjoint hc.numSorted hc.numPos (hc.key_mem hj) (hc.key_mem hi) hgt
      omega
  · intro i hi
    rw [Run_assigned context hfresh hi]
    have hsi := hc.slot i hi
    have := sumBelow_nonneg hc.numPos (engineOf σ i)
    omega

/-- Claim C9 at a concrete input: two subgraphs on the engines `aicore` and `host`, each
given a fresh stream. -/
theorem fresh_streams_disjoint_across_engines_witness :
    ((AssignByDependencyPass.Run [0, 1] Example.twoEngines Example.freshContext).2.1 0).stream_id ≠
      ((AssignByDependencyPass.Run [0, 1] Example.twoEngines Example.freshContext).2.1 1).stream_id :=
  (fresh_streams_disjoint_across_engines [0, 1] Example.twoEngines Example.freshContext
    (by decide)).1 0 1 (by decide) (by decide) (by decide)

/-- Claim C10: `LogicalStreamAllocator::Assign` returns an error status whenever some
partition names an engine for which no scheduler has a non-null configuration; no pass is
run: the op descriptors (the node stream ids), the context and `stream_num` are as before
the call. -/
theorem unconfigured_engine_fails (self : LogicalStreamAllocator) (fuel : Nat) (nodes : NodeHeap)
    (whole_graph : Option ComputeGraph) (subgraph_infos : List (Option SubGraphInfo))
    (ops : OpHeap) (stream_num : Int) (info : SubGraphInfo)
    (hmem : some info ∈ subgraph_infos)
    (hbad : EngineUnconfigured self.scheduler_confs_ info.engine_name) :
    ∃ out, Assign self fuel nodes whole_graph subgraph_infos ops stream_num = some out ∧
      (out.status = Status.INTERNAL_ERROR ∨ out.status = Status.PARAM_INVALID) ∧
      out.ops = ops ∧ out.context_ = self.context_ ∧ out.stream_num = stream_num := by
  unfold Assign
  cases whole_graph with
  | none => exact ⟨_, rfl, Or.inr rfl, rfl, rfl, rfl⟩
  | some graph =>
    simp only
    have hfail := ConvertSubgraphs_fails self.max_parallel_num_
      (collectEngineConfs self.scheduler_confs_) subgraph_infos [] info hmem
      (collectEngineConfs_none _ _ hbad)
    have hne : (ConvertSubgraphs self.max_parallel_num_ (collectEngineConfs self.scheduler_confs_)
        subgraph_infos []).1 ≠ Status.SUCCESS := by
      rcases hfail with h | h <;> rw [h] <;> decide
    rw [if_pos hne]
    exact ⟨_, rfl, hfail, rfl, rfl, rfl⟩

/-- Claim C10 at a concrete input: the second partition is on the engine `npu`, which the
only scheduler maps to a null configuration. -/
theorem unconfigured_engine_fails_witness :
    ∃ out, Assign Example.allocator 0 Example.isolatedNodes (some Example.twoNodeGraph)
        Example.partitions Example.freshOps 7 = some out ∧
      (out.status = Status.INTERNAL_ERROR ∨ out.status = Status.PARAM_INVALID) ∧
      out.ops = Example.freshOps ∧ out.context_ = Example.allocator.context_ ∧
      out.stream_num = 7 :=
  unconfigured_engine_fails Example.allocator 0 Example.isolatedNodes
    (some Example.twoNodeGraph) Example.partitions Example.freshOps 7
    { engine_name := "npu", stream_label := "", end2pld := [], pld2end := [],
      sub_graph := some { name := "p1", direct_node := [1] } }
    (by decide) (by unfold EngineUnconfigured; decide)

/-- Claim C11: `AssignByDependencyPass::Run`, entered with a counter that is not negative
(and with subgraphs that have no `reused_subgraph` yet: the link is written by this pass
only), leaves every subgraph of the vector with a stream id other than the sentinel `-1`.
Hence `NodeStreamUpdatePass::Run` on these subgraphs never returns `INTERNAL_ERROR`, and
neither does `RunPasses` entered in such a state. -/
theorem dependency_pass_assigns_every_subgraph (subgraphs : List Nat) (σ : SubgraphHeap)
    (context : Context) (hctx : 0 ≤ context.next_stream)
    (hlink : ∀ i, i ∈ subgraphs → (σ i).reused_subgraph = none) :
    (∀ i, i ∈ subgraphs →
      ((AssignByDependencyPass.Run subgraphs σ context).2.1 i).stream_id ≠ kInvalidStream) ∧
    (∀ nodes whole_graph ops r,
      NodeStreamUpdatePass.Run nodes whole_graph subgraphs
          (AssignByDependencyPass.Run subgraphs σ context).2.1 ops = some r →
        r.1 ≠ Status.INTERNAL_ERROR) ∧
    (∀ fuel nodes whole_graph ops stream_num out,
      RunPasses fuel nodes whole_graph subgraphs σ ops context stream_num = some out →
        out.status ≠ Status.INTERNAL_ERROR) := by
  refine ⟨fun i hi => Run_has_stream context hlink hctx hi, ?_, ?_⟩
  · intro nodes g ops r hr
    rcases NodeStreamUpdatePass_codes hr with ⟨⟨s, hs, _, hinv⟩, _⟩ | ⟨_, h | h⟩
    · exact absurd hinv (Run_has_stream context hlink hctx hs)
    · rw [h]; decide
    · rw [h]; decide
  · intro fuel nodes g ops n out hout
    obtain ⟨_, r4, h4, hrest⟩ := RunPasses_some hout
    have h4ne : r4.1 ≠ Status.INTERNAL_ERROR := by
      rcases NodeStreamUpdatePass_codes h4 with ⟨⟨s, hs, _, hinv⟩, _⟩ | ⟨_, h | h⟩
      · exact absurd hinv (afterDependency_has_stream subgraphs σ context hctx hlink hs)
      · rw [h]; decide
      · rw [h]; decide
    rcases hrest with ⟨_, hst, _⟩ | ⟨_, r5, h5, _, _, hst | hst⟩
    · rw [hst]; exact h4ne
    · rw [hst.2.1]
      rcases AllReduceParallelPass_codes h5 with h | h | h <;> rw [h] <;> decide
    · rw [hst.2.1]; decide

/-- Claim C11 at a concrete input: `B` consumes a boundary value of `A`; both end the
dependency pass with a stream. -/
theorem dependency_pass_assigns_every_subgraph_witness :
    ((AssignByDependencyPass.Run [0, 1] Example.chainAB Example.freshContext).2.1 1).stream_id ≠
      kInvalidStream :=
  (dependency_pass_assigns_every_subgraph [0, 1] Example.chainAB Example.freshContext
    (by decide) (by decide)).1 1 (by decide)

/-- Claim C13: in a run of `AllReduceParallelPass::Run` with the feature on, whose first
loop completes with the set `succs` (each node of it with an op descriptor of its own),
the remapping of the stream ids is consistent and injective: two nodes of the set that
had valid stream ids before the pass have equal ids after it exactly when they had equal
ids before; every new id is at least the counter at entry; and the counter has advanced
by the number of distinct valid stream ids that the nodes of the set had. -/
theorem remap_consistent_and_injective (fuel : Nat) (nodes : NodeHeap)
    (whole_graph : ComputeGraph) (ops : OpHeap) (context : Context) (succs : List Nat)
    (hpar : context.hcom_parallel = true)
    (hsuccs : collectAllReduceSuccs fuel nodes ops whole_graph.direct_node [] =
      some (Status.SUCCESS, succs))
    (hown : ∀ a b, a ∈ succs → b ∈ succs → (nodes a).op_desc = (nodes b).op_desc → a = b) :
    ∃ r, AllReduceParallelPass.Run fuel nodes whole_graph ops context = some r ∧
      (∀ a b da db, a ∈ succs → b ∈ succs →
        (nodes a).op_desc = some da → (nodes b).op_desc = some db →
        (ops da).stream_id ≠ kInvalidStream → (ops db).stream_id ≠ kInvalidStream →
        ((r.2.1 da).stream_id = (r.2.1 db).stream_id ↔
          (ops da).stream_id = (ops db).stream_id)) ∧
      (∀ a da, a ∈ succs → (nodes a).op_desc = some da →
        (ops da).stream_id ≠ kInvalidStream → context.next_stream ≤ (r.2.1 da).stream_id) ∧
      r.2.2.next_stream =
        context.next_stream + ((validStreams nodes ops succs).dedup.length : Nat) := by
  obtain ⟨st, hinv, hrun⟩ := AllReduceParallelPass_remap hpar hsuccs hown
  refine ⟨_, hrun, ?_, ?_, ?_⟩
  · intro a b da db ha hb hda hdb hva hvb
    have h1 := hinv.mapped a ha da hda hva
    have h2 := hinv.mapped b hb db hdb hvb
    simp only
    constructor
    · intro h
      rw [h] at h1
      exact hinv.inj _ _ _ h1 h2
    · intro h
      rw [h, h2] at h1
      simp only [Option.some.injEq] at h1
      exact h1.symm
  · intro a da ha hda hva
    exact (hinv.range _ _ (hinv.mapped a ha da hda hva)).1
  · simp only
    rw [hinv.count, firstOccurrences_length]

/-- Claim C13 at a concrete input: the collective-reduce node 0 has the two consumers 1
and 2, which carry the streams 0 and 1; with the counter 2 at entry they end with the
streams 2 and 3, and the counter ends at 4. -/
theorem remap_consistent_and_injective_witness :
    ∃ r, AllReduceParallelPass.Run 2 (Example.reduceNodes [3, 4]) Example.fiveNodeGraph
        Example.reduceOps (Example.parallelContext 2) = some r ∧
      ((r.2.1 1).stream_id = (r.2.1 2).stream_id ↔
        (Example.reduceOps 1).stream_id = (Example.reduceOps 2).stream_id) ∧
      r.2.2.next_stream = 4 := by
  obtain ⟨r, hr, h1, _, h3⟩ := remap_consistent_and_injective 2 (Example.reduceNodes [3, 4])
    Example.fiveNodeGraph Example.reduceOps (Example.parallelContext 2) [1, 2] rfl
    (by decide)
    (by
      intro a b ha hb
      simp only [List.mem_cons, List.mem_singleton, List.not_mem_nil, or_false] at ha hb
      rcases ha with ha | ha <;> rcases hb with hb | hb <;> subst ha <;> subst hb <;> decide)
  refine ⟨r, hr, h1 1 2 1 2 (by decide) (by decide) rfl rfl (by decide) (by decide), ?_⟩
  rw [h3]
  decide

/-- Claim C14, as it stands, fails: node 0, the only collective-reduce node of the graph,
has two data inputs and no data successor at all, but its op descriptor is null; with the
feature on, the pass returns the status of the null check, `PARAM_INVALID`, not
`NOT_CHANGED`. -/
theorem allreduce_null_descriptor_not_reported_unchanged :
    Example.threeNodeGraph.direct_node = [0, 1, 2] ∧
    (Example.nullReduce 0).type = HCOMALLREDUCE ∧
    (Example.nullReduce 0).in_data_nodes = [1, 2] ∧
    (Example.nullReduce 0).out_data_nodes = [] ∧
    (Example.nullReduce 0).op_desc = none ∧
    (Example.nullReduce 1).type ≠ HCOMALLREDUCE ∧
    (Example.nullReduce 2).type ≠ HCOMALLREDUCE ∧
    (Example.parallelContext 0).hcom_parallel = true ∧
    (AllReduceParallelPass.Run 1 Example.nullReduce Example.threeNodeGraph Example.freshOps
      (Example.parallelContext 0)).map (fun r => r.1) = some Status.PARAM_INVALID ∧
    Status.PARAM_INVALID ≠ Status.NOT_CHANGED := by
  decide

/-- Claim C14, amended: when `context.hcom_parallel` is false, or no collective-reduce
node of the whole graph with more than one data input has a data successor with its
stream label, `AllReduceParallelPass::Run` leaves every op descriptor (every node's stream
id) and the context (`next_stream`) as they were; it returns `NOT_CHANGED` when the
feature is off or all op descriptors are non-null, and `NOT_CHANGED` or the status
`PARAM_INVALID` of a null check otherwise.  (`fuel` bounds the rounds of the walk.) -/
theorem allreduce_pass_noop (fuel : Nat) (nodes : NodeHeap) (whole_graph : ComputeGraph)
    (ops : OpHeap) (context : Context) (hfuel : 0 < fuel)
    (hno : context.hcom_parallel = false ∨
      ∀ a, a ∈ whole_graph.direct_node → IsParallelReduce nodes a →
        ∀ d, (nodes a).op_desc = some d →
          ∀ m, ¬ LabelledSucc nodes ops (GetStreamLabel ops d) a m) :
    ∃ s, AllReduceParallelPass.Run fuel nodes whole_graph ops context = some (s, ops, context) ∧
      (s = Status.NOT_CHANGED ∨ s = Status.PARAM_INVALID) ∧
      ((context.hcom_parallel = false ∨ ∀ n, (nodes n).op_desc ≠ none) →
        s = Status.NOT_CHANGED) := by
  obtain ⟨next_stream, par⟩ := context
  unfold AllReduceParallelPass.Run
  cases par with
  | false =>
    simp only [Bool.not_false, if_true]
    exact ⟨Status.NOT_CHANGED, rfl, Or.inl rfl, fun _ => rfl⟩
  | true =>
    simp only [Bool.not_true, Bool.false_eq_true, if_false]
    rcases hno with hno | hno
    · simp at hno
    · obtain ⟨s, hcol, hcode, hsucc⟩ :=
        collectAllReduceSuccs_none fuel nodes ops whole_graph.direct_node [] hfuel hno
      rw [hcol]
      simp only
      by_cases hs : s = Status.SUCCESS
      · subst hs
        simp only [ne_eq, not_true_eq_false, if_false, remapStreams]
        exact ⟨Status.NOT_CHANGED, rfl, Or.inl rfl, fun _ => rfl⟩
      · rw [if_pos hs]
        refine ⟨s, rfl, ?_, ?_⟩
        · rcases hcode with h | h
          · exact absurd h hs
          · exact Or.inr h
        · rintro (h | h)
          · simp at h
          · exact absurd (hsucc h) hs

/-- Claim C14, amended, at a concrete input: the feature is on, no node of the graph is a
collective-reduce node; the pass returns `NOT_CHANGED`. -/
theorem allreduce_pass_noop_witness :
    ∃ s, AllReduceParallelPass.Run 1 Example.pairNodes Example.twoNodeGraph Example.freshOps
        (Example.parallelContext 0) = some (s, Example.freshOps, Example.parallelContext 0) ∧
      (s = Status.NOT_CHANGED ∨ s = Status.PARAM_INVALID) ∧
      ((Example.parallelContext 0).hcom_parallel = false ∨
          (∀ n, (Example.pairNodes n).op_desc ≠ none) → s = Status.NOT_CHANGED) :=
  allreduce_pass_noop 1 Example.pairNodes Example.twoNodeGraph Example.freshOps
    (Example.parallelContext 0) (by decide)
    (Or.inr (by
      intro a ha hq
      exfalso
      have h01 : a = 0 ∨ a = 1 := by simpa [Example.twoNodeGraph] using ha
      rcases h01 with h | h <;> subst h <;> exact absurd hq.1 (by decide)))

/-- Claim C15: `RunPasses` runs the passes `AssignByLabelPass`, `IndependentStreamPass`,
`AssignByDependencyPass`, `NodeStreamUpdatePass`, `AllReduceParallelPass` in this order,
each on the state the one before left.  When the passes `before` a pass all return
`SUCCESS` or `NOT_CHANGED` and that pass returns another status, `RunPasses` returns this
status with the state that pass left (no pass `after` it has run) and `stream_num` as it
was; when all five return `SUCCESS` or `NOT_CHANGED`, `RunPasses` returns `SUCCESS` and
`stream_num` is the counter `context_.next_stream`. -/
theorem run_passes_order_and_abort (fuel : Nat) (nodes : NodeHeap) (whole_graph : ComputeGraph)
    (subgraphs : List Nat) (σ : SubgraphHeap) (ops : OpHeap) (context_ : Context)
    (stream_num : Int) :
    RunPasses.passes fuel nodes whole_graph subgraphs =
      [AssignByLabelPass.pass subgraphs, IndependentStreamPass.pass subgraphs,
        AssignByDependencyPass.pass subgraphs,
        NodeStreamUpdatePass.pass nodes whole_graph subgraphs,
        AllReduceParallelPass.pass fuel nodes whole_graph] ∧
    (∀ before pass after st1 st2 status,
      RunPasses.passes fuel nodes whole_graph subgraphs = before ++ pass :: after →
      passesContinue before { σ := σ, ops := ops, context := context_ } = some st1 →
      pass st1 = some (status, st2) →
      status ≠ Status.SUCCESS → status ≠ Status.NOT_CHANGED →
      RunPasses fuel nodes whole_graph subgraphs σ ops context_ stream_num =
        some (Outcome.of status st2 stream_num)) ∧
    (∀ st1,
      passesContinue (RunPasses.passes fuel nodes whole_graph subgraphs)
        { σ := σ, ops := ops, context := context_ } = some st1 →
      RunPasses fuel nodes whole_graph subgraphs σ ops context_ stream_num =
        some (Outcome.of Status.SUCCESS st1 st1.context.next_stream)) := by
  refine ⟨rfl, ?_, ?_⟩
  · intro before pass after st1 st2 status hsplit hbefore hpass hs hn
    rw [RunPasses_eq_loop, hsplit]
    exact loop_abort before after pass _ st1 st2 status stream_num hbefore hpass hs hn
  · intro st1 hall
    rw [RunPasses_eq_loop]
    exact loop_success _ _ st1 stream_num hall

/-- Claim C15 at two concrete inputs.  (1) Node 0 has a null op descriptor: the first three
passes continue, `NodeStreamUpdatePass` returns `PARAM_INVALID`, and so does `RunPasses`,
with `stream_num` still 7.  (2) All op descriptors are non-null: all five passes continue
and `RunPasses` returns `SUCCESS`. -/
theorem run_passes_order_and_abort_witness :
    (∃ st1 st2,
      passesContinue [AssignByLabelPass.pass [0], IndependentStreamPass.pass [0],
          AssignByDependencyPass.pass [0]]
        { σ := Example.freshPair, ops := Example.freshOps, context := Example.freshContext } =
          some st1 ∧
      NodeStreamUpdatePass.pass Example.nullNodes Example.twoNodeGraph [0] st1 =
        some (Status.PARAM_INVALID, st2) ∧
      RunPasses 0 Example.nullNodes Example.twoNodeGraph [0] Example.freshPair
        Example.freshOps Example.freshContext 7 = some (Outcome.of Status.PARAM_INVALID st2 7)) ∧
    (∃ st1,
      passesContinue (RunPasses.passes 0 Example.pairNodes Example.twoNodeGraph [0])
        { σ := Example.freshPair, ops := Example.freshOps, context := Example.freshContext } =
          some st1 ∧
      RunPasses 0 Example.pairNodes Example.twoNodeGraph [0] Example.freshPair
        Example.freshOps Example.freshContext 7 =
          some (Outcome.of Status.SUCCESS st1 st1.context.next_stream)) := by
  constructor
  · have hs : ((passesContinue [AssignByLabelPass.pass [0], IndependentStreamPass.pass [0],
          AssignByDependencyPass.pass [0]]
        { σ := Example.freshPair, ops := Example.freshOps,
          context := Example.freshContext }).bind
        (fun st1 => (NodeStreamUpdatePass.pass Example.nullNodes Example.twoNodeGraph [0]
          st1).map Prod.fst)) = some Status.PARAM_INVALID := by decide
    cases h1 : passesContinue [AssignByLabelPass.pass [0], IndependentStreamPass.pass [0],
          AssignByDependencyPass.pass [0]]
        { σ := Example.freshPair, ops := Example.freshOps,
          context := Example.freshContext } with
    | none => rw [h1] at hs; simp at hs
    | some st1 =>
      rw [h1] at hs
      simp only [Option.some_bind] at hs
      cases h2 : NodeStreamUpdatePass.pass Example.nullNodes Example.twoNodeGraph [0] st1 with
      | none => rw [h2] at hs; simp at hs
      | some r =>
        obtain ⟨status, st2⟩ := r
        rw [h2] at hs
        simp only [Option.map_some', Option.some.injEq] at hs
        subst hs
        exact ⟨st1, st2, rfl, h2,
          (run_passes_order_and_abort 0 Example.nullNodes Example.twoNodeGraph [0]
            Example.freshPair Example.freshOps Example.freshContext 7).2.1
            _ _ [AllReduceParallelPass.pass 0 Example.nullNodes Example.twoNodeGraph]
            st1 st2 Status.PARAM_INVALID rfl h1 h2 (by decide) (by decide)⟩
  · have hs : (passesContinue (RunPasses.passes 0 Example.pairNodes Example.twoNodeGraph [0])
        { σ := Example.freshPair, ops := Example.freshOps,
          context := Example.freshContext }).isSome = true := by decide
    cases h1 : passesContinue (RunPasses.passes 0 Example.pairNodes Example.twoNodeGraph [0])
        { σ := Example.freshPair, ops := Example.freshOps,
          context := Example.freshContext } with
    | none => rw [h1] at hs; simp at hs
    | some st1 =>
      exact ⟨st1, rfl,
        (run_passes_order_and_abort 0 Example.pairNodes Example.twoNodeGraph [0]
          Example.freshPair Example.freshOps Example.freshContext 7).2.2 st1 h1⟩

/-- Claim C17: `AssignByLabelPass::Run`, entered with the counter `c0 = context.next_stream`,
gives every subgraph of the vector with a non-empty label the stream id `c0 + i`, where `i`
is the 0-based position of its label among the distinct non-empty labels in the order of
their first occurrence in the vector; two labelled subgraphs get the same id exactly when
their labels are equal; the counter ends at `c0` plus the number of these labels. -/
theorem label_pass_numbers_labels_by_first_occurrence (subgraphs : List Nat)
    (σ : SubgraphHeap) (context : Context) :
    (∀ i, i ∈ subgraphs → labelOf σ i ≠ "" →
      ((AssignByLabelPass.Run subgraphs σ context).2.1 i).stream_id =
        context.next_stream + ((distinctLabels subgraphs σ).indexOf (labelOf σ i) : Nat)) ∧
    (∀ i j, i ∈ subgraphs → j ∈ subgraphs → labelOf σ i ≠ "" → labelOf σ j ≠ "" →
      (((AssignByLabelPass.Run subgraphs σ context).2.1 i).stream_id =
          ((AssignByLabelPass.Run subgraphs σ context).2.1 j).stream_id ↔
        labelOf σ i = labelOf σ j)) ∧
    (AssignByLabelPass.Run subgraphs σ context).2.2.next_stream =
      context.next_stream + ((distinctLabels subgraphs σ).length : Nat) := by
  have hinv := LabelInv.label_run σ context.next_stream subgraphs
  have hord := label_order σ context.next_stream subgraphs
  simp only at hord
  have hid : ∀ i, i ∈ subgraphs → labelOf σ i ≠ "" →
      ((AssignByLabelPass.Run subgraphs σ context).2.1 i).stream_id =
        context.next_stream + ((distinctLabels subgraphs σ).indexOf (labelOf σ i) : Nat) := by
    intro i hi hl
    have h1 := hinv.consistent i hi hl
    have hmem : labelOf σ i ∈ distinctLabels subgraphs σ :=
      (mem_distinctLabels subgraphs σ _).mpr ⟨hl, i, hi, rfl⟩
    rw [hord.1, if_pos hmem] at h1
    simp only [Option.some.injEq] at h1
    simp only [AssignByLabelPass.Run]
    exact h1.symm
  refine ⟨hid, ?_, ?_⟩
  · intro i j hi hj hli hlj
    rw [hid i hi hli, hid j hj hlj]
    have hmi : labelOf σ i ∈ distinctLabels subgraphs σ :=
      (mem_distinctLabels subgraphs σ _).mpr ⟨hli, i, hi, rfl⟩
    have hmj : labelOf σ j ∈ distinctLabels subgraphs σ :=
      (mem_distinctLabels subgraphs σ _).mpr ⟨hlj, j, hj, rfl⟩
    constructor
    · intro h
      have h' : (distinctLabels subgraphs σ).indexOf (labelOf σ i) =
          (distinctLabels subgraphs σ).indexOf (labelOf σ j) := by omega
      exact (List.indexOf_inj hmi hmj).mp h'
    · intro h; rw [h]
  · simp only [AssignByLabelPass.Run]
    exact hord.2

/-- Claim C17 at a concrete input: the labels `L2`, none, `L1`, `L2` in this order; the
distinct labels are `L2`, `L1`, the subgraph with the label `L1` gets the stream 1 and
the counter ends at 2. -/
theorem label_pass_numbers_labels_by_first_occurrence_witness :
    distinctLabels [0, 1, 2, 3] Example.labelsInOrder = ["L2", "L1"] ∧
    ((AssignByLabelPass.Run [0, 1, 2, 3] Example.labelsInOrder Example.freshContext).2.1 2).stream_id
      = Example.freshContext.next_stream +
        ((distinctLabels [0, 1, 2, 3] Example.labelsInOrder).indexOf
          (labelOf Example.labelsInOrder 2) : Nat) ∧
    ((AssignByLabelPass.Run [0, 1, 2, 3] Example.labelsInOrder Example.freshContext).2.1 2).stream_id
      = 1 :=
  ⟨by decide,
    (label_pass_numbers_labels_by_first_occurrence [0, 1, 2, 3] Example.labelsInOrder
      Example.freshContext).1 2 (by decide) (by decide),
    by decide⟩

/-- Claim C18: after `IndependentStreamPass::Run`, two subgraphs of the vector that are on
independent engines have the same stream id exactly when they have the same engine id and
the same stream label (the empty label included); the counter has advanced by the number
of distinct `(engine id, label)` pairs among the independent subgraphs. -/
theorem independent_pass_keys_and_count (subgraphs : List Nat) (σ : SubgraphHeap)
    (context : Context) :
    (∀ i j, i ∈ subgraphs → j ∈ subgraphs →
      IsEngineIndependent (σ i) = true → IsEngineIndependent (σ j) = true →
      (((IndependentStreamPass.Run subgraphs σ context).2.1 i).stream_id =
          ((IndependentStreamPass.Run subgraphs σ context).2.1 j).stream_id ↔
        engineOf σ i = engineOf σ j ∧ labelOf σ i = labelOf σ j)) ∧
    (IndependentStreamPass.Run subgraphs σ context).2.2.next_stream =
      context.next_stream + ((independentKeys subgraphs σ).dedup.length : Nat) := by
  have hinv := IndependentInv.indep_run σ context.next_stream subgraphs
  have hcount := independent_count σ context.next_stream subgraphs
  simp only at hcount
  refine ⟨?_, ?_⟩
  · intro i j hi hj hii hij
    have h1 := hinv.consistent i hi hii
    have h2 := hinv.consistent j hj hij
    simp only [IndependentStreamPass.Run]
    constructor
    · intro h
      rw [h] at h1
      have := hinv.inj _ _ _ h1 h2
      simp only [Prod.mk.injEq] at this
      exact this
    · rintro ⟨he, hl⟩
      rw [he, hl, h2] at h1
      simp only [Option.some.injEq] at h1
      exact h1.symm
  · simp only [IndependentStreamPass.Run]
    rw [hcount.2, firstOccurrences_length]

/-- Claim C18 at a concrete input: two subgraphs on the independent engine `dma` with the
labels `L` and none, and one subgraph on `aicore`; the two get different streams and the
counter advances by 2. -/
theorem independent_pass_keys_and_count_witness :
    (((IndependentStreamPass.Run [0, 1, 2] Example.dmaPair Example.freshContext).2.1 0).stream_id =
        ((IndependentStreamPass.Run [0, 1, 2] Example.dmaPair Example.freshContext).2.1 2).stream_id ↔
      engineOf Example.dmaPair 0 = engineOf Example.dmaPair 2 ∧
        labelOf Example.dmaPair 0 = labelOf Example.dmaPair 2) ∧
    (IndependentStreamPass.Run [0, 1, 2] Example.dmaPair Example.freshContext).2.2.next_stream =
      2 :=
  ⟨(independent_pass_keys_and_count [0, 1, 2] Example.dmaPair Example.freshContext).1 0 2
      (by decide) (by decide) (by decide) (by decide),
    by decide⟩

/-- Claim C19: `NodeStreamUpdatePass::Run` returns `INTERNAL_ERROR` exactly when some
subgraph of the vector is neither on a skip-assignment engine nor has an assigned stream;
the op descriptors (the stream ids of the nodes) are then as they were at entry.  This
holds for all inputs, those with non-null op descriptors in particular: a null op
descriptor makes the pass return the status of the null check, `PARAM_INVALID`. -/
theorem node_update_internal_error_iff (nodes : NodeHeap) (whole_graph : ComputeGraph)
    (subgraphs : List Nat) (σ : SubgraphHeap) (ops : OpHeap) :
    ((∃ ops', NodeStreamUpdatePass.Run nodes whole_graph subgraphs σ ops =
          some (Status.INTERNAL_ERROR, ops')) ↔
      ∃ s, s ∈ subgraphs ∧ IsEngineSkip (σ s) = false ∧ HasAssignedStream (σ s) = false) ∧
    (∀ ops', NodeStreamUpdatePass.Run nodes whole_graph subgraphs σ ops =
        some (Status.INTERNAL_ERROR, ops') → ops' = ops) := by
  have hguard : (∃ s, s ∈ subgraphs ∧ IsEngineSkip (σ s) = false ∧
        HasAssignedStream (σ s) = false) ↔
      ∃ s, s ∈ subgraphs ∧ IsEngineSkip (σ s) = false ∧ (σ s).stream_id = kInvalidStream := by
    simp only [HasAssignedStream, bne_eq_false_iff_eq]
  have hres : ∀ ops', NodeStreamUpdatePass.Run nodes whole_graph subgraphs σ ops =
      some (Status.INTERNAL_ERROR, ops') →
      (∃ s, s ∈ subgraphs ∧ IsEngineSkip (σ s) = false ∧ (σ s).stream_id = kInvalidStream) ∧
        ops' = ops := by
    intro ops' h
    rcases NodeStreamUpdatePass_codes h with ⟨hex, he⟩ | ⟨_, h1 | h1⟩
    · simp only [Prod.mk.injEq, true_and] at he
      exact ⟨hex, he⟩
    · simp at h1
    · simp at h1
  refine ⟨⟨?_, ?_⟩, fun ops' h => (hres ops' h).2⟩
  · rintro ⟨ops', h⟩
    exact hguard.mpr (hres ops' h).1
  · intro hex
    refine ⟨ops, ?_⟩
    unfold NodeStreamUpdatePass.Run
    rw [if_pos ((unassigned_guard subgraphs σ).mpr (hguard.mp hex))]

/-- Claim C19 at a concrete input: a fresh subgraph on the engine `aicore` reaches the pass
without a stream; the pass returns `INTERNAL_ERROR` and the op descriptors are untouched. -/
theorem node_update_internal_error_iff_witness :
    (∃ ops', NodeStreamUpdatePass.Run Example.pairNodes Example.twoNodeGraph [0]
        Example.freshPair Example.freshOps = some (Status.INTERNAL_ERROR, ops')) ∧
    (∀ ops', NodeStreamUpdatePass.Run Example.pairNodes Example.twoNodeGraph [0]
        Example.freshPair Example.freshOps = some (Status.INTERNAL_ERROR, ops') →
      ops' = Example.freshOps) :=
  ⟨(node_update_internal_error_iff Example.pairNodes Example.twoNodeGraph [0]
      Example.freshPair Example.freshOps).1.mpr
      ⟨0, by decide, by decide, by decide⟩,
    (node_update_internal_error_iff Example.pairNodes Example.twoNodeGraph [0]
      Example.freshPair Example.freshOps).2⟩

/-- Claim C20: `AssignByLabelPass::Run` returns `SUCCESS` exactly when some subgraph of the
vector has a non-empty stream label; otherwise it returns `NOT_CHANGED` and leaves the
subgraphs (their stream ids in particular) and the context (its counter in particular) as
they were. -/
theorem label_pass_changed_iff_labelled (subgraphs : List Nat) (σ : SubgraphHeap)
    (context : Context) :
    ((AssignByLabelPass.Run subgraphs σ context).1 = Status.SUCCESS ↔
      ∃ i, i ∈ subgraphs ∧ labelOf σ i ≠ "") ∧
    ((¬ ∃ i, i ∈ subgraphs ∧ labelOf σ i ≠ "") →
      (AssignByLabelPass.Run subgraphs σ context).1 = Status.NOT_CHANGED ∧
      (AssignByLabelPass.Run subgraphs σ context).2.1 = σ ∧
      (AssignByLabelPass.Run subgraphs σ context).2.2 = context) := by
  have hinv := LabelInv.label_run σ context.next_stream subgraphs
  have hord := label_order σ context.next_stream subgraphs
  simp only at hord
  have hch := hinv.changed
  constructor
  · rw [← hch]
    simp only [AssignByLabelPass.Run]
    split <;> simp_all
  · intro hno
    have hfalse : ¬ _ = true := fun h => hno (hch.mp h)
    have hnil : distinctLabels subgraphs σ = [] := by
      apply List.eq_nil_iff_forall_not_mem.mpr
      intro l hl
      obtain ⟨hne, i, hi, hli⟩ := (mem_distinctLabels subgraphs σ l).mp hl
      exact hno ⟨i, hi, by rw [hli]; exact hne⟩
    refine ⟨?_, ?_, ?_⟩
    · simp only [AssignByLabelPass.Run]
      rw [if_neg hfalse]
    · simp only [AssignByLabelPass.Run]
      funext i
      apply hinv.untouched
      by_cases hi : i ∈ subgraphs
      · right
        by_contra hne
        exact hno ⟨i, hi, hne⟩
      · left; exact hi
    · simp only [AssignByLabelPass.Run]
      rw [hord.2, hnil]
      simp

/-- Claim C20 at a concrete input: two unlabelled subgraphs; the pass returns
`NOT_CHANGED`. -/
theorem label_pass_changed_iff_labelled_witness :
    (AssignByLabelPass.Run [0, 1] Example.twoEngines Example.freshContext).1 =
        Status.NOT_CHANGED ∧
      (AssignByLabelPass.Run [0, 1] Example.twoEngines Example.freshContext).2.1 =
        Example.twoEngines ∧
      (AssignByLabelPass.Run [0, 1] Example.twoEngines Example.freshContext).2.2 =
        Example.freshContext :=
  (label_pass_changed_iff_labelled [0, 1] Example.twoEngines Example.freshContext).2
    (by decide)

/-- Claim C21: when `ConvertSubgraphs` succeeds it has appended exactly one subgraph per
partition, in the order of the partitions: the `k`-th new subgraph is made from the
`k`-th partition (which is non-null), and its `max_parallel_num` is the value of the
per-engine parallelism map at the engine name of the partition when the name is a key of
that map, and 1 (`kDefaultMaxParalleNum`) otherwise. -/
theorem convert_one_subgraph_per_partition (max_parallel_num_ : List (String × Int))
    (engine_confs : List (String × Option EngineConf))
    (subgraph_infos : List (Option SubGraphInfo)) (subgraphs : List Subgraph)
    (hok : (ConvertSubgraphs max_parallel_num_ engine_confs subgraph_infos subgraphs).1 =
      Status.SUCCESS) :
    ∃ created : List Subgraph,
      (ConvertSubgraphs max_parallel_num_ engine_confs subgraph_infos subgraphs).2 =
        subgraphs ++ created ∧
      created.length = subgraph_infos.length ∧
      ∀ k, k < subgraph_infos.length →
        ∃ info s, subgraph_infos.get? k = some (some info) ∧ created.get? k = some s ∧
          s.subgraph_info = info ∧
          mapFind engine_confs info.engine_name = some (some s.engine_conf) ∧
          s.max_parallel_num =
            (match mapFind max_parallel_num_ info.engine_name with
              | some n => n
              | none => 1) := by
  induction subgraph_infos generalizing subgraphs with
  | nil =>
    refine ⟨[], by simp [ConvertSubgraphs], rfl, ?_⟩
    intro k hk
    simp at hk
  | cons x rest ih =>
    cases x with
    | none => simp [ConvertSubgraphs] at hok
    | some info =>
      simp only [ConvertSubgraphs] at hok ⊢
      cases hf : mapFind engine_confs info.engine_name with
      | none => rw [hf] at hok; simp at hok
      | some oc =>
        cases oc with
        | none => rw [hf] at hok; simp at hok
        | some c =>
          rw [hf] at hok
          simp only at hok ⊢
          obtain ⟨created, h1, h2, h3⟩ := ih _ hok
          refine ⟨_ :: created, by rw [h1, List.append_assoc]; rfl, by simp [h2], ?_⟩
          intro k hk
          cases k with
          | zero =>
            exact ⟨info, _, rfl, rfl, rfl, hf, rfl⟩
          | succ k =>
            simp only [List.length_cons, Nat.add_lt_add_iff_right] at hk
            obtain ⟨info', s, e1, e2, e3⟩ := h3 k hk
            exact ⟨info', s, by simpa using e1, by simpa using e2, e3⟩

/-- Claim C21 at a concrete input: two partitions on the engines `aicore` and `host`, the
parallelism map gives 4 for `host`; the two subgraphs get the bounds 1 and 4. -/
theorem convert_one_subgraph_per_partition_witness :
    ∃ created : List Subgraph,
      (ConvertSubgraphs [("host", 4)]
          [("aicore", some Example.aicore), ("host", some Example.host)]
          Example.mixedPartitions []).2 = [] ++ created ∧
      created.length = Example.mixedPartitions.length ∧
      created.map (fun s => s.max_parallel_num) = [1, 4] := by
  obtain ⟨created, h1, h2, _⟩ := convert_one_subgraph_per_partition [("host", 4)]
    [("aicore", some Example.aicore), ("host", some Example.host)]
    Example.mixedPartitions [] (by decide)
  refine ⟨created, h1, h2, ?_⟩
  have hval : ((ConvertSubgraphs [("host", 4)]
      [("aicore", some Example.aicore), ("host", some Example.host)]
      Example.mixedPartitions []).2).map (fun s => s.max_parallel_num) = [1, 4] := by decide
  rw [h1] at hval
  simpa using hval

/-- Claim C22: `CouldReuse(candidate, pred)` is true if and only if both pointers are
non-null, the two subgraphs have the same scheduler id, `pred` is not on an independent
engine, `pred` has no stream label, no successor of `pred` other than the candidate (found
through the End→Placeholder map of `pred` and the placeholder→subgraph map) has the engine
id of `pred`, and the candidate has the engine id of `pred`, or the engine of the candidate
is marked attach, or `pred` has a `reused_subgraph` whose engine id is that of the
candidate. -/
theorem could_reuse_iff_eligible (σ : SubgraphHeap) (candidate pred : Option Nat)
    (pld_subgraph_map : List (Nat × Nat)) :
    CouldReuse σ candidate pred pld_subgraph_map = true ↔
      ReuseEligible σ candidate pred pld_subgraph_map := by
  unfold ReuseEligible
  cases candidate with
  | none => simp [CouldReuse]
  | some s =>
    cases pred with
    | none => simp [CouldReuse]
    | some p =>
      simp only [CouldReuse, Option.some.injEq, exists_and_left, exists_eq_left']
      by_cases hsch : (σ s).engine_conf.scheduler_id = (σ p).engine_conf.scheduler_id
      swap
      · simp [hsch]
      by_cases hind : (σ p).engine_conf.independent = true
      · simp [hsch, hind, IsEngineIndependent]
      by_cases hlab : (σ p).subgraph_info.stream_label = ""
      swap
      · simp [hsch, hlab, HasStreamLabel]
      have hind' : (σ p).engine_conf.independent = false := by simpa using hind
      cases hscan : otherSuccOnSameEngine σ s p pld_subgraph_map with
      | true =>
        have hne : ¬ (∀ t, DirectSucc σ pld_subgraph_map p t → t ≠ s →
            (σ t).engine_conf.id ≠ (σ p).engine_conf.id) := by
          rw [← otherSuccOnSameEngine_false, hscan]; simp
        simp only [hsch, hind', hlab, IsEngineIndependent, HasStreamLabel, ne_eq,
          not_true_eq_false, if_false, beq_self_eq_true, Bool.not_true, Bool.or_self,
          Bool.false_eq_true, if_true, true_and, false_iff]
        rintro ⟨h, _⟩
        exact hne h
      | false =>
        have hall := (otherSuccOnSameEngine_false σ s p pld_subgraph_map).mp hscan
        simp only [hsch, hind', hlab, IsEngineIndependent, HasStreamLabel, ne_eq,
          not_true_eq_false, if_false, beq_self_eq_true, Bool.not_true, Bool.or_self,
          Bool.false_eq_true, true_and]
        by_cases h1 : (σ s).engine_conf.id = (σ p).engine_conf.id
        · simp only [h1, beq_self_eq_true, Bool.true_or, if_true, true_or, and_true, true_iff]
          exact hall
        by_cases h2 : (σ s).engine_conf.attach = true
        · simp only [h2, IsEngineAttach, Bool.or_true, if_true, true_or, or_true, and_true,
            true_iff]
          exact hall
        have h1' : ((σ s).engine_conf.id == (σ p).engine_conf.id) = false := by
          simpa using h1
        have h2' : (σ s).engine_conf.attach = false := by simpa using h2
        simp only [h1', h2', IsEngineAttach, Bool.or_self, Bool.false_eq_true, if_false, h1,
          false_or]
        cases hr : (σ p).reused_subgraph with
        | none => simp
        | some r =>
          simp only [beq_iff_eq, Option.some.injEq, exists_eq_left']
          constructor
          · intro h; exact ⟨hall, h⟩
          · intro h; exact h.2

/-- Claim C22 at a concrete input: in the chain `A → B` on one engine the subgraph `B` may
reuse `A`, and the eligibility condition holds there. -/
theorem could_reuse_iff_eligible_witness :
    CouldReuse Example.chainAB (some 1) (some 0)
        (InitPldSubgraphMap [0, 1] Example.chainAB) = true ∧
      ReuseEligible Example.chainAB (some 1) (some 0)
        (InitPldSubgraphMap [0, 1] Example.chainAB) :=
  ⟨by decide, (could_reuse_iff_eligible Example.chainAB (some 1) (some 0)
    (InitPldSubgraphMap [0, 1] Example.chainAB)).mp (by decide)⟩

/-- Claim C23 (sibling isolation): if a predecessor `P` has two distinct successor
subgraphs on the engine id of `P`, then `CouldReuse(S, P)` is false for every candidate
`S`; if `P` has a successor `T` on the engine id of `P` (in particular when it has exactly
one), then `CouldReuse(S, P)` is false for every `S` other than `T`. Hence, in a run of
the dependency pass, two distinct direct successors of `P` that are on the engine of `P`
do not both reuse the stream of `P`: for neither of them does an iteration of the loop
get `P` from `GetReusableSubgraph`, and when no subgraph of the vector has a
`reused_subgraph` at entry, neither of them is linked to `P` after the pass. -/
theorem sibling_isolation (subgraphs : List Nat) (σ : SubgraphHeap) (context : Context)
    (P : Nat) :
    (∀ (σ1 : SubgraphHeap) (pld_subgraph_map : List (Nat × Nat)) (T1 T2 : Nat), T1 ≠ T2 →
      DirectSucc σ1 pld_subgraph_map P T1 → DirectSucc σ1 pld_subgraph_map P T2 →
      engineOf σ1 T1 = engineOf σ1 P → engineOf σ1 T2 = engineOf σ1 P →
      ∀ S, CouldReuse σ1 S (some P) pld_subgraph_map = false) ∧
    (∀ (σ1 : SubgraphHeap) (pld_subgraph_map : List (Nat × Nat)) (T : Nat),
      DirectSucc σ1 pld_subgraph_map P T → engineOf σ1 T = engineOf σ1 P →
      ∀ S, S ≠ some T → CouldReuse σ1 S (some P) pld_subgraph_map = false) ∧
    (∀ S1 S2, S1 ≠ S2 →
      DirectSucc σ (InitPldSubgraphMap subgraphs σ) P S1 →
      DirectSucc σ (InitPldSubgraphMap subgraphs σ) P S2 →
      engineOf σ S1 = engineOf σ P → engineOf σ S2 = engineOf σ P →
      (¬ ReusesStreamOf subgraphs σ S1 P ∧ ¬ ReusesStreamOf subgraphs σ S2 P) ∧
      ((∀ i, i ∈ subgraphs → (σ i).reused_subgraph = none) →
        ¬ linkedTo (AssignByDependencyPass.Run subgraphs σ context).2.1 S1 P ∧
        ¬ linkedTo (AssignByDependencyPass.Run subgraphs σ context).2.1 S2 P)) := by
  refine ⟨?_, ?_, ?_⟩
  · intro σ1 pld T1 T2 hne h1 h2 e1 e2 S
    exact CouldReuse_of_scan S (fun s _ => scan_of_two_succs hne h1 h2 e1 e2 s)
  · intro σ1 pld T h1 e1 S hS
    refine CouldReuse_of_scan S (fun s hs => scan_of_other_succ h1 e1 ?_)
    intro h
    exact hS (by rw [hs, h])
  · intro S1 S2 hne h1 h2 e1 e2
    have hscan := scan_of_two_succs hne h1 h2 e1 e2
    have hno : ∀ s, ¬ ReusesStreamOf subgraphs σ s P := by
      intro s hr
      have := reuses_scan hr
      rw [hscan s] at this
      cases this
    refine ⟨⟨hno S1, hno S2⟩, fun h0 => ?_⟩
    obtain ⟨_, _, hm1⟩ := h1
    obtain ⟨_, _, hm2⟩ := h2
    exact ⟨no_link_to_fork context h0 hscan (mem_of_InitPldSubgraphMap hm1),
      no_link_to_fork context h0 hscan (mem_of_InitPldSubgraphMap hm2)⟩

/-- Claim C23 at a concrete input: the subgraph 0 feeds the subgraphs 1 and 2, all on the
engine `aicore`; neither successor may reuse the subgraph 0, and neither is linked to it
after the pass. -/
theorem sibling_isolation_witness :
    CouldReuse Example.fork (some 1) (some 0) (InitPldSubgraphMap [0, 1, 2] Example.fork) =
        false ∧
      ¬ linkedTo (AssignByDependencyPass.Run [0, 1, 2] Example.fork Example.freshContext).2.1
        1 0 ∧
      ¬ linkedTo (AssignByDependencyPass.Run [0, 1, 2] Example.fork Example.freshContext).2.1
        2 0 := by
  have h1 : DirectSucc Example.fork (InitPldSubgraphMap [0, 1, 2] Example.fork) 0 1 :=
    ⟨(10, 20), by decide, by decide⟩
  have h2 : DirectSucc Example.fork (InitPldSubgraphMap [0, 1, 2] Example.fork) 0 2 :=
    ⟨(11, 21), by decide, by decide⟩
  have h := sibling_isolation [0, 1, 2] Example.fork Example.freshContext 0
  exact ⟨h.1 _ _ 1 2 (by decide) h1 h2 (by decide) (by decide) (some 1),
    (h.2.2 1 2 (by decide) h1 h2 (by decide) (by decide)).2 (by decide)⟩

/-- Claim C24: `GetReusableSubgraph` returns the owner (per the end→subgraph map) of the
first entry, in the iteration order of the Placeholder→End map of the candidate, whose
owner satisfies `CouldReuse`; it returns null if and only if no entry has an owner that
satisfies `CouldReuse`. An eligible owner is never preferred over an eligible owner of an
earlier entry. -/
theorem get_reusable_returns_first_eligible (σ : SubgraphHeap) (subgraph : Nat)
    (end_subgraph_map pld_subgraph_map : List (Nat × Nat)) :
    (GetReusableSubgraph σ subgraph end_subgraph_map pld_subgraph_map = none ↔
      ∀ e, e ∈ (σ subgraph).subgraph_info.pld2end → ∀ q,
        mapFind end_subgraph_map e.2 = some q →
        CouldReuse σ (some subgraph) (some q) pld_subgraph_map = false) ∧
    (∀ p, GetReusableSubgraph σ subgraph end_subgraph_map pld_subgraph_map = some p ↔
      ∃ pre e post, (σ subgraph).subgraph_info.pld2end = pre ++ e :: post ∧
        mapFind end_subgraph_map e.2 = some p ∧
        CouldReuse σ (some subgraph) (some p) pld_subgraph_map = true ∧
        ∀ e', e' ∈ pre → ∀ q, mapFind end_subgraph_map e'.2 = some q →
          CouldReuse σ (some subgraph) (some q) pld_subgraph_map = false) := by
  unfold GetReusableSubgraph
  generalize (σ subgraph).subgraph_info.pld2end = l
  have key : ∀ e : Nat × Nat, ∀ p,
      ((match mapFind end_subgraph_map e.2 with
        | some pred_subgraph =>
          if CouldReuse σ (some subgraph) (some pred_subgraph) pld_subgraph_map
          then some pred_subgraph else none
        | none => none) = some p ↔
        (mapFind end_subgraph_map e.2 = some p ∧
          CouldReuse σ (some subgraph) (some p) pld_subgraph_map = true)) := by
    intro e p
    cases hf : mapFind end_subgraph_map e.2 with
    | none => simp
    | some q =>
      by_cases hc : CouldReuse σ (some subgraph) (some q) pld_subgraph_map = true
      · simp only [hc, if_true, Option.some.injEq]
        constructor
        · intro h; subst h; exact ⟨rfl, hc⟩
        · intro h; exact h.1
      · simp only [hc, Bool.false_eq_true, if_false, Option.some.injEq, false_iff, not_and,
          reduceCtorEq]
        intro h; subst h; exact hc
  have keyn : ∀ e : Nat × Nat,
      ((match mapFind end_subgraph_map e.2 with
        | some pred_subgraph =>
          if CouldReuse σ (some subgraph) (some pred_subgraph) pld_subgraph_map
          then some pred_subgraph else none
        | none => none) = none ↔
        ∀ q, mapFind end_subgraph_map e.2 = some q →
          CouldReuse σ (some subgraph) (some q) pld_subgraph_map = false) := by
    intro e
    constructor
    · intro h q hq
      cases hc : CouldReuse σ (some subgraph) (some q) pld_subgraph_map with
      | false => rfl
      | true =>
        have := (key e q).mpr ⟨hq, hc⟩
        rw [h] at this
        cases this
    · intro h
      cases hv : (match mapFind end_subgraph_map e.2 with
        | some pred_subgraph =>
          if CouldReuse σ (some subgraph) (some pred_subgraph) pld_subgraph_map
          then some pred_subgraph else none
        | none => none) with
      | none => rfl
      | some p =>
        have hp := (key e p).mp hv
        rw [h p hp.1] at hp
        cases hp.2
  constructor
  · rw [List.findSome?_eq_none_iff]
    constructor
    · intro h e he
      exact (keyn e).mp (h e he)
    · intro h e he
      exact (keyn e).mpr (h e he)
  · intro p
    rw [List.findSome?_eq_some_iff]
    constructor
    · rintro ⟨pre, e, post, hl, hv, hpre⟩
      obtain ⟨h1, h2⟩ := (key e p).mp hv
      exact ⟨pre, e, post, hl, h1, h2, fun e' he' => (keyn e').mp (hpre e' he')⟩
    · rintro ⟨pre, e, post, hl, h1, h2, hpre⟩
      exact ⟨pre, e, post, hl, (key e p).mpr ⟨h1, h2⟩, fun e' he' => (keyn e').mpr (hpre e' he')⟩

/-- Claim C24 at a concrete input: in the chain `A → B` the subgraph `B` has one
placeholder, whose peer is owned by `A`, and `A` is returned. -/
theorem get_reusable_returns_first_eligible_witness :
    GetReusableSubgraph Example.chainAB 1 (InitEndSubgraphMap [0, 1] Example.chainAB)
        (InitPldSubgraphMap [0, 1] Example.chainAB) = some 0 ∧
      ∃ pre e post, (Example.chainAB 1).subgraph_info.pld2end = pre ++ e :: post ∧
        mapFind (InitEndSubgraphMap [0, 1] Example.chainAB) e.2 = some 0 ∧
        CouldReuse Example.chainAB (some 1) (some 0)
          (InitPldSubgraphMap [0, 1] Example.chainAB) = true ∧
        ∀ e', e' ∈ pre → ∀ q, mapFind (InitEndSubgraphMap [0, 1] Example.chainAB) e'.2 = some q →
          CouldReuse Example.chainAB (some 1) (some q)
            (InitPldSubgraphMap [0, 1] Example.chainAB) = false :=
  ⟨by decide, ((get_reusable_returns_first_eligible Example.chainAB 1
    (InitEndSubgraphMap [0, 1] Example.chainAB)
    (InitPldSubgraphMap [0, 1] Example.chainAB)).2 0).mp (by decide)⟩

/-- Claim C25: `AssignByDependencyPass::Run` leaves untouched every subgraph that has an
assigned stream at pass entry: the subgraph, in particular its stream id and its
`reused_subgraph` link, is the same on exit. If every subgraph of the vector is assigned
at entry, the pass returns `NOT_CHANGED` and `context.next_stream` is unchanged. -/
theorem dependency_pass_leaves_assigned_untouched (subgraphs : List Nat) (σ : SubgraphHeap)
    (context : Context) :
    (∀ i, HasAssignedStream (σ i) = true →
      (AssignByDependencyPass.Run subgraphs σ context).2.1 i = σ i ∧
      ((AssignByDependencyPass.Run subgraphs σ context).2.1 i).stream_id = (σ i).stream_id ∧
      ((AssignByDependencyPass.Run subgraphs σ context).2.1 i).reused_subgraph =
        (σ i).reused_subgraph) ∧
    ((∀ s, s ∈ subgraphs → HasAssignedStream (σ s) = true) →
      (AssignByDependencyPass.Run subgraphs σ context).1 = Status.NOT_CHANGED ∧
      (AssignByDependencyPass.Run subgraphs σ context).2.1 = σ ∧
      (AssignByDependencyPass.Run subgraphs σ context).2.2 = context) := by
  constructor
  · intro i hi
    have hne : (σ i).stream_id ≠ kInvalidStream := by
      simpa [HasAssignedStream] using hi
    have h := Run_frame subgraphs σ context i hne
    exact ⟨h, by rw [h], by rw [h]⟩
  · intro hall
    have hloop : AssignByDependencyPass.loop subgraphs σ =
        { σ := σ, pass := AssignByDependencyPass.new, changed := false } :=
      loop_all_assigned _ _ subgraphs _ hall
    simp only [AssignByDependencyPass.Run, hloop]
    refine ⟨by simp, rfl, rfl⟩

/-- Claim C25 at a concrete input: one subgraph that enters the pass with the stream 5. -/
theorem dependency_pass_leaves_assigned_untouched_witness :
    (AssignByDependencyPass.Run [0] Example.assignedPair Example.freshContext).2.1 0 =
        Example.assignedPair 0 ∧
      (AssignByDependencyPass.Run [0] Example.assignedPair Example.freshContext).1 =
        Status.NOT_CHANGED ∧
      (AssignByDependencyPass.Run [0] Example.assignedPair Example.freshContext).2.2 =
        Example.freshContext :=
  ⟨((dependency_pass_leaves_assigned_untouched [0] Example.assignedPair
      Example.freshContext).1 0 (by decide)).1,
    ((dependency_pass_leaves_assigned_untouched [0] Example.assignedPair
      Example.freshContext).2 (by decide)).1,
    ((dependency_pass_leaves_assigned_untouched [0] Example.assignedPair
      Example.freshContext).2 (by decide)).2.2⟩

/-- Claim C26 (global offsetting in `AssignByDependencyPass`): let `c0` be the counter at
pass entry and, per engine `e`, `h e = min (n e) (m e)` its high-water mark, where `n e`
is the number of fresh allocations on `e` and `m e ≥ 1` the `max_parallel_num` of the
subgraphs on `e`. When no subgraph of the vector has a `reused_subgraph` at entry, the
start stream that `UpdateAssignedSubgraphs` computes for the engine `e` of a fresh owner
is `base e`, which is `c0` plus the sum of `h f` over the engines `f` ordered before `e`
by engine id; the final id of every fresh owner is `base e` plus its local slot and lies
in `[base e, base e + h e)`; and `context.next_stream` ends at `c0` plus the sum of all
`h e`. The fresh owners are subgraphs of the vector, and every subgraph of the vector
that has no stream at entry and no `reused_subgraph` at exit is one of them. -/
theorem dependency_pass_global_offsets (subgraphs : List Nat) (σ : SubgraphHeap)
    (context : Context) (m : String → Int)
    (h0 : ∀ i, i ∈ subgraphs → (σ i).reused_subgraph = none)
    (hm : ∀ e, 1 ≤ m e)
    (hmax : ∀ i, i ∈ subgraphs → (σ i).max_parallel_num = m (engineOf σ i)) :
    (∀ e, mapGet (AssignByDependencyPass.loop subgraphs σ).pass.engine_stream_num_ e =
      highWater subgraphs σ m e) ∧
    (∀ i, i ∈ freshOwners subgraphs σ →
      i ∈ subgraphs ∧
      mapGet (engineStartStreams (AssignByDependencyPass.loop subgraphs σ).pass.engine_stream_num_
          context.next_stream).1 (engineOf σ i) =
        baseOffset subgraphs σ m context.next_stream (engineOf σ i) ∧
      ((AssignByDependencyPass.Run subgraphs σ context).2.1 i).stream_id =
        baseOffset subgraphs σ m context.next_stream (engineOf σ i) + localSlot subgraphs σ i ∧
      0 ≤ localSlot subgraphs σ i ∧
      localSlot subgraphs σ i < highWater subgraphs σ m (engineOf σ i) ∧
      baseOffset subgraphs σ m context.next_stream (engineOf σ i) ≤
        ((AssignByDependencyPass.Run subgraphs σ context).2.1 i).stream_id ∧
      ((AssignByDependencyPass.Run subgraphs σ context).2.1 i).stream_id <
        baseOffset subgraphs σ m context.next_stream (engineOf σ i) +
          highWater subgraphs σ m (engineOf σ i)) ∧
    (AssignByDependencyPass.Run subgraphs σ context).2.2.next_stream =
      context.next_stream + ((engineIds σ subgraphs).map (highWater subgraphs σ m)).sum ∧
    (∀ i, i ∈ subgraphs → (σ i).stream_id = kInvalidStream →
      ((AssignByDependencyPass.Run subgraphs σ context).2.1 i).reused_subgraph = none →
      i ∈ freshOwners subgraphs σ) := by
  have inv := DepInv.inv_loop σ subgraphs
  have core := inv.core
  have lnk := DepLink.link_loop σ subgraphs h0
  have hval : ∀ e, mapGet (AssignByDependencyPass.loop subgraphs σ).pass.engine_stream_num_ e =
      highWater subgraphs σ m e := fun e =>
    (DepCount.count_loop σ subgraphs e (m e) (hm e)
      (fun i hi he => by rw [hmax i hi, he])).mark
  have hnd : (engineIds σ subgraphs).Nodup := List.nodup_dedup _
  have hzero : ∀ k, k ∉ engineIds σ subgraphs → highWater subgraphs σ m k = 0 := by
    intro k hk
    have hc : callCount σ k (freshOwners subgraphs σ) = 0 := by
      unfold callCount
      rw [List.length_eq_zero, List.filter_eq_nil_iff]
      intro c hc hck
      apply hk
      unfold engineIds
      rw [List.mem_dedup, List.mem_map]
      exact ⟨c, lnk.assignedIn c hc, by simpa using hck⟩
    unfold highWater
    rw [hc]
    have := hm k
    simp only [Nat.cast_zero]
    omega
  have hbelow : ∀ e, sumBelow (AssignByDependencyPass.loop subgraphs σ).pass.engine_stream_num_ e =
      sumBefore (highWater subgraphs σ m) (engineIds σ subgraphs) e :=
    fun e => sumBelow_eq_sumBefore core.numSorted _ hnd hval hzero e
  refine ⟨hval, ?_, ?_, ?_⟩
  · intro i hi
    have hslot := core.slot i hi
    rw [hval] at hslot
    have hfin := Run_assigned context h0 hi
    rw [hbelow] at hfin
    have hstart := engineStartStreams_get core.numSorted context.next_stream (core.key_mem hi)
    rw [hbelow] at hstart
    refine ⟨lnk.assignedIn i hi, hstart, ?_, hslot.1, hslot.2, ?_, ?_⟩
    · unfold baseOffset localSlot; rw [hfin]; ring
    · unfold baseOffset; rw [hfin]; omega
    · unfold baseOffset; rw [hfin]; omega
  · rw [Run_next]
    show context.next_stream + sumAll _ = _
    rw [sumAll_eq_sum core.numSorted _ hnd hval hzero]
  · intro i hi hfresh hnone
    rcases core.origin i (inv.doneAssigned i hi) with h | h | ⟨r, h⟩
    · exact absurd hfresh h
    · exact h
    · have := (core.link i r h).1
      rw [Run_reused_field, this] at hnone
      cases hnone

/-- Claim C26 at a concrete input: one subgraph on `aicore` (cap 1) and three on `host`
(cap 2), none with boundary nodes, entered with the counter 0: the high-water marks are 1
and 2, the base of `host` is 1, and the counter ends at 3. -/
theorem dependency_pass_global_offsets_witness :
    highWater [0, 1, 2, 3] Example.threeOnHost Example.caps Example.host.id = 2 ∧
      baseOffset [0, 1, 2, 3] Example.threeOnHost Example.caps 0 Example.host.id = 1 ∧
      (AssignByDependencyPass.Run [0, 1, 2, 3] Example.threeOnHost
        Example.freshContext).2.2.next_stream =
        Example.freshContext.next_stream +
          ((engineIds Example.threeOnHost [0, 1, 2, 3]).map
            (highWater [0, 1, 2, 3] Example.threeOnHost Example.caps)).sum ∧
      (AssignByDependencyPass.Run [0, 1, 2, 3] Example.threeOnHost
        Example.freshContext).2.2.next_stream = 3 :=
  ⟨by decide, by decide,
    (dependency_pass_global_offsets [0, 1, 2, 3] Example.threeOnHost Example.freshContext
      Example.caps (by decide) (by intro e; unfold Example.caps; split <;> decide)
      (by decide)).2.2.1,
    by decide⟩

/-- Counterexample to claim C27 as stated: node 0 belongs to an unlabelled subgraph on a
skip-assignment engine and carries the valid stream 5; its predecessor, node 1, carries
the valid stream 3, and its successor, node 2, has a null op descriptor, so the valid
stream ids carried by its predecessors and successors form exactly the value 3. The
cleanup does not set the stream of node 0 to 3: it is still 5 afterwards. -/
theorem cleanup_null_neighbour_not_repinned :
    IsEngineSkip (Example.skippedNode 0 0) = true ∧
    HasStreamLabel (Example.skippedNode 0 0) = false ∧
    0 ∈ nodesOf (Example.skippedNode 0) 0 ∧
    (Example.nullSuccessor 0).op_desc = some 0 ∧
    (Example.cleanupOps 5 3 0).stream_id = 5 ∧
    validStreams Example.nullSuccessor (Example.cleanupOps 5 3)
      (Example.nullSuccessor 0).in_all_nodes = [3] ∧
    validStreams Example.nullSuccessor (Example.cleanupOps 5 3)
      (neighbours Example.nullSuccessor 0) = [3] ∧
    (UpdateForSkippedEngine Example.nullSuccessor Example.threeNodeGraph [0]
      (Example.skippedNode 0) (Example.cleanupOps 5 3)).map
        (fun r => (r.1, (r.2 0).stream_id)) = some (Status.PARAM_INVALID, 5) ∧
    (UpdateForSkippedEngine Example.nullSuccessor (Example.threeNodeGraph.upTo [0, 1]) [0]
      (Example.skippedNode 0) (Example.cleanupOps 5 3)).map
        (fun r => (r.1, (r.2 0).stream_id)) = some (Status.SUCCESS, 5) := by
  refine ⟨by decide, by decide, by decide, by decide, by decide, by decide, by decide,
    by decide, by decide⟩

/-- Claim C27, amended: when no node has a null op descriptor (and the skip-assignment
subgraphs without stream label have a graph slice), `UpdateForSkippedEngine` returns
`SUCCESS` after visiting the nodes of the whole graph in order. For a node whose op
descriptor belongs to a skip-assignment subgraph without a stream label and carried a
valid stream id at entry: if no predecessor (data or control) carries a valid stream id
when the node is visited, its id is set to the sentinel; otherwise, if the valid stream
ids carried by all its predecessors and successors form exactly one value `s`, its id is
set to `s`; otherwise it is unchanged. Every other visit changes nothing, and an op
descriptor that is not marked keeps its entry. -/
theorem cleanup_rule_without_null_descriptors (nodes : NodeHeap) (whole_graph : ComputeGraph)
    (subgraphs : List Nat) (σ : SubgraphHeap) (ops : OpHeap)
    (hdesc : ∀ n, (nodes n).op_desc ≠ none)
    (hslice : ∀ s, s ∈ subgraphs → IsEngineSkip (σ s) = true → HasStreamLabel (σ s) = false →
      (σ s).subgraph_info.sub_graph ≠ none) :
    ∃ final, UpdateForSkippedEngine nodes whole_graph subgraphs σ ops =
        some (Status.SUCCESS, final) ∧
      (∀ d, ¬ ToBeUpdated nodes ops σ subgraphs d → final d = ops d) ∧
      ∀ pre n post, whole_graph.direct_node = pre ++ n :: post →
        ∃ d before after, (nodes n).op_desc = some d ∧
          UpdateForSkippedEngine nodes (whole_graph.upTo pre) subgraphs σ ops =
            some (Status.SUCCESS, before) ∧
          UpdateForSkippedEngine nodes (whole_graph.upTo (pre ++ [n])) subgraphs σ ops =
            some (Status.SUCCESS, after) ∧
          (¬ ToBeUpdated nodes ops σ subgraphs d → after = before) ∧
          (ToBeUpdated nodes ops σ subgraphs d →
            (validStreams nodes before (nodes n).in_all_nodes = [] →
              after = SetStreamId before d kInvalidStream) ∧
            (validStreams nodes before (nodes n).in_all_nodes ≠ [] →
              (∀ s, SingleStream nodes before (neighbours nodes n) s →
                after = SetStreamId before d s) ∧
              ((¬ ∃ s, SingleStream nodes before (neighbours nodes n) s) →
                after = before))) := by
  obtain ⟨U, hU, hrun⟩ :=
    UpdateForSkippedEngine_total nodes whole_graph subgraphs σ ops hdesc hslice
  have hwhole : whole_graph.upTo whole_graph.direct_node = whole_graph := rfl
  refine ⟨_, by rw [← hwhole, hrun], ?_, ?_⟩
  · intro d hd
    exact (reassignSkipped_frame nodes U whole_graph.direct_node ops).1 d
      (fun h => hd ((hU d).mp h))
  · intro pre n post _
    cases hn : (nodes n).op_desc with
    | none => exact absurd hn (hdesc n)
    | some d =>
      refine ⟨d, _, _, rfl, hrun pre, hrun (pre ++ [n]), ?_, ?_⟩
      · intro hd
        have hdU : d ∉ U := fun h => hd ((hU d).mp h)
        rw [reassignSkipped_append nodes U hdesc, reassignSkipped_one nodes U n d _ hn]
        simp only [hdU, if_false]
      · intro hd
        have hdU : d ∈ U := (hU d).mpr hd
        rw [reassignSkipped_append nodes U hdesc, reassignSkipped_one nodes U n d _ hn]
        simp only [hdU, if_true]
        refine ⟨fun hnil => ?_, fun hnn => ⟨fun s hs => ?_, fun hno => ?_⟩⟩
        · rw [(AreAllPredStreamsInvalid_iff nodes _ n).mpr hnil]
          simp only [if_true]
        · have hf : AreAllPredStreamsInvalid nodes (reassignSkipped nodes U pre ops).2 n =
              false := by
            rw [← Bool.not_eq_true, AreAllPredStreamsInvalid_iff]
            exact hnn
          obtain ⟨h1, h2⟩ := GetSingleInoutStream_single nodes _ hdesc n s hs
          have hb : (s != kInvalidStream) = true := by simpa using h2
          simp only [hf, Bool.false_eq_true, if_false, h1, hb, if_true]
        · have hf : AreAllPredStreamsInvalid nodes (reassignSkipped nodes U pre ops).2 n =
              false := by
            rw [← Bool.not_eq_true, AreAllPredStreamsInvalid_iff]
            exact hnn
          have h1 := GetSingleInoutStream_invalid nodes _ hdesc n hno
          simp only [hf, Bool.false_eq_true, if_false, h1, bne_self_eq_false]

/-- Claim C27 (amended) at a concrete input: node 0 carries the stream 3 and feeds node 1,
which carries the stream 5 and belongs to an unlabelled subgraph on the skip-assignment
engine `host`; the cleanup returns `SUCCESS` and sets the stream of node 1 to 3. -/
theorem cleanup_rule_without_null_descriptors_witness :
    (∃ final, UpdateForSkippedEngine Example.pairNodes Example.twoNodeGraph [0]
      (Example.skippedNode 1) (Example.cleanupOps 3 5) = some (Status.SUCCESS, final)) ∧
    (UpdateForSkippedEngine Example.pairNodes Example.twoNodeGraph [0]
      (Example.skippedNode 1) (Example.cleanupOps 3 5)).map
        (fun r => ((r.2 0).stream_id, (r.2 1).stream_id)) = some (3, 3) := by
  obtain ⟨final, hf, _⟩ := cleanup_rule_without_null_descriptors Example.pairNodes
    Example.twoNodeGraph [0] (Example.skippedNode 1) (Example.cleanupOps 3 5)
    (by
      intro n
      unfold Example.pairNodes Example.isolated
      split
      · simp
      · split <;> simp)
    (by decide)
  exact ⟨⟨final, hf⟩, by decide⟩

/-- Claim C28 (termination of the collective-parallelism walk): when the data edges of
the whole graph are acyclic (and the data successors of graph nodes are graph nodes), the
frontier loop of `AllReduceParallelPass::Run` ends within as many rounds as the graph has
nodes, for every qualifying collective-reduce node of the graph: run with that many
rounds of fuel the walk returns, and it returns `SUCCESS`, the exit through the empty
frontier, when no node has a null op descriptor. Hence the whole pass returns. -/
theorem allreduce_walk_terminates (nodes : NodeHeap) (whole_graph : ComputeGraph)
    (ops : OpHeap) (context : Context)
    (hcl : ClosedData nodes whole_graph) (hac : AcyclicData nodes whole_graph) :
    (∀ a, a ∈ whole_graph.direct_node → IsParallelReduce nodes a →
      ∀ d, (nodes a).op_desc = some d → ∀ all_reduce_succs,
        ∃ r, walkSuccessors nodes ops (GetStreamLabel ops d) whole_graph.direct_node.length [a]
            all_reduce_succs = some r ∧
          ((∀ n, (nodes n).op_desc ≠ none) → r.1 = Status.SUCCESS)) ∧
    (∃ r, collectAllReduceSuccs whole_graph.direct_node.length nodes ops
        whole_graph.direct_node [] = some r ∧
      ((∀ n, (nodes n).op_desc ≠ none) → r.1 = Status.SUCCESS)) ∧
    (∃ r, AllReduceParallelPass.Run whole_graph.direct_node.length nodes whole_graph ops
      context = some r) := by
  refine ⟨?_, ?_, AllReduceParallelPass_terminates nodes whole_graph ops context hcl hac⟩
  · intro a ha _ d _ acc
    exact walkSuccessors_terminates nodes ops (GetStreamLabel ops d) whole_graph.direct_node
      hcl hac whole_graph.direct_node.length 0 [a] acc (by omega) (fun y hy => by
        rw [List.mem_singleton] at hy; rw [hy]; exact endsPath_zero ha)
  · exact collectAllReduceSuccs_terminates nodes ops whole_graph.direct_node hcl hac
      whole_graph.direct_node [] (fun a ha => ha)

/-- Claim C28 at a concrete input: the graph of five nodes in which the nodes 3 and 4 feed
the collective-reduce node 0, which feeds the nodes 1 and 2; the walk from the node 0 ends
within five rounds. -/
theorem allreduce_walk_terminates_witness :
    ∃ r, walkSuccessors (Example.reduceNodes [3, 4]) Example.reduceOps
        (GetStreamLabel Example.reduceOps 0) 5 [0] [] = some r ∧ r.1 = Status.SUCCESS := by
  have h := (allreduce_walk_terminates (Example.reduceNodes [3, 4]) Example.fiveNodeGraph
    Example.reduceOps (Example.parallelContext 2)
    (by unfold ClosedData; decide)
    (fun x _ hx => lt_irrefl _ (acyclic_of_rank Example.reduceRank reduceNodes_rank x x hx))).1
    0 (by decide) ⟨by decide, by decide⟩ 0 rfl []
  obtain ⟨r, hr, hs⟩ := h
  refine ⟨r, hr, hs ?_⟩
  intro n
  unfold Example.reduceNodes Example.isolated
  split
  · simp
  · split
    · simp
    · split <;> simp

/-- Claim C29: `IndependentStreamPass::Run` overwrites earlier assignments: every subgraph
of the vector on an independent engine ends the pass with a stream id that is at least
the counter value at pass entry (and below the counter at exit), whatever stream id it
had at entry, while every subgraph on a non-independent engine is left as it was, with
its stream id unchanged. -/
theorem independent_pass_overwrites (subgraphs : List Nat) (σ : SubgraphHeap)
    (context : Context) :
    (∀ s, s ∈ subgraphs → IsEngineIndependent (σ s) = true →
      context.next_stream ≤ ((IndependentStreamPass.Run subgraphs σ context).2.1 s).stream_id ∧
      ((IndependentStreamPass.Run subgraphs σ context).2.1 s).stream_id <
        (IndependentStreamPass.Run subgraphs σ context).2.2.next_stream) ∧
    (∀ i, IsEngineIndependent (σ i) = false →
      (IndependentStreamPass.Run subgraphs σ context).2.1 i = σ i ∧
      ((IndependentStreamPass.Run subgraphs σ context).2.1 i).stream_id = (σ i).stream_id) := by
  have inv := IndependentInv.indep_run σ context.next_stream subgraphs
  constructor
  · intro s hs hind
    exact inv.range _ _ (inv.consistent s hs hind)
  · intro i hi
    have h : (IndependentStreamPass.Run subgraphs σ context).2.1 i = σ i :=
      inv.untouched i (Or.inr hi)
    exact ⟨h, by rw [h]⟩

/-- Claim C29 at a concrete input: the label pass gives the labelled subgraph 0 on the
independent engine `dma` the stream 0 and leaves the counter at 1; the independent pass
then overwrites the stream of the subgraph 0 with an id that is at least 1. -/
theorem independent_pass_overwrites_witness :
    ((afterLabel [0, 1, 2] Example.dmaPair Example.freshContext).2.1 0).stream_id = 0 ∧
      (afterLabel [0, 1, 2] Example.dmaPair Example.freshContext).2.2.next_stream = 1 ∧
      1 ≤ ((IndependentStreamPass.Run [0, 1, 2]
        (afterLabel [0, 1, 2] Example.dmaPair Example.freshContext).2.1
        (afterLabel [0, 1, 2] Example.dmaPair Example.freshContext).2.2).2.1 0).stream_id := by
  refine ⟨by decide, by decide, ?_⟩
  have h := ((independent_pass_overwrites [0, 1, 2]
    (afterLabel [0, 1, 2] Example.dmaPair Example.freshContext).2.1
    (afterLabel [0, 1, 2] Example.dmaPair Example.freshContext).2.2).1 0 (by decide)
    (by decide)).1
  have hc : (afterLabel [0, 1, 2] Example.dmaPair Example.freshContext).2.2.next_stream = 1 := by
    decide
  rw [hc] at h
  exact h

/-- Claim C30 (kernel store round trip): let kernels with distinct names be added through
`AddTBEKernel` to a new store (in whatever order the map then iterates them). If `Build`
succeeds and its buffer is non-empty, then the length of the buffer is the sum over the
kernels of 12 + name length + binary length, `Load` on that buffer into an empty store
returns true, and afterwards `FindTBEKernel(name)` yields, for every added kernel, a
kernel with the same name and the same binary bytes. The library calls are taken as
given: `memcpy_s` returns `EOK` only for a bound that is neither zero nor above
`0x7fffffff` and a count within the bound, `ge::MakeShared` does not fail, and the sizes
of the kernels, which are in memory together, sum up to less than `2 ^ 64`. -/
theorem kernel_store_round_trip (lib : Library) (kernels : List TBEKernel)
    (store built : TBEKernelStore)
    (hcopy : SecureCopy lib)
    (hshared : ∀ kernel, lib.make_shared_ok kernel = true)
    (hmem : itemSizes kernels < 2 ^ 64)
    (hdistinct : (kernels.map TBEKernel.name).Nodup)
    (horder : store.kernels_.Perm (addKernels kernels).kernels_)
    (hbuild : store.Build lib = some (true, built))
    (hne : built.buffer_ ≠ []) :
    built.DataSize = itemSizes kernels ∧
    ∃ loaded, TBEKernelStore.new.Load lib (some built.buffer_) built.DataSize =
        some (true, loaded) ∧
      ∀ kernel, kernel ∈ kernels →
        ∃ found, loaded.FindTBEKernel kernel.name = some found ∧
          found.name = kernel.name ∧ found.bin_data = kernel.bin_data := by
  rw [addKernels_kernels kernels hdistinct] at horder
  have hsnd : (store.kernels_.map Prod.snd).Perm kernels := by
    have hp := horder.map Prod.snd
    rw [List.map_map] at hp
    have hid : (Prod.snd ∘ fun k : TBEKernel => (k.name, k)) = id := rfl
    rw [hid, List.map_id] at hp
    exact hp
  have hsize : (serialize store.kernels_).length = itemSizes kernels := by
    rw [serialize_length, itemSizes_perm hsnd]
  obtain ⟨hbuf, _, hsmall, hlast⟩ :=
    Build_spec lib hcopy store built (by rw [hsize]; exact hmem) hbuild hne
  have hlen : built.DataSize = (serialize store.kernels_).length := by
    rw [TBEKernelStore.DataSize, hbuf]
  have hnames : (store.kernels_.map (fun item => item.2.name)).Nodup := by
    have hp := horder.map (fun item : Bytes × TBEKernel => item.2.name)
    rw [List.map_map] at hp
    exact hp.nodup_iff.mpr hdistinct
  refine ⟨by rw [hlen, hsize], ?_⟩
  have hloop := Load.loop_serialize lib hshared built.buffer_ (by rw [hbuf]; exact hsmall)
    store.kernels_ [] (serialize store.kernels_).length [] (by rw [hbuf]; rfl) hlast
    (length_le_serialize _)
  have hblen : built.buffer_.length = (serialize store.kernels_).length := by rw [hbuf]
  rw [hblen, emplace_fold_kernels _ hnames] at hloop
  have hpos : (serialize store.kernels_).length ≠ 0 := by
    rw [← hblen]
    exact fun h => hne (List.length_eq_zero.mp h)
  refine ⟨{ kernels_ := store.kernels_.map (fun item => (item.2.name, item.2)), buffer_ := [] },
    ?_, ?_⟩
  · simp only [TBEKernelStore.Load, hlen, hpos, if_false, TBEKernelStore.new, hloop]
  · intro kernel hk
    refine ⟨kernel, ?_, rfl, rfl⟩
    simp only [TBEKernelStore.FindTBEKernel]
    apply mapFind_of_mem_nodup
    · rw [List.map_map]
      exact hnames
    · have hmem1 : (kernel.name, kernel) ∈ store.kernels_ :=
        horder.mem_iff.mpr (List.mem_map_of_mem (fun k : TBEKernel => (k.name, k)) hk)
      exact List.mem_map_of_mem (fun item : Bytes × TBEKernel => (item.2.name, item.2)) hmem1

/-- Claim C30 at a concrete input: the kernel `a` with three bytes of binary and the kernel
`bc` with one byte; the buffer has 31 bytes and both kernels are found after `Load`. -/
theorem kernel_store_round_trip_witness :
    (31 : Nat) = itemSizes Example.twoKernels ∧
    ∃ loaded, TBEKernelStore.new.Load Example.securec
        (some (serialize (addKernels Example.twoKernels).kernels_)) 31 = some (true, loaded) ∧
      ∀ kernel, kernel ∈ Example.twoKernels →
        ∃ found, loaded.FindTBEKernel kernel.name = some found ∧
          found.name = kernel.name ∧ found.bin_data = kernel.bin_data :=
  kernel_store_round_trip Example.securec Example.twoKernels (addKernels Example.twoKernels)
    { kernels_ := [], buffer_ := serialize (addKernels Example.twoKernels).kernels_ }
    (by
      intro dest destMax count h
      simpa [Example.securec] using h)
    (fun _ => rfl) (by decide) (by decide) (List.Perm.refl _) (by decide) (by decide)

end ge
